import Mathlib

/-!
Group arithmetic and multi-scalar multiplication of gnark-crypto (gurvy)

A shallow embedding of `bw761/g1.go`, `bn256/g2.go`, `ecc/bls12-377/marshal.go` and
`ecc/bls24-315/fr/fft/fft.go`.  The base
field (`fp.Element`, `E2`) is a black box of the library, so the group arithmetic is written
over an arbitrary field `F` with decidable equality; the curve coefficient `b` (the constant
`bCurveCoeff`) is a parameter.
Points of the curve `y^2 = x^3 + b` are the points of Mathlib's Weierstrass curve
`⟨0, 0, 0, 0, b⟩`, whose group law is the reference against which the formulas are proved.
-/

open WeierstrassCurve

/-! ## Definitions -/

namespace Curve

/-- The short Weierstrass curve `y^2 = x^3 + b` (all other coefficients zero). -/
def W {F : Type} [Field F] (b : F) : WeierstrassCurve.Affine F := ⟨0, 0, 0, 0, b⟩

end Curve

namespace bw761

open Curve

/-- G1Jac is a point with fp.Element coordinates (Jacobian: x = X/Z^2, y = Y/Z^3). -/
structure G1Jac (F : Type) where
  X : F
  Y : F
  Z : F
deriving DecidableEq

/-- G1Affine point in affine coordinates; (0,0) encodes the point at infinity. -/
structure G1Affine (F : Type) where
  X : F
  Y : F
deriving DecidableEq

/-- Modelled from the spec: the package constant `g1Infinity` is declared outside `g1.go`;
the identity is `Z = 0` with `X = Y = 1` by convention (as `FromAffine` builds it). -/
def g1Infinity {F : Type} [Field F] : G1Jac F := ⟨1, 1, 0⟩

/-- DoubleAssign doubles a point in Jacobian coordinates (EFD dbl-2007-bl). -/
def G1Jac.DoubleAssign {F : Type} [Field F] (p : G1Jac F) : G1Jac F :=
  let XX := p.X ^ 2
  let YY := p.Y ^ 2
  let YYYY := YY ^ 2
  let ZZ := p.Z ^ 2
  let S := p.X + YY
  let S := 2 * (S ^ 2 - XX - YYYY)
  let M := 2 * XX + XX
  let pZ := (p.Z + p.Y) ^ 2 - YY - ZZ
  let T := M ^ 2
  let pX := T
  let T := 2 * S
  let pX := pX - T
  let pY := (S - pX) * M
  let YYYY := 2 * (2 * (2 * YYYY))
  let pY := pY - YYYY
  ⟨pX, pY, pZ⟩

/-- Double sets p to q and doubles it. -/
def G1Jac.Double {F : Type} [Field F] (q : G1Jac F) : G1Jac F :=
  q.DoubleAssign

/-- AddAssign point addition (EFD add-2007-bl), with the identity tests and the doubling
fallback of the source. The receiver is `p`, the argument `a`. -/
def G1Jac.AddAssign {F : Type} [Field F] [DecidableEq F] (p a : G1Jac F) : G1Jac F :=
  if p.Z = 0 then a
  else if a.Z = 0 then p
  else
    let Z1Z1 := a.Z ^ 2
    let Z2Z2 := p.Z ^ 2
    let U1 := a.X * Z2Z2
    let U2 := p.X * Z1Z1
    let S1 := a.Y * p.Z * Z2Z2
    let S2 := p.Y * a.Z * Z1Z1
    if U1 = U2 ∧ S1 = S2 then p.DoubleAssign
    else
      let H := U2 - U1
      let I := (2 * H) ^ 2
      let J := H * I
      let r := 2 * (S2 - S1)
      let V := U1 * I
      let pX := r ^ 2 - J - V - V
      let pY := (V - pX) * r
      let S1 := 2 * (S1 * J)
      let pY := pY - S1
      let pZ := p.Z + a.Z
      let pZ := (pZ ^ 2 - Z1Z1 - Z2Z2) * H
      ⟨pX, pY, pZ⟩

/-- AddMixed point addition of a Jacobian and an affine point (EFD madd-2007-bl). -/
def G1Jac.AddMixed {F : Type} [Field F] [DecidableEq F] (p : G1Jac F) (a : G1Affine F) :
    G1Jac F :=
  if a.X = 0 ∧ a.Y = 0 then p
  else if p.Z = 0 then ⟨a.X, a.Y, 1⟩
  else
    let Z1Z1 := p.Z ^ 2
    let U2 := a.X * Z1Z1
    let S2 := a.Y * p.Z * Z1Z1
    if U2 = p.X ∧ S2 = p.Y then p.DoubleAssign
    else
      let H := U2 - p.X
      let HH := H ^ 2
      let I := 2 * (2 * HH)
      let J := H * I
      let r := 2 * (S2 - p.Y)
      let V := p.X * I
      let pX := r ^ 2 - J - V - V
      let J := 2 * (J * p.Y)
      let pY := (V - pX) * r
      let pY := pY - J
      let pZ := p.Z + H
      let pZ := pZ ^ 2 - Z1Z1 - HH
      ⟨pX, pY, pZ⟩

/-- Neg computes -G (Jacobian). -/
def G1Jac.Neg {F : Type} [Field F] (a : G1Jac F) : G1Jac F :=
  ⟨a.X, -a.Y, a.Z⟩

/-- Neg computes -G (affine). -/
def G1Affine.Neg {F : Type} [Field F] (a : G1Affine F) : G1Affine F :=
  ⟨a.X, -a.Y⟩

/-- FromJacobian rescales a point in Jacobian coordinates into the z = 1 plane. -/
def G1Affine.FromJacobian {F : Type} [Field F] [DecidableEq F] (p1 : G1Jac F) : G1Affine F :=
  if p1.Z = 0 then ⟨0, 0⟩
  else
    let a := p1.Z⁻¹
    let b := a ^ 2
    ⟨p1.X * b, p1.Y * b * a⟩

/-- FromAffine sets p = Q, p in Jacobian, Q in affine. -/
def G1Jac.FromAffine {F : Type} [Field F] [DecidableEq F] (Q : G1Affine F) : G1Jac F :=
  if Q.X = 0 ∧ Q.Y = 0 then ⟨1, 1, 0⟩ else ⟨Q.X, Q.Y, 1⟩

/-- Equal tests if two points (in Jacobian coordinates) are equal. -/
def G1Jac.Equal {F : Type} [Field F] [DecidableEq F] (p a : G1Jac F) : Bool :=
  if p.Z = 0 ∧ a.Z = 0 then true
  else
    let _p := G1Affine.FromJacobian p
    let _a := G1Affine.FromJacobian a
    decide (_p.X = _a.X) && decide (_p.Y = _a.Y)

/-- The method phi assigns p to phi(a) where phi: (x,y) -> (ux,y); `u` is `thirdRootOneG1`. -/
def G1Jac.phi {F : Type} [Field F] (thirdRootOneG1 : F) (a : G1Jac F) : G1Jac F :=
  ⟨a.X * thirdRootOneG1, a.Y, a.Z⟩

/-- ScalarMultiplication argument bytes: `big.Int.Bytes` of the Go standard library, the
big-endian bytes of the absolute value (no leading zero byte, empty for 0). -/
def bigIntBytes (s : Int) : List Nat :=
  (Nat.digits 256 s.natAbs).reverse

/-- One iteration of the inner loop of `mulWindowed` (window `j` of byte `w`); the state is
`(res, mask)`. -/
def mulWindowedStep {F : Type} [Field F] [DecidableEq F] (ops : List (G1Jac F)) (w : Nat)
    (st : G1Jac F × Nat) (j : Nat) : G1Jac F × Nat :=
  let res := st.1.DoubleAssign.DoubleAssign
  let mask := st.2
  let c := (w &&& mask) >>> (6 - 2 * j)
  let res := if c ≠ 0 then res.AddAssign (ops.getD (c - 1) g1Infinity) else res
  (res, mask >>> 2)

/-- The method mulWindowed: 2-bits windowed exponentiation. -/
def G1Jac.mulWindowed {F : Type} [Field F] [DecidableEq F] (a : G1Jac F) (s : Int) : G1Jac F :=
  let res : G1Jac F := g1Infinity
  let ops0 := a
  let ops1 := G1Jac.Double ops0
  let ops2 := ops0.AddAssign ops1
  let ops := [ops0, ops1, ops2]
  let b := bigIntBytes s
  b.foldl (fun res w => ((List.range 4).foldl (mulWindowedStep ops w) (res, 0xc0)).1) res

/-- Number of 64-bit limbs of the bw761 scalar field element `fr.Element` (`fr.Limbs`). -/
def frLimbs : Nat := 6

/-- Modelled from the spec: `fr.Element.SetBigInt` followed by `FromMont` (the field layer is
outside `g1.go`): the little-endian 64-bit limbs, in regular form, of `v` reduced modulo the
scalar field order `r`. -/
def frSetBigIntFromMont (r : Nat) (v : Int) : List Nat :=
  (List.range frLimbs).map (fun i => ((v % (r : Int)).toNat / 2 ^ (64 * i)) % 2 ^ 64)

/-- One iteration of the inner loop of `mulGLV` (bit `63 - j` of limb `i`); the state is
`(res, mask)`. -/
def mulGLVStep {F : Type} [Field F] [DecidableEq F] (table : List (G1Jac F)) (k1 k2 : List Nat)
    (i : Nat) (st : G1Jac F × Nat) (j : Nat) : G1Jac F × Nat :=
  let res := G1Jac.Double st.1
  let mask := st.2
  let b1 := (k1.getD i 0 &&& mask) >>> (63 - j)
  let b2 := (k2.getD i 0 &&& mask) >>> (63 - j)
  let res :=
    if b1 ||| b2 ≠ 0 then
      let s := (b2 <<< 1) ||| b1
      res.AddAssign (table.getD (s - 1) g1Infinity)
    else res
  (res, mask >>> 1)

/-- The method mulGLV performs scalar multiplication using GLV. `SplitScalar` stands for
`utils.SplitScalar(s, &glvBasis)`, `r` for the scalar field order. -/
def G1Jac.mulGLV {F : Type} [Field F] [DecidableEq F] (thirdRootOneG1 : F) (r : Nat)
    (SplitScalar : Int → Int × Int) (a : G1Jac F) (s : Int) : G1Jac F :=
  let res : G1Jac F := g1Infinity
  let table0 := a
  let table1 := G1Jac.phi thirdRootOneG1 a
  let k := SplitScalar s
  let k0 := if k.1 < 0 then -k.1 else k.1
  let table0 := if k.1 < 0 then table0.Neg else table0
  let k1 := if k.2 < 0 then -k.2 else k.2
  let table1 := if k.2 < 0 then table1.Neg else table1
  let table2 := table0.AddAssign table1
  let table := [table0, table1, table2]
  let k1limbs := frSetBigIntFromMont r k0
  let k2limbs := frSetBigIntFromMont r k1
  (List.range (k1limbs.length / 2)).reverse.foldl
    (fun res i => ((List.range 64).foldl (mulGLVStep table k1limbs k2limbs i) (res, 1 <<< 63)).1)
    res

/-- ScalarMultiplication computes and returns p = a*s. -/
def G1Jac.ScalarMultiplication {F : Type} [Field F] [DecidableEq F] (thirdRootOneG1 : F)
    (r : Nat) (SplitScalar : Int → Int × Int) (a : G1Jac F) (s : Int) : G1Jac F :=
  G1Jac.mulGLV thirdRootOneG1 r SplitScalar a s

/-- First loop of `BatchJacobianToAffineG1`; the state is `(zeroes, accumulator, result)`. -/
def batchLoop1 {F : Type} [Field F] [DecidableEq F] (points : List (G1Jac F))
    (st : List Bool × F × List (G1Affine F)) (i : Nat) : List Bool × F × List (G1Affine F) :=
  let zeroes := st.1
  let accumulator := st.2.1
  let result := st.2.2
  if (points.getD i ⟨0, 0, 0⟩).Z = 0 then
    (zeroes.set i true, accumulator, result)
  else
    let result := result.set i ⟨accumulator, (result.getD i ⟨0, 0⟩).Y⟩
    (zeroes, accumulator * (points.getD i ⟨0, 0, 0⟩).Z, result)

/-- Second (backward) loop of `BatchJacobianToAffineG1`; the state is `(accInverse, result)`. -/
def batchLoop2 {F : Type} [Field F] (points : List (G1Jac F)) (zeroes : List Bool)
    (st : F × List (G1Affine F)) (i : Nat) : F × List (G1Affine F) :=
  let accInverse := st.1
  let result := st.2
  if zeroes.getD i false then (accInverse, result)
  else
    let result := result.set i ⟨(result.getD i ⟨0, 0⟩).X * accInverse, (result.getD i ⟨0, 0⟩).Y⟩
    (accInverse * (points.getD i ⟨0, 0, 0⟩).Z, result)

/-- Third loop of `BatchJacobianToAffineG1` (run through `parallel.Execute` on disjoint index
ranges; every index is handled independently). -/
def batchLoop3 {F : Type} [Field F] (points : List (G1Jac F)) (zeroes : List Bool)
    (result : List (G1Affine F)) (i : Nat) : List (G1Affine F) :=
  if zeroes.getD i false then result
  else
    let a := (result.getD i ⟨0, 0⟩).X
    let b := a ^ 2
    result.set i ⟨(points.getD i ⟨0, 0, 0⟩).X * b, (points.getD i ⟨0, 0, 0⟩).Y * b * a⟩

/-- BatchJacobianToAffineG1 converts points in Jacobian coordinates to affine coordinates
performing a single field inversion; `result` is the caller's slice, returned updated. -/
def BatchJacobianToAffineG1 {F : Type} [Field F] [DecidableEq F] (points : List (G1Jac F))
    (result : List (G1Affine F)) : List (G1Affine F) :=
  let zeroes := List.replicate points.length false
  let accumulator : F := 1
  let st1 := (List.range points.length).foldl (batchLoop1 points) (zeroes, accumulator, result)
  let zeroes := st1.1
  let accumulator := st1.2.1
  let result := st1.2.2
  let accInverse := accumulator⁻¹
  let st2 := (List.range points.length).reverse.foldl (batchLoop2 points zeroes)
    (accInverse, result)
  let result := st2.2
  (List.range points.length).foldl (batchLoop3 points zeroes) result

end bw761

namespace bn256

open Curve

/-- G2Jac is a point with E2 coordinates (Jacobian: x = X/Z^2, y = Y/Z^3). -/
structure G2Jac (F : Type) where
  X : F
  Y : F
  Z : F
deriving DecidableEq

/-- G2Affine point in affine coordinates; (0,0) encodes the point at infinity. -/
structure G2Affine (F : Type) where
  X : F
  Y : F
deriving DecidableEq

/-- The type g2JacExtended: parameterized jacobian coordinates
(x=X/ZZ, y=Y/ZZZ, ZZ**3=ZZZ**2). -/
structure g2JacExtended (F : Type) where
  X : F
  Y : F
  ZZ : F
  ZZZ : F
deriving DecidableEq

/-- Modelled from the spec: the package constant `g2Infinity` is declared outside `g2.go`;
the identity is `Z = 0` with `X = Y = 1` by convention (as `FromAffine` builds it). -/
def g2Infinity {F : Type} [Field F] : G2Jac F := ⟨1, 1, 0⟩

/-- SetInfinity sets p to O. -/
def g2JacExtended.SetInfinity {F : Type} [Field F] : g2JacExtended F := ⟨1, 1, 0, 0⟩

/-- ToAffine sets Q to p in affine coordinates. -/
def g2JacExtended.ToAffine {F : Type} [Field F] (p : g2JacExtended F) : G2Affine F :=
  ⟨p.ZZ⁻¹ * p.X, p.ZZZ⁻¹ * p.Y⟩

/-- ToJac sets Q to p in Jacobian coordinates. -/
def g2JacExtended.ToJac {F : Type} [Field F] (p : g2JacExtended F) : G2Jac F :=
  ⟨p.ZZ * p.X * p.ZZ, p.ZZZ * p.Y * p.ZZZ, p.ZZZ⟩

/-- The method double: doubles the affine point q into XYZZ coordinates (EFD dbl-2008-s-1);
every coordinate of the receiver is overwritten. -/
def g2JacExtended.double {F : Type} [Field F] (q : G2Affine F) : g2JacExtended F :=
  let U := 2 * q.Y
  let pZZ := U ^ 2
  let pZZZ := U * pZZ
  let S := q.X * pZZ
  let _M := q.X ^ 2
  let M := 2 * _M + _M
  let pX := M ^ 2 - S - S
  let Y3 := (S - pX) * M
  let U := pZZZ * q.Y
  let pY := Y3 - U
  ⟨pX, pY, pZZ, pZZZ⟩

/-- The method mAdd: adds the affine point a to the XYZZ point p (EFD madd-2008-s). -/
def g2JacExtended.mAdd {F : Type} [Field F] [DecidableEq F] (p : g2JacExtended F)
    (a : G2Affine F) : g2JacExtended F :=
  if a.X = 0 ∧ a.Y = 0 then p
  else if p.ZZ = 0 then ⟨a.X, a.Y, 1, 1⟩
  else
    let U2 := a.X * p.ZZ
    let S2 := a.Y * p.ZZZ
    if U2 = p.X ∧ S2 = p.Y then g2JacExtended.double a
    else
      let P := U2 - p.X
      let R := S2 - p.Y
      let PP := P ^ 2
      let PPP := P * PP
      let Q := p.X * PP
      let RR := R ^ 2
      let X3 := RR - PPP
      let Q2 := 0 + Q + Q
      let pX := X3 - Q2
      let Y3 := (Q - pX) * R
      let R := p.Y * PPP
      let pY := Y3 - R
      let pZZ := p.ZZ * PP
      let pZZZ := p.ZZZ * PPP
      ⟨pX, pY, pZZ, pZZZ⟩

/-- Neg computes -G (Jacobian). -/
def G2Jac.Neg {F : Type} [Field F] (a : G2Jac F) : G2Jac F :=
  ⟨a.X, -a.Y, a.Z⟩

/-- Neg computes -G (affine). -/
def G2Affine.Neg {F : Type} [Field F] (a : G2Affine F) : G2Affine F :=
  ⟨a.X, -a.Y⟩

/-- FromJacobian rescales a point in Jacobian coordinates into the z = 1 plane. -/
def G2Affine.FromJacobian {F : Type} [Field F] [DecidableEq F] (p1 : G2Jac F) : G2Affine F :=
  if p1.Z = 0 then ⟨0, 0⟩
  else
    let a := p1.Z⁻¹
    let b := a ^ 2
    ⟨p1.X * b, p1.Y * b * a⟩

/-- FromAffine sets p = Q, p in Jacobian, Q in affine. -/
def G2Jac.FromAffine {F : Type} [Field F] [DecidableEq F] (Q : G2Affine F) : G2Jac F :=
  if Q.X = 0 ∧ Q.Y = 0 then ⟨1, 1, 0⟩ else ⟨Q.X, Q.Y, 1⟩

/-- Equal tests if two points (in Jacobian coordinates) are equal. -/
def G2Jac.Equal {F : Type} [Field F] [DecidableEq F] (p a : G2Jac F) : Bool :=
  if p.Z = 0 ∧ a.Z = 0 then true
  else
    let _p := G2Affine.FromJacobian p
    let _a := G2Affine.FromJacobian a
    decide (_p.X = _a.X) && decide (_p.Y = _a.Y)

/-- DoubleAssign doubles a point in Jacobian coordinates (EFD dbl-2007-bl). -/
def G2Jac.DoubleAssign {F : Type} [Field F] (p : G2Jac F) : G2Jac F :=
  let XX := p.X ^ 2
  let YY := p.Y ^ 2
  let YYYY := YY ^ 2
  let ZZ := p.Z ^ 2
  let S := p.X + YY
  let S := 2 * (S ^ 2 - XX - YYYY)
  let M := 2 * XX + XX
  let pZ := (p.Z + p.Y) ^ 2 - YY - ZZ
  let T := M ^ 2
  let pX := T
  let T := 2 * S
  let pX := pX - T
  let pY := (S - pX) * M
  let YYYY := 2 * (2 * (2 * YYYY))
  let pY := pY - YYYY
  ⟨pX, pY, pZ⟩

/-- AddAssign point addition (EFD add-2007-bl), with the identity tests and the doubling
fallback of the source. The receiver is `p`, the argument `a`. -/
def G2Jac.AddAssign {F : Type} [Field F] [DecidableEq F] (p a : G2Jac F) : G2Jac F :=
  if p.Z = 0 then a
  else if a.Z = 0 then p
  else
    let Z1Z1 := a.Z ^ 2
    let Z2Z2 := p.Z ^ 2
    let U1 := a.X * Z2Z2
    let U2 := p.X * Z1Z1
    let S1 := a.Y * p.Z * Z2Z2
    let S2 := p.Y * a.Z * Z1Z1
    if U1 = U2 ∧ S1 = S2 then p.DoubleAssign
    else
      let H := U2 - U1
      let I := (2 * H) ^ 2
      let J := H * I
      let r := 2 * (S2 - S1)
      let V := U1 * I
      let pX := r ^ 2 - J - V - V
      let pY := (V - pX) * r
      let S1 := 2 * (S1 * J)
      let pY := pY - S1
      let pZ := p.Z + a.Z
      let pZ := (pZ ^ 2 - Z1Z1 - Z2Z2) * H
      ⟨pX, pY, pZ⟩

/-- AddMixed point addition of a Jacobian and an affine point (EFD madd-2007-bl). -/
def G2Jac.AddMixed {F : Type} [Field F] [DecidableEq F] (p : G2Jac F) (a : G2Affine F) :
    G2Jac F :=
  if a.X = 0 ∧ a.Y = 0 then p
  else if p.Z = 0 then ⟨a.X, a.Y, 1⟩
  else
    let Z1Z1 := p.Z ^ 2
    let U2 := a.X * Z1Z1
    let S2 := a.Y * p.Z * Z1Z1
    if U2 = p.X ∧ S2 = p.Y then p.DoubleAssign
    else
      let H := U2 - p.X
      let HH := H ^ 2
      let I := 2 * (2 * HH)
      let J := H * I
      let r := 2 * (S2 - p.Y)
      let V := p.X * I
      let pX := r ^ 2 - J - V - V
      let J := 2 * (J * p.Y)
      let pY := (V - pX) * r
      let pY := pY - J
      let pZ := p.Z + H
      let pZ := pZ ^ 2 - Z1Z1 - HH
      ⟨pX, pY, pZ⟩

/-- The scalar field element `fr.Element`: little-endian 64-bit limbs. -/
abbrev Element : Type := List Nat

/-- Number of 64-bit limbs of the bn256 scalar field element (`fr.ElementLimbs`). -/
def ElementLimbs : Nat := 4

/-- One iteration (odd index j) of the loop of the closure computeT. -/
def computeTStep {F : Type} [Field F] [DecidableEq F] (T : List (G2Jac F)) (j : Nat) :
    List (G2Jac F) :=
  let T := T.set j (T.getD (j / 2) ⟨0, 0, 0⟩).DoubleAssign
  T.set (j + 1) ((T.getD ((j + 1) / 2) ⟨0, 0, 0⟩).AddAssign (T.getD (j / 2) ⟨0, 0, 0⟩))

/-- The closure computeT of `ScalarMul` and `multiExp` (there b = 4): fills the table T from
t0; the loop runs over j = 1, 3, 5, ... below (1 << b) - 1. -/
def computeT {F : Type} [Field F] [DecidableEq F] (b : Nat) (T : List (G2Jac F))
    (t0 : G2Jac F) : List (G2Jac F) :=
  let T := T.set 0 t0
  ((List.range ((1 <<< b) - 1)).filter (fun j => j % 2 = 1)).foldl computeTStep T

/-- Inner loop body of `pippenger` (index k, for point and scalar i): selects the window of
the scalar and adds the table entry to morePoints[k]. -/
def pippengerSelect {F : Type} [Field F] [DecidableEq F] (s selectorMask : Nat)
    (T : List (G2Jac F)) (scalar : Element) (morePoints : List (G2Jac F)) (k : Nat) :
    List (G2Jac F) :=
  let ks := k * s
  let selectorIndex := ks / 64
  let selectorShift := ks - selectorIndex * 64
  let selector :=
    (scalar.getD selectorIndex 0 &&& ((selectorMask <<< selectorShift) % 2 ^ 64)) >>>
      selectorShift
  if selector ≠ 0 then
    morePoints.set k ((morePoints.getD k ⟨0, 0, 0⟩).AddAssign (T.getD (selector - 1) ⟨0, 0, 0⟩))
  else morePoints

/-- Body of the loop of `pippenger` over the points (index i); the state is
`(T, morePoints)`. -/
def pippengerPoint {F : Type} [Field F] [DecidableEq F] (points : List (G2Jac F))
    (scalars : List Element) (s selectorMask t : Nat)
    (computeT : List (G2Jac F) → G2Jac F → List (G2Jac F))
    (st : List (G2Jac F) × List (G2Jac F)) (i : Nat) : List (G2Jac F) × List (G2Jac F) :=
  let T := computeT st.1 (points.getD i ⟨0, 0, 0⟩)
  let morePoints :=
    (List.range t).foldl (pippengerSelect s selectorMask T (scalars.getD i [])) st.2
  (T, morePoints)

/-- Body of the final loop of `pippenger` (index k): s doublings, then one addition. -/
def pippengerCombine {F : Type} [Field F] [DecidableEq F] (s : Nat)
    (morePoints : List (G2Jac F)) (p : G2Jac F) (k : Nat) : G2Jac F :=
  let p := (List.range s).foldl (fun p _ => p.DoubleAssign) p
  p.AddAssign (morePoints.getD k ⟨0, 0, 0⟩)

/-- The method pippenger: a special case of Pippenger described by Bootle. The value the
receiver held is overwritten by `p.Set(&morePoints[t-1])`. -/
def G2Jac.pippenger {F : Type} [Field F] [DecidableEq F] (points : List (G2Jac F))
    (scalars : List Element) (s b : Nat) (T : List (G2Jac F))
    (computeT : List (G2Jac F) → G2Jac F → List (G2Jac F)) : G2Jac F :=
  let t := ElementLimbs * 64 / s
  let selectorMask := (1 <<< b) - 1
  let morePoints : List (G2Jac F) := List.replicate t g2Infinity
  let st := (List.range points.length).foldl
    (pippengerPoint points scalars s selectorMask t computeT) (T, morePoints)
  let morePoints := st.2
  let p := morePoints.getD (t - 1) ⟨0, 0, 0⟩
  (List.range (t - 1)).reverse.foldl (pippengerCombine s morePoints) p

/-- ScalarMul multiplies a by scalar. -/
def G2Jac.ScalarMul {F : Type} [Field F] [DecidableEq F] (a : G2Jac F) (scalar : Element) :
    G2Jac F :=
  G2Jac.pippenger [a] [scalar] 4 4 (List.replicate ((1 <<< 4) - 1) ⟨0, 0, 0⟩) (computeT 4)

/-- The method multiExp sets p = scalars[0]*points[0] + ... + scalars[n]*points[n]. -/
def G2Jac.multiExp {F : Type} [Field F] [DecidableEq F] (points : List (G2Jac F))
    (scalars : List Element) : G2Jac F :=
  G2Jac.pippenger points scalars 4 4 (List.replicate ((1 <<< 4) - 1) ⟨0, 0, 0⟩) (computeT 4)

/-- WindowedMultiExp: `parallel.Execute` (outside `g2.go`) hands index ranges `(start, end)`
to workers; `chunks` lists these ranges in the order in which the workers take the lock.
Each worker adds its partial sum to the receiver `p`. -/
def G2Jac.WindowedMultiExp {F : Type} [Field F] [DecidableEq F] (chunks : List (Nat × Nat))
    (p : G2Jac F) (points : List (G2Jac F)) (scalars : List Element) : G2Jac F :=
  chunks.foldl
    (fun p se =>
      let t := G2Jac.multiExp ((points.take se.2).drop se.1) ((scalars.take se.2).drop se.1)
      p.AddAssign t)
    p

end bn256

namespace bn256

/-- The window width `chunkSize` chosen by `MultiExp` from the number of points
(the "empirical values"). -/
def chunkSizeOf (nbPoints : Nat) : Nat :=
  if nbPoints ≤ 10000 then 8
  else if nbPoints ≤ 80000 then 11
  else if nbPoints ≤ 400000 then 13
  else if nbPoints ≤ 800000 then 14
  else 16

/-- The constant sizeScalar = fr.ElementLimbs * 64. -/
def sizeScalar : Nat := ElementLimbs * 64

/-- A slice write `row[j] = v`; `none` stands for the index-out-of-range panic. -/
def sliceSet {α : Type} (row : List α) (j : Nat) (v : α) : Option (List α) :=
  if j < row.length then some (row.set j v) else none

/-- Body of the loop `for j := 0; j < chunkSize [&& counter >= 0]; j++` of `MultiExp` filling
one bit list; the state is `(row, counter)`. With `guarded` the loop condition also requires
`counter >= 0`; the counter only decreases, so once the condition fails no later iteration
runs. -/
def fillBits (guarded : Bool) (st : Option (List Int × Int)) (j : Nat) :
    Option (List Int × Int) :=
  match st with
  | none => none
  | some (row, counter) =>
    if guarded && decide (counter < 0) then some (row, counter)
    else
      match sliceSet row j counter with
      | none => none
      | some row => some (row, counter - 1)

/-- The construction of `bitsForTask` in `MultiExp` (both branches); `none` stands for an
index-out-of-range panic. -/
def bitsForTaskOf (sizeScalar chunkSize : Nat) : Option (List (List Int)) :=
  if sizeScalar % chunkSize = 0 then
    let counter : Int := (sizeScalar : Int) - 1
    let nbChunks := sizeScalar / chunkSize
    ((List.range nbChunks).foldl
      (fun (st : Option (List (List Int) × Int)) _ =>
        match st with
        | none => none
        | some (rows, counter) =>
          match (List.range chunkSize).foldl (fillBits false)
              (some (List.replicate chunkSize 0, counter)) with
          | none => none
          | some (row, counter) => some (rows ++ [row], counter))
      (some ([], counter))).map Prod.fst
  else
    let counter : Int := (sizeScalar : Int) - 1
    let nbChunks := sizeScalar / chunkSize + 1
    ((List.range nbChunks).foldl
      (fun (st : Option (List (List Int) × Int)) i =>
        match st with
        | none => none
        | some (rows, counter) =>
          let row0 : List Int :=
            if i < nbChunks - 1 then List.replicate chunkSize 0
            else List.replicate (sizeScalar % chunkSize) 0
          match (List.range chunkSize).foldl (fillBits true) (some (row0, counter)) with
          | none => none
          | some (row, counter) => some (rows ++ [row], counter))
      (some ([], counter))).map Prod.fst

/-- The value `val` that `accumulateIndices` computes for one scalar and one bit list. -/
def chunkDigit (bits : List Int) (scalar : Element) : Nat :=
  bits.foldl
    (fun val bit =>
      let val := val <<< 1
      let c := (bit / 64).toNat
      let o := (bit % 64).toNat
      let b := (scalar.getD c 0 >>> o) &&& 1
      val + b)
    0

/-- Shared state of the goroutines of `MultiExp`: the index lists, the accumulators and
the one-shot channels `chIndices`, `chPoints` (true once signalled). -/
structure msmState (F : Type) where
  indices : List (List Nat)
  accumulators : List (G2Jac F)
  chIndices : List Bool
  chPoints : List Bool

/-- Body of the loop of `accumulateIndices` over the points (index j) for one task. -/
def accumulateIndicesPoint (bitsForTask : List (List Int)) (scalars : List Element)
    (mask task : Nat) (indices : List (List Nat)) (j : Nat) : List (List Nat) :=
  let idx : Int := (task : Int) * (mask : Int) - 1
  let val := chunkDigit (bitsForTask.getD task []) (scalars.getD j [])
  if val ≠ 0 then
    let pos := (idx + (val : Int)).toNat
    indices.set pos (indices.getD pos [] ++ [j])
  else indices

/-- The work of `accumulateIndices` for one task (chunk). -/
def accumulateIndicesTask (bitsForTask : List (List Int)) (scalars : List Element)
    (nbPoints mask : Nat) (indices : List (List Nat)) (task : Nat) : List (List Nat) :=
  (List.range nbPoints).foldl (accumulateIndicesPoint bitsForTask scalars mask task) indices

/-- Body of the loop of the closure accumulateIndices (index i): the task `cpuID + i*n` is
bucketed and its channel `chIndices[task]` is signalled. -/
def accumulateIndicesStep {F : Type} (bitsForTask : List (List Int)) (scalars : List Element)
    (nbPoints mask : Nat) (cpuID n : Nat) (st : msmState F) (i : Nat) : msmState F :=
  let task := cpuID + i * n
  { st with
    indices := accumulateIndicesTask bitsForTask scalars nbPoints mask st.indices task
    chIndices := st.chIndices.set task true }

/-- The closure accumulateIndices(cpuID, nbTasks, n). -/
def accumulateIndices {F : Type} (bitsForTask : List (List Int)) (scalars : List Element)
    (nbPoints mask : Nat) (cpuID nbTasks n : Nat) (st : msmState F) : msmState F :=
  (List.range nbTasks).foldl (accumulateIndicesStep bitsForTask scalars nbPoints mask cpuID n)
    st

/-- Body of the loop of `accumulatePoints` over the buckets (index j, from mask - 1 down to
0); the state is `(tmp, accumulators[task])`. -/
def accumulatePointsBucket {F : Type} [Field F] [DecidableEq F] (points : List (G2Affine F))
    (mask : Nat) (indices : List (List Nat)) (task : Nat) (st : g2JacExtended F × G2Jac F)
    (j : Nat) : g2JacExtended F × G2Jac F :=
  let tmp := (indices.getD (task * mask + j) []).foldl
    (fun tmp k => tmp.mAdd (points.getD k ⟨0, 0⟩)) st.1
  let _tmp := tmp.ToJac
  (tmp, st.2.AddAssign _tmp)

/-- The work of `accumulatePoints` for one task: the value stored in accumulators[task]. -/
def accumulatePointsTask {F : Type} [Field F] [DecidableEq F] (points : List (G2Affine F))
    (mask : Nat) (indices : List (List Nat)) (task : Nat) : G2Jac F :=
  let tmp : g2JacExtended F := g2JacExtended.SetInfinity
  let acc : G2Jac F := g2Infinity
  ((List.range mask).reverse.foldl (accumulatePointsBucket points mask indices task)
    (tmp, acc)).2

/-- Body of the loop of the closure accumulatePoints (index i); `none` when the task would
wait on a channel `chIndices[task]` that has not been signalled in this schedule. -/
def accumulatePointsStep {F : Type} [Field F] [DecidableEq F] (points : List (G2Affine F))
    (mask : Nat) (cpuID n : Nat) (st : Option (msmState F)) (i : Nat) : Option (msmState F) :=
  match st with
  | none => none
  | some st =>
    let task := cpuID + i * n
    if st.chIndices.getD task false then
      some { st with
        accumulators :=
          st.accumulators.set task (accumulatePointsTask points mask st.indices task)
        chPoints := st.chPoints.set task true }
    else none

/-- The closure accumulatePoints(cpuID, nbTasks, n). -/
def accumulatePoints {F : Type} [Field F] [DecidableEq F] (points : List (G2Affine F))
    (mask : Nat) (cpuID nbTasks n : Nat) (st : msmState F) : Option (msmState F) :=
  (List.range nbTasks).foldl (accumulatePointsStep points mask cpuID n) (some st)

/-- Body of the loop of the closure reduce (index i); `none` when the channel `chPoints[i]`
is never signalled. -/
def reduceStep {F : Type} [Field F] [DecidableEq F] (bitsForTask : List (List Int))
    (st : msmState F) (res : Option (G2Jac F)) (i : Nat) : Option (G2Jac F) :=
  match res with
  | none => none
  | some res =>
    let res := (List.range (bitsForTask.getD i []).length).foldl
      (fun res _ => res.DoubleAssign) res
    if st.chPoints.getD i false then
      some (res.AddAssign (st.accumulators.getD i ⟨0, 0, 0⟩))
    else none

/-- The closure reduce: double and add to collect all small reductions. -/
def reduce {F : Type} [Field F] [DecidableEq F] (bitsForTask : List (List Int))
    (nbChunks : Nat) (st : msmState F) : Option (G2Jac F) :=
  (List.range nbChunks).foldl (reduceStep bitsForTask st) (some g2Infinity)

/-- Body of the loop that spawns the goroutines of worker i; the state is the shared state
and the counter `remainingTasks`. -/
def spawnStep {F : Type} [Field F] [DecidableEq F] (bitsForTask : List (List Int))
    (points : List (G2Affine F)) (scalars : List Element) (nbPoints mask : Nat)
    (nbTasksPerCpus nbCpus : Nat) (acc : Option (msmState F) × Nat) (i : Nat) :
    Option (msmState F) × Nat :=
  match acc.1 with
  | none => (none, acc.2)
  | some st =>
    if acc.2 > 0 then
      (accumulatePoints points mask i (nbTasksPerCpus + 1) nbCpus
        (accumulateIndices bitsForTask scalars nbPoints mask i (nbTasksPerCpus + 1) nbCpus
          st), acc.2 - 1)
    else
      (accumulatePoints points mask i nbTasksPerCpus nbCpus
        (accumulateIndices bitsForTask scalars nbPoints mask i nbTasksPerCpus nbCpus st),
        acc.2)

/-- MultiExp: the value sent on the result channel (`none` if no value is ever sent).
`nbCpus` is `runtime.NumCPU()`. The goroutines are run in the order in which they are
spawned (stage A of a worker, stage B of that worker, next worker, ..., reduce): they write
disjoint slots and synchronise only through the one-shot channels, so this schedule is one of
the executions of the program. `chunks` is the work split of the windowed fallback. -/
def G2Jac.MultiExp {F : Type} [Field F] [DecidableEq F] (nbCpus : Nat)
    (chunks : List (Nat × Nat)) (p : G2Jac F) (points : List (G2Affine F))
    (scalars : List Element) : Option (G2Jac F) :=
  let nbPoints := points.length
  if nbPoints ≤ 50 then
    let _points := points.map G2Jac.FromAffine
    some (G2Jac.WindowedMultiExp chunks p _points scalars)
  else
    let chunkSize := chunkSizeOf nbPoints
    match bitsForTaskOf sizeScalar chunkSize with
    | none => none
    | some bitsForTask =>
      let nbChunks :=
        if sizeScalar % chunkSize = 0 then sizeScalar / chunkSize
        else sizeScalar / chunkSize + 1
      let mask := ((1 <<< chunkSize) - 1) % 2 ^ 64
      let st0 : msmState F :=
        { indices := List.replicate (mask * nbChunks) []
          accumulators := List.replicate nbChunks ⟨0, 0, 0⟩
          chIndices := List.replicate nbChunks false
          chPoints := List.replicate nbChunks false }
      let nbTasksPerCpus := nbChunks / nbCpus
      let remainingTasks := nbChunks % nbCpus
      let run := (List.range nbCpus).foldl
        (spawnStep bitsForTask points scalars nbPoints mask nbTasksPerCpus nbCpus)
        (some st0, remainingTasks)
      match run.1 with
      | none => none
      | some st => reduce bitsForTask nbChunks st

end bn256

/-! ## Specification predicates -/

namespace bw761

open Curve

/-- The Jacobian point `p` represents the point `P` of the curve `y^2 = x^3 + b`: either
`Z = 0` and `P` is the identity, or `Z ≠ 0` and `P` is the affine point `(X/Z^2, Y/Z^3)`. -/
def G1Jac.Represents {F : Type} [Field F] (b : F) (p : G1Jac F) (P : (W b).Point) : Prop :=
  (p.Z = 0 ∧ P = 0) ∨
    (p.Z ≠ 0 ∧ ∃ h : (W b).Nonsingular (p.X / p.Z ^ 2) (p.Y / p.Z ^ 3), P = Affine.Point.some h)

/-- The affine point `a` represents the point `P` of the curve: either `a = (0,0)` and `P` is
the identity, or `P` is the affine point `(X, Y)`. -/
def G1Affine.Represents {F : Type} [Field F] (b : F) (a : G1Affine F) (P : (W b).Point) :
    Prop :=
  (a.X = 0 ∧ a.Y = 0 ∧ P = 0) ∨ (∃ h : (W b).Nonsingular a.X a.Y, P = Affine.Point.some h)

/-- The Jacobian curve equation `Y^2 = X^3 + b*Z^6`. -/
def G1Jac.OnCurve {F : Type} [Field F] (b : F) (p : G1Jac F) : Prop :=
  p.Y ^ 2 = p.X ^ 3 + b * p.Z ^ 6

/-- The affine point is on the curve `Y^2 = X^3 + b` or is the identity sentinel (0,0). -/
def G1Affine.OnCurve {F : Type} [Field F] (b : F) (a : G1Affine F) : Prop :=
  (a.X = 0 ∧ a.Y = 0) ∨ a.Y ^ 2 = a.X ^ 3 + b

instance G1Jac.decidableOnCurve {F : Type} [Field F] [DecidableEq F] (b : F) (p : G1Jac F) :
    Decidable (p.OnCurve b) := by
  unfold G1Jac.OnCurve; infer_instance

instance G1Affine.decidableOnCurve {F : Type} [Field F] [DecidableEq F] (b : F)
    (a : G1Affine F) : Decidable (a.OnCurve b) := by
  unfold G1Affine.OnCurve; infer_instance

end bw761

namespace bn256

open Curve

/-- The same triple of coordinates read as a `bw761.G1Jac` (both types are a Jacobian triple
over the coordinate field); used to state the properties of both packages once. -/
def G2Jac.asG1 {F : Type} (p : G2Jac F) : bw761.G1Jac F := ⟨p.X, p.Y, p.Z⟩

/-- The same pair of coordinates read as a `bw761.G1Affine`. -/
def G2Affine.asG1 {F : Type} (a : G2Affine F) : bw761.G1Affine F := ⟨a.X, a.Y⟩

/-- The Jacobian point `p` represents the point `P` of the curve `y^2 = x^3 + b`. -/
def G2Jac.Represents {F : Type} [Field F] (b : F) (p : G2Jac F) (P : (W b).Point) : Prop :=
  p.asG1.Represents b P

/-- The affine point `a` represents the point `P` of the curve ((0,0) is the identity). -/
def G2Affine.Represents {F : Type} [Field F] (b : F) (a : G2Affine F) (P : (W b).Point) :
    Prop :=
  a.asG1.Represents b P

/-- The Jacobian curve equation `Y^2 = X^3 + b*Z^6`. -/
def G2Jac.OnCurve {F : Type} [Field F] (b : F) (p : G2Jac F) : Prop :=
  p.Y ^ 2 = p.X ^ 3 + b * p.Z ^ 6

/-- The affine point is on the curve `Y^2 = X^3 + b` or is the identity sentinel (0,0). -/
def G2Affine.OnCurve {F : Type} [Field F] (b : F) (a : G2Affine F) : Prop :=
  (a.X = 0 ∧ a.Y = 0) ∨ a.Y ^ 2 = a.X ^ 3 + b

instance G2Jac.decidableOnCurve {F : Type} [Field F] [DecidableEq F] (b : F) (p : G2Jac F) :
    Decidable (p.OnCurve b) := by
  unfold G2Jac.OnCurve; infer_instance

instance G2Affine.decidableOnCurve {F : Type} [Field F] [DecidableEq F] (b : F)
    (a : G2Affine F) : Decidable (a.OnCurve b) := by
  unfold G2Affine.OnCurve; infer_instance

/-- The extended point `p` represents the point `P`: either `ZZ = 0` and `P` is the identity,
or `ZZ ≠ 0`, the invariant `ZZ^3 = ZZZ^2` of the type holds and `P` is the affine point
`(X/ZZ, Y/ZZZ)`. -/
def g2JacExtended.Represents {F : Type} [Field F] (b : F) (p : g2JacExtended F)
    (P : (W b).Point) : Prop :=
  (p.ZZ = 0 ∧ P = 0) ∨
    (p.ZZ ≠ 0 ∧ p.ZZ ^ 3 = p.ZZZ ^ 2 ∧
      ∃ h : (W b).Nonsingular (p.X / p.ZZ) (p.Y / p.ZZZ), P = Affine.Point.some h)

/-- The extended accumulator `p` is the identity (`ZZ = 0`), or has `ZZ^3 = ZZZ^2` (both
nonzero) and `(X/ZZ, Y/ZZZ)` is on the curve `Y^2 = X^3 + b`. -/
def g2JacExtended.OnCurve {F : Type} [Field F] (b : F) (p : g2JacExtended F) : Prop :=
  p.ZZ = 0 ∨ (p.ZZ ^ 3 = p.ZZZ ^ 2 ∧ (p.Y / p.ZZZ) ^ 2 = (p.X / p.ZZ) ^ 3 + b)

instance g2JacExtended.decidableOnCurve {F : Type} [Field F] [DecidableEq F] (b : F)
    (p : g2JacExtended F) : Decidable (p.OnCurve b) := by
  unfold g2JacExtended.OnCurve; infer_instance

end bn256

/-- The prime 7: `ZMod 7` is the small field on which the statements are instantiated
(the curve `y^2 = x^3 + 3` over it has 13 points). -/
instance fact_prime_seven : Fact (Nat.Prime 7) := ⟨by norm_num⟩

namespace bn256

/-- The integer value of the limbs of a scalar as stored (little-endian, 64 bits each). -/
def elementValue (e : Element) : Nat := Nat.ofDigits (2 ^ 64) e

/-- A well-formed `fr.Element`: `ElementLimbs` limbs, each a 64-bit word. -/
def elementWF (e : Element) : Prop := e.length = ElementLimbs ∧ ∀ limb ∈ e, limb < 2 ^ 64

instance elementWF_decidable (e : Element) : Decidable (elementWF e) := by
  unfold elementWF; infer_instance

end bn256

namespace bn256

/-- Number of chunks for window width `c`: the ceiling of `sizeScalar / c`. -/
def nbChunksOf (c : Nat) : Nat :=
  if sizeScalar % c = 0 then sizeScalar / c else sizeScalar / c + 1

/-- The bit lists in closed form: chunk `t` holds the positions `255 - t*c`, `254 - t*c`, ...
in descending order, `c` of them, or as many as remain above position 0. -/
def expectedBits (c : Nat) : List (List Int) :=
  (List.range (nbChunksOf c)).map (fun t =>
    (List.range (min c (sizeScalar - t * c))).map (fun j => ((255 - t * c - j : Nat) : Int)))

/-- The index list a finished stage A holds for chunk `t` and bucket `j` (digit `j + 1`). -/
def slotList (bits : List (List Int)) (scalars : List Element) (n t j : Nat) : List Nat :=
  (List.range n).filter (fun i => chunkDigit (bits.getD t []) (scalars.getD i []) = j + 1)

/-- The state of the pipeline when stage A has finished exactly the chunks in `DI` and stage B
has finished (at least) the chunks in `DP`: finished index lists are the filtered lists, the
untouched ones are empty, and finished accumulators represent the partial sum of the chunk
(every point weighted by its digit in that chunk). -/
def msmInv {F : Type} [Field F] (b : F) (bits : List (List Int)) (scalars : List Element)
    (Ps : Nat → (Curve.W b).Point) (n mask K : Nat) (DI DP : Nat → Prop) (st : msmState F) :
    Prop :=
  st.indices.length = mask * K ∧ st.accumulators.length = K ∧ st.chIndices.length = K ∧
    st.chPoints.length = K ∧
    (∀ t < K, DI t → st.chIndices.getD t false = true ∧
      ∀ j < mask, st.indices.getD (t * mask + j) [] = slotList bits scalars n t j) ∧
    (∀ t < K, ¬ DI t → ∀ j < mask, st.indices.getD (t * mask + j) [] = []) ∧
    (∀ t < K, DP t → st.chPoints.getD t false = true ∧
      (st.accumulators.getD t ⟨0, 0, 0⟩).Represents b
        (∑ i ∈ Finset.range n, chunkDigit (bits.getD t []) (scalars.getD i []) • Ps i))

end bn256

namespace bn256

open Curve

/-- The table invariant of `computeT`: entries below `m` hold the multiples of `P`. -/
def tableUpTo {F : Type} [Field F] (b : F) (P : (W b).Point) (T : List (G2Jac F)) (m : Nat) :
    Prop :=
  T.length = 15 ∧ ∀ i < m, (T.getD i ⟨0, 0, 0⟩).Represents b ((i + 1) • P)

end bn256

namespace bw761

open Curve

/-- SubAssign substracts two points on the curve. -/
def G1Jac.SubAssign {F : Type} [Field F] [DecidableEq F] (p a : G1Jac F) : G1Jac F :=
  let tmp := a
  let tmp : G1Jac F := ⟨tmp.X, -tmp.Y, tmp.Z⟩
  p.AddAssign tmp

/-- IsOnCurve returns true if p in on the curve (Jacobian coordinates). -/
def G1Jac.IsOnCurve {F : Type} [Field F] [DecidableEq F] (bCurveCoeff : F) (p : G1Jac F) :
    Bool :=
  let left := p.Y ^ 2
  let right := p.X ^ 2 * p.X
  let tmp := (p.Z ^ 2) ^ 2 * p.Z * p.Z * bCurveCoeff
  let right := right + tmp
  decide (left = right)

/-- IsOnCurve returns true if p in on the curve (affine coordinates; the conversion handles
the infinity point). -/
def G1Affine.IsOnCurve {F : Type} [Field F] [DecidableEq F] (bCurveCoeff : F)
    (p : G1Affine F) : Bool :=
  let point := G1Jac.FromAffine p
  point.IsOnCurve bCurveCoeff

/-- IsInSubGroup returns true if p is on the r-torsion, false otherwise: it checks that
`(x+1)p + (x**3-x**2+1)*phi(p)` is the infinity. `xGen` is the curve parameter `x`; the other
parameters are those of `ScalarMultiplication`. -/
def G1Jac.IsInSubGroup {F : Type} [Field F] [DecidableEq F] (bCurveCoeff thirdRootOneG1 : F)
    (r : Nat) (SplitScalar : Int → Int × Int) (xGen : Int) (p : G1Jac F) : Bool :=
  let phip := G1Jac.phi thirdRootOneG1 p
  let res := G1Jac.ScalarMultiplication thirdRootOneG1 r SplitScalar phip xGen
  let res := res.SubAssign phip
  let res := G1Jac.ScalarMultiplication thirdRootOneG1 r SplitScalar res xGen
  let res := G1Jac.ScalarMultiplication thirdRootOneG1 r SplitScalar res xGen
  let res := res.AddAssign phip
  let phip := G1Jac.ScalarMultiplication thirdRootOneG1 r SplitScalar p xGen
  let phip := phip.AddAssign p
  let phip := phip.AddAssign res
  phip.IsOnCurve bCurveCoeff && decide (phip.Z = 0)

/-- IsInSubGroup returns true if p is in the correct subgroup, false otherwise. -/
def G1Affine.IsInSubGroup {F : Type} [Field F] [DecidableEq F] (bCurveCoeff thirdRootOneG1 : F)
    (r : Nat) (SplitScalar : Int → Int × Int) (xGen : Int) (p : G1Affine F) : Bool :=
  let _p := G1Jac.FromAffine p
  _p.IsOnCurve bCurveCoeff
    && _p.IsInSubGroup bCurveCoeff thirdRootOneG1 r SplitScalar xGen

end bw761

namespace Curve

/-- The map `(x, y) ↦ (x * w, y)` on the points of `y^2 = x^3 + b`, for a cube root of unity
`w`: the endomorphism that `phi` computes on representatives. -/
def phiPoint {F : Type} [Field F] {b : F} (w : F) (hw : w ^ 3 = 1) :
    (W b).Point → (W b).Point
  | Affine.Point.zero => Affine.Point.zero
  | @Affine.Point.some _ _ _ x y h =>
    Affine.Point.some (x := x * w) (y := y) (by
      rw [Affine.nonsingular_iff', Affine.equation_iff] at h ⊢
      simp only [W, zero_mul, add_zero, mul_zero, zero_add, sub_zero, ne_eq] at h ⊢
      have hw0 : w ≠ 0 := by
        rintro rfl
        simp at hw
      refine ⟨by rw [h.1, mul_pow, hw, mul_one], ?_⟩
      rcases h.2 with h' | h'
      · left
        intro hc
        apply h'
        have : (0 - 3 * x ^ 2) * w ^ 2 = 0 := by linear_combination hc
        rcases mul_eq_zero.mp this with h0 | h0
        · exact h0
        · exact absurd (pow_eq_zero_iff two_ne_zero |>.mp h0) hw0
      · right; exact h')

instance fact_prime_thirteen : Fact (Nat.Prime 13) := ⟨by norm_num⟩

end Curve

/-! ## Point serialization (`ecc/bls12-377/marshal.go`)

The base field is consumed as a black box.  An `fp.Element` is modelled by its value in
`ZMod q`, where `q` stands for the modulus of the field; bytes and 64-bit words are natural
numbers.  The operations of the field packages that `marshal.go` calls but does not define
(`Sqrt`, `LexicographicallyLargest`, `Legendre`, `IsInSubGroup`, the `E2` arithmetic) are
parameters of the functions below. -/

namespace bls12377

/-- The metadata mask: the three most significant bits of the first byte. -/
def mMask : Nat := 0b111 <<< 5

/-- Metadata of an uncompressed point. -/
def mUncompressed : Nat := 0b000 <<< 5

/-- Metadata of the uncompressed point at infinity. -/
def mUncompressedInfinity : Nat := 0b010 <<< 5

/-- Metadata of a compressed point whose Y is the smallest of the two roots. -/
def mCompressedSmallest : Nat := 0b100 <<< 5

/-- Metadata of a compressed point whose Y is the largest of the two roots. -/
def mCompressedLargest : Nat := 0b101 <<< 5

/-- Metadata of the compressed point at infinity. -/
def mCompressedInfinity : Nat := 0b110 <<< 5

/-- SizeOfG1AffineCompressed represents the size in bytes that a G1Affine need in binary form,
compressed. -/
def SizeOfG1AffineCompressed : Nat := 48

/-- SizeOfG1AffineUncompressed represents the size in bytes that a G1Affine need in binary
form, uncompressed. -/
def SizeOfG1AffineUncompressed : Nat := SizeOfG1AffineCompressed * 2

/-- SizeOfG2AffineCompressed represents the size in bytes that a G2Affine need in binary form,
compressed. -/
def SizeOfG2AffineCompressed : Nat := 48 * 2

/-- SizeOfG2AffineUncompressed represents the size in bytes that a G2Affine need in binary
form, uncompressed. -/
def SizeOfG2AffineUncompressed : Nat := SizeOfG2AffineCompressed * 2

/-- Modelled from the spec: the constant `fp.Bytes` (the byte width of a base field element) is
declared in the field package; it equals the compressed size of a G1 point. -/
def fpBytes : Nat := 48

/-- Modelled from the spec: the constant `fp.Limbs` (number of 64-bit words of an element). -/
def fpLimbs : Nat := 6

/-- Modelled from the spec: `fp.Element.FromMont` leaves the regular (non-Montgomery) form of
the element in its words, little-endian: word `i` holds bits `64*i .. 64*i+63` of the value. -/
def FromMont {q : Nat} (x : ZMod q) : List Nat :=
  (List.range fpLimbs).map (fun i => x.val / 2 ^ (64 * i) % 2 ^ 64)

/-- Modelled from the spec: `fp.Element.SetBytes` (`from_bytes(be)`) interprets the bytes as a
big-endian unsigned integer and sets the element to that value, reduced by the modulus. -/
def fpSetBytes (q : Nat) (e : List Nat) : ZMod q :=
  ((e.foldl (fun acc x => acc * 256 + x) 0 : Nat) : ZMod q)

/-- The function `binary.BigEndian.PutUint64(res[lo:lo+8], v)`: byte `lo + i` receives bits
`8*(7-i) .. 8*(7-i)+7` of `v`. -/
def PutUint64 (res : List Nat) (lo : Nat) (v : Nat) : List Nat :=
  (List.range 8).foldl (fun r i => r.set (lo + i) ((v >>> (8 * (7 - i))) % 256)) res

/-- G1Affine point in affine coordinates over the base field. -/
structure G1Affine (q : Nat) where
  X : ZMod q
  Y : ZMod q
deriving DecidableEq

/-- The element of the quadratic extension `A0 + A1*u` (`fptower.E2`). -/
structure E2 (q : Nat) where
  A0 : ZMod q
  A1 : ZMod q
deriving DecidableEq

/-- G2Affine point in affine coordinates over the quadratic extension. -/
structure G2Affine (q : Nat) where
  X : E2 q
  Y : E2 q
deriving DecidableEq

/-- The errors `SetBytes` returns: `io.ErrShortBuffer` and the two `errors.New` values. -/
inductive DecodeError where
  | ErrShortBuffer
  | subgroupCheckFailed
  | squareRootDoesNotExist
deriving DecidableEq

/-- Modelled from the spec: the operations of `fptower.E2` that `marshal.go` calls; the tower
package is outside the sources and is consumed as a black box. -/
structure E2Ops (q : Nat) where
  Square : E2 q → E2 q
  Mul : E2 q → E2 q → E2 q
  Add : E2 q → E2 q → E2 q
  Neg : E2 q → E2 q
  Legendre : E2 q → Int
  Sqrt : E2 q → E2 q
  LexicographicallyLargest : E2 q → Bool

/-- Bytes returns binary representation of p: it stores the X coordinate in regular form and
the metadata bits. `Lex` stands for `fp.Element.LexicographicallyLargest`. -/
def G1Affine.Bytes {q : Nat} (Lex : ZMod q → Bool) (p : G1Affine q) : List Nat :=
  let res := List.replicate SizeOfG1AffineCompressed 0
  if p.X = 0 ∧ p.Y = 0 then res.set 0 mCompressedInfinity
  else
    let msbMask := if Lex p.Y then mCompressedLargest else mCompressedSmallest
    let tmp := FromMont p.X
    let res := PutUint64 res 40 (tmp.getD 0 0)
    let res := PutUint64 res 32 (tmp.getD 1 0)
    let res := PutUint64 res 24 (tmp.getD 2 0)
    let res := PutUint64 res 16 (tmp.getD 3 0)
    let res := PutUint64 res 8 (tmp.getD 4 0)
    let res := PutUint64 res 0 (tmp.getD 5 0)
    res.set 0 (res.getD 0 0 ||| msbMask)

/-- RawBytes returns binary representation of p (stores X and Y coordinate). -/
def G1Affine.RawBytes {q : Nat} (p : G1Affine q) : List Nat :=
  let res := List.replicate SizeOfG1AffineUncompressed 0
  if p.X = 0 ∧ p.Y = 0 then res.set 0 mUncompressedInfinity
  else
    let tmp := FromMont p.Y
    let res := PutUint64 res 88 (tmp.getD 0 0)
    let res := PutUint64 res 80 (tmp.getD 1 0)
    let res := PutUint64 res 72 (tmp.getD 2 0)
    let res := PutUint64 res 64 (tmp.getD 3 0)
    let res := PutUint64 res 56 (tmp.getD 4 0)
    let res := PutUint64 res 48 (tmp.getD 5 0)
    let tmp := FromMont p.X
    let res := PutUint64 res 40 (tmp.getD 0 0)
    let res := PutUint64 res 32 (tmp.getD 1 0)
    let res := PutUint64 res 24 (tmp.getD 2 0)
    let res := PutUint64 res 16 (tmp.getD 3 0)
    let res := PutUint64 res 8 (tmp.getD 4 0)
    let res := PutUint64 res 0 (tmp.getD 5 0)
    res.set 0 (res.getD 0 0 ||| mUncompressed)

/-- Marshal converts p to a byte slice (without point compression). -/
def G1Affine.Marshal {q : Nat} (p : G1Affine q) : List Nat :=
  p.RawBytes

/-- SetBytes sets p from binary representation in buf and returns number of consumed bytes.
The result is the receiver after the call, the number of bytes and the error (`none` for
`nil`). `bCurveCoeff` is the curve coefficient; `Sqrt` (`none` for a `nil` result), `Lex`
(`LexicographicallyLargest`) and `IsInSubGroup` are the methods declared outside
`marshal.go`. -/
def G1Affine.SetBytes {q : Nat} (bCurveCoeff : ZMod q) (Sqrt : ZMod q → Option (ZMod q))
    (Lex : ZMod q → Bool) (IsInSubGroup : G1Affine q → Bool) (p : G1Affine q)
    (buf : List Nat) : G1Affine q × Nat × Option DecodeError :=
  if buf.length < SizeOfG1AffineCompressed then (p, 0, some DecodeError.ErrShortBuffer)
  else
    let mData := buf.getD 0 0 &&& mMask
    if (mData = mUncompressed ∨ mData = mUncompressedInfinity)
        ∧ buf.length < SizeOfG1AffineUncompressed then
      (p, 0, some DecodeError.ErrShortBuffer)
    else if mData = mCompressedInfinity then (⟨0, 0⟩, SizeOfG1AffineCompressed, none)
    else if mData = mUncompressedInfinity then (⟨0, 0⟩, SizeOfG1AffineUncompressed, none)
    else if mData = mUncompressed then
      let p : G1Affine q :=
        ⟨fpSetBytes q (buf.take fpBytes), fpSetBytes q ((buf.take (fpBytes * 2)).drop fpBytes)⟩
      if ¬ IsInSubGroup p then (p, 0, some DecodeError.subgroupCheckFailed)
      else (p, SizeOfG1AffineUncompressed, none)
    else
      let bufX := buf.take fpBytes
      let bufX := bufX.set 0 (bufX.getD 0 0 &&& (255 ^^^ mMask))
      let p : G1Affine q := ⟨fpSetBytes q bufX, p.Y⟩
      let YSquared := p.X * p.X * p.X
      let YSquared := YSquared + bCurveCoeff
      match Sqrt YSquared with
      | none => (p, 0, some DecodeError.squareRootDoesNotExist)
      | some Y =>
        let Y :=
          if Lex Y then (if mData = mCompressedSmallest then -Y else Y)
          else (if mData = mCompressedLargest then -Y else Y)
        let p : G1Affine q := ⟨p.X, Y⟩
        if ¬ IsInSubGroup p then (p, 0, some DecodeError.subgroupCheckFailed)
        else (p, SizeOfG1AffineCompressed, none)

/-- Unmarshal is an alias to SetBytes: the receiver after the call and the error. -/
def G1Affine.Unmarshal {q : Nat} (bCurveCoeff : ZMod q) (Sqrt : ZMod q → Option (ZMod q))
    (Lex : ZMod q → Bool) (IsInSubGroup : G1Affine q → Bool) (p : G1Affine q)
    (buf : List Nat) : G1Affine q × Option DecodeError :=
  let r := G1Affine.SetBytes bCurveCoeff Sqrt Lex IsInSubGroup p buf
  (r.1, r.2.2)

/-- SetBytes sets p from binary representation in buf and returns number of consumed bytes
(G2). `ops` holds the `fptower.E2` methods, `bTwistCurveCoeff` the coefficient of the twist. -/
def G2Affine.SetBytes {q : Nat} (ops : E2Ops q) (bTwistCurveCoeff : E2 q)
    (IsInSubGroup : G2Affine q → Bool) (p : G2Affine q) (buf : List Nat) :
    G2Affine q × Nat × Option DecodeError :=
  if buf.length < SizeOfG2AffineCompressed then (p, 0, some DecodeError.ErrShortBuffer)
  else
    let mData := buf.getD 0 0 &&& mMask
    if (mData = mUncompressed ∨ mData = mUncompressedInfinity)
        ∧ buf.length < SizeOfG2AffineUncompressed then
      (p, 0, some DecodeError.ErrShortBuffer)
    else if mData = mCompressedInfinity then
      (⟨⟨0, 0⟩, ⟨0, 0⟩⟩, SizeOfG2AffineCompressed, none)
    else if mData = mUncompressedInfinity then
      (⟨⟨0, 0⟩, ⟨0, 0⟩⟩, SizeOfG2AffineUncompressed, none)
    else if mData = mUncompressed then
      let XA1 := fpSetBytes q (buf.take fpBytes)
      let XA0 := fpSetBytes q ((buf.take (fpBytes * 2)).drop fpBytes)
      let YA1 := fpSetBytes q ((buf.take (fpBytes * 3)).drop (fpBytes * 2))
      let YA0 := fpSetBytes q ((buf.take (fpBytes * 4)).drop (fpBytes * 3))
      let p : G2Affine q := ⟨⟨XA0, XA1⟩, ⟨YA0, YA1⟩⟩
      if ¬ IsInSubGroup p then (p, 0, some DecodeError.subgroupCheckFailed)
      else (p, SizeOfG2AffineUncompressed, none)
    else
      let bufX := buf.take fpBytes
      let bufX := bufX.set 0 (bufX.getD 0 0 &&& (255 ^^^ mMask))
      let XA1 := fpSetBytes q bufX
      let XA0 := fpSetBytes q ((buf.take (fpBytes * 2)).drop fpBytes)
      let p : G2Affine q := ⟨⟨XA0, XA1⟩, p.Y⟩
      let YSquared := ops.Mul (ops.Square p.X) p.X
      let YSquared := ops.Add YSquared bTwistCurveCoeff
      if ops.Legendre YSquared = -1 then (p, 0, some DecodeError.squareRootDoesNotExist)
      else
        let Y := ops.Sqrt YSquared
        let Y :=
          if ops.LexicographicallyLargest Y then
            (if mData = mCompressedSmallest then ops.Neg Y else Y)
          else (if mData = mCompressedLargest then ops.Neg Y else Y)
        let p : G2Affine q := ⟨p.X, Y⟩
        if ¬ IsInSubGroup p then (p, 0, some DecodeError.subgroupCheckFailed)
        else (p, SizeOfG2AffineCompressed, none)

/-- The big-endian encoding of `n` on `k` bytes (the low `8*k` bits of `n`). -/
def beBytes (k n : Nat) : List Nat :=
  (List.range k).map (fun i => n / 256 ^ (k - 1 - i) % 256)

end bls12377

namespace bls12377

/-- A square-root function on the field with seven elements: the least root, if any. It
instantiates the `Sqrt` of the field interface on a small field. -/
def sqrtSeven (a : ZMod 7) : Option (ZMod 7) :=
  ([0, 1, 2, 3, 4, 5, 6] : List (ZMod 7)).find? (fun y => y * y = a)

/-- The function `LexicographicallyLargest` on the field with seven elements: the value is
larger than that of its opposite. -/
def lexSeven (y : ZMod 7) : Bool :=
  decide (3 < y.val)

/-- A subgroup test on the field with seven elements for the curve `y^2 = x^3 + 3`, whose group
has prime order 13: the identity sentinel and the points of the curve are accepted. -/
def inSubGroupSeven (a : G1Affine 7) : Bool :=
  decide ((a.X = 0 ∧ a.Y = 0) ∨ a.Y ^ 2 = a.X ^ 3 + 3)

end bls12377

namespace bn256

/-- The large-input branch of `MultiExp` (more than 50 points) once the window width
`chunkSize` has been chosen: bit lists, masks, the per-CPU workers running stage A and
stage B, and the final reduction, in the sequential schedule of `G2Jac.MultiExp`. -/
def G2Jac.multiExpChunked {F : Type} [Field F] [DecidableEq F] (chunkSize nbCpus : Nat)
    (points : List (G2Affine F)) (scalars : List Element) : Option (G2Jac F) :=
  let nbPoints := points.length
  match bitsForTaskOf sizeScalar chunkSize with
  | none => none
  | some bitsForTask =>
    let nbChunks :=
      if sizeScalar % chunkSize = 0 then sizeScalar / chunkSize
      else sizeScalar / chunkSize + 1
    let mask := ((1 <<< chunkSize) - 1) % 2 ^ 64
    let st0 : msmState F :=
      { indices := List.replicate (mask * nbChunks) []
        accumulators := List.replicate nbChunks ⟨0, 0, 0⟩
        chIndices := List.replicate nbChunks false
        chPoints := List.replicate nbChunks false }
    let nbTasksPerCpus := nbChunks / nbCpus
    let remainingTasks := nbChunks % nbCpus
    let run := (List.range nbCpus).foldl
      (spawnStep bitsForTask points scalars nbPoints mask nbTasksPerCpus nbCpus)
      (some st0, remainingTasks)
    match run.1 with
    | none => none
    | some st => reduce bitsForTask nbChunks st

end bn256

namespace bls12377

/-- Modelled from the spec: `fptower.E2.IsZero` (declared outside `marshal.go`) holds when
both coordinates of the element are zero. -/
def E2.IsZero {q : Nat} (z : E2 q) : Bool :=
  decide (z.A0 = 0) && decide (z.A1 = 0)

/-- Bytes returns binary representation of p (G2): it stores the X coordinate in regular form,
`A1` first, and the metadata bits. `ops.LexicographicallyLargest` is the method of
`fptower.E2`. -/
def G2Affine.Bytes {q : Nat} (ops : E2Ops q) (p : G2Affine q) : List Nat :=
  let res := List.replicate SizeOfG2AffineCompressed 0
  if p.X.IsZero ∧ p.Y.IsZero then res.set 0 mCompressedInfinity
  else
    let msbMask :=
      if ops.LexicographicallyLargest p.Y then mCompressedLargest else mCompressedSmallest
    let tmp := FromMont p.X.A0
    let res := PutUint64 res 88 (tmp.getD 0 0)
    let res := PutUint64 res 80 (tmp.getD 1 0)
    let res := PutUint64 res 72 (tmp.getD 2 0)
    let res := PutUint64 res 64 (tmp.getD 3 0)
    let res := PutUint64 res 56 (tmp.getD 4 0)
    let res := PutUint64 res 48 (tmp.getD 5 0)
    let tmp := FromMont p.X.A1
    let res := PutUint64 res 40 (tmp.getD 0 0)
    let res := PutUint64 res 32 (tmp.getD 1 0)
    let res := PutUint64 res 24 (tmp.getD 2 0)
    let res := PutUint64 res 16 (tmp.getD 3 0)
    let res := PutUint64 res 8 (tmp.getD 4 0)
    let res := PutUint64 res 0 (tmp.getD 5 0)
    res.set 0 (res.getD 0 0 ||| msbMask)

/-- RawBytes returns binary representation of p (G2; stores X and Y coordinate). -/
def G2Affine.RawBytes {q : Nat} (p : G2Affine q) : List Nat :=
  let res := List.replicate SizeOfG2AffineUncompressed 0
  if p.X.IsZero ∧ p.Y.IsZero then res.set 0 mUncompressedInfinity
  else
    let tmp := FromMont p.Y.A0
    let res := PutUint64 res 184 (tmp.getD 0 0)
    let res := PutUint64 res 176 (tmp.getD 1 0)
    let res := PutUint64 res 168 (tmp.getD 2 0)
    let res := PutUint64 res 160 (tmp.getD 3 0)
    let res := PutUint64 res 152 (tmp.getD 4 0)
    let res := PutUint64 res 144 (tmp.getD 5 0)
    let tmp := FromMont p.Y.A1
    let res := PutUint64 res 136 (tmp.getD 0 0)
    let res := PutUint64 res 128 (tmp.getD 1 0)
    let res := PutUint64 res 120 (tmp.getD 2 0)
    let res := PutUint64 res 112 (tmp.getD 3 0)
    let res := PutUint64 res 104 (tmp.getD 4 0)
    let res := PutUint64 res 96 (tmp.getD 5 0)
    let tmp := FromMont p.X.A1
    let res := PutUint64 res 40 (tmp.getD 0 0)
    let res := PutUint64 res 32 (tmp.getD 1 0)
    let res := PutUint64 res 24 (tmp.getD 2 0)
    let res := PutUint64 res 16 (tmp.getD 3 0)
    let res := PutUint64 res 8 (tmp.getD 4 0)
    let res := PutUint64 res 0 (tmp.getD 5 0)
    let tmp := FromMont p.X.A0
    let res := PutUint64 res 88 (tmp.getD 0 0)
    let res := PutUint64 res 80 (tmp.getD 1 0)
    let res := PutUint64 res 72 (tmp.getD 2 0)
    let res := PutUint64 res 64 (tmp.getD 3 0)
    let res := PutUint64 res 56 (tmp.getD 4 0)
    let res := PutUint64 res 48 (tmp.getD 5 0)
    res.set 0 (res.getD 0 0 ||| mUncompressed)

end bls12377

namespace bls12377

/-- The quadratic extension `F_7[u]/(u^2 + 1)` with the methods `marshal.go` calls, for the
test curves over `ZMod 7`: the Legendre symbol is that of the norm, `Sqrt` returns the first
root in the enumeration of the 49 elements, and an element is lexicographically largest when
its leading non-zero coordinate (`A1` first) exceeds (7-1)/2. -/
def opsSeven : E2Ops 7 where
  Square := fun z => ⟨z.A0 * z.A0 - z.A1 * z.A1, 2 * z.A0 * z.A1⟩
  Mul := fun x y => ⟨x.A0 * y.A0 - x.A1 * y.A1, x.A0 * y.A1 + x.A1 * y.A0⟩
  Add := fun x y => ⟨x.A0 + y.A0, x.A1 + y.A1⟩
  Neg := fun x => ⟨-x.A0, -x.A1⟩
  Legendre := fun z =>
    let n := (z.A0 ^ 2 + z.A1 ^ 2) ^ 3
    if n = 0 then 0 else if n = 1 then 1 else -1
  Sqrt := fun z =>
    (((List.range 49).map (fun i => (⟨(i % 7 : Nat), (i / 7 : Nat)⟩ : E2 7))).find?
      (fun w => decide ((⟨w.A0 * w.A0 - w.A1 * w.A1, 2 * w.A0 * w.A1⟩ : E2 7) = z))).getD
      ⟨0, 0⟩
  LexicographicallyLargest := fun z =>
    if z.A1 = 0 then decide (3 < z.A0.val) else decide (3 < z.A1.val)

end bls12377

namespace bls12377

/-- The errors `Decoder.Decode` returns for a slice of points: the two errors of
`io.ReadFull`, an error of `SetBytes` passed on unchanged, and the `errors.New` value
"point decompression failed". -/
inductive StreamError where
  | EOF
  | ErrUnexpectedEOF
  | setBytes (e : DecodeError)
  | pointDecompressionFailed
deriving DecidableEq

/-- Decoder reads bls12-377 object values from an inbound stream: `r` holds the bytes the
reader has not delivered yet, `n` counts the bytes read. -/
structure Decoder where
  r : List Nat
  n : Nat
deriving DecidableEq

/-- Encoder writes bls12-377 object values to an output stream: `w` holds the bytes written,
`n` counts them, `raw` selects raw instead of compressed encoding. -/
structure Encoder where
  w : List Nat
  n : Nat
  raw : Bool
deriving DecidableEq

/-- Modelled from the spec: `io.ReadFull(r, buf[:k])` on an in-memory reader reads exactly `k`
bytes; with fewer bytes left it reads them all and fails with `EOF` (nothing read) or
`ErrUnexpectedEOF`. The result is the bytes read, the reader after the call, the count and the
error. -/
def ReadFull (r : List Nat) (k : Nat) : List Nat × List Nat × Nat × Option StreamError :=
  if k ≤ r.length then (r.take k, r.drop k, k, none)
  else if r.length = 0 then ([], [], 0, some StreamError.EOF)
  else (r, [], r.length, some StreamError.ErrUnexpectedEOF)

/-- Modelled from the spec: `binary.BigEndian.Uint32`, the value of four bytes, most
significant first. -/
def Uint32 (b : List Nat) : Nat :=
  ((b.getD 0 0 * 256 + b.getD 1 0) * 256 + b.getD 2 0) * 256 + b.getD 3 0

/-- Modelled from the spec: the four bytes `binary.Write(w, binary.BigEndian, v)` emits for a
`uint32` value, most significant first. -/
def PutUint32 (v : Nat) : List Nat :=
  [v / 2 ^ 24 % 256, v / 2 ^ 16 % 256, v / 2 ^ 8 % 256, v % 256]

/-- The method readUint32 of the decoder. -/
def Decoder.readUint32 (dec : Decoder) : Decoder × Nat × Option StreamError :=
  let rd := ReadFull dec.r 4
  let dec : Decoder := ⟨rd.2.1, dec.n + rd.2.2.1⟩
  match rd.2.2.2 with
  | some e => (dec, 0, some e)
  | none => (dec, Uint32 rd.1, none)

/-- The function isCompressed: the metadata of the most significant byte is neither
uncompressed nor uncompressed infinity. -/
def isCompressed (msb : Nat) : Bool :=
  let mData := msb &&& mMask
  !(decide (mData = mUncompressed) || decide (mData = mUncompressedInfinity))

/-- The method unsafeSetCompressedBytes, called by the decoder on slices of compressed points
(step 1): it sets the X coordinate and stores the metadata in `p.Y[0]`. The result is the
receiver, the word stored in `p.Y[0]` and `isInfinity`; the other words of `Y` are scratch
until `unsafeComputeY` overwrites them, and the model keeps the old `Y` in their place. -/
def G1Affine.unsafeSetCompressedBytes {q : Nat} (p : G1Affine q) (buf : List Nat) :
    G1Affine q × Nat × Bool :=
  let mData := buf.getD 0 0 &&& mMask
  if mData = mCompressedInfinity then (⟨0, 0⟩, 0, true)
  else
    let bufX := buf.take fpBytes
    let bufX := bufX.set 0 (bufX.getD 0 0 &&& (255 ^^^ mMask))
    (⟨fpSetBytes q bufX, p.Y⟩, mData % 2 ^ 64, false)

/-- The method unsafeComputeY, called by the decoder on slices of compressed points (step 2):
it computes the Y coordinate from the X coordinate already set and the metadata word `y0`
stored in `p.Y[0]`. -/
def G1Affine.unsafeComputeY {q : Nat} (bCurveCoeff : ZMod q)
    (Sqrt : ZMod q → Option (ZMod q)) (Lex : ZMod q → Bool)
    (IsInSubGroup : G1Affine q → Bool) (p : G1Affine q) (y0 : Nat) :
    G1Affine q × Option DecodeError :=
  let mData := y0 % 256
  let YSquared := p.X * p.X * p.X
  let YSquared := YSquared + bCurveCoeff
  match Sqrt YSquared with
  | none => (p, some DecodeError.squareRootDoesNotExist)
  | some Y =>
    let Y :=
      if Lex Y then (if mData = mCompressedSmallest then -Y else Y)
      else (if mData = mCompressedLargest then -Y else Y)
    let p : G1Affine q := ⟨p.X, Y⟩
    if ¬ IsInSubGroup p then (p, some DecodeError.subgroupCheckFailed)
    else (p, none)

/-- One iteration of the reading loop of `Decode` for `*[]G1Affine`: the element `p` is read
from the stream. The result holds the element, the word left in `p.Y[0]` and its `compressed`
flag. -/
def Decoder.readG1Point {q : Nat} (bCurveCoeff : ZMod q) (Sqrt : ZMod q → Option (ZMod q))
    (Lex : ZMod q → Bool) (IsInSubGroup : G1Affine q → Bool) (dec : Decoder)
    (p : G1Affine q) : Decoder × Except StreamError (G1Affine q × Nat × Bool) :=
  let rd := ReadFull dec.r SizeOfG1AffineCompressed
  let dec : Decoder := ⟨rd.2.1, dec.n + rd.2.2.1⟩
  match rd.2.2.2 with
  | some e => (dec, Except.error e)
  | none =>
    if ! isCompressed (rd.1.getD 0 0) then
      let rd2 := ReadFull dec.r (SizeOfG1AffineUncompressed - SizeOfG1AffineCompressed)
      let dec : Decoder := ⟨rd2.2.1, dec.n + rd2.2.2.1⟩
      match rd2.2.2.2 with
      | some e => (dec, Except.error e)
      | none =>
        let res := G1Affine.SetBytes bCurveCoeff Sqrt Lex IsInSubGroup p (rd.1 ++ rd2.1)
        match res.2.2 with
        | some e => (dec, Except.error (StreamError.setBytes e))
        | none => (dec, Except.ok (res.1, 0, false))
    else
      let s := G1Affine.unsafeSetCompressedBytes p rd.1
      (dec, Except.ok (s.1, s.2.1, ! s.2.2))

/-- The reading loop of `Decode` for `*[]G1Affine` over the elements of the slice, in index
order; it stops at the first error. -/
def Decoder.readG1Points {q : Nat} (bCurveCoeff : ZMod q) (Sqrt : ZMod q → Option (ZMod q))
    (Lex : ZMod q → Bool) (IsInSubGroup : G1Affine q → Bool) :
    Decoder → List (G1Affine q) → Decoder × Except StreamError (List (G1Affine q × Nat × Bool))
  | dec, [] => (dec, Except.ok [])
  | dec, p :: t =>
    match Decoder.readG1Point bCurveCoeff Sqrt Lex IsInSubGroup dec p with
    | (dec, Except.error e) => (dec, Except.error e)
    | (dec, Except.ok x) =>
      match Decoder.readG1Points bCurveCoeff Sqrt Lex IsInSubGroup dec t with
      | (dec, Except.error e) => (dec, Except.error e)
      | (dec, Except.ok l) => (dec, Except.ok (x :: l))

/-- Decode reads the binary encoding of v from the stream, for v of type `*[]G1Affine`: the
slice length, the elements (compressed ones get their X coordinate only), then the Y
coordinates of the compressed elements. `parallel.Execute` runs the second loop on disjoint
index ranges that each touch their own elements and the atomic error counter, so the loop is
embedded as one pass over the elements. The content of the slice is reported on success. -/
def Decoder.Decode {q : Nat} (bCurveCoeff : ZMod q) (Sqrt : ZMod q → Option (ZMod q))
    (Lex : ZMod q → Bool) (IsInSubGroup : G1Affine q → Bool) (dec : Decoder)
    (t : List (G1Affine q)) : Decoder × Except StreamError (List (G1Affine q)) :=
  let rd := dec.readUint32
  let dec := rd.1
  let sliceLen := rd.2.1
  match rd.2.2 with
  | some e => (dec, Except.error e)
  | none =>
    let t := if t.length ≠ sliceLen then List.replicate sliceLen (⟨0, 0⟩ : G1Affine q) else t
    match Decoder.readG1Points bCurveCoeff Sqrt Lex IsInSubGroup dec t with
    | (dec, Except.error e) => (dec, Except.error e)
    | (dec, Except.ok l) =>
      let results := l.map (fun x =>
        if x.2.2 then G1Affine.unsafeComputeY bCurveCoeff Sqrt Lex IsInSubGroup x.1 x.2.1
        else (x.1, none))
      let nbErrs : Nat := (results.filter (fun x => decide (x.2 ≠ none))).length % 2 ^ 64
      if nbErrs ≠ 0 then (dec, Except.error StreamError.pointDecompressionFailed)
      else (dec, Except.ok (results.map (fun x => x.1)))

/-- The method encode for `[]G1Affine`: the slice length as a `uint32`, then the compressed
encoding of every element. -/
def Encoder.encode {q : Nat} (Lex : ZMod q → Bool) (enc : Encoder) (t : List (G1Affine q)) :
    Encoder :=
  let enc : Encoder := ⟨enc.w ++ PutUint32 (t.length % 2 ^ 32), enc.n + 4, enc.raw⟩
  t.foldl (fun enc p =>
    let buf := G1Affine.Bytes Lex p
    ⟨enc.w ++ buf, enc.n + buf.length, enc.raw⟩) enc

/-- The method encodeRaw for `[]G1Affine`: the slice length as a `uint32`, then the
uncompressed encoding of every element. -/
def Encoder.encodeRaw {q : Nat} (enc : Encoder) (t : List (G1Affine q)) : Encoder :=
  let enc : Encoder := ⟨enc.w ++ PutUint32 (t.length % 2 ^ 32), enc.n + 4, enc.raw⟩
  t.foldl (fun enc p =>
    let buf := G1Affine.RawBytes p
    ⟨enc.w ++ buf, enc.n + buf.length, enc.raw⟩) enc

/-- Encode writes the binary encoding of v to the stream, for v of type `[]G1Affine`. -/
def Encoder.Encode {q : Nat} (Lex : ZMod q → Bool) (enc : Encoder) (t : List (G1Affine q)) :
    Encoder :=
  if enc.raw then enc.encodeRaw t else enc.encode Lex t

end bls12377

/-! ## The fast Fourier transform (`ecc/bls24-315/fr/fft/fft.go`)

Slices of field elements are lists over a field `F` (the scalar field `fr`, consumed as a black
box); a read outside the slice (a panic in the source) yields 0 and a write outside it is
dropped, and the theorems only concern runs in which every access is in range. The number
`runtime.NumCPU()` is the parameter `numCPU`; goroutines and `parallel.Execute` ranges work on
disjoint entries, so every parallel loop is embedded as the loop over its indices in
increasing order. -/

namespace fft

/-- Decimation is used in the FFT call to select decimation in time or in frequency. -/
inductive Decimation where
  | DIT
  | DIF
deriving DecidableEq

/-- The parallelize threshold for a single butterfly op, if the fft stage is not parallelized
already. -/
def butterflyThreshold : Nat := 16

/-- Modelled from the spec: `bits.Reverse64` returns the value of its 64-bit argument with the
bits in reversed order. -/
def Reverse64 (x : Nat) : Nat :=
  (List.range 64).foldl (fun r j => 2 * r + x / 2 ^ j % 2) 0

/-- Modelled from the spec: `bits.TrailingZeros64` returns the number of trailing zero bits of
its 64-bit argument, and 64 for 0. -/
def TrailingZeros64 (x : Nat) : Nat :=
  ((List.range 64).find? (fun j => decide (x / 2 ^ j % 2 = 1))).getD 64

/-- Modelled from the spec: `ecc.NextPowerOfTwo` returns the smallest power of two that is at
least n (1 for 0). -/
def NextPowerOfTwo (n : Nat) : Nat :=
  2 ^ Nat.clog 2 n

/-- Modelled from the spec: the fields of `Domain` (declared in `domain.go`) that `fft.go`
reads. -/
structure Domain (F : Type) where
  CardinalityInv : F
  Twiddles : List (List F)
  TwiddlesInv : List (List F)
  CosetTable : List (List F)
  CosetTableInv : List (List F)
  CosetTableReversed : List (List F)
  CosetTableInvReversed : List (List F)
  PrecomputeReversedTable : Nat

/-- One butterfly of `difFFT` on the block `b = a[lo : lo+2m]`, with the twiddle
multiplication: `t = b[i]; b[i] += b[i+m]; b[i+m] = (t - b[i+m]) * twiddles[stage][i]`. -/
def difButterfly {F : Type} [Field F] (twiddles : List (List F)) (stage lo m : Nat)
    (a : List F) (i : Nat) : List F :=
  let t := a.getD (lo + i) 0
  let a := a.set (lo + i) (a.getD (lo + i) 0 + a.getD (lo + i + m) 0)
  a.set (lo + i + m) ((t - a.getD (lo + i + m) 0) * (twiddles.getD stage []).getD i 0)

/-- The first butterfly of a block in the worker of `difFFT`, which skips the multiplication:
`t = b[0]; b[0] += b[m]; b[m] = t - b[m]`. -/
def difButterflyZero {F : Type} [Field F] (lo m : Nat) (a : List F) : List F :=
  let t := a.getD lo 0
  let a := a.set lo (a.getD lo 0 + a.getD (lo + m) 0)
  a.set (lo + m) (t - a.getD (lo + m) 0)

/-- The first loop of `difFFT`: the stages in which the butterflies of a stage are spread over
all CPUs, until `1 << stage == nCpus` or the twiddles are exhausted. `count` is the number of
stages left, `len(twiddles) - stage`. The result is the slice with `stage` and `m` at the exit
of the loop. -/
def difStages {F : Type} [Field F] (twiddles : List (List F)) (nCpus : Nat) :
    Nat → Nat → Nat → List F → List F × Nat × Nat
  | 0, stage, m, a => (a, stage, m)
  | count + 1, stage, m, a =>
    if 1 <<< stage = nCpus then (a, stage, m)
    else
      let m := m >>> 1
      let nbLoops := 1 <<< stage
      let a := (List.range nbLoops).foldl (fun a nn =>
        let offset := nn <<< 1
        (List.range (2 * m - m)).foldl (difButterfly twiddles stage (offset * m) m) a) a
      difStages twiddles nCpus count (stage + 1) m a

/-- The closure `worker` of `difFFT`: the remaining stages on one sub-array. -/
def difWorker {F : Type} [Field F] (twiddles : List (List F)) (nCpus : Nat)
    (subfft : List F) (_stage : Nat) : List F :=
  ((List.range' _stage (twiddles.length - _stage)).foldl (fun st _stage =>
    let _m := st.2 >>> 1
    let nbLoops := (1 <<< _stage) / nCpus
    let subfft := (List.range nbLoops).foldl (fun subfft nn =>
      let offset := nn <<< 1
      let subfft := difButterflyZero (offset * _m) _m subfft
      (List.range' 1 (2 * _m - _m - 1)).foldl
        (difButterfly twiddles _stage (offset * _m) _m) subfft) st.1
    (subfft, _m)) (subfft, subfft.length)).1

/-- The function difFFT: decimation in frequency, in place. The parameters `stage` (reset by
the first loop), `maxSplits` and `chDone` of the source are not read. -/
def difFFT {F : Type} [Field F] (a : List F) (twiddles : List (List F)) (_stage : Nat)
    (_maxSplits : Int) (numCPU : Nat) : List F :=
  let n := a.length
  if n = 1 then a
  else
    let m := n
    let nCpus := NextPowerOfTwo numCPU
    let st := difStages twiddles nCpus twiddles.length 0 m a
    let a := st.1
    let stage := st.2.1
    let offset := a.length / nCpus
    (List.range nCpus).foldl (fun a i =>
      let start := i * offset
      let stop := start + offset
      a.take start ++ difWorker twiddles nCpus ((a.take stop).drop start) stage
        ++ a.drop stop) a

/-- One butterfly of `ditFFT` with the twiddle multiplication:
`t = a[k]; tm = a[k+m] * twiddles[stage][k]; a[k] += tm; a[k+m] = t - tm`. -/
def ditButterfly {F : Type} [Field F] (twiddles : List (List F)) (stage m : Nat)
    (a : List F) (k : Nat) : List F :=
  let t := a.getD k 0
  let tm := a.getD (k + m) 0 * (twiddles.getD stage []).getD k 0
  let a := a.set k (a.getD k 0 + tm)
  a.set (k + m) (t - tm)

/-- The butterfly `k == 0` of the sequential branch of `ditFFT`, which skips the
multiplication: `t = a[0]; a[0] += a[m]; a[m] = t - a[m]`. -/
def ditButterflyZero {F : Type} [Field F] (m : Nat) (a : List F) : List F :=
  let t := a.getD 0 0
  let a := a.set 0 (a.getD 0 0 + a.getD m 0)
  a.set m (t - a.getD m 0)

/-- The function ditFFT: decimation in time, in place, recursive. `fuel` bounds the depth of
the recursion, which the source does not bound: `none` stands for a run that does not return
(the source recurses for ever on an empty slice). -/
def ditFFT {F : Type} [Field F] (twiddles : List (List F)) (maxSplits : Int) :
    Nat → List F → Nat → Option (List F)
  | 0, _, _ => none
  | fuel + 1, a, stage =>
    let n := a.length
    if n = 1 then some a
    else
      let m := n >>> 1
      let nextStage := stage + 1
      match ditFFT twiddles maxSplits fuel (a.take m) nextStage,
          ditFFT twiddles maxSplits fuel (a.drop m) nextStage with
      | some lo, some hi =>
        let a := lo ++ hi
        if m > butterflyThreshold ∧ (stage : Int) < maxSplits then
          some ((List.range m).foldl (ditButterfly twiddles stage m) a)
        else
          let a := ditButterflyZero m a
          some ((List.range' 1 (m - 1)).foldl (ditButterfly twiddles stage m) a)
      | _, _ => none

/-- The value `maxSplits` that `FFT` and `FFTInverse` compute from the number of CPUs. -/
def maxSplitsOf (numCPU : Nat) : Int :=
  if numCPU ≤ 1 then -1 else (TrailingZeros64 (NextPowerOfTwo numCPU) : Int)

/-- The closure `scale` of `FFT` and `FFTInverse`: `a[i] *= cosetTable[i]`, then the optional
second factor. -/
def scaleBy {F : Type} [Field F] (a : List F) (f : Nat → F) : List F :=
  (List.range a.length).foldl (fun a i => a.set i (a.getD i 0 * f i)) a

/-- FFT computes the discrete Fourier transform of a and stores the result in a. The length of
a is the fuel of `ditFFT`, enough for every non-empty slice. -/
def Domain.FFT {F : Type} [Field F] (domain : Domain F) (numCPU : Nat) (a : List F)
    (decimation : Decimation) (coset : Nat) : Option (List F) :=
  let a :=
    if coset ≠ 0 then
      if decimation = Decimation.DIT then
        if domain.PrecomputeReversedTable = 0 then
          let n := a.length % 2 ^ 64
          let nn := 64 - TrailingZeros64 n
          scaleBy a (fun i => (domain.CosetTable.getD (coset - 1) []).getD
            (Reverse64 i >>> nn) 0)
        else scaleBy a (fun i => (domain.CosetTableReversed.getD (coset - 1) []).getD i 0)
      else scaleBy a (fun i => (domain.CosetTable.getD (coset - 1) []).getD i 0)
    else a
  let maxSplits := maxSplitsOf numCPU
  match decimation with
  | Decimation.DIF => some (difFFT a domain.Twiddles 0 maxSplits numCPU)
  | Decimation.DIT => ditFFT domain.Twiddles maxSplits a.length a 0

/-- FFTInverse computes the inverse discrete Fourier transform of a and stores the result
in a. -/
def Domain.FFTInverse {F : Type} [Field F] (domain : Domain F) (numCPU : Nat) (a : List F)
    (decimation : Decimation) (coset : Nat) : Option (List F) :=
  let maxSplits := maxSplitsOf numCPU
  let r :=
    match decimation with
    | Decimation.DIF => some (difFFT a domain.TwiddlesInv 0 maxSplits numCPU)
    | Decimation.DIT => ditFFT domain.TwiddlesInv maxSplits a.length a 0
  match r with
  | none => none
  | some a =>
    if coset = 0 then some (scaleBy a (fun _ => domain.CardinalityInv))
    else if decimation = Decimation.DIT then
      some (scaleBy a (fun i =>
        (domain.CosetTableInv.getD (coset - 1) []).getD i 0 * domain.CardinalityInv))
    else if domain.PrecomputeReversedTable ≠ 0 then
      some (scaleBy a (fun i =>
        (domain.CosetTableInvReversed.getD (coset - 1) []).getD i 0 * domain.CardinalityInv))
    else
      let n := a.length % 2 ^ 64
      let nn := 64 - TrailingZeros64 n
      some (scaleBy a (fun i =>
        (domain.CosetTableInv.getD (coset - 1) []).getD (Reverse64 i >>> nn) 0
          * domain.CardinalityInv))

/-- BitReverse applies the bit-reversal permutation to a. -/
def BitReverse {F : Type} [Field F] (a : List F) : List F :=
  let n := a.length % 2 ^ 64
  let nn := 64 - TrailingZeros64 n
  (List.range n).foldl (fun a i =>
    let irev := Reverse64 i >>> nn
    if irev > i then (a.set i (a.getD irev 0)).set irev (a.getD i 0) else a) a

/-- The specification of bit reversal: `revBits k i` is the number whose bit j, for j < k, is
bit k-1-j of i (and whose other bits are zero). -/
def revBits : Nat → Nat → Nat
  | 0, _ => 0
  | k + 1, i => 2 * revBits k i + i / 2 ^ k % 2

/-- The discrete Fourier transform of the list a at the root w: entry j is the sum of
`a[i] * w^(i*j)`. -/
def dft {F : Type} [Field F] (w : F) (a : List F) (j : Nat) : F :=
  ∑ i in Finset.range a.length, a.getD i 0 * w ^ (i * j)

end fft

namespace fft

/-- The effect of one block of butterflies of `difFFT`, as a function on the block `b` of
length `2m`: the first half receives `b[i] + b[i+m]`, the second half
`(b[i] - b[i+m]) * tws[i]`. -/
def difBlock {F : Type} [Field F] (tws : List F) (b : List F) : List F :=
  (List.range (b.length / 2)).map (fun i => b.getD i 0 + b.getD (i + b.length / 2) 0)
    ++ (List.range (b.length / 2)).map
        (fun i => (b.getD i 0 - b.getD (i + b.length / 2) 0) * tws.getD i 0)

/-- The effect of one block of butterflies of `ditFFT`, as a function on the block `b` of
length `2m`: the first half receives `b[i] + b[i+m] * tws[i]`, the second half
`b[i] - b[i+m] * tws[i]`. -/
def ditBlock {F : Type} [Field F] (tws : List F) (b : List F) : List F :=
  (List.range (b.length / 2)).map (fun i => b.getD i 0 + b.getD (i + b.length / 2) 0 * tws.getD i 0)
    ++ (List.range (b.length / 2)).map
        (fun i => b.getD i 0 - b.getD (i + b.length / 2) 0 * tws.getD i 0)

/-- The function `f` applied to each of the first `c` consecutive blocks of length `L` of a
list; what follows them is kept. -/
def mapBlocks {F : Type} (L : Nat) (f : List F → List F) : Nat → List F → List F
  | 0, a => a
  | c + 1, a => f (a.take L) ++ mapBlocks L f c (a.drop L)

/-- The stages `s, s+1, ..., s+j-1` of the decimation in frequency on a list of length `2^r`,
one stage after the other over the whole list: stage `s+i` works on `2^i` blocks of length
`2^(r-i)`. -/
def difLevels {F : Type} [Field F] (tw : List (List F)) : Nat → Nat → Nat → List F → List F
  | 0, _, _, b => b
  | j + 1, s, r, b =>
    mapBlocks (2 ^ (r - j)) (difBlock (tw.getD (s + j) [])) (2 ^ j) (difLevels tw j s r b)

/-- The decimation in frequency as a recursion on the two halves: the reference against which
`difFFT` is compared (`r` is the logarithm of the length, `s` the stage). -/
def difRec {F : Type} [Field F] (tw : List (List F)) : Nat → Nat → List F → List F
  | 0, _, b => b
  | r + 1, s, b =>
    difRec tw r (s + 1) ((difBlock (tw.getD s []) b).take (2 ^ r))
      ++ difRec tw r (s + 1) ((difBlock (tw.getD s []) b).drop (2 ^ r))

/-- The decimation in time as a recursion on the two halves: the reference against which
`ditFFT` is compared. -/
def ditRec {F : Type} [Field F] (tw : List (List F)) : Nat → Nat → List F → List F
  | 0, _, b => b
  | r + 1, s, b =>
    ditBlock (tw.getD s [])
      (ditRec tw r (s + 1) (b.take (2 ^ r)) ++ ditRec tw r (s + 1) (b.drop (2 ^ r)))

end fft

namespace bn256

/-- The integer formed by the bits of `v` at the listed positions, read most significant
first: the digit of a scalar of value `v` in the chunk with this bit list. -/
def bitsValue (positions : List Int) (v : Nat) : Nat :=
  positions.foldl (fun acc q => 2 * acc + v / 2 ^ q.toNat % 2) 0

/-- The lowest bit position of chunk `k`: the last entry of its bit list. -/
def lowestBit (bitsForTask : List (List Int)) (k : Nat) : Nat :=
  (((bitsForTask.getD k []).getLast?).getD 0).toNat

/-- The loop of `MultiExp` that starts the goroutines: the arguments `(cpuID, nbTasks, n)` of
the calls, in spawn order. Worker i gets `accumulateIndices(i, nbTasks, nbCpus)` and
`accumulatePoints(i, nbTasks, nbCpus)` with the same arguments, `nbTasks` being
`nbTasksPerCpus + 1` while `remainingTasks > 0`; the state of the fold is the list of calls and
the counter `remainingTasks`. -/
def spawnCalls (nbChunks nbCpus : Nat) : List (Nat × Nat × Nat) :=
  let nbTasksPerCpus := nbChunks / nbCpus
  let remainingTasks := nbChunks % nbCpus
  ((List.range nbCpus).foldl
    (fun (acc : List (Nat × Nat × Nat) × Nat) i =>
      if acc.2 > 0 then (acc.1 ++ [(i, nbTasksPerCpus + 1, nbCpus)], acc.2 - 1)
      else (acc.1 ++ [(i, nbTasksPerCpus, nbCpus)], acc.2))
    ([], remainingTasks)).1

/-- The chunk ids `task := cpuID + i*n`, for `i` from 0 to `nbTasks - 1`, that the closures
accumulateIndices and accumulatePoints visit, in order. -/
def taskIds (cpuID nbTasks n : Nat) : List Nat :=
  (List.range nbTasks).map (fun i => cpuID + i * n)

end bn256

namespace Curve

end Curve

/-! ## Theorems -/

/-! ## The curve and the Jacobian formulas -/

namespace Curve

theorem some_transport {F : Type} [Field F] {b : F} {x y x' y' : F}
    (h : (W b).Nonsingular x y) (hx : x = x') (hy : y = y') :
    ∃ h' : (W b).Nonsingular x' y', Affine.Point.some h = Affine.Point.some h' := by
  subst hx hy; exact ⟨h, rfl⟩

theorem equation_iff {F : Type} [Field F] (b x y : F) :
    (W b).Equation x y ↔ y ^ 2 = x ^ 3 + b := by
  rw [Affine.equation_iff]; simp [W]

theorem negY_eq {F : Type} [Field F] (b x y : F) : (W b).negY x y = -y := by
  simp [W]

theorem nonsingular_iff {F : Type} [Field F] (b x y : F) :
    (W b).Nonsingular x y ↔ y ^ 2 = x ^ 3 + b ∧ (3 * x ^ 2 ≠ 0 ∨ 2 * y ≠ 0) := by
  rw [Affine.nonsingular_iff', equation_iff]
  simp [W]

theorem nonsingular_ne_zero {F : Type} [Field F] {b x y : F} (h : (W b).Nonsingular x y) :
    ¬ (x = 0 ∧ y = 0) := by
  rintro ⟨rfl, rfl⟩
  rw [nonsingular_iff] at h
  simp at h

theorem nonsingular_of_equation {F : Type} [Field F] {b x y : F} (h2 : (2 : F) ≠ 0)
    (h3 : (3 : F) ≠ 0) (hb : b ≠ 0) (h : y ^ 2 = x ^ 3 + b) : (W b).Nonsingular x y := by
  rw [nonsingular_iff]
  refine ⟨h, ?_⟩
  by_contra hc
  push_neg at hc
  obtain ⟨hx, hy⟩ := hc
  have hx0 : x = 0 := by
    rcases mul_eq_zero.mp hx with h0 | h0
    · exact absurd h0 h3
    · exact pow_eq_zero_iff (two_ne_zero) |>.mp h0
  have hy0 : y = 0 := by
    rcases mul_eq_zero.mp hy with h0 | h0
    · exact absurd h0 h2
    · exact h0
  subst hx0 hy0
  apply hb
  simpa using h.symm

theorem some_injective {F : Type} [Field F] {b : F} {x y x' y' : F}
    {h : (W b).Nonsingular x y} {h' : (W b).Nonsingular x' y'}
    (e : Affine.Point.some h = Affine.Point.some h') : x = x' ∧ y = y' := by
  injection e with hx hy
  exact ⟨hx, hy⟩

end Curve

namespace bw761

open Curve

theorem G1Jac.represents_elim_g1Jac {F : Type} [Field F] {b : F} {p : G1Jac F} {P : (W b).Point}
    (hp : p.Represents b P) (hZ : p.Z ≠ 0) : ∃ x y, ∃ h : (W b).Nonsingular x y,
      p = ⟨x * p.Z ^ 2, y * p.Z ^ 3, p.Z⟩ ∧ P = Affine.Point.some h := by
  rcases hp with ⟨h0, _⟩ | ⟨_, h, hP⟩
  · exact absurd h0 hZ
  · refine ⟨_, _, h, ?_, hP⟩
    rcases p with ⟨X, Y, Z⟩
    simp only [G1Jac.mk.injEq, and_true]
    simp only at hZ
    constructor <;> field_simp

theorem G1Jac.represents_zero_g1Jac {F : Type} [Field F] {b : F} {p : G1Jac F} {P : (W b).Point}
    (hp : p.Represents b P) (hZ : p.Z = 0) : P = 0 := by
  rcases hp with ⟨_, hP⟩ | ⟨h, _⟩
  · exact hP
  · exact absurd hZ h

theorem G1Jac.represents_Z_iff_g1Jac {F : Type} [Field F] {b : F} {p : G1Jac F} {P : (W b).Point}
    (hp : p.Represents b P) : p.Z = 0 ↔ P = 0 := by
  constructor
  · exact G1Jac.represents_zero_g1Jac hp
  · intro h0
    rcases hp with ⟨hZ, _⟩ | ⟨_, h, hP⟩
    · exact hZ
    · rw [h0] at hP; exact absurd hP.symm (Affine.Point.some_ne_zero h)

theorem G1Jac.represents_mk {F : Type} [Field F] {b : F} {x y Z : F} (hZ : Z ≠ 0)
    (h : (W b).Nonsingular x y) :
    G1Jac.Represents b ⟨x * Z ^ 2, y * Z ^ 3, Z⟩ (Affine.Point.some h) := by
  right
  refine ⟨hZ, ?_⟩
  apply some_transport <;> simp <;> field_simp

theorem G1Jac.represents_identity_g1Jac {F : Type} [Field F] (b : F) {p : G1Jac F} (hZ : p.Z = 0) :
    p.Represents b 0 :=
  Or.inl ⟨hZ, rfl⟩

theorem G1Jac.represents_unique_g1Jac {F : Type} [Field F] {b : F} {p : G1Jac F}
    {P Q : (W b).Point} (hP : p.Represents b P) (hQ : p.Represents b Q) : P = Q := by
  rcases hP with ⟨_, rfl⟩ | ⟨hZ, h, rfl⟩
  · rcases hQ with ⟨_, rfl⟩ | ⟨hZ', _⟩
    · rfl
    · contradiction
  · rcases hQ with ⟨hZ', _⟩ | ⟨_, h', rfl⟩
    · contradiction
    · rfl

theorem G1Jac.represents_of_onCurve_g1Jac {F : Type} [Field F] {b : F} (h2 : (2 : F) ≠ 0)
    (h3 : (3 : F) ≠ 0) (hb : b ≠ 0) {p : G1Jac F} (hp : p.OnCurve b) :
    ∃ P : (W b).Point, p.Represents b P := by
  by_cases hZ : p.Z = 0
  · exact ⟨0, Or.inl ⟨hZ, rfl⟩⟩
  · have h : (W b).Nonsingular (p.X / p.Z ^ 2) (p.Y / p.Z ^ 3) := by
      apply nonsingular_of_equation h2 h3 hb
      unfold G1Jac.OnCurve at hp
      field_simp
      linear_combination p.Z ^ 6 * hp
    exact ⟨Affine.Point.some h, Or.inr ⟨hZ, h, rfl⟩⟩

theorem G1Jac.onCurve_of_represents {F : Type} [Field F] {b : F} {p : G1Jac F}
    {P : (W b).Point} (hp : p.Represents b P) (hZ : p.Z ≠ 0) : p.OnCurve b := by
  rcases hp with ⟨h0, _⟩ | ⟨_, h, _⟩
  · exact absurd h0 hZ
  · have := h.1
    rw [equation_iff] at this
    unfold G1Jac.OnCurve
    field_simp at this
    apply mul_right_cancel₀ (pow_ne_zero 6 hZ)
    linear_combination this

theorem G1Jac.DoubleAssign_Z {F : Type} [Field F] (p : G1Jac F) :
    p.DoubleAssign.Z = 2 * p.Y * p.Z := by
  simp only [G1Jac.DoubleAssign]; ring

theorem G1Jac.DoubleAssign_represents_g1Jac {F : Type} [Field F] {b : F} {p : G1Jac F}
    {P : (W b).Point} (hp : p.Represents b P) : p.DoubleAssign.Represents b (P + P) := by
  have hZ3 : p.DoubleAssign.Z = 2 * p.Y * p.Z := G1Jac.DoubleAssign_Z p
  by_cases hZ : p.Z = 0
  · rcases hp with ⟨_, hP⟩ | ⟨h, _⟩
    · left; subst hP; exact ⟨by rw [hZ3, hZ, mul_zero], by simp⟩
    · exact absurd hZ h
  obtain ⟨x, y, h, hpe, hP⟩ := G1Jac.represents_elim_g1Jac hp hZ
  subst hP
  generalize p.Z = Z at hpe hZ hZ3
  by_cases hy : y = (W b).negY x y
  · left
    refine ⟨?_, Affine.Point.add_self_of_Y_eq hy⟩
    rw [hZ3, hpe]
    have : 2 * y = 0 := by simp [W] at hy; linear_combination hy
    simp only
    linear_combination Z ^ 4 * this
  · right
    have h2y : 2 * y ≠ 0 := by
      intro h0; apply hy; simp [W]; linear_combination h0
    have h2 : (2 : F) ≠ 0 := left_ne_zero_of_mul h2y
    have hy0 : y ≠ 0 := right_ne_zero_of_mul h2y
    have hZ3' : p.DoubleAssign.Z ≠ 0 := by
      rw [hZ3, hpe]; simp only
      exact mul_ne_zero (mul_ne_zero h2 (mul_ne_zero hy0 (pow_ne_zero 3 hZ))) hZ
    refine ⟨hZ3', ?_⟩
    rw [Affine.Point.add_self_of_Y_ne hy]
    have hs : (W b).slope x x y y = 3 * x ^ 2 / (2 * y) := by
      rw [Affine.slope_of_Y_ne rfl hy]; simp [W]; congr 1; ring
    apply some_transport
    · rw [eq_div_iff (pow_ne_zero 2 hZ3'), hs, hpe]
      simp only [G1Jac.DoubleAssign, Affine.addX, W]
      field_simp
      ring
    · rw [eq_div_iff (pow_ne_zero 3 hZ3'), hs, hpe]
      simp only [G1Jac.DoubleAssign, Affine.addY, Affine.negAddY, Affine.negY, Affine.addX, W]
      field_simp
      ring

theorem G1Jac.AddAssign_represents_g1Jac {F : Type} [Field F] [DecidableEq F] {b : F}
    (h2 : (2 : F) ≠ 0) {p a : G1Jac F} {P Q : (W b).Point} (hp : p.Represents b P)
    (ha : a.Represents b Q) : (p.AddAssign a).Represents b (P + Q) := by
  unfold G1Jac.AddAssign
  by_cases hpZ : p.Z = 0
  · rw [if_pos hpZ, G1Jac.represents_zero_g1Jac hp hpZ, zero_add]; exact ha
  rw [if_neg hpZ]
  by_cases haZ : a.Z = 0
  · rw [if_pos haZ, G1Jac.represents_zero_g1Jac ha haZ, add_zero]; exact hp
  rw [if_neg haZ]
  obtain ⟨x2, y2, hn2, hpe, hP⟩ := G1Jac.represents_elim_g1Jac hp hpZ
  obtain ⟨x1, y1, hn1, hae, hQ⟩ := G1Jac.represents_elim_g1Jac ha haZ
  generalize p.Z = Z2 at hpe hpZ
  generalize a.Z = Z1 at hae haZ
  subst hpe hae hP hQ
  simp only
  have hU : x1 * Z1 ^ 2 * Z2 ^ 2 = x2 * Z2 ^ 2 * Z1 ^ 2 ↔ x1 = x2 := by
    constructor
    · intro h
      have h3 : (x1 - x2) * (Z1 ^ 2 * Z2 ^ 2) = 0 := by linear_combination h
      rcases mul_eq_zero.mp h3 with h4 | h4
      · exact sub_eq_zero.mp h4
      · exact absurd h4 (mul_ne_zero (pow_ne_zero 2 haZ) (pow_ne_zero 2 hpZ))
    · rintro rfl; ring
  have hS : y1 * Z1 ^ 3 * Z2 * Z2 ^ 2 = y2 * Z2 ^ 3 * Z1 * Z1 ^ 2 ↔ y1 = y2 := by
    constructor
    · intro h
      have h3 : (y1 - y2) * (Z1 ^ 3 * Z2 ^ 3) = 0 := by linear_combination h
      rcases mul_eq_zero.mp h3 with h4 | h4
      · exact sub_eq_zero.mp h4
      · exact absurd h4 (mul_ne_zero (pow_ne_zero 3 haZ) (pow_ne_zero 3 hpZ))
    · rintro rfl; ring
  by_cases hxy : x1 = x2 ∧ y1 = y2
  · rw [if_pos ⟨hU.mpr hxy.1, hS.mpr hxy.2⟩]
    obtain ⟨rfl, rfl⟩ := hxy
    exact G1Jac.DoubleAssign_represents_g1Jac hp
  rw [if_neg (fun h => hxy ⟨hU.mp h.1, hS.mp h.2⟩)]
  by_cases hx : x1 = x2
  · have hy : y1 ≠ y2 := fun h => hxy ⟨hx, h⟩
    have hneg : y2 = (W b).negY x1 y1 := by
      rcases Affine.Y_eq_of_X_eq hn2.1 hn1.1 hx.symm with h | h
      · exact absurd h.symm hy
      · exact h
    left
    refine ⟨?_, Affine.Point.add_of_Y_eq hx.symm hneg⟩
    simp only [hx]; ring
  · right
    have hd : x2 - x1 ≠ 0 := sub_ne_zero.mpr (Ne.symm hx)
    have hx' : x2 ≠ x1 := Ne.symm hx
    have hZ3 : ((Z2 + Z1) ^ 2 - Z1 ^ 2 - Z2 ^ 2) * (x2 * Z2 ^ 2 * Z1 ^ 2 - x1 * Z1 ^ 2 * Z2 ^ 2)
        ≠ 0 := by
      have : ((Z2 + Z1) ^ 2 - Z1 ^ 2 - Z2 ^ 2) * (x2 * Z2 ^ 2 * Z1 ^ 2 - x1 * Z1 ^ 2 * Z2 ^ 2)
          = 2 * (x2 - x1) * Z1 ^ 3 * Z2 ^ 3 := by ring
      rw [this]
      exact mul_ne_zero (mul_ne_zero (mul_ne_zero h2 hd) (pow_ne_zero 3 haZ)) (pow_ne_zero 3 hpZ)
    refine ⟨hZ3, ?_⟩
    rw [Affine.Point.add_of_X_ne hx']
    apply some_transport
    · rw [eq_div_iff (pow_ne_zero 2 hZ3), Affine.slope_of_X_ne hx']
      simp only [Affine.addX, W]
      field_simp
      ring
    · rw [eq_div_iff (pow_ne_zero 3 hZ3), Affine.slope_of_X_ne hx']
      simp only [Affine.addY, Affine.negAddY, Affine.negY, Affine.addX, W]
      field_simp
      ring

theorem G1Affine.represents_zero_g1Affine {F : Type} [Field F] {b : F} {a : G1Affine F}
    {Q : (W b).Point} (ha : a.Represents b Q) (h0 : a.X = 0 ∧ a.Y = 0) : Q = 0 := by
  rcases ha with ⟨_, _, hQ⟩ | ⟨h, _⟩
  · exact hQ
  · exact absurd h0 (nonsingular_ne_zero h)

theorem G1Affine.represents_elim_g1Affine {F : Type} [Field F] {b : F} {a : G1Affine F}
    {Q : (W b).Point} (ha : a.Represents b Q) (h0 : ¬ (a.X = 0 ∧ a.Y = 0)) :
    ∃ h : (W b).Nonsingular a.X a.Y, Q = Affine.Point.some h := by
  rcases ha with ⟨hx, hy, _⟩ | h
  · exact absurd ⟨hx, hy⟩ h0
  · exact h

theorem G1Affine.represents_of_onCurve_g1Affine {F : Type} [Field F] {b : F} (h2 : (2 : F) ≠ 0)
    (h3 : (3 : F) ≠ 0) (hb : b ≠ 0) {a : G1Affine F} (ha : a.OnCurve b) :
    ∃ Q : (W b).Point, a.Represents b Q := by
  by_cases h0 : a.X = 0 ∧ a.Y = 0
  · exact ⟨0, Or.inl ⟨h0.1, h0.2, rfl⟩⟩
  · rcases ha with h | h
    · exact absurd h h0
    · exact ⟨_, Or.inr ⟨nonsingular_of_equation h2 h3 hb h, rfl⟩⟩

theorem G1Affine.represents_unique_g1Affine {F : Type} [Field F] {b : F} {a : G1Affine F}
    {P Q : (W b).Point} (hP : a.Represents b P) (hQ : a.Represents b Q) : P = Q := by
  by_cases h0 : a.X = 0 ∧ a.Y = 0
  · rw [G1Affine.represents_zero_g1Affine hP h0, G1Affine.represents_zero_g1Affine hQ h0]
  · obtain ⟨_, rfl⟩ := G1Affine.represents_elim_g1Affine hP h0
    obtain ⟨_, rfl⟩ := G1Affine.represents_elim_g1Affine hQ h0
    rfl

theorem G1Jac.AddMixed_represents_g1Jac {F : Type} [Field F] [DecidableEq F] {b : F}
    (h2 : (2 : F) ≠ 0) {p : G1Jac F} {a : G1Affine F} {P Q : (W b).Point}
    (hp : p.Represents b P) (ha : a.Represents b Q) : (p.AddMixed a).Represents b (P + Q) := by
  unfold G1Jac.AddMixed
  by_cases ha0 : a.X = 0 ∧ a.Y = 0
  · rw [if_pos ha0, G1Affine.represents_zero_g1Affine ha ha0, add_zero]; exact hp
  rw [if_neg ha0]
  obtain ⟨hn1, hQ⟩ := G1Affine.represents_elim_g1Affine ha ha0
  by_cases hpZ : p.Z = 0
  · rw [if_pos hpZ, G1Jac.represents_zero_g1Jac hp hpZ, zero_add, hQ]
    right
    refine ⟨one_ne_zero, ?_⟩
    apply some_transport <;> simp
  rw [if_neg hpZ]
  obtain ⟨x2, y2, hn2, hpe, hP⟩ := G1Jac.represents_elim_g1Jac hp hpZ
  rcases a with ⟨x1, y1⟩
  simp only at hn1 hQ ha0 ⊢
  generalize p.Z = Z2 at hpe hpZ
  subst hpe hP hQ
  simp only
  have hU : x1 * Z2 ^ 2 = x2 * Z2 ^ 2 ↔ x1 = x2 := by
    constructor
    · intro h
      exact mul_right_cancel₀ (pow_ne_zero 2 hpZ) h
    · rintro rfl; ring
  have hS : y1 * Z2 * Z2 ^ 2 = y2 * Z2 ^ 3 ↔ y1 = y2 := by
    constructor
    · intro h
      have h3 : y1 * Z2 ^ 3 = y2 * Z2 ^ 3 := by linear_combination h
      exact mul_right_cancel₀ (pow_ne_zero 3 hpZ) h3
    · rintro rfl; ring
  by_cases hxy : x1 = x2 ∧ y1 = y2
  · rw [if_pos ⟨hU.mpr hxy.1, hS.mpr hxy.2⟩]
    obtain ⟨rfl, rfl⟩ := hxy
    exact G1Jac.DoubleAssign_represents_g1Jac hp
  rw [if_neg (fun h => hxy ⟨hU.mp h.1, hS.mp h.2⟩)]
  by_cases hx : x1 = x2
  · have hy : y1 ≠ y2 := fun h => hxy ⟨hx, h⟩
    have hneg : y2 = (W b).negY x1 y1 := by
      rcases Affine.Y_eq_of_X_eq hn2.1 hn1.1 hx.symm with h | h
      · exact absurd h.symm hy
      · exact h
    left
    refine ⟨?_, Affine.Point.add_of_Y_eq hx.symm hneg⟩
    simp only [hx]; ring
  · right
    have hd : x2 - x1 ≠ 0 := sub_ne_zero.mpr (Ne.symm hx)
    have hx' : x2 ≠ x1 := Ne.symm hx
    have hZ3 : (Z2 + (x1 * Z2 ^ 2 - x2 * Z2 ^ 2)) ^ 2 - Z2 ^ 2 - (x1 * Z2 ^ 2 - x2 * Z2 ^ 2) ^ 2
        ≠ 0 := by
      have : (Z2 + (x1 * Z2 ^ 2 - x2 * Z2 ^ 2)) ^ 2 - Z2 ^ 2 - (x1 * Z2 ^ 2 - x2 * Z2 ^ 2) ^ 2
          = - (2 * (x2 - x1) * Z2 ^ 3) := by ring
      rw [this]
      exact neg_ne_zero.mpr (mul_ne_zero (mul_ne_zero h2 hd) (pow_ne_zero 3 hpZ))
    refine ⟨hZ3, ?_⟩
    rw [Affine.Point.add_of_X_ne hx']
    apply some_transport
    · rw [eq_div_iff (pow_ne_zero 2 hZ3), Affine.slope_of_X_ne hx']
      simp only [Affine.addX, W]
      field_simp
      ring
    · rw [eq_div_iff (pow_ne_zero 3 hZ3), Affine.slope_of_X_ne hx']
      simp only [Affine.addY, Affine.negAddY, Affine.negY, Affine.addX, W]
      field_simp
      ring

end bw761

namespace bw761

open Curve

theorem G1Jac.Neg_represents_g1Jac {F : Type} [Field F] {b : F} {p : G1Jac F} {P : (W b).Point}
    (hp : p.Represents b P) : p.Neg.Represents b (-P) := by
  rcases hp with ⟨hZ, rfl⟩ | ⟨hZ, h, rfl⟩
  · left; exact ⟨hZ, rfl⟩
  · right
    refine ⟨hZ, ?_⟩
    rw [Affine.Point.neg_some]
    apply some_transport
    · rfl
    · simp only [G1Jac.Neg, negY_eq]; ring

theorem G1Affine.Neg_represents_g1Affine {F : Type} [Field F] {b : F} {a : G1Affine F}
    {P : (W b).Point} (ha : a.Represents b P) : a.Neg.Represents b (-P) := by
  rcases ha with ⟨hx, hy, rfl⟩ | ⟨h, rfl⟩
  · left; exact ⟨hx, by simp [G1Affine.Neg, hy], rfl⟩
  · right
    rw [Affine.Point.neg_some]
    apply some_transport
    · rfl
    · simp only [G1Affine.Neg, negY_eq]

theorem G1Jac.FromAffine_represents_g1Jac {F : Type} [Field F] [DecidableEq F] {b : F}
    {a : G1Affine F} {Q : (W b).Point} (ha : a.Represents b Q) :
    (G1Jac.FromAffine a).Represents b Q := by
  unfold G1Jac.FromAffine
  by_cases h0 : a.X = 0 ∧ a.Y = 0
  · rw [if_pos h0, G1Affine.represents_zero_g1Affine ha h0]
    exact Or.inl ⟨rfl, rfl⟩
  · rw [if_neg h0]
    obtain ⟨h, rfl⟩ := G1Affine.represents_elim_g1Affine ha h0
    right
    refine ⟨one_ne_zero, ?_⟩
    apply some_transport <;> simp

theorem G1Affine.FromJacobian_represents {F : Type} [Field F] [DecidableEq F] {b : F}
    {p : G1Jac F} {P : (W b).Point} (hp : p.Represents b P) :
    (G1Affine.FromJacobian p).Represents b P := by
  unfold G1Affine.FromJacobian
  rcases hp with ⟨hZ, rfl⟩ | ⟨hZ, h, rfl⟩
  · rw [if_pos hZ]; exact Or.inl ⟨rfl, rfl, rfl⟩
  · rw [if_neg hZ]
    right
    apply some_transport
    · simp only [div_eq_mul_inv, inv_pow]
    · simp only [div_eq_mul_inv, inv_pow]; ring

theorem G1Jac.Equal_iff_g1Jac {F : Type} [Field F] [DecidableEq F] {b : F} {p a : G1Jac F}
    {P Q : (W b).Point} (hp : p.Represents b P) (ha : a.Represents b Q) :
    p.Equal a = true ↔ P = Q := by
  have hp' := G1Affine.FromJacobian_represents hp
  have ha' := G1Affine.FromJacobian_represents ha
  unfold G1Jac.Equal
  by_cases hz : p.Z = 0 ∧ a.Z = 0
  · rw [if_pos hz, G1Jac.represents_zero_g1Jac hp hz.1, G1Jac.represents_zero_g1Jac ha hz.2]
    simp
  · rw [if_neg hz]
    simp only [Bool.and_eq_true, decide_eq_true_eq]
    constructor
    · rintro ⟨hx, hy⟩
      have : G1Affine.FromJacobian p = G1Affine.FromJacobian a := by
        cases hpa : G1Affine.FromJacobian p
        cases haa : G1Affine.FromJacobian a
        rw [hpa, haa] at hx hy
        simp only at hx hy
        rw [hx, hy]
      rw [this] at hp'
      exact G1Affine.represents_unique_g1Affine hp' ha'
    · rintro rfl
      generalize G1Affine.FromJacobian p = u at hp'
      generalize G1Affine.FromJacobian a = v at ha'
      by_cases h0 : u.X = 0 ∧ u.Y = 0
      · have hP := G1Affine.represents_zero_g1Affine hp' h0
        subst hP
        rcases ha' with ⟨hx, hy, _⟩ | ⟨h, e⟩
        · rw [h0.1, h0.2, hx, hy]; exact ⟨rfl, rfl⟩
        · exact absurd e.symm (Affine.Point.some_ne_zero h)
      · obtain ⟨h, e⟩ := G1Affine.represents_elim_g1Affine hp' h0
        subst e
        rcases ha' with ⟨_, _, e⟩ | ⟨h', e⟩
        · exact absurd e (Affine.Point.some_ne_zero h)
        · exact some_injective e

end bw761

namespace bn256

open Curve

theorem G2Jac.asG1_DoubleAssign {F : Type} [Field F] (p : G2Jac F) :
    p.DoubleAssign.asG1 = p.asG1.DoubleAssign := rfl

theorem G2Jac.asG1_AddAssign {F : Type} [Field F] [DecidableEq F] (p a : G2Jac F) :
    (p.AddAssign a).asG1 = p.asG1.AddAssign a.asG1 := by
  unfold G2Jac.AddAssign bw761.G1Jac.AddAssign
  simp only [G2Jac.asG1]
  split_ifs <;> rfl

theorem G2Jac.asG1_AddMixed {F : Type} [Field F] [DecidableEq F] (p : G2Jac F)
    (a : G2Affine F) : (p.AddMixed a).asG1 = p.asG1.AddMixed a.asG1 := by
  unfold G2Jac.AddMixed bw761.G1Jac.AddMixed
  simp only [G2Jac.asG1, G2Affine.asG1]
  split_ifs <;> rfl

theorem G2Jac.asG1_FromAffine {F : Type} [Field F] [DecidableEq F] (a : G2Affine F) :
    (G2Jac.FromAffine a).asG1 = bw761.G1Jac.FromAffine a.asG1 := by
  unfold G2Jac.FromAffine bw761.G1Jac.FromAffine
  simp only [G2Affine.asG1]
  split_ifs <;> rfl

theorem G2Affine.asG1_FromJacobian {F : Type} [Field F] [DecidableEq F] (p : G2Jac F) :
    (G2Affine.FromJacobian p).asG1 = bw761.G1Affine.FromJacobian p.asG1 := by
  unfold G2Affine.FromJacobian bw761.G1Affine.FromJacobian
  simp only [G2Jac.asG1]
  split_ifs <;> rfl

theorem G2Jac.Equal_asG1 {F : Type} [Field F] [DecidableEq F] (p a : G2Jac F) :
    p.Equal a = p.asG1.Equal a.asG1 := by
  unfold G2Jac.Equal bw761.G1Jac.Equal
  simp only [← G2Affine.asG1_FromJacobian]
  rfl

theorem G2Jac.represents_Z_iff_g2Jac {F : Type} [Field F] {b : F} {p : G2Jac F} {P : (W b).Point}
    (hp : p.Represents b P) : p.Z = 0 ↔ P = 0 :=
  bw761.G1Jac.represents_Z_iff_g1Jac hp

theorem G2Jac.represents_unique_g2Jac {F : Type} [Field F] {b : F} {p : G2Jac F}
    {P Q : (W b).Point} (hP : p.Represents b P) (hQ : p.Represents b Q) : P = Q :=
  bw761.G1Jac.represents_unique_g1Jac hP hQ

theorem G2Jac.represents_identity_g2Jac {F : Type} [Field F] (b : F) {p : G2Jac F} (hZ : p.Z = 0) :
    p.Represents b 0 :=
  Or.inl ⟨hZ, rfl⟩

theorem G2Jac.represents_of_onCurve_g2Jac {F : Type} [Field F] {b : F} (h2 : (2 : F) ≠ 0)
    (h3 : (3 : F) ≠ 0) (hb : b ≠ 0) {p : G2Jac F} (hp : p.OnCurve b) :
    ∃ P : (W b).Point, p.Represents b P :=
  bw761.G1Jac.represents_of_onCurve_g1Jac (p := p.asG1) h2 h3 hb hp

theorem G2Affine.represents_of_onCurve_g2Affine {F : Type} [Field F] {b : F} (h2 : (2 : F) ≠ 0)
    (h3 : (3 : F) ≠ 0) (hb : b ≠ 0) {a : G2Affine F} (ha : a.OnCurve b) :
    ∃ Q : (W b).Point, a.Represents b Q :=
  bw761.G1Affine.represents_of_onCurve_g1Affine (a := a.asG1) h2 h3 hb ha

theorem G2Affine.represents_unique_g2Affine {F : Type} [Field F] {b : F} {a : G2Affine F}
    {P Q : (W b).Point} (hP : a.Represents b P) (hQ : a.Represents b Q) : P = Q :=
  bw761.G1Affine.represents_unique_g1Affine hP hQ

theorem G2Jac.DoubleAssign_represents_g2Jac {F : Type} [Field F] {b : F} {p : G2Jac F}
    {P : (W b).Point} (hp : p.Represents b P) : p.DoubleAssign.Represents b (P + P) := by
  unfold G2Jac.Represents
  rw [G2Jac.asG1_DoubleAssign]
  exact bw761.G1Jac.DoubleAssign_represents_g1Jac hp

theorem G2Jac.AddAssign_represents_g2Jac {F : Type} [Field F] [DecidableEq F] {b : F}
    (h2 : (2 : F) ≠ 0) {p a : G2Jac F} {P Q : (W b).Point} (hp : p.Represents b P)
    (ha : a.Represents b Q) : (p.AddAssign a).Represents b (P + Q) := by
  unfold G2Jac.Represents
  rw [G2Jac.asG1_AddAssign]
  exact bw761.G1Jac.AddAssign_represents_g1Jac h2 hp ha

theorem G2Jac.AddMixed_represents_g2Jac {F : Type} [Field F] [DecidableEq F] {b : F}
    (h2 : (2 : F) ≠ 0) {p : G2Jac F} {a : G2Affine F} {P Q : (W b).Point}
    (hp : p.Represents b P) (ha : a.Represents b Q) : (p.AddMixed a).Represents b (P + Q) := by
  unfold G2Jac.Represents
  rw [G2Jac.asG1_AddMixed]
  exact bw761.G1Jac.AddMixed_represents_g1Jac h2 hp ha

theorem G2Jac.FromAffine_represents_g2Jac {F : Type} [Field F] [DecidableEq F] {b : F}
    {a : G2Affine F} {Q : (W b).Point} (ha : a.Represents b Q) :
    (G2Jac.FromAffine a).Represents b Q := by
  unfold G2Jac.Represents
  rw [G2Jac.asG1_FromAffine]
  exact bw761.G1Jac.FromAffine_represents_g1Jac ha

theorem G2Jac.Equal_iff_g2Jac {F : Type} [Field F] [DecidableEq F] {b : F} {p a : G2Jac F}
    {P Q : (W b).Point} (hp : p.Represents b P) (ha : a.Represents b Q) :
    p.Equal a = true ↔ P = Q := by
  rw [G2Jac.Equal_asG1]
  exact bw761.G1Jac.Equal_iff_g1Jac hp ha

theorem g2Infinity_represents {F : Type} [Field F] (b : F) :
    (g2Infinity : G2Jac F).Represents b 0 :=
  Or.inl ⟨rfl, rfl⟩

/-! ### Extended (XYZZ) coordinates -/

theorem g2JacExtended.SetInfinity_represents {F : Type} [Field F] (b : F) :
    (g2JacExtended.SetInfinity : g2JacExtended F).Represents b 0 :=
  Or.inl ⟨rfl, rfl⟩

theorem g2JacExtended.represents_ZZZ_ne {F : Type} [Field F] {p : g2JacExtended F}
    (hinv : p.ZZ ^ 3 = p.ZZZ ^ 2) (h : p.ZZ ≠ 0) : p.ZZZ ≠ 0 := by
  intro h0
  rw [h0] at hinv
  simp at hinv
  exact h hinv

theorem g2JacExtended.represents_zero_xyzz {F : Type} [Field F] {b : F} {p : g2JacExtended F}
    {P : (W b).Point} (hp : p.Represents b P) (h0 : p.ZZ = 0) : P = 0 := by
  rcases hp with ⟨_, hP⟩ | ⟨h, _⟩
  · exact hP
  · exact absurd h0 h

theorem g2JacExtended.represents_ZZ_iff {F : Type} [Field F] {b : F} {p : g2JacExtended F}
    {P : (W b).Point} (hp : p.Represents b P) : p.ZZ = 0 ↔ P = 0 := by
  constructor
  · exact g2JacExtended.represents_zero_xyzz hp
  · intro h0
    rcases hp with ⟨hZ, _⟩ | ⟨_, _, h, hP⟩
    · exact hZ
    · rw [h0] at hP; exact absurd hP.symm (Affine.Point.some_ne_zero h)

theorem g2JacExtended.represents_unique_xyzz {F : Type} [Field F] {b : F} {p : g2JacExtended F}
    {P Q : (W b).Point} (hP : p.Represents b P) (hQ : p.Represents b Q) : P = Q := by
  rcases hP with ⟨_, rfl⟩ | ⟨hZ, _, h, rfl⟩
  · rcases hQ with ⟨_, rfl⟩ | ⟨hZ', _⟩
    · rfl
    · contradiction
  · rcases hQ with ⟨hZ', _⟩ | ⟨_, _, h', rfl⟩
    · contradiction
    · rfl

theorem g2JacExtended.double_invariant {F : Type} [Field F] (a : G2Affine F) :
    (g2JacExtended.double a).ZZ ^ 3 = (g2JacExtended.double a).ZZZ ^ 2 := by
  simp only [g2JacExtended.double]; ring

theorem g2JacExtended.mAdd_invariant {F : Type} [Field F] [DecidableEq F]
    (p : g2JacExtended F) (a : G2Affine F) (hinv : p.ZZ ^ 3 = p.ZZZ ^ 2) :
    (p.mAdd a).ZZ ^ 3 = (p.mAdd a).ZZZ ^ 2 := by
  unfold g2JacExtended.mAdd
  by_cases h1 : a.X = 0 ∧ a.Y = 0
  · rw [if_pos h1]; exact hinv
  rw [if_neg h1]
  by_cases h2 : p.ZZ = 0
  · rw [if_pos h2]; simp
  rw [if_neg h2]
  simp only
  by_cases h3 : a.X * p.ZZ = p.X ∧ a.Y * p.ZZZ = p.Y
  · rw [if_pos h3]; exact g2JacExtended.double_invariant a
  · rw [if_neg h3]
    simp only
    linear_combination (a.X * p.ZZ - p.X) ^ 6 * hinv

theorem g2JacExtended.double_represents {F : Type} [Field F] {b : F} {a : G2Affine F}
    {x y : F} (h : (W b).Nonsingular x y) (hx : a.X = x) (hy : a.Y = y) :
    (g2JacExtended.double a).Represents b (Affine.Point.some h + Affine.Point.some h) := by
  subst hx hy
  have hZZ : (g2JacExtended.double a).ZZ = (2 * a.Y) ^ 2 := rfl
  have hZZZ : (g2JacExtended.double a).ZZZ = (2 * a.Y) ^ 3 := by
    simp only [g2JacExtended.double]; ring
  by_cases hy : a.Y = (W b).negY a.X a.Y
  · left
    refine ⟨?_, Affine.Point.add_self_of_Y_eq hy⟩
    have : 2 * a.Y = 0 := by simp [W] at hy; linear_combination hy
    rw [hZZ, this]; simp
  · right
    have h2y : 2 * a.Y ≠ 0 := by
      intro h0; apply hy; simp [W]; linear_combination h0
    have h2 : (2 : F) ≠ 0 := left_ne_zero_of_mul h2y
    have hy0 : a.Y ≠ 0 := right_ne_zero_of_mul h2y
    refine ⟨by rw [hZZ]; exact pow_ne_zero 2 h2y, g2JacExtended.double_invariant a, ?_⟩
    rw [Affine.Point.add_self_of_Y_ne hy]
    have hs : (W b).slope a.X a.X a.Y a.Y = 3 * a.X ^ 2 / (2 * a.Y) := by
      rw [Affine.slope_of_Y_ne rfl hy]; simp [W]; congr 1; ring
    apply some_transport
    · rw [hZZ, eq_div_iff (pow_ne_zero 2 h2y), hs]
      simp only [g2JacExtended.double, Affine.addX, W]
      field_simp
      ring
    · rw [hZZZ, eq_div_iff (pow_ne_zero 3 h2y), hs]
      simp only [g2JacExtended.double, Affine.addY, Affine.negAddY, Affine.negY, Affine.addX, W]
      field_simp
      ring

theorem g2JacExtended.mAdd_represents {F : Type} [Field F] [DecidableEq F] {b : F}
    {p : g2JacExtended F} {a : G2Affine F} {P Q : (W b).Point} (hp : p.Represents b P)
    (ha : a.Represents b Q) : (p.mAdd a).Represents b (P + Q) := by
  unfold g2JacExtended.mAdd
  by_cases ha0 : a.X = 0 ∧ a.Y = 0
  · rw [if_pos ha0, bw761.G1Affine.represents_zero_g1Affine ha ha0, add_zero]; exact hp
  rw [if_neg ha0]
  obtain ⟨hn1, hQ⟩ := bw761.G1Affine.represents_elim_g1Affine ha ha0
  simp only [G2Affine.asG1] at hn1 hQ
  by_cases hpZ : p.ZZ = 0
  · rw [if_pos hpZ, g2JacExtended.represents_zero_xyzz hp hpZ, zero_add, hQ]
    refine Or.inr ⟨one_ne_zero, by simp, ?_⟩
    apply some_transport <;> simp
  rw [if_neg hpZ]
  rcases hp with ⟨h0, _⟩ | ⟨_, hinv, hn2, hP⟩
  · exact absurd h0 hpZ
  have hZZZ := g2JacExtended.represents_ZZZ_ne hinv hpZ
  rcases p with ⟨X2, Y2, ZZ, ZZZ⟩
  rcases a with ⟨x1, y1⟩
  simp only at hn1 hQ ha0 hn2 hP hinv hpZ hZZZ ⊢
  subst hP hQ
  obtain ⟨t, ht, hZZt, hZZZt⟩ : ∃ t : F, t ≠ 0 ∧ ZZ = t ^ 2 ∧ ZZZ = t ^ 3 := by
    refine ⟨ZZZ / ZZ, div_ne_zero hZZZ hpZ, ?_, ?_⟩
    · field_simp; linear_combination hinv
    · field_simp; linear_combination ZZZ * hinv
  subst hZZt hZZZt
  obtain ⟨x2, hx2⟩ : ∃ x2, X2 = x2 * t ^ 2 := ⟨X2 / t ^ 2, by field_simp⟩
  obtain ⟨y2, hy2⟩ : ∃ y2, Y2 = y2 * t ^ 3 := ⟨Y2 / t ^ 3, by field_simp⟩
  subst hx2 hy2
  have hU : x1 * t ^ 2 = x2 * t ^ 2 ↔ x1 = x2 :=
    ⟨fun h => mul_right_cancel₀ hpZ h, fun h => by rw [h]⟩
  have hS : y1 * t ^ 3 = y2 * t ^ 3 ↔ y1 = y2 :=
    ⟨fun h => mul_right_cancel₀ hZZZ h, fun h => by rw [h]⟩
  have e1 : x2 * t ^ 2 / t ^ 2 = x2 := by field_simp
  have e2 : y2 * t ^ 3 / t ^ 3 = y2 := by field_simp
  have hn2' : (W b).Nonsingular x2 y2 := by
    rw [e1, e2] at hn2; exact hn2
  have hsome : Affine.Point.some hn2 = Affine.Point.some hn2' := by
    obtain ⟨h', e⟩ := some_transport hn2 e1 e2
    exact e
  rw [hsome]
  by_cases hxy : x1 = x2 ∧ y1 = y2
  · rw [if_pos ⟨hU.mpr hxy.1, hS.mpr hxy.2⟩]
    obtain ⟨rfl, rfl⟩ := hxy
    exact g2JacExtended.double_represents hn1 rfl rfl
  rw [if_neg (fun h => hxy ⟨hU.mp h.1, hS.mp h.2⟩)]
  by_cases hx : x1 = x2
  · have hy : y1 ≠ y2 := fun h => hxy ⟨hx, h⟩
    have hneg : y2 = (W b).negY x1 y1 := by
      rcases Affine.Y_eq_of_X_eq hn2'.1 hn1.1 hx.symm with h | h
      · exact absurd h.symm hy
      · exact h
    refine Or.inl ⟨?_, Affine.Point.add_of_Y_eq hx.symm hneg⟩
    simp only [hx]; ring
  · have hd : x1 - x2 ≠ 0 := sub_ne_zero.mpr hx
    have hx' : x2 ≠ x1 := Ne.symm hx
    have hd' : x2 - x1 ≠ 0 := sub_ne_zero.mpr hx'
    have hP0 : x1 * t ^ 2 - x2 * t ^ 2 ≠ 0 := by
      have : x1 * t ^ 2 - x2 * t ^ 2 = (x1 - x2) * t ^ 2 := by ring
      rw [this]; exact mul_ne_zero hd hpZ
    have hZZ3 : t ^ 2 * (x1 * t ^ 2 - x2 * t ^ 2) ^ 2 ≠ 0 :=
      mul_ne_zero hpZ (pow_ne_zero 2 hP0)
    have hZZZ3 : t ^ 3 * ((x1 * t ^ 2 - x2 * t ^ 2) * (x1 * t ^ 2 - x2 * t ^ 2) ^ 2) ≠ 0 :=
      mul_ne_zero hZZZ (mul_ne_zero hP0 (pow_ne_zero 2 hP0))
    refine Or.inr ⟨hZZ3, by simp only; ring, ?_⟩
    rw [Affine.Point.add_of_X_ne hx']
    apply some_transport
    · rw [eq_div_iff hZZ3, Affine.slope_of_X_ne hx']
      simp only [Affine.addX, W]
      field_simp
      ring
    · rw [eq_div_iff hZZZ3, Affine.slope_of_X_ne hx']
      simp only [Affine.addY, Affine.negAddY, Affine.negY, Affine.addX, W]
      field_simp
      ring

theorem g2JacExtended.mAdd_opposite {F : Type} [Field F] [DecidableEq F] {b : F}
    {p : g2JacExtended F} {a : G2Affine F} {P Q : (W b).Point} (hp : p.Represents b P)
    (ha : a.Represents b Q) (hPQ : P + Q = 0) (hP : P ≠ 0) :
    (p.mAdd a).ZZ = 0 ∧ (p.mAdd a).ZZZ = 0 := by
  have hQ : Q ≠ 0 := by
    rintro rfl
    rw [add_zero] at hPQ
    exact hP hPQ
  have hZZ : (p.mAdd a).ZZ = 0 := by
    have := g2JacExtended.mAdd_represents hp ha
    rw [hPQ] at this
    exact (g2JacExtended.represents_ZZ_iff this).mpr rfl
  refine ⟨hZZ, ?_⟩
  have hpZ : p.ZZ ≠ 0 := fun h => hP (g2JacExtended.represents_zero_xyzz hp h)
  have ha0 : ¬ (a.X = 0 ∧ a.Y = 0) := fun h => hQ (bw761.G1Affine.represents_zero_g1Affine ha h)
  have hinv : p.ZZ ^ 3 = p.ZZZ ^ 2 := by
    rcases hp with ⟨h0, _⟩ | ⟨_, hinv, _⟩
    · exact absurd h0 hpZ
    · exact hinv
  have := g2JacExtended.mAdd_invariant p a hinv
  rw [hZZ] at this
  have h0 : (p.mAdd a).ZZZ ^ 2 = 0 := by rw [← this]; simp
  exact pow_eq_zero_iff (two_ne_zero) |>.mp h0

theorem g2JacExtended.ToJac_represents {F : Type} [Field F] {b : F} {p : g2JacExtended F}
    {P : (W b).Point} (hp : p.Represents b P) (hinv : p.ZZ ^ 3 = p.ZZZ ^ 2) :
    p.ToJac.Represents b P := by
  rcases hp with ⟨h0, rfl⟩ | ⟨hZZ, _, h, rfl⟩
  · left
    refine ⟨?_, rfl⟩
    have : p.ZZZ ^ 2 = 0 := by rw [← hinv, h0]; simp
    exact pow_eq_zero_iff (two_ne_zero) |>.mp this
  · have hZZZ := g2JacExtended.represents_ZZZ_ne hinv hZZ
    right
    refine ⟨hZZZ, ?_⟩
    apply some_transport
    · simp only [g2JacExtended.ToJac, G2Jac.asG1]
      rw [div_eq_div_iff hZZ (pow_ne_zero 2 hZZZ)]
      linear_combination (-p.X) * hinv
    · simp only [g2JacExtended.ToJac, G2Jac.asG1]
      rw [div_eq_div_iff hZZZ (pow_ne_zero 3 hZZZ)]
      ring

end bn256

/-! ## Scalar multiplication on a single point -/

namespace bw761

open Curve

theorem g1Infinity_represents {F : Type} [Field F] (b : F) :
    (g1Infinity : G1Jac F).Represents b 0 :=
  Or.inl ⟨rfl, rfl⟩

theorem G1Jac.Double_represents {F : Type} [Field F] {b : F} {p : G1Jac F}
    {P : (W b).Point} (hp : p.Represents b P) : (G1Jac.Double p).Represents b (P + P) :=
  G1Jac.DoubleAssign_represents_g1Jac hp

set_option maxRecDepth 100000 in
theorem window_sum : ∀ w < 256,
    64 * ((w &&& 0xc0) >>> 6) + 16 * ((w &&& (0xc0 >>> 2)) >>> 4) +
      4 * ((w &&& (0xc0 >>> 2 >>> 2)) >>> 2) + ((w &&& (0xc0 >>> 2 >>> 2 >>> 2)) >>> 0) = w := by
  decide

set_option maxRecDepth 100000 in
theorem window_le : ∀ w < 256,
    (w &&& 0xc0) >>> 6 ≤ 3 ∧ (w &&& (0xc0 >>> 2)) >>> 4 ≤ 3 ∧
      (w &&& (0xc0 >>> 2 >>> 2)) >>> 2 ≤ 3 ∧ (w &&& (0xc0 >>> 2 >>> 2 >>> 2)) >>> 0 ≤ 3 := by
  decide

/-- The table `ops` holds `c • A` at index `c - 1` for `c = 1, 2, 3`. -/
theorem mulWindowed_ops {F : Type} [Field F] [DecidableEq F] {b : F} (h2 : (2 : F) ≠ 0)
    {a : G1Jac F} {A : (W b).Point} (ha : a.Represents b A) (c : Nat) (h1 : c ≠ 0)
    (h3 : c ≤ 3) :
    (([a, G1Jac.Double a, a.AddAssign (G1Jac.Double a)] : List (G1Jac F)).getD (c - 1)
      g1Infinity).Represents b (c • A) := by
  have hd := G1Jac.Double_represents ha
  have ht := G1Jac.AddAssign_represents_g1Jac h2 ha hd
  interval_cases c
  · exact absurd rfl h1
  · simpa using ha
  · simpa [two_nsmul] using hd
  · have e : 3 • A = A + (A + A) := by rw [succ_nsmul, two_nsmul, add_comm]
    simpa [e] using ht

theorem mulWindowedStep_represents {F : Type} [Field F] [DecidableEq F] {b : F}
    (h2 : (2 : F) ≠ 0) {a : G1Jac F} {A : (W b).Point} (ha : a.Represents b A)
    {res : G1Jac F} {N : Nat} (hres : res.Represents b (N • A)) (w mask j : Nat)
    (hc : (w &&& mask) >>> (6 - 2 * j) ≤ 3) :
    (mulWindowedStep [a, G1Jac.Double a, a.AddAssign (G1Jac.Double a)] w (res, mask) j).1.Represents
        b ((4 * N + (w &&& mask) >>> (6 - 2 * j)) • A) ∧
      (mulWindowedStep [a, G1Jac.Double a, a.AddAssign (G1Jac.Double a)] w (res, mask) j).2 =
        mask >>> 2 := by
  refine ⟨?_, rfl⟩
  have hd := G1Jac.DoubleAssign_represents_g1Jac (G1Jac.DoubleAssign_represents_g1Jac hres)
  have e4 : N • A + N • A + (N • A + N • A) = (4 * N) • A := by
    rw [← add_nsmul, ← add_nsmul]; congr 1; omega
  rw [e4] at hd
  unfold mulWindowedStep
  simp only
  by_cases h0 : (w &&& mask) >>> (6 - 2 * j) = 0
  · rw [if_neg (by simpa using h0), h0, add_zero]
    exact hd
  · rw [if_pos h0, add_nsmul]
    exact G1Jac.AddAssign_represents_g1Jac h2 hd (mulWindowed_ops h2 ha _ h0 hc)

theorem mulWindowed_byte_represents {F : Type} [Field F] [DecidableEq F] {b : F}
    (h2 : (2 : F) ≠ 0) {a : G1Jac F} {A : (W b).Point} (ha : a.Represents b A)
    {res : G1Jac F} {N : Nat} (hres : res.Represents b (N • A)) (w : Nat) (hw : w < 256) :
    ((List.range 4).foldl
        (mulWindowedStep [a, G1Jac.Double a, a.AddAssign (G1Jac.Double a)] w)
        (res, 0xc0)).1.Represents b ((256 * N + w) • A) := by
  have hr : List.range 4 = [0, 1, 2, 3] := by decide
  obtain ⟨l0, l1, l2, l3⟩ := window_le w hw
  rw [hr]
  simp only [List.foldl_cons, List.foldl_nil]
  obtain ⟨r0, m0⟩ := mulWindowedStep_represents h2 ha hres w 0xc0 0 l0
  generalize mulWindowedStep [a, G1Jac.Double a, a.AddAssign (G1Jac.Double a)] w (res, 0xc0) 0
    = s0 at r0 m0
  obtain ⟨p0, k0⟩ := s0
  simp only at r0 m0
  subst m0
  obtain ⟨r1, m1⟩ := mulWindowedStep_represents h2 ha r0 w (0xc0 >>> 2) 1 l1
  generalize mulWindowedStep [a, G1Jac.Double a, a.AddAssign (G1Jac.Double a)] w
    (p0, 0xc0 >>> 2) 1 = s1 at r1 m1
  obtain ⟨p1, k1⟩ := s1
  simp only at r1 m1
  subst m1
  obtain ⟨r2, m2⟩ := mulWindowedStep_represents h2 ha r1 w (0xc0 >>> 2 >>> 2) 2 l2
  generalize mulWindowedStep [a, G1Jac.Double a, a.AddAssign (G1Jac.Double a)] w
    (p1, 0xc0 >>> 2 >>> 2) 2 = s2 at r2 m2
  obtain ⟨p2, k2⟩ := s2
  simp only at r2 m2
  subst m2
  obtain ⟨r3, _⟩ := mulWindowedStep_represents h2 ha r2 w (0xc0 >>> 2 >>> 2 >>> 2) 3 l3
  have hs := window_sum w hw
  have e : 4 * (4 * (4 * (4 * N + (w &&& 0xc0) >>> (6 - 2 * 0)) +
      (w &&& (0xc0 >>> 2)) >>> (6 - 2 * 1)) + (w &&& (0xc0 >>> 2 >>> 2)) >>> (6 - 2 * 2)) +
      (w &&& (0xc0 >>> 2 >>> 2 >>> 2)) >>> (6 - 2 * 3) = 256 * N + w := by
    have e0 : 6 - 2 * 0 = 6 := rfl
    have e1 : 6 - 2 * 1 = 4 := rfl
    have e2 : 6 - 2 * 2 = 2 := rfl
    have e3 : 6 - 2 * 3 = 0 := rfl
    rw [e0, e1, e2, e3]
    omega
  rw [e] at r3
  exact r3

theorem mulWindowed_bytes_represents {F : Type} [Field F] [DecidableEq F] {b : F}
    (h2 : (2 : F) ≠ 0) {a : G1Jac F} {A : (W b).Point} (ha : a.Represents b A)
    (bytes : List Nat) (hb : ∀ w ∈ bytes, w < 256) (res : G1Jac F) (N : Nat)
    (hres : res.Represents b (N • A)) :
    (bytes.foldl
        (fun res w => ((List.range 4).foldl
          (mulWindowedStep [a, G1Jac.Double a, a.AddAssign (G1Jac.Double a)] w)
          (res, 0xc0)).1) res).Represents b
      ((bytes.foldl (fun acc w => 256 * acc + w) N) • A) := by
  induction bytes generalizing res N with
  | nil => simpa using hres
  | cons w ws ih =>
    simp only [List.foldl_cons]
    apply ih (fun x hx => hb x (List.mem_cons_of_mem _ hx))
    exact mulWindowed_byte_represents h2 ha hres w (hb w (List.mem_cons_self _ _))

theorem foldl_bytes_ofDigits (ds : List Nat) (N : Nat) :
    (ds.reverse).foldl (fun acc w => 256 * acc + w) N
      = Nat.ofDigits 256 ds + 256 ^ ds.length * N := by
  induction ds generalizing N with
  | nil => simp
  | cons d ds ih =>
    simp only [List.reverse_cons, List.foldl_append, List.foldl_cons, List.foldl_nil, ih,
      Nat.ofDigits_cons, List.length_cons]
    ring

theorem bigIntBytes_value (s : Int) :
    (bigIntBytes s).foldl (fun acc w => 256 * acc + w) 0 = s.natAbs := by
  unfold bigIntBytes
  rw [foldl_bytes_ofDigits, Nat.ofDigits_digits]
  simp

theorem bigIntBytes_lt (s : Int) : ∀ w ∈ bigIntBytes s, w < 256 := by
  intro w hw
  unfold bigIntBytes at hw
  rw [List.mem_reverse] at hw
  exact Nat.digits_lt_base (by norm_num) hw

theorem G1Jac.mulWindowed_represents {F : Type} [Field F] [DecidableEq F] {b : F}
    (h2 : (2 : F) ≠ 0) {a : G1Jac F} {A : (W b).Point} (ha : a.Represents b A) (s : Int) :
    (G1Jac.mulWindowed a s).Represents b (s.natAbs • A) := by
  unfold G1Jac.mulWindowed
  simp only
  have h0 : (g1Infinity : G1Jac F).Represents b (0 • A) := by
    rw [zero_nsmul]; exact g1Infinity_represents b
  have := mulWindowed_bytes_represents h2 ha (bigIntBytes s) (bigIntBytes_lt s) g1Infinity 0 h0
  rw [bigIntBytes_value] at this
  exact this

end bw761

/-! ## Loops and windows -/

namespace Curve

theorem foldl_range_induction {α : Type} (f : α → Nat → α) (I : Nat → α → Prop) (n : Nat)
    (init : α) (h0 : I 0 init) (hstep : ∀ m a, m < n → I m a → I (m + 1) (f a m)) :
    I n ((List.range n).foldl f init) := by
  induction n with
  | zero => simpa using h0
  | succ n ih =>
    rw [List.range_succ, List.foldl_append]
    simp only [List.foldl_cons, List.foldl_nil]
    apply hstep n _ (Nat.lt_succ_self n)
    exact ih (fun m a hm => hstep m a (Nat.lt_succ_of_lt hm))

theorem foldl_range_reverse_induction {α : Type} (f : α → Nat → α) (J : Nat → α → Prop)
    (n : Nat) (init : α) (h0 : J n init) (hstep : ∀ m a, m < n → J (m + 1) a → J m (f a m)) :
    J 0 ((List.range n).reverse.foldl f init) := by
  induction n generalizing init with
  | zero => simpa using h0
  | succ n ih =>
    rw [List.range_succ, List.reverse_append]
    simp only [List.reverse_cons, List.reverse_nil, List.nil_append, List.singleton_append,
      List.foldl_cons]
    apply ih
    · exact hstep n init (Nat.lt_succ_self n) h0
    · intro m a hm h
      exact hstep m a (Nat.lt_succ_of_lt hm) h

theorem getD_set_eq {α : Type} (l : List α) (i : Nat) (a d : α) (h : i < l.length) :
    (l.set i a).getD i d = a := by
  rw [List.getD_eq_getElem?_getD, List.getElem?_set_self (by simpa using h)]
  rfl

theorem getD_set_ne {α : Type} (l : List α) (i j : Nat) (a d : α) (h : i ≠ j) :
    (l.set i a).getD j d = l.getD j d := by
  rw [List.getD_eq_getElem?_getD, List.getElem?_set_ne h, List.getD_eq_getElem?_getD]

theorem getD_replicate {α : Type} (n i : Nat) (a d : α) (h : i < n) :
    (List.replicate n a).getD i d = a := by
  rw [List.getD_eq_getElem?_getD, List.getElem?_replicate, if_pos h]
  rfl

theorem shiftRight_land (x y i : Nat) : (x &&& y) >>> i = (x >>> i) &&& (y >>> i) := by
  apply Nat.eq_of_testBit_eq
  intro j
  simp [Nat.testBit_shiftRight, Nat.testBit_and]

theorem window_eq (x sh c : Nat) :
    (x &&& (((1 <<< c) - 1) <<< sh)) >>> sh = (x / 2 ^ sh) % 2 ^ c := by
  rw [shiftRight_land, Nat.shiftLeft_shiftRight, Nat.shiftRight_eq_div_pow, Nat.one_shiftLeft]
  exact Nat.and_pow_two_sub_one_eq_mod _ c

theorem digit_sum (B v n : Nat) :
    ∑ k ∈ Finset.range n, B ^ k * ((v / B ^ k) % B) = v % B ^ n := by
  induction n with
  | zero => simp [Nat.mod_one]
  | succ n ih =>
    rw [Finset.sum_range_succ, ih, Nat.mod_pow_succ]

end Curve

namespace bn256

open Curve

theorem elementValue_lt {e : Element} (he : elementWF e) : elementValue e < 2 ^ 256 := by
  obtain ⟨hl, hlt⟩ := he
  unfold elementValue
  have := Nat.ofDigits_lt_base_pow_length (b := 2 ^ 64) (by norm_num) hlt
  rw [hl] at this
  calc Nat.ofDigits (2 ^ 64) e < (2 ^ 64) ^ ElementLimbs := this
    _ = 2 ^ 256 := by norm_num [ElementLimbs]

theorem elementWF_limb {e : Element} (he : elementWF e) (i : Nat) (hi : i < 4) :
    e.getD i 0 = elementValue e / 2 ^ (64 * i) % 2 ^ 64 := by
  obtain ⟨hl, hlt⟩ := he
  match e, hl with
  | [l0, l1, l2, l3], _ =>
    have h0 := hlt l0 (by simp)
    have h1 := hlt l1 (by simp)
    have h2 := hlt l2 (by simp)
    have h3 := hlt l3 (by simp)
    simp only [elementValue, Nat.ofDigits_cons, Nat.ofDigits_nil]
    norm_num at h0 h1 h2 h3 ⊢
    interval_cases i <;> simp <;> omega

/-- The window that `pippenger` (s = b = 4) selects at index k is the k-th base-16 digit of the
value of the scalar. -/
theorem pippenger_selector {e : Element} (he : elementWF e) (k : Nat) (hk : k < 64) :
    (e.getD (k * 4 / 64) 0 &&& ((((1 <<< 4) - 1) <<< (k * 4 - k * 4 / 64 * 64)) % 2 ^ 64)) >>>
        (k * 4 - k * 4 / 64 * 64) = (elementValue e / 16 ^ k) % 16 := by
  have hi : k * 4 / 64 < 4 := by omega
  have hsh : k * 4 - k * 4 / 64 * 64 ≤ 60 := by omega
  have hsum : 64 * (k * 4 / 64) + (k * 4 - k * 4 / 64 * 64) = 4 * k := by omega
  generalize k * 4 / 64 = i at hi hsh hsum
  generalize k * 4 - i * 64 = sh at hsh hsum
  have hmask : (((1 <<< 4) - 1) <<< sh) % 2 ^ 64 = ((1 <<< 4) - 1) <<< sh := by
    apply Nat.mod_eq_of_lt
    rw [Nat.shiftLeft_eq]
    calc (1 <<< 4 - 1) * 2 ^ sh ≤ 15 * 2 ^ 60 :=
          Nat.mul_le_mul (by decide) (Nat.pow_le_pow_right (by norm_num) hsh)
      _ < 2 ^ 64 := by norm_num
  rw [hmask, window_eq, elementWF_limb he i hi]
  have e64 : (2 : Nat) ^ 64 = 2 ^ sh * 2 ^ (64 - sh) := by
    rw [← pow_add]; congr 1; omega
  have e16 : (16 : Nat) ^ k = 2 ^ (64 * i) * 2 ^ sh := by
    rw [← pow_add, hsum, pow_mul]; norm_num
  have hdvd : (2 : Nat) ^ 4 ∣ 2 ^ (64 - sh) := pow_dvd_pow 2 (by omega)
  rw [e64, Nat.mod_mul_right_div_self, Nat.mod_mod_of_dvd _ hdvd, Nat.div_div_eq_div_mul,
    ← e16]
  norm_num

theorem elementValue_digits {e : Element} (he : elementWF e) :
    ∑ k ∈ Finset.range 64, 16 ^ k * ((elementValue e / 16 ^ k) % 16) = elementValue e := by
  rw [digit_sum, Nat.mod_eq_of_lt]
  calc elementValue e < 2 ^ 256 := elementValue_lt he
    _ = 16 ^ 64 := by norm_num

end bn256

/-! ## The windowed (Bootle) variant of Pippenger -/

namespace bn256

open Curve

theorem computeT_step {F : Type} [Field F] [DecidableEq F] {b : F} (h2 : (2 : F) ≠ 0)
    {P : (W b).Point} (T : List (G2Jac F)) (j : Nat) (hodd : j % 2 = 1) (hj : j + 1 < 15)
    (hT : tableUpTo b P T j) : tableUpTo b P (computeTStep T j) (j + 2) := by
  unfold computeTStep
  simp only
  obtain ⟨hlen, hrep⟩ := hT
  have hjlen : j < T.length := by omega
  -- the table after the first write
  have h1 : tableUpTo b P (T.set j (T.getD (j / 2) ⟨0, 0, 0⟩).DoubleAssign) (j + 1) := by
    refine ⟨by rw [List.length_set]; exact hlen, ?_⟩
    intro i hi
    by_cases hij : i = j
    · subst hij
      rw [getD_set_eq _ _ _ _ hjlen]
      have := G2Jac.DoubleAssign_represents_g2Jac (hrep (i / 2) (by omega))
      rw [← add_nsmul] at this
      have e : i / 2 + 1 + (i / 2 + 1) = i + 1 := by omega
      rw [e] at this
      exact this
    · rw [getD_set_ne _ _ _ _ _ (Ne.symm hij)]
      exact hrep i (by omega)
  generalize T.set j (T.getD (j / 2) ⟨0, 0, 0⟩).DoubleAssign = T1 at h1
  obtain ⟨hlen1, hrep1⟩ := h1
  refine ⟨by rw [List.length_set]; exact hlen1, ?_⟩
  intro i hi
  by_cases hij : i = j + 1
  · subst hij
    rw [getD_set_eq _ _ _ _ (by omega)]
    have := G2Jac.AddAssign_represents_g2Jac h2 (hrep1 ((j + 1) / 2) (by omega))
      (hrep1 (j / 2) (by omega))
    rw [← add_nsmul] at this
    have e : (j + 1) / 2 + 1 + (j / 2 + 1) = j + 1 + 1 := by omega
    rw [e] at this
    exact this
  · rw [getD_set_ne _ _ _ _ _ (Ne.symm hij)]
    exact hrep1 i (by omega)

theorem computeT_represents {F : Type} [Field F] [DecidableEq F] {b : F} (h2 : (2 : F) ≠ 0)
    {P : (W b).Point} (T : List (G2Jac F)) (hT : T.length = 15) {t0 : G2Jac F}
    (ht0 : t0.Represents b P) : tableUpTo b P (computeT 4 T t0) 15 := by
  have hf : (List.range ((1 <<< 4) - 1)).filter (fun j => decide (j % 2 = 1))
      = [1, 3, 5, 7, 9, 11, 13] := by rfl
  have h0 : tableUpTo b P (T.set 0 t0) 1 := by
    refine ⟨by rw [List.length_set]; exact hT, ?_⟩
    intro i hi
    have : i = 0 := by omega
    subst this
    rw [getD_set_eq _ _ _ _ (by omega)]
    simpa using ht0
  unfold computeT
  simp only [hf, List.foldl_cons, List.foldl_nil]
  generalize T.set 0 t0 = T0 at h0
  have s1 := computeT_step h2 _ 1 rfl (by norm_num) h0
  have s3 := computeT_step h2 _ 3 rfl (by norm_num) s1
  have s5 := computeT_step h2 _ 5 rfl (by norm_num) s3
  have s7 := computeT_step h2 _ 7 rfl (by norm_num) s5
  have s9 := computeT_step h2 _ 9 rfl (by norm_num) s7
  have s11 := computeT_step h2 _ 11 rfl (by norm_num) s9
  exact computeT_step h2 _ 13 rfl (by norm_num) s11

/-- One window: `pippengerSelect` adds `digit • P` to `morePoints[k]` and leaves the other
entries unchanged. -/
theorem pippengerSelect_spec {F : Type} [Field F] [DecidableEq F] {b : F} (h2 : (2 : F) ≠ 0)
    {P : (W b).Point} {T : List (G2Jac F)} (hT : tableUpTo b P T 15) {e : Element}
    (he : elementWF e) (mp : List (G2Jac F)) (k : Nat) (hk : k < 64) (hlen : mp.length = 64)
    {M : (W b).Point} (hM : (mp.getD k ⟨0, 0, 0⟩).Represents b M) :
    (pippengerSelect 4 ((1 <<< 4) - 1) T e mp k).length = 64 ∧
      ((pippengerSelect 4 ((1 <<< 4) - 1) T e mp k).getD k ⟨0, 0, 0⟩).Represents b
        (M + ((elementValue e / 16 ^ k) % 16) • P) ∧
      ∀ i, i ≠ k → (pippengerSelect 4 ((1 <<< 4) - 1) T e mp k).getD i ⟨0, 0, 0⟩
        = mp.getD i ⟨0, 0, 0⟩ := by
  unfold pippengerSelect
  simp only
  rw [pippenger_selector he k hk]
  have hd : (elementValue e / 16 ^ k) % 16 < 16 := Nat.mod_lt _ (by norm_num)
  generalize (elementValue e / 16 ^ k) % 16 = d at hd
  by_cases h0 : d = 0
  · rw [if_neg (by simpa using h0), h0, zero_nsmul, add_zero]
    exact ⟨hlen, hM, fun _ _ => rfl⟩
  · rw [if_pos h0]
    refine ⟨by rw [List.length_set]; exact hlen, ?_, ?_⟩
    · rw [getD_set_eq _ _ _ _ (by omega)]
      have hTd := hT.2 (d - 1) (by omega)
      have e1 : d - 1 + 1 = d := by omega
      rw [e1] at hTd
      exact G2Jac.AddAssign_represents_g2Jac h2 hM hTd
    · intro i hi
      rw [getD_set_ne _ _ _ _ _ (Ne.symm hi)]

/-- All 64 windows of one scalar. -/
theorem pippenger_inner {F : Type} [Field F] [DecidableEq F] {b : F} (h2 : (2 : F) ≠ 0)
    {P : (W b).Point} {T : List (G2Jac F)} (hT : tableUpTo b P T 15) {e : Element}
    (he : elementWF e) (mp : List (G2Jac F)) (hlen : mp.length = 64) (M : Nat → (W b).Point)
    (hM : ∀ k < 64, (mp.getD k ⟨0, 0, 0⟩).Represents b (M k)) :
    ((List.range 64).foldl (pippengerSelect 4 ((1 <<< 4) - 1) T e) mp).length = 64 ∧
      ∀ k < 64, (((List.range 64).foldl (pippengerSelect 4 ((1 <<< 4) - 1) T e) mp).getD k
        ⟨0, 0, 0⟩).Represents b (M k + ((elementValue e / 16 ^ k) % 16) • P) := by
  have key := foldl_range_induction (pippengerSelect 4 ((1 <<< 4) - 1) T e)
    (fun m (mp' : List (G2Jac F)) => mp'.length = 64 ∧
      (∀ k < 64, k < m → (mp'.getD k ⟨0, 0, 0⟩).Represents b
        (M k + ((elementValue e / 16 ^ k) % 16) • P)) ∧
      (∀ k < 64, m ≤ k → (mp'.getD k ⟨0, 0, 0⟩).Represents b (M k)))
    64 mp ⟨hlen, fun k _ hk => absurd hk (Nat.not_lt_zero k), fun k hk _ => hM k hk⟩
    (by
      intro m mp' hm ⟨hl, hdone, htodo⟩
      obtain ⟨hl', hk', hother⟩ := pippengerSelect_spec h2 hT he mp' m hm hl (htodo m hm le_rfl)
      refine ⟨hl', ?_, ?_⟩
      · intro k hk hkm
        by_cases hkm' : k = m
        · subst hkm'; exact hk'
        · rw [hother k hkm']; exact hdone k hk (by omega)
      · intro k hk hkm
        rw [hother k (by omega)]; exact htodo k hk (by omega))
  exact ⟨key.1, fun k hk => key.2.1 k hk hk⟩

end bn256

namespace bn256

open Curve

theorem doublings_represent {F : Type} [Field F] {b : F} {p : G2Jac F} {P : (W b).Point}
    (hp : p.Represents b P) (s : Nat) :
    ((List.range s).foldl (fun p _ => p.DoubleAssign) p).Represents b (2 ^ s • P) := by
  apply foldl_range_induction (fun (p : G2Jac F) (_ : Nat) => p.DoubleAssign)
    (fun m (q : G2Jac F) => q.Represents b (2 ^ m • P))
  · simpa using hp
  · intro m a _ ha
    have := G2Jac.DoubleAssign_represents_g2Jac ha
    rw [← add_nsmul] at this
    have e : 2 ^ m + 2 ^ m = 2 ^ (m + 1) := by ring
    rw [e] at this
    exact this

theorem pippengerCombine_represents {F : Type} [Field F] [DecidableEq F] {b : F}
    (h2 : (2 : F) ≠ 0) (s : Nat) {mp : List (G2Jac F)} {p : G2Jac F} {P M : (W b).Point}
    (k : Nat) (hp : p.Represents b P) (hM : (mp.getD k ⟨0, 0, 0⟩).Represents b M) :
    (pippengerCombine s mp p k).Represents b (2 ^ s • P + M) := by
  unfold pippengerCombine
  exact G2Jac.AddAssign_represents_g2Jac h2 (doublings_represent hp s) hM

/-- The final loop of `pippenger`: the windows are combined most significant first. -/
theorem pippenger_combine {F : Type} [Field F] [DecidableEq F] {b : F} (h2 : (2 : F) ≠ 0)
    (s t : Nat) (mp : List (G2Jac F)) (M : Nat → (W b).Point)
    (hM : ∀ k < t + 1, (mp.getD k ⟨0, 0, 0⟩).Represents b (M k)) :
    ((List.range t).reverse.foldl (pippengerCombine s mp) (mp.getD t ⟨0, 0, 0⟩)).Represents b
      (∑ k ∈ Finset.range (t + 1), (2 ^ s) ^ k • M k) := by
  have key := foldl_range_reverse_induction (pippengerCombine s mp)
    (fun m (p : G2Jac F) => m ≤ t →
      p.Represents b (∑ k ∈ Finset.range (t + 1 - m), (2 ^ s) ^ k • M (m + k)))
    t (mp.getD t ⟨0, 0, 0⟩)
    (by
      intro _
      have e : t + 1 - t = 1 := by omega
      rw [e]
      simpa using hM t (Nat.lt_succ_self t))
    (by
      intro m p hm hp _
      have h1 := pippengerCombine_represents h2 s m (hp (by omega)) (hM m (by omega))
      have e : t + 1 - m = (t + 1 - (m + 1)) + 1 := by omega
      rw [e, Finset.sum_range_succ']
      simp only [pow_zero, one_smul, add_zero]
      have e2 : ∀ k, 2 ^ s • (2 ^ s) ^ k • M (m + 1 + k) = (2 ^ s) ^ (k + 1) • M (m + (k + 1)) := by
        intro k
        have hidx : m + 1 + k = m + (k + 1) := by omega
        rw [hidx, ← mul_nsmul', ← pow_succ']
      rw [Finset.smul_sum] at h1
      simp only [e2] at h1
      exact h1)
  simpa using key (Nat.zero_le t)

theorem pippenger_represents {F : Type} [Field F] [DecidableEq F] {b : F} (h2 : (2 : F) ≠ 0)
    (points : List (G2Jac F)) (scalars : List Element) (Ps : Nat → (W b).Point)
    (hP : ∀ i < points.length, (points.getD i ⟨0, 0, 0⟩).Represents b (Ps i))
    (hS : ∀ i < points.length, elementWF (scalars.getD i []))
    (T : List (G2Jac F)) (hT : T.length = 15) :
    (G2Jac.pippenger points scalars 4 4 T (computeT 4)).Represents b
      (∑ i ∈ Finset.range points.length, elementValue (scalars.getD i []) • Ps i) := by
  unfold G2Jac.pippenger
  have ht : ElementLimbs * 64 / 4 = 64 := by rfl
  simp only [ht]
  -- the loop over the points
  have outer := foldl_range_induction
    (pippengerPoint points scalars 4 ((1 <<< 4) - 1) 64 (computeT 4))
    (fun m (st : List (G2Jac F) × List (G2Jac F)) => st.1.length = 15 ∧ st.2.length = 64 ∧
      ∀ k < 64, (st.2.getD k ⟨0, 0, 0⟩).Represents b
        (∑ i ∈ Finset.range m, ((elementValue (scalars.getD i []) / 16 ^ k) % 16) • Ps i))
    points.length (T, List.replicate 64 g2Infinity)
    (by
      refine ⟨hT, by simp, ?_⟩
      intro k hk
      rw [getD_replicate _ _ _ _ hk]
      simpa using g2Infinity_represents b)
    (by
      intro m st hm ⟨hl1, hl2, hrep⟩
      unfold pippengerPoint
      simp only
      have hT' := computeT_represents h2 st.1 hl1 (hP m hm)
      obtain ⟨hl, hk⟩ := pippenger_inner h2 hT' (hS m hm) st.2 hl2 _ hrep
      refine ⟨hT'.1, hl, ?_⟩
      intro k hk'
      rw [Finset.sum_range_succ]
      exact hk k hk')
  generalize (List.range points.length).foldl
    (pippengerPoint points scalars 4 ((1 <<< 4) - 1) 64 (computeT 4))
    (T, List.replicate 64 g2Infinity) = st at outer
  obtain ⟨_, _, hrep⟩ := outer
  have hfin := pippenger_combine h2 4 63 st.2 _ hrep
  have e63 : 64 - 1 = 63 := rfl
  rw [e63]
  have hsum : (∑ k ∈ Finset.range (63 + 1), (2 ^ 4) ^ k •
      ∑ i ∈ Finset.range points.length,
        ((elementValue (scalars.getD i []) / 16 ^ k) % 16) • Ps i)
      = ∑ i ∈ Finset.range points.length, elementValue (scalars.getD i []) • Ps i := by
    simp only [Finset.smul_sum]
    rw [Finset.sum_comm]
    apply Finset.sum_congr rfl
    intro i hi
    have hi' : i < points.length := Finset.mem_range.mp hi
    have hd := elementValue_digits (hS i hi')
    simp only [← mul_nsmul']
    rw [← Finset.sum_smul]
    have e16 : (2 : ℕ) ^ 4 = 16 := by norm_num
    have e64 : 63 + 1 = 64 := rfl
    rw [e16, e64, hd]
  rw [hsum] at hfin
  exact hfin

end bn256

namespace bn256

open Curve

theorem multiExp_represents {F : Type} [Field F] [DecidableEq F] {b : F} (h2 : (2 : F) ≠ 0)
    (points : List (G2Jac F)) (scalars : List Element) (Ps : Nat → (W b).Point)
    (hP : ∀ i < points.length, (points.getD i ⟨0, 0, 0⟩).Represents b (Ps i))
    (hS : ∀ i < points.length, elementWF (scalars.getD i [])) :
    (G2Jac.multiExp points scalars).Represents b
      (∑ i ∈ Finset.range points.length, elementValue (scalars.getD i []) • Ps i) :=
  pippenger_represents h2 points scalars Ps hP hS _ (by rfl)

theorem ScalarMul_represents {F : Type} [Field F] [DecidableEq F] {b : F} (h2 : (2 : F) ≠ 0)
    {a : G2Jac F} {A : (W b).Point} (ha : a.Represents b A) {scalar : Element}
    (hs : elementWF scalar) :
    (G2Jac.ScalarMul a scalar).Represents b (elementValue scalar • A) := by
  have := pippenger_represents h2 [a] [scalar] (fun _ => A)
    (by intro i hi; have : i = 0 := by simpa using hi
        subst this; simpa using ha)
    (by intro i hi; have : i = 0 := by simpa using hi
        subst this; simpa using hs)
    (List.replicate ((1 <<< 4) - 1) ⟨0, 0, 0⟩) (by rfl)
  simpa [G2Jac.ScalarMul] using this

theorem getD_take_drop {α : Type} (l : List α) (s e i : Nat) (d : α) (h : s + i < e) :
    ((l.take e).drop s).getD i d = l.getD (s + i) d := by
  rw [List.getD_eq_getElem?_getD, List.getD_eq_getElem?_getD, List.getElem?_drop,
    List.getElem?_take_of_lt h]

/-- The partial sum a worker of `WindowedMultiExp` computes on its range `[s, e)`. -/
theorem multiExp_slice_represents {F : Type} [Field F] [DecidableEq F] {b : F}
    (h2 : (2 : F) ≠ 0) (points : List (G2Jac F)) (scalars : List Element)
    (Ps : Nat → (W b).Point)
    (hP : ∀ i < points.length, (points.getD i ⟨0, 0, 0⟩).Represents b (Ps i))
    (hS : ∀ i < points.length, elementWF (scalars.getD i []))
    (s e : Nat) (hse : s ≤ e) (he : e ≤ points.length) :
    (G2Jac.multiExp ((points.take e).drop s) ((scalars.take e).drop s)).Represents b
      (∑ i ∈ Finset.Ico s e, elementValue (scalars.getD i []) • Ps i) := by
  have hlen : ((points.take e).drop s).length = e - s := by
    rw [List.length_drop, List.length_take, Nat.min_eq_left he]
  have := multiExp_represents h2 ((points.take e).drop s) ((scalars.take e).drop s)
    (fun i => Ps (s + i))
    (by
      intro i hi
      rw [hlen] at hi
      rw [getD_take_drop _ _ _ _ _ (by omega)]
      exact hP _ (by omega))
    (by
      intro i hi
      rw [hlen] at hi
      rw [getD_take_drop _ _ _ _ _ (by omega)]
      exact hS _ (by omega))
  rw [hlen] at this
  rw [Finset.sum_Ico_eq_sum_range]
  have e2 : ∀ i ∈ Finset.range (e - s),
      elementValue (((scalars.take e).drop s).getD i []) • Ps (s + i)
        = elementValue (scalars.getD (s + i) []) • Ps (s + i) := by
    intro i hi
    rw [getD_take_drop _ _ _ _ _ (by have := Finset.mem_range.mp hi; omega)]
  rw [Finset.sum_congr rfl e2] at this
  exact this

/-- What `WindowedMultiExp` computes: the partial sums of the workers are added to the value
the receiver `p` held before the call. -/
theorem WindowedMultiExp_represents {F : Type} [Field F] [DecidableEq F] {b : F}
    (h2 : (2 : F) ≠ 0) (points : List (G2Jac F)) (scalars : List Element)
    (Ps : Nat → (W b).Point)
    (hP : ∀ i < points.length, (points.getD i ⟨0, 0, 0⟩).Represents b (Ps i))
    (hS : ∀ i < points.length, elementWF (scalars.getD i []))
    (chunks : List (Nat × Nat)) (hc : ∀ se ∈ chunks, se.1 ≤ se.2 ∧ se.2 ≤ points.length)
    (p : G2Jac F) (P0 : (W b).Point) (hp : p.Represents b P0) :
    (G2Jac.WindowedMultiExp chunks p points scalars).Represents b
      (P0 + (chunks.map (fun se =>
        ∑ i ∈ Finset.Ico se.1 se.2, elementValue (scalars.getD i []) • Ps i)).sum) := by
  unfold G2Jac.WindowedMultiExp
  induction chunks generalizing p P0 with
  | nil => simpa using hp
  | cons se rest ih =>
    simp only [List.foldl_cons, List.map_cons, List.sum_cons]
    rw [← add_assoc]
    apply ih (fun x hx => hc x (List.mem_cons_of_mem _ hx))
    have hse := hc se (List.mem_cons_self _ _)
    exact G2Jac.AddAssign_represents_g2Jac h2 hp
      (multiExp_slice_represents h2 points scalars Ps hP hS se.1 se.2 hse.1 hse.2)

end bn256

/-! ## GLV scalar multiplication -/

namespace bw761

open Curve

theorem bit_extract (x j : Nat) (hj : j < 64) :
    (x &&& ((1 <<< 63) >>> j)) >>> (63 - j) = (x / 2 ^ (63 - j)) % 2 := by
  have hm : (1 <<< 63) >>> j = 2 ^ (63 - j) := by
    rw [Nat.one_shiftLeft, Nat.shiftRight_eq_div_pow, Nat.pow_div (by omega) (by norm_num)]
  rw [hm, shiftRight_land, Nat.shiftRight_eq_div_pow, Nat.shiftRight_eq_div_pow,
    Nat.div_self (by positivity), Nat.and_one_is_mod]

theorem mask_shift (j : Nat) : ((1 <<< 63) >>> j) >>> 1 = (1 <<< 63) >>> (j + 1) := by
  rw [← Nat.shiftRight_add]

theorem frSetBigIntFromMont_length (r : Nat) (v : Int) :
    (frSetBigIntFromMont r v).length = 6 := by
  simp [frSetBigIntFromMont, frLimbs]

theorem frSetBigIntFromMont_getD (r : Nat) (K : Nat) (hK : K < r) (i : Nat) (hi : i < 6) :
    (frSetBigIntFromMont r (K : Int)).getD i 0 = (K / 2 ^ (64 * i)) % 2 ^ 64 := by
  unfold frSetBigIntFromMont
  have hmod : ((K : Int) % (r : Int)).toNat = K := by
    rw [Int.emod_eq_of_lt (by positivity) (by exact_mod_cast hK)]
    simp
  rw [List.getD_eq_getElem?_getD, List.getElem?_map, List.getElem?_range (by simpa [frLimbs])]
  simp [hmod]

/-- The bit that `mulGLVStep` reads from limb i at iteration j is bit 64*i + 63 - j of K. -/
theorem glv_bit (r K : Nat) (hK : K < r) (i j : Nat) (hi : i < 6) (hj : j < 64) :
    ((frSetBigIntFromMont r (K : Int)).getD i 0 &&& ((1 <<< 63) >>> j)) >>> (63 - j)
      = (K / 2 ^ (64 * i + (63 - j))) % 2 := by
  rw [bit_extract _ _ hj, frSetBigIntFromMont_getD r K hK i hi]
  have e64 : (2 : Nat) ^ 64 = 2 ^ (63 - j) * 2 ^ (j + 1) := by
    rw [← pow_add]; congr 1; omega
  have hdvd : (2 : Nat) ∣ 2 ^ (j + 1) := dvd_pow_self 2 (by omega)
  rw [e64, Nat.mod_mul_right_div_self, Nat.mod_mod_of_dvd _ hdvd, Nat.div_div_eq_div_mul,
    ← pow_add]

theorem div_pow_two_succ (K q : Nat) :
    K / 2 ^ q = 2 * (K / 2 ^ (q + 1)) + (K / 2 ^ q) % 2 := by
  rw [pow_succ, ← Nat.div_div_eq_div_mul]
  omega

theorem glv_select : ∀ b1 < 2, ∀ b2 < 2, (b1 ||| b2 ≠ 0 ↔ ¬ (b1 = 0 ∧ b2 = 0)) ∧
    ((b2 <<< 1) ||| b1) - 1 = (if b2 = 0 then 0 else if b1 = 0 then 1 else 2) := by
  decide

theorem mulGLVStep_represents {F : Type} [Field F] [DecidableEq F] {b : F}
    (h2 : (2 : F) ≠ 0) {t0 t1 t2 : G1Jac F} {A1 A2 : (W b).Point}
    (h0 : t0.Represents b A1) (h1 : t1.Represents b A2) (h12 : t2.Represents b (A1 + A2))
    (k1 k2 : List Nat) (i j mask : Nat) {res : G1Jac F} {R : (W b).Point}
    (hres : res.Represents b R)
    (hb1 : (k1.getD i 0 &&& mask) >>> (63 - j) < 2)
    (hb2 : (k2.getD i 0 &&& mask) >>> (63 - j) < 2) :
    (mulGLVStep [t0, t1, t2] k1 k2 i (res, mask) j).1.Represents b
        (R + R + ((k1.getD i 0 &&& mask) >>> (63 - j)) • A1 +
          ((k2.getD i 0 &&& mask) >>> (63 - j)) • A2) ∧
      (mulGLVStep [t0, t1, t2] k1 k2 i (res, mask) j).2 = mask >>> 1 := by
  refine ⟨?_, rfl⟩
  unfold mulGLVStep
  simp only
  have hd := G1Jac.Double_represents hres
  generalize (k1.getD i 0 &&& mask) >>> (63 - j) = b1 at hb1
  generalize (k2.getD i 0 &&& mask) >>> (63 - j) = b2 at hb2
  obtain ⟨hne, hsel⟩ := glv_select b1 hb1 b2 hb2
  by_cases hz : b1 = 0 ∧ b2 = 0
  · rw [if_neg (by rw [hne]; exact not_not.mpr hz)]
    obtain ⟨rfl, rfl⟩ := hz
    simpa using hd
  · rw [if_pos (hne.mpr hz)]
    rw [hsel]
    have hb1' : b1 = 0 ∨ b1 = 1 := by omega
    have hb2' : b2 = 0 ∨ b2 = 1 := by omega
    rcases hb2' with rfl | rfl
    · rcases hb1' with rfl | rfl
      · exact absurd ⟨rfl, rfl⟩ hz
      · simp only [if_true, zero_nsmul, add_zero, one_nsmul]
        simpa using G1Jac.AddAssign_represents_g1Jac h2 hd h0
    · rcases hb1' with rfl | rfl
      · simp only [one_ne_zero, if_false, if_true, zero_nsmul, add_zero, one_nsmul]
        simpa using G1Jac.AddAssign_represents_g1Jac h2 hd h1
      · simp only [one_ne_zero, if_false, one_nsmul]
        have := G1Jac.AddAssign_represents_g1Jac h2 hd h12
        rw [← add_assoc] at this
        simpa using this

/-- The 64 iterations of the inner loop of `mulGLV` on limb i. -/
theorem mulGLV_limb_represents {F : Type} [Field F] [DecidableEq F] {b : F}
    (h2 : (2 : F) ≠ 0) {t0 t1 t2 : G1Jac F} {A1 A2 : (W b).Point}
    (h0 : t0.Represents b A1) (h1 : t1.Represents b A2) (h12 : t2.Represents b (A1 + A2))
    (r K1 K2 : Nat) (hK1 : K1 < r) (hK2 : K2 < r) (i : Nat) (hi : i < 6) {res : G1Jac F}
    (hres : res.Represents b
      ((K1 / 2 ^ (64 * i + 64)) • A1 + (K2 / 2 ^ (64 * i + 64)) • A2)) :
    ((List.range 64).foldl
        (mulGLVStep [t0, t1, t2] (frSetBigIntFromMont r (K1 : Int))
          (frSetBigIntFromMont r (K2 : Int)) i) (res, 1 <<< 63)).1.Represents b
      ((K1 / 2 ^ (64 * i)) • A1 + (K2 / 2 ^ (64 * i)) • A2) := by
  have key := foldl_range_induction
    (mulGLVStep [t0, t1, t2] (frSetBigIntFromMont r (K1 : Int))
      (frSetBigIntFromMont r (K2 : Int)) i)
    (fun m (st : G1Jac F × Nat) => m ≤ 64 → st.2 = (1 <<< 63) >>> m ∧
      st.1.Represents b
        ((K1 / 2 ^ (64 * i + 64 - m)) • A1 + (K2 / 2 ^ (64 * i + 64 - m)) • A2))
    64 (res, 1 <<< 63)
    (by intro _; exact ⟨rfl, by simpa using hres⟩)
    (by
      intro m st hm ih _
      obtain ⟨hmask, hrep⟩ := ih (by omega)
      obtain ⟨p, mask⟩ := st
      simp only at hmask hrep
      subst hmask
      have g1 := glv_bit r K1 hK1 i m hi hm
      have g2 := glv_bit r K2 hK2 i m hi hm
      obtain ⟨hs, hmk⟩ := mulGLVStep_represents h2 h0 h1 h12
        (frSetBigIntFromMont r (K1 : Int)) (frSetBigIntFromMont r (K2 : Int)) i m
        ((1 <<< 63) >>> m) hrep
        (by rw [g1]; exact Nat.mod_lt _ (by norm_num))
        (by rw [g2]; exact Nat.mod_lt _ (by norm_num))
      refine ⟨by rw [hmk, mask_shift], ?_⟩
      rw [g1, g2] at hs
      have eq : 64 * i + 64 - (m + 1) = 64 * i + (63 - m) := by omega
      have eq' : 64 * i + 64 - m = 64 * i + (63 - m) + 1 := by omega
      rw [eq'] at hs
      rw [eq, div_pow_two_succ K1, div_pow_two_succ K2]
      have expand : ∀ (n c : Nat) (X : (W b).Point), (2 * n + c) • X = n • X + n • X + c • X := by
        intro n c X
        rw [add_nsmul, two_mul, add_nsmul]
      rw [expand, expand]
      have reorder : ∀ (a1 a2 c1 c2 : (W b).Point),
          a1 + a1 + c1 + (a2 + a2 + c2) = a1 + a2 + (a1 + a2) + c1 + c2 := by
        intro a1 a2 c1 c2; abel
      rw [reorder]
      exact hs)
  have := (key le_rfl).2
  simpa using this

theorem G1Jac.mulGLV_represents {F : Type} [Field F] [DecidableEq F] {b : F}
    (h2 : (2 : F) ≠ 0) (w : F) (r : Nat) (SplitScalar : Int → Int × Int) {a : G1Jac F}
    {A B : (W b).Point} (ha : a.Represents b A) (hphi : (G1Jac.phi w a).Represents b B)
    (s : Int)
    (hk1 : (SplitScalar s).1.natAbs < r) (hk2 : (SplitScalar s).2.natAbs < r)
    (hb1 : (SplitScalar s).1.natAbs < 2 ^ 192) (hb2 : (SplitScalar s).2.natAbs < 2 ^ 192) :
    (G1Jac.mulGLV w r SplitScalar a s).Represents b
      ((SplitScalar s).1 • A + (SplitScalar s).2 • B) := by
  unfold G1Jac.mulGLV
  simp only
  generalize SplitScalar s = k at hk1 hk2 hb1 hb2
  obtain ⟨k1, k2⟩ := k
  simp only at hk1 hk2 hb1 hb2 ⊢
  -- the sign-normalised scalars and table entries
  have e1 : (if k1 < 0 then -k1 else k1) = ((k1.natAbs : Nat) : Int) := by
    split_ifs with h
    · rw [Int.ofNat_natAbs_of_nonpos (le_of_lt h)]
    · rw [Int.natAbs_of_nonneg (not_lt.mp h)]
  have e2 : (if k2 < 0 then -k2 else k2) = ((k2.natAbs : Nat) : Int) := by
    split_ifs with h
    · rw [Int.ofNat_natAbs_of_nonpos (le_of_lt h)]
    · rw [Int.natAbs_of_nonneg (not_lt.mp h)]
  rw [e1, e2]
  obtain ⟨A1, hA1, hA1e⟩ : ∃ A1 : (W b).Point,
      (if k1 < 0 then a.Neg else a).Represents b A1 ∧ k1.natAbs • A1 = k1 • A := by
    by_cases h : k1 < 0
    · refine ⟨-A, by rw [if_pos h]; exact G1Jac.Neg_represents_g1Jac ha, ?_⟩
      rw [smul_neg, ← natCast_zsmul, ← neg_smul, Int.ofNat_natAbs_of_nonpos (le_of_lt h),
        neg_neg]
    · refine ⟨A, by rw [if_neg h]; exact ha, ?_⟩
      rw [← natCast_zsmul, Int.natAbs_of_nonneg (not_lt.mp h)]
  obtain ⟨A2, hA2, hA2e⟩ : ∃ A2 : (W b).Point,
      (if k2 < 0 then (G1Jac.phi w a).Neg else G1Jac.phi w a).Represents b A2 ∧
        k2.natAbs • A2 = k2 • B := by
    by_cases h : k2 < 0
    · refine ⟨-B, by rw [if_pos h]; exact G1Jac.Neg_represents_g1Jac hphi, ?_⟩
      rw [smul_neg, ← natCast_zsmul, ← neg_smul, Int.ofNat_natAbs_of_nonpos (le_of_lt h),
        neg_neg]
    · refine ⟨B, by rw [if_neg h]; exact hphi, ?_⟩
      rw [← natCast_zsmul, Int.natAbs_of_nonneg (not_lt.mp h)]
  have h12 := G1Jac.AddAssign_represents_g1Jac h2 hA1 hA2
  generalize (if k1 < 0 then a.Neg else a) = t0 at hA1 h12
  generalize (if k2 < 0 then (G1Jac.phi w a).Neg else G1Jac.phi w a) = t1 at hA2 h12
  rw [frSetBigIntFromMont_length]
  have h3 : 6 / 2 = 3 := rfl
  rw [h3, ← hA1e, ← hA2e]
  generalize k1.natAbs = K1 at hk1 hb1
  generalize k2.natAbs = K2 at hk2 hb2
  have key := foldl_range_reverse_induction
    (fun (res : G1Jac F) i => ((List.range 64).foldl
      (mulGLVStep [t0, t1, t0.AddAssign t1] (frSetBigIntFromMont r (K1 : Int))
        (frSetBigIntFromMont r (K2 : Int)) i) (res, 1 <<< 63)).1)
    (fun m (res : G1Jac F) => m ≤ 3 →
      res.Represents b ((K1 / 2 ^ (64 * m)) • A1 + (K2 / 2 ^ (64 * m)) • A2))
    3 g1Infinity
    (by
      intro _
      have z1 : K1 / 2 ^ (64 * 3) = 0 := Nat.div_eq_of_lt (by norm_num; exact hb1)
      have z2 : K2 / 2 ^ (64 * 3) = 0 := Nat.div_eq_of_lt (by norm_num; exact hb2)
      rw [z1, z2]
      simpa using g1Infinity_represents b)
    (by
      intro m res hm ih _
      have hrep := ih (by omega)
      have em : 64 * (m + 1) = 64 * m + 64 := by ring
      rw [em] at hrep
      exact mulGLV_limb_represents h2 hA1 hA2 h12 r K1 K2 hk1 hk2 m (by omega) hrep)
  simpa using key (Nat.zero_le 3)

end bw761

/-! ## The parallel multi-scalar multiplication: chunks and digits -/

namespace bn256

open Curve

theorem chunkSizeOf_cases (n : Nat) :
    chunkSizeOf n = 8 ∨ chunkSizeOf n = 11 ∨ chunkSizeOf n = 13 ∨ chunkSizeOf n = 14 ∨
      chunkSizeOf n = 16 := by
  unfold chunkSizeOf
  split_ifs <;> simp

set_option maxRecDepth 100000 in
theorem bitsForTaskOf_eq (c : Nat)
    (hc : c = 8 ∨ c = 11 ∨ c = 13 ∨ c = 14 ∨ c = 16) :
    bitsForTaskOf sizeScalar c = some (expectedBits c) := by
  rcases hc with rfl | rfl | rfl | rfl | rfl <;> decide

theorem nbChunksOf_pos (c : Nat) (hc : c = 8 ∨ c = 11 ∨ c = 13 ∨ c = 14 ∨ c = 16) :
    0 < nbChunksOf c ∧ (nbChunksOf c - 1) * c < 256 ∧ 256 ≤ nbChunksOf c * c := by
  rcases hc with rfl | rfl | rfl | rfl | rfl <;> decide

theorem mask_eq (c : Nat) (hc : c = 8 ∨ c = 11 ∨ c = 13 ∨ c = 14 ∨ c = 16) :
    ((1 <<< c) - 1) % 2 ^ 64 = 2 ^ c - 1 := by
  rcases hc with rfl | rfl | rfl | rfl | rfl <;> decide

theorem expectedBits_length (c : Nat) : (expectedBits c).length = nbChunksOf c := by
  simp [expectedBits]

theorem expectedBits_getD (c t : Nat) (ht : t < nbChunksOf c) :
    (expectedBits c).getD t [] =
      (List.range (min c (sizeScalar - t * c))).map
        (fun j => ((255 - t * c - j : Nat) : Int)) := by
  unfold expectedBits
  rw [List.getD_eq_getElem?_getD, List.getElem?_map, List.getElem?_range ht]
  rfl

/-- Bit q of the value of a well-formed scalar, as `accumulateIndices` reads it. -/
theorem element_bit {e : Element} (he : elementWF e) (q : Nat) (hq : q < 256) :
    (e.getD (q / 64) 0 >>> (q % 64)) &&& 1 = (elementValue e / 2 ^ q) % 2 := by
  rw [Nat.and_one_is_mod, Nat.shiftRight_eq_div_pow, elementWF_limb he (q / 64) (by omega)]
  have e64 : (2 : Nat) ^ 64 = 2 ^ (q % 64) * 2 ^ (64 - q % 64) := by
    rw [← pow_add]; congr 1; omega
  have hdvd : (2 : Nat) ∣ 2 ^ (64 - q % 64) := dvd_pow_self 2 (by omega)
  rw [e64, Nat.mod_mul_right_div_self, Nat.mod_mod_of_dvd _ hdvd, Nat.div_div_eq_div_mul,
    ← pow_add]
  congr 3
  omega

/-- The digit of a chunk: for the descending bit list `hi, hi - 1, ..., hi - L + 1` the value
`accumulateIndices` computes is `(v / 2^(hi + 1 - L)) mod 2^L`. -/
theorem chunkDigit_eq {e : Element} (he : elementWF e) (hi L : Nat) (hhi : hi < 256)
    (hL : L ≤ hi + 1) :
    chunkDigit ((List.range L).map (fun j => ((hi - j : Nat) : Int))) e
      = (elementValue e / 2 ^ (hi + 1 - L)) % 2 ^ L := by
  unfold chunkDigit
  rw [List.foldl_map]
  have key := foldl_range_induction
    (fun (val : Nat) (j : Nat) =>
      val <<< 1 + (e.getD ((((hi - j : Nat) : Int) / 64).toNat) 0 >>>
        ((((hi - j : Nat) : Int) % 64).toNat) &&& 1))
    (fun m val => m ≤ L → val = (elementValue e / 2 ^ (hi + 1 - m)) % 2 ^ m)
    L 0
    (by intro _; simp [Nat.mod_one])
    (by
      intro m val hm ih _
      have hval := ih (by omega)
      have c1 : (((hi - m : Nat) : Int) / 64).toNat = (hi - m) / 64 := by omega
      have c2 : (((hi - m : Nat) : Int) % 64).toNat = (hi - m) % 64 := by omega
      simp only [c1, c2]
      rw [element_bit he (hi - m) (by omega), hval, Nat.shiftLeft_eq, pow_one]
      have e1 : hi + 1 - m = (hi - m) + 1 := by omega
      have e2 : hi + 1 - (m + 1) = hi - m := by omega
      rw [e1, e2, pow_succ, ← Nat.div_div_eq_div_mul]
      generalize elementValue e / 2 ^ (hi - m) = y
      rw [pow_succ, mul_comm (2 ^ m) 2, Nat.mod_mul]
      ring)
  exact key le_rfl

/-- The digit that the selector list of chunk `t` extracts from a scalar: chunk `t` covers the
bit positions from `256 - min 256 ((t + 1) * c)` up to `256 - t * c - 1`, read as a number. -/
theorem chunk_digit_expected {e : Element} (he : elementWF e) (c t : Nat) (_hc : 0 < c)
    (ht : t * c < 256) (htK : t < nbChunksOf c) :
    chunkDigit ((expectedBits c).getD t []) e
      = (elementValue e / 2 ^ (256 - min 256 ((t + 1) * c))) % 2 ^ (min c (256 - t * c)) := by
  rw [expectedBits_getD c t htK]
  have hs : sizeScalar = 256 := rfl
  rw [hs]
  have := chunkDigit_eq he (255 - t * c) (min c (256 - t * c)) (by omega) (by omega)
  have e1 : 255 - t * c + 1 - min c (256 - t * c) = 256 - min 256 ((t + 1) * c) := by
    rw [Nat.add_mul, one_mul]
    omega
  rw [e1] at this
  exact this

end bn256

/-! ## Stage A: index bucketing -/

namespace bn256

open Curve

theorem slot_pos (task mask val : Nat) (hval : val ≠ 0) :
    ((task : Int) * (mask : Int) - 1 + (val : Int)).toNat = task * mask + (val - 1) := by
  have h : ((task * mask : Nat) : Int) = (task : Int) * (mask : Int) := by push_cast; rfl
  rw [← h]
  generalize task * mask = tm
  omega

theorem slot_injective {mask t t' j j' : Nat} (hj : j < mask) (hj' : j' < mask)
    (h : t * mask + j = t' * mask + j') : t = t' ∧ j = j' := by
  have hm : 0 < mask := by omega
  have h1 : (t * mask + j) / mask = t := by
    rw [Nat.add_comm, Nat.add_mul_div_right _ _ hm, Nat.div_eq_of_lt hj, zero_add]
  have h2 : (t' * mask + j') / mask = t' := by
    rw [Nat.add_comm, Nat.add_mul_div_right _ _ hm, Nat.div_eq_of_lt hj', zero_add]
  have ht : t = t' := by rw [← h1, ← h2, h]
  subst ht
  exact ⟨rfl, by omega⟩

theorem slot_lt {mask K t j : Nat} (ht : t < K) (hj : j < mask) : t * mask + j < mask * K := by
  calc t * mask + j < t * mask + mask := by omega
    _ = (t + 1) * mask := by ring
    _ ≤ K * mask := Nat.mul_le_mul_right _ ht
    _ = mask * K := by ring

theorem filter_range_succ (q : Nat → Prop) [DecidablePred q] (m : Nat) :
    (List.range (m + 1)).filter (fun i => decide (q i))
      = (List.range m).filter (fun i => decide (q i)) ++ (if q m then [m] else []) := by
  rw [List.range_succ, List.filter_append]
  congr 1
  by_cases h : q m <;> simp [h]

/-- Stage A on one chunk: starting from empty lists, the list of bucket `j` becomes the
increasing list of the indices whose digit in this chunk is `j + 1`; no other list changes. -/
theorem accumulateIndicesTask_spec (bits : List (List Int)) (scalars : List Element)
    (n mask K : Nat) (indices : List (List Nat)) (task : Nat) (htask : task < K)
    (hlen : indices.length = mask * K)
    (hdig : ∀ i < n, chunkDigit (bits.getD task []) (scalars.getD i []) ≤ mask)
    (hempty : ∀ j < mask, indices.getD (task * mask + j) [] = []) :
    (accumulateIndicesTask bits scalars n mask indices task).length = mask * K ∧
      (∀ j < mask, (accumulateIndicesTask bits scalars n mask indices task).getD
        (task * mask + j) [] = slotList bits scalars n task j) ∧
      (∀ p, (∀ j < mask, p ≠ task * mask + j) →
        (accumulateIndicesTask bits scalars n mask indices task).getD p []
          = indices.getD p []) := by
  unfold accumulateIndicesTask slotList
  apply foldl_range_induction (accumulateIndicesPoint bits scalars mask task)
    (fun m (r : List (List Nat)) => r.length = mask * K ∧
      (∀ j < mask, r.getD (task * mask + j) [] = (List.range m).filter
        (fun i => chunkDigit (bits.getD task []) (scalars.getD i []) = j + 1)) ∧
      (∀ p, (∀ j < mask, p ≠ task * mask + j) → r.getD p [] = indices.getD p []))
  · exact ⟨hlen, by simpa using hempty, fun _ _ => rfl⟩
  · intro m r hm ⟨hl, hslots, hother⟩
    unfold accumulateIndicesPoint
    simp only
    have hd := hdig m hm
    generalize hval : chunkDigit (bits.getD task []) (scalars.getD m []) = val at hd
    by_cases h0 : val = 0
    · rw [if_neg (by simpa using h0)]
      refine ⟨hl, ?_, hother⟩
      intro j hj
      rw [filter_range_succ, hslots j hj, hval, if_neg (by omega), List.append_nil]
    · rw [if_pos h0, slot_pos task mask val h0]
      have hv : val - 1 < mask := by omega
      refine ⟨by rw [List.length_set]; exact hl, ?_, ?_⟩
      · intro j hj
        rw [filter_range_succ]
        by_cases hjv : j = val - 1
        · subst hjv
          rw [getD_set_eq _ _ _ _ (by rw [hl]; exact slot_lt htask hv), hslots _ hv, hval,
            if_pos (by omega)]
        · have hne : task * mask + (val - 1) ≠ task * mask + j := by omega
          rw [getD_set_ne _ _ _ _ _ hne, hslots j hj, hval, if_neg (by omega),
            List.append_nil]
      · intro p hp
        rw [getD_set_ne _ _ _ _ _ (Ne.symm (hp _ hv))]
        exact hother p hp

end bn256

/-! ## Stage B: bucket accumulation -/

namespace bn256

open Curve

/-- Adding the points of one bucket to the running XYZZ sum. -/
theorem bucket_mAdd_represents {F : Type} [Field F] [DecidableEq F] {b : F}
    (points : List (G2Affine F)) (Ps : Nat → (W b).Point)
    (hP : ∀ i < points.length, (points.getD i ⟨0, 0⟩).Represents b (Ps i))
    (L : List Nat) (hL : ∀ k ∈ L, k < points.length) (tmp : g2JacExtended F)
    (T : (W b).Point) (htmp : tmp.Represents b T) (hinv : tmp.ZZ ^ 3 = tmp.ZZZ ^ 2) :
    (L.foldl (fun tmp k => tmp.mAdd (points.getD k ⟨0, 0⟩)) tmp).Represents b
        (T + (L.map Ps).sum) ∧
      (L.foldl (fun tmp k => tmp.mAdd (points.getD k ⟨0, 0⟩)) tmp).ZZ ^ 3
        = (L.foldl (fun tmp k => tmp.mAdd (points.getD k ⟨0, 0⟩)) tmp).ZZZ ^ 2 := by
  induction L generalizing tmp T with
  | nil => simpa using ⟨htmp, hinv⟩
  | cons k ks ih =>
    simp only [List.foldl_cons, List.map_cons, List.sum_cons]
    rw [← add_assoc]
    apply ih (fun x hx => hL x (List.mem_cons_of_mem _ hx))
    · exact g2JacExtended.mAdd_represents htmp (hP k (hL k (List.mem_cons_self _ _)))
    · exact g2JacExtended.mAdd_invariant _ _ hinv

theorem sum_filter_range {M : Type} [AddCommMonoid M] (q : Nat → Prop) [DecidablePred q]
    (f : Nat → M) (n : Nat) :
    (((List.range n).filter (fun i => decide (q i))).map f).sum
      = ∑ i ∈ Finset.range n, if q i then f i else 0 := by
  induction n with
  | zero => simp
  | succ n ih =>
    rw [filter_range_succ, List.map_append, List.sum_append, ih, Finset.sum_range_succ]
    congr 1
    by_cases h : q n <;> simp [h]

/-- The classical bucket reduction: adding the running sum after every bucket, from the
highest bucket down, weights bucket `j` (digit `j + 1`) by `j + 1`. -/
theorem accumulatePointsTask_buckets {F : Type} [Field F] [DecidableEq F] {b : F}
    (h2 : (2 : F) ≠ 0) (points : List (G2Affine F)) (Ps : Nat → (W b).Point)
    (hP : ∀ i < points.length, (points.getD i ⟨0, 0⟩).Represents b (Ps i))
    (mask : Nat) (indices : List (List Nat)) (task : Nat)
    (hL : ∀ j < mask, ∀ k ∈ indices.getD (task * mask + j) [], k < points.length) :
    (accumulatePointsTask points mask indices task).Represents b
      (∑ j ∈ Finset.range mask, (j + 1) • ((indices.getD (task * mask + j) []).map Ps).sum) := by
  unfold accumulatePointsTask
  simp only
  have key := foldl_range_reverse_induction
    (accumulatePointsBucket points mask indices task)
    (fun m (st : g2JacExtended F × G2Jac F) => m ≤ mask →
      st.1.Represents b
          (∑ j ∈ Finset.Ico m mask, ((indices.getD (task * mask + j) []).map Ps).sum) ∧
        st.1.ZZ ^ 3 = st.1.ZZZ ^ 2 ∧
        st.2.Represents b
          (∑ j ∈ Finset.Ico m mask,
            (j + 1 - m) • ((indices.getD (task * mask + j) []).map Ps).sum))
    mask (g2JacExtended.SetInfinity, g2Infinity)
    (by
      intro _
      simp only [Finset.Ico_self, Finset.sum_empty]
      exact ⟨g2JacExtended.SetInfinity_represents b, by simp [g2JacExtended.SetInfinity],
        g2Infinity_represents b⟩)
    (by
      intro m st hm ih _
      obtain ⟨htmp, hinv, hacc⟩ := ih (by omega)
      unfold accumulatePointsBucket
      simp only
      obtain ⟨htmp', hinv'⟩ := bucket_mAdd_represents points Ps hP
        (indices.getD (task * mask + m) []) (hL m hm) st.1 _ htmp hinv
      have hsum1 : (∑ j ∈ Finset.Ico (m + 1) mask,
            ((indices.getD (task * mask + j) []).map Ps).sum)
          + ((indices.getD (task * mask + m) []).map Ps).sum
          = ∑ j ∈ Finset.Ico m mask, ((indices.getD (task * mask + j) []).map Ps).sum := by
        rw [Finset.sum_eq_sum_Ico_succ_bot hm, add_comm]
      rw [hsum1] at htmp'
      refine ⟨htmp', hinv', ?_⟩
      have hadd := G2Jac.AddAssign_represents_g2Jac h2 hacc
        (g2JacExtended.ToJac_represents htmp' hinv')
      have hsum2 : (∑ j ∈ Finset.Ico (m + 1) mask,
            (j + 1 - (m + 1)) • ((indices.getD (task * mask + j) []).map Ps).sum)
          + ∑ j ∈ Finset.Ico m mask, ((indices.getD (task * mask + j) []).map Ps).sum
          = ∑ j ∈ Finset.Ico m mask,
            (j + 1 - m) • ((indices.getD (task * mask + j) []).map Ps).sum := by
        rw [Finset.sum_eq_sum_Ico_succ_bot hm, Finset.sum_eq_sum_Ico_succ_bot hm
          (fun j => (j + 1 - m) • ((indices.getD (task * mask + j) []).map Ps).sum),
          ← add_assoc, add_comm _ (((indices.getD (task * mask + m) []).map Ps).sum),
          add_assoc, ← Finset.sum_add_distrib]
        congr 1
        · have : m + 1 - m = 1 := by omega
          rw [this, one_nsmul]
        · apply Finset.sum_congr rfl
          intro j hj
          have hj' := (Finset.mem_Ico.mp hj).1
          have : j + 1 - m = (j + 1 - (m + 1)) + 1 := by omega
          rw [this, succ_nsmul]
      rw [hsum2] at hadd
      exact hadd)
  have := (key (Nat.zero_le mask)).2.2
  rw [Finset.range_eq_Ico]
  simpa only [Nat.sub_zero] using this

/-- Weighting every bucket by its digit gives every point its digit as weight. -/
theorem bucket_sum_eq {M : Type} [AddCommMonoid M] (d : Nat → Nat) (f : Nat → M)
    (n mask : Nat) (hd : ∀ i < n, d i ≤ mask) :
    ∑ j ∈ Finset.range mask,
        (j + 1) • (((List.range n).filter (fun i => decide (d i = j + 1))).map f).sum
      = ∑ i ∈ Finset.range n, d i • f i := by
  simp only [sum_filter_range, Finset.smul_sum]
  rw [Finset.sum_comm]
  apply Finset.sum_congr rfl
  intro i hi
  have hi' := Finset.mem_range.mp hi
  by_cases h0 : d i = 0
  · rw [h0, zero_nsmul]
    apply Finset.sum_eq_zero
    intro j _
    rw [if_neg (by omega), smul_zero]
  · rw [Finset.sum_eq_single (d i - 1)]
    · rw [if_pos (by omega)]
      congr 1
      omega
    · intro j _ hj
      rw [if_neg (by omega), smul_zero]
    · intro hn
      exact absurd (Finset.mem_range.mpr (by have := hd i hi'; omega)) hn

end bn256

/-! ## The pipeline: workers, stages and the final reduction -/

namespace bn256

open Curve

theorem msmInv_congr {F : Type} [Field F] {b : F} {bits : List (List Int)}
    {scalars : List Element} {Ps : Nat → (W b).Point} {n mask K : Nat}
    {DI DP DI' DP' : Nat → Prop} {st : msmState F}
    (hI : ∀ t < K, DI t ↔ DI' t) (hPp : ∀ t < K, DP t ↔ DP' t)
    (h : msmInv b bits scalars Ps n mask K DI DP st) :
    msmInv b bits scalars Ps n mask K DI' DP' st := by
  obtain ⟨l1, l2, l3, l4, hA, hE, hB⟩ := h
  exact ⟨l1, l2, l3, l4, fun t ht hd => hA t ht ((hI t ht).mpr hd),
    fun t ht hd => hE t ht (fun h => hd ((hI t ht).mp h)),
    fun t ht hd => hB t ht ((hPp t ht).mpr hd)⟩

/-- Stage A of one chunk keeps the pipeline invariant and marks the chunk as bucketed. -/
theorem accumulateIndicesStep_inv {F : Type} [Field F] {b : F} {bits : List (List Int)}
    {scalars : List Element} {Ps : Nat → (W b).Point} {n mask K : Nat}
    (hdig : ∀ t < K, ∀ i < n, chunkDigit (bits.getD t []) (scalars.getD i []) ≤ mask)
    {DI DP : Nat → Prop} {st : msmState F}
    (h : msmInv b bits scalars Ps n mask K DI DP st) (cpu nC i : Nat)
    (htask : cpu + i * nC < K) (hnew : ¬ DI (cpu + i * nC)) :
    msmInv b bits scalars Ps n mask K (fun t => DI t ∨ t = cpu + i * nC) DP
      (accumulateIndicesStep bits scalars n mask cpu nC st i) := by
  obtain ⟨l1, l2, l3, l4, hA, hE, hB⟩ := h
  obtain ⟨s1, s2, s3⟩ := accumulateIndicesTask_spec bits scalars n mask K st.indices
    (cpu + i * nC) htask l1 (hdig _ htask) (hE _ htask hnew)
  unfold accumulateIndicesStep
  simp only
  refine ⟨s1, l2, by rw [List.length_set]; exact l3, l4, ?_, ?_, hB⟩
  · intro t ht hd
    by_cases hte : t = cpu + i * nC
    · subst hte
      exact ⟨getD_set_eq _ _ _ _ (by rw [l3]; exact ht), s2⟩
    · have hDI : DI t := by
        rcases hd with h | h
        · exact h
        · exact absurd h hte
      obtain ⟨c1, c2⟩ := hA t ht hDI
      refine ⟨by rw [getD_set_ne _ _ _ _ _ (Ne.symm hte)]; exact c1, ?_⟩
      intro j hj
      rw [s3 _ (fun j' hj' he => hte (slot_injective hj hj' he).1)]
      exact c2 j hj
  · intro t ht hd j hj
    have hte : t ≠ cpu + i * nC := fun h => hd (Or.inr h)
    rw [s3 _ (fun j' hj' he => hte (slot_injective hj hj' he).1)]
    exact hE t ht (fun h => hd (Or.inl h)) j hj

theorem slotList_lt (bits : List (List Int)) (scalars : List Element) (n t j : Nat) :
    ∀ k ∈ slotList bits scalars n t j, k < n := by
  intro k hk
  unfold slotList at hk
  exact List.mem_range.mp (List.mem_filter.mp hk).1

/-- Stage B of a bucketed chunk does not block, keeps the pipeline invariant and leaves in
the accumulator of the chunk a representation of its partial sum. -/
theorem accumulatePointsStep_inv {F : Type} [Field F] [DecidableEq F] {b : F}
    (h2 : (2 : F) ≠ 0) {bits : List (List Int)} {scalars : List Element}
    {Ps : Nat → (W b).Point} (points : List (G2Affine F)) {mask K : Nat}
    (hP : ∀ i < points.length, (points.getD i ⟨0, 0⟩).Represents b (Ps i))
    (hdig : ∀ t < K, ∀ i < points.length,
      chunkDigit (bits.getD t []) (scalars.getD i []) ≤ mask)
    {DI DP : Nat → Prop} {st : msmState F}
    (h : msmInv b bits scalars Ps points.length mask K DI DP st) (cpu nC i : Nat)
    (htask : cpu + i * nC < K) (hDI : DI (cpu + i * nC)) :
    ∃ st', accumulatePointsStep points mask cpu nC (some st) i = some st' ∧
      msmInv b bits scalars Ps points.length mask K DI (fun t => DP t ∨ t = cpu + i * nC)
        st' := by
  obtain ⟨l1, l2, l3, l4, hA, hE, hB⟩ := h
  obtain ⟨c1, c2⟩ := hA _ htask hDI
  unfold accumulatePointsStep
  simp only
  rw [if_pos c1]
  refine ⟨_, rfl, l1, by rw [List.length_set]; exact l2, l3,
    by rw [List.length_set]; exact l4, hA, hE, ?_⟩
  intro t ht hd
  by_cases hte : t = cpu + i * nC
  · subst hte
    refine ⟨getD_set_eq _ _ _ _ (by rw [l4]; exact ht), ?_⟩
    rw [getD_set_eq _ _ _ _ (by rw [l2]; exact ht)]
    have hb := accumulatePointsTask_buckets h2 points Ps hP mask st.indices (cpu + i * nC)
      (by intro j hj k hk
          rw [c2 j hj] at hk
          exact slotList_lt _ _ _ _ _ k hk)
    have e : ∀ j ∈ Finset.range mask,
        (j + 1) • ((st.indices.getD ((cpu + i * nC) * mask + j) []).map Ps).sum
          = (j + 1) • ((slotList bits scalars points.length (cpu + i * nC) j).map Ps).sum := by
      intro j hj
      rw [c2 j (Finset.mem_range.mp hj)]
    rw [Finset.sum_congr rfl e] at hb
    unfold slotList at hb
    rw [bucket_sum_eq _ _ _ _ (hdig _ ht)] at hb
    exact hb
  · have hDP : DP t := by
      rcases hd with h | h
      · exact h
      · exact absurd h hte
    obtain ⟨d1, d2⟩ := hB t ht hDP
    exact ⟨by rw [getD_set_ne _ _ _ _ _ (Ne.symm hte)]; exact d1,
      by rw [getD_set_ne _ _ _ _ _ (Ne.symm hte)]; exact d2⟩

/-- Stage A of one worker: the chunks `cpu, cpu + nC, cpu + 2*nC, ...` are bucketed. -/
theorem accumulateIndices_inv {F : Type} [Field F] {b : F} {bits : List (List Int)}
    {scalars : List Element} {Ps : Nat → (W b).Point} {n mask K : Nat}
    (hdig : ∀ t < K, ∀ i < n, chunkDigit (bits.getD t []) (scalars.getD i []) ≤ mask)
    {DI DP : Nat → Prop} {st : msmState F}
    (h : msmInv b bits scalars Ps n mask K DI DP st) (cpu nb nC : Nat) (hnC : 0 < nC)
    (htasks : ∀ k < nb, cpu + k * nC < K ∧ ¬ DI (cpu + k * nC)) :
    msmInv b bits scalars Ps n mask K (fun t => DI t ∨ ∃ k < nb, t = cpu + k * nC) DP
      (accumulateIndices bits scalars n mask cpu nb nC st) := by
  unfold accumulateIndices
  have key := foldl_range_induction (accumulateIndicesStep bits scalars n mask cpu nC)
    (fun m (s : msmState F) => m ≤ nb →
      msmInv b bits scalars Ps n mask K (fun t => DI t ∨ ∃ k < m, t = cpu + k * nC) DP s)
    nb st
    (by
      intro _
      exact msmInv_congr (fun t _ => ⟨Or.inl, fun h => h.elim id
        (fun ⟨k, hk, _⟩ => absurd hk (Nat.not_lt_zero k))⟩) (fun _ _ => Iff.rfl) h)
    (by
      intro m s hm ih _
      have hs := ih (by omega)
      obtain ⟨ht, hnd⟩ := htasks m hm
      have hnew : ¬ (DI (cpu + m * nC) ∨ ∃ k < m, cpu + m * nC = cpu + k * nC) := by
        rintro (h | ⟨k, hk, he⟩)
        · exact hnd h
        · have : m * nC = k * nC := by omega
          have := Nat.eq_of_mul_eq_mul_right hnC this
          omega
      have := accumulateIndicesStep_inv hdig hs cpu nC m ht hnew
      refine msmInv_congr (fun t _ => ?_) (fun _ _ => Iff.rfl) this
      constructor
      · rintro ((h | ⟨k, hk, he⟩) | h)
        · exact Or.inl h
        · exact Or.inr ⟨k, by omega, he⟩
        · exact Or.inr ⟨m, by omega, h⟩
      · rintro (h | ⟨k, hk, he⟩)
        · exact Or.inl (Or.inl h)
        · by_cases hkm : k = m
          · subst hkm; exact Or.inr he
          · exact Or.inl (Or.inr ⟨k, by omega, he⟩))
  exact key le_rfl

/-- Stage B of one worker: it never blocks once its chunks are bucketed. -/
theorem accumulatePoints_inv {F : Type} [Field F] [DecidableEq F] {b : F}
    (h2 : (2 : F) ≠ 0) {bits : List (List Int)} {scalars : List Element}
    {Ps : Nat → (W b).Point} (points : List (G2Affine F)) {mask K : Nat}
    (hP : ∀ i < points.length, (points.getD i ⟨0, 0⟩).Represents b (Ps i))
    (hdig : ∀ t < K, ∀ i < points.length,
      chunkDigit (bits.getD t []) (scalars.getD i []) ≤ mask)
    {DI DP : Nat → Prop} {st : msmState F}
    (h : msmInv b bits scalars Ps points.length mask K DI DP st) (cpu nb nC : Nat)
    (htasks : ∀ k < nb, cpu + k * nC < K ∧ DI (cpu + k * nC)) :
    ∃ st', accumulatePoints points mask cpu nb nC st = some st' ∧
      msmInv b bits scalars Ps points.length mask K DI
        (fun t => DP t ∨ ∃ k < nb, t = cpu + k * nC) st' := by
  unfold accumulatePoints
  have key := foldl_range_induction (accumulatePointsStep points mask cpu nC)
    (fun m (s : Option (msmState F)) => m ≤ nb → ∃ st', s = some st' ∧
      msmInv b bits scalars Ps points.length mask K DI
        (fun t => DP t ∨ ∃ k < m, t = cpu + k * nC) st')
    nb (some st)
    (by
      intro _
      exact ⟨st, rfl, msmInv_congr (fun _ _ => Iff.rfl) (fun t _ => ⟨Or.inl, fun h => h.elim id
        (fun ⟨k, hk, _⟩ => absurd hk (Nat.not_lt_zero k))⟩) h⟩)
    (by
      intro m s hm ih _
      obtain ⟨s', rfl, hs⟩ := ih (by omega)
      obtain ⟨ht, hd⟩ := htasks m hm
      obtain ⟨s'', e, hs''⟩ := accumulatePointsStep_inv h2 points hP hdig hs cpu nC m ht hd
      refine ⟨s'', e, msmInv_congr (fun _ _ => Iff.rfl) (fun t _ => ?_) hs''⟩
      constructor
      · rintro ((h | ⟨k, hk, he⟩) | h)
        · exact Or.inl h
        · exact Or.inr ⟨k, by omega, he⟩
        · exact Or.inr ⟨m, by omega, h⟩
      · rintro (h | ⟨k, hk, he⟩)
        · exact Or.inl (Or.inl h)
        · by_cases hkm : k = m
          · subst hkm; exact Or.inr he
          · exact Or.inl (Or.inr ⟨k, by omega, he⟩))
  exact key le_rfl

end bn256

namespace bn256

open Curve

/-- The chunk ids handed to worker `i`: `i, i + nC, ...`, one more for the first
`K mod nC` workers; they are below `K` and are exactly the ids congruent to `i`. -/
theorem worker_tasks (K nC i : Nat) (hi : i < nC) :
    (∀ k < (if i < K % nC then K / nC + 1 else K / nC), i + k * nC < K) ∧
      (∀ k, (i + k * nC) % nC = i) ∧
      (∀ t < K, t % nC = i →
        ∃ k < (if i < K % nC then K / nC + 1 else K / nC), t = i + k * nC) := by
  have hK := Nat.div_add_mod K nC
  have hr : K % nC < nC := Nat.mod_lt _ (by omega)
  refine ⟨?_, ?_, ?_⟩
  · intro k hk
    by_cases hq : k < K / nC
    · have h1 : (k + 1) * nC ≤ (K / nC) * nC := Nat.mul_le_mul_right _ hq
      have h2 : (k + 1) * nC = k * nC + nC := by ring
      have h3 : nC * (K / nC) = (K / nC) * nC := by ring
      omega
    · have hir : i < K % nC := by
        by_contra hc
        rw [if_neg hc] at hk
        exact hq hk
      rw [if_pos hir] at hk
      have hk' : k = K / nC := by omega
      subst hk'
      have h3 : nC * (K / nC) = (K / nC) * nC := by ring
      omega
  · intro k
    rw [Nat.add_mul_mod_self_right, Nat.mod_eq_of_lt hi]
  · intro t ht hti
    refine ⟨t / nC, ?_, ?_⟩
    · have hle : t / nC ≤ K / nC := Nat.div_le_div_right (le_of_lt ht)
      by_cases hq : t / nC < K / nC
      · split_ifs <;> omega
      · have he : t / nC = K / nC := by omega
        have ht' := Nat.div_add_mod t nC
        rw [he, hti] at ht'
        have hir : i < K % nC := by omega
        rw [if_pos hir]
        omega
    · have ht' := Nat.div_add_mod t nC
      rw [hti] at ht'
      have h3 : nC * (t / nC) = (t / nC) * nC := by ring
      omega

/-- One worker: its stage A and then its stage B. -/
theorem spawnStep_inv {F : Type} [Field F] [DecidableEq F] {b : F}
    (h2 : (2 : F) ≠ 0) {bits : List (List Int)} {scalars : List Element}
    {Ps : Nat → (W b).Point} (points : List (G2Affine F)) {mask K : Nat}
    (hP : ∀ i < points.length, (points.getD i ⟨0, 0⟩).Represents b (Ps i))
    (hdig : ∀ t < K, ∀ i < points.length,
      chunkDigit (bits.getD t []) (scalars.getD i []) ≤ mask)
    (nC i : Nat) (hi : i < nC) {st : msmState F}
    (h : msmInv b bits scalars Ps points.length mask K (fun t => t % nC < i)
      (fun t => t % nC < i) st) :
    ∃ st', spawnStep bits points scalars points.length mask (K / nC) nC
        (some st, K % nC - min i (K % nC)) i
          = (some st', K % nC - min (i + 1) (K % nC)) ∧
      msmInv b bits scalars Ps points.length mask K (fun t => t % nC < i + 1)
        (fun t => t % nC < i + 1) st' := by
  obtain ⟨w1, w2, w3⟩ := worker_tasks K nC i hi
  have hnC : 0 < nC := by omega
  -- both branches run the same two closures with the task count of this worker
  have run : ∀ nb, nb = (if i < K % nC then K / nC + 1 else K / nC) →
      ∃ st', accumulatePoints points mask i nb nC
          (accumulateIndices bits scalars points.length mask i nb nC st) = some st' ∧
        msmInv b bits scalars Ps points.length mask K (fun t => t % nC < i + 1)
          (fun t => t % nC < i + 1) st' := by
    intro nb hnb
    have hA := accumulateIndices_inv hdig h i nb nC hnC
      (fun k hk => ⟨w1 k (hnb ▸ hk), by rw [w2 k]; omega⟩)
    obtain ⟨st', e, hB⟩ := accumulatePoints_inv h2 points hP hdig hA i nb nC
      (fun k hk => ⟨w1 k (hnb ▸ hk), Or.inr ⟨k, hk, rfl⟩⟩)
    refine ⟨st', e, msmInv_congr (fun t ht => ?_) (fun t ht => ?_) hB⟩
    · constructor
      · rintro (h | ⟨k, _, he⟩)
        · omega
        · rw [he, w2 k]; omega
      · intro hlt
        by_cases hlt' : t % nC < i
        · exact Or.inl hlt'
        · obtain ⟨k, hk, he⟩ := w3 t ht (by omega)
          exact Or.inr ⟨k, hnb ▸ hk, he⟩
    · constructor
      · rintro (h | ⟨k, _, he⟩)
        · omega
        · rw [he, w2 k]; omega
      · intro hlt
        by_cases hlt' : t % nC < i
        · exact Or.inl hlt'
        · obtain ⟨k, hk, he⟩ := w3 t ht (by omega)
          exact Or.inr ⟨k, hnb ▸ hk, he⟩
  unfold spawnStep
  simp only
  by_cases hrem : i < K % nC
  · have hpos : K % nC - min i (K % nC) > 0 := by omega
    rw [if_pos hpos]
    obtain ⟨st', e, hinv⟩ := run (K / nC + 1) (by rw [if_pos hrem])
    refine ⟨st', ?_, hinv⟩
    rw [e]
    congr 1
    omega
  · have hzero : ¬ (K % nC - min i (K % nC) > 0) := by omega
    rw [if_neg hzero]
    obtain ⟨st', e, hinv⟩ := run (K / nC) (by rw [if_neg hrem])
    refine ⟨st', ?_, hinv⟩
    rw [e]
    congr 1
    omega

/-- All the workers: every chunk is bucketed and accumulated exactly once, whatever the
number of workers. -/
theorem spawn_inv {F : Type} [Field F] [DecidableEq F] {b : F}
    (h2 : (2 : F) ≠ 0) {bits : List (List Int)} {scalars : List Element}
    {Ps : Nat → (W b).Point} (points : List (G2Affine F)) {mask K : Nat}
    (hP : ∀ i < points.length, (points.getD i ⟨0, 0⟩).Represents b (Ps i))
    (hdig : ∀ t < K, ∀ i < points.length,
      chunkDigit (bits.getD t []) (scalars.getD i []) ≤ mask)
    (nC : Nat) (hnC : 0 < nC) {st : msmState F}
    (h : msmInv b bits scalars Ps points.length mask K (fun _ => False) (fun _ => False) st) :
    ∃ st', ((List.range nC).foldl
        (spawnStep bits points scalars points.length mask (K / nC) nC)
        (some st, K % nC)).1 = some st' ∧
      msmInv b bits scalars Ps points.length mask K (fun _ => True) (fun _ => True) st' := by
  have key := foldl_range_induction
    (spawnStep bits points scalars points.length mask (K / nC) nC)
    (fun m (acc : Option (msmState F) × Nat) => m ≤ nC → ∃ st',
      acc = (some st', K % nC - min m (K % nC)) ∧
      msmInv b bits scalars Ps points.length mask K (fun t => t % nC < m)
        (fun t => t % nC < m) st')
    nC (some st, K % nC)
    (by
      intro _
      refine ⟨st, by simp, msmInv_congr (fun t _ => ?_) (fun t _ => ?_) h⟩ <;> simp)
    (by
      intro m acc hm ih _
      obtain ⟨s, rfl, hs⟩ := ih (by omega)
      exact spawnStep_inv h2 points hP hdig nC m hm hs)
  obtain ⟨st', e, hinv⟩ := key le_rfl
  refine ⟨st', by rw [e], msmInv_congr (fun t _ => ?_) (fun t _ => ?_) hinv⟩ <;>
    simp [Nat.mod_lt _ hnC]

/-- The final reduction: chunks are combined most significant first, with as many doublings
as the chunk has bits; with every chunk accumulated the result is the full sum. -/
theorem reduce_represents {F : Type} [Field F] [DecidableEq F] {b : F}
    (h2 : (2 : F) ≠ 0) {scalars : List Element} {Ps : Nat → (W b).Point} (n mask c : Nat)
    (hc : c = 8 ∨ c = 11 ∨ c = 13 ∨ c = 14 ∨ c = 16)
    (hS : ∀ i < n, elementWF (scalars.getD i [])) {st : msmState F}
    (h : msmInv b (expectedBits c) scalars Ps n mask (nbChunksOf c) (fun _ => True)
      (fun _ => True) st) :
    ∃ res, reduce (expectedBits c) (nbChunksOf c) st = some res ∧
      res.Represents b (∑ i ∈ Finset.range n, elementValue (scalars.getD i []) • Ps i) := by
  obtain ⟨_, _, _, _, _, _, hB⟩ := h
  obtain ⟨hK0, hK1, hK2⟩ := nbChunksOf_pos c hc
  have hc0 : 0 < c := by rcases hc with rfl | rfl | rfl | rfl | rfl <;> norm_num
  unfold reduce
  have key := foldl_range_induction (reduceStep (expectedBits c) st)
    (fun m (r : Option (G2Jac F)) => m ≤ nbChunksOf c → ∃ res, r = some res ∧
      res.Represents b (∑ i ∈ Finset.range n,
        (elementValue (scalars.getD i []) / 2 ^ (256 - min 256 (m * c))) • Ps i))
    (nbChunksOf c) (some g2Infinity)
    (by
      intro _
      refine ⟨g2Infinity, rfl, ?_⟩
      have : ∑ i ∈ Finset.range n,
          (elementValue (scalars.getD i []) / 2 ^ (256 - min 256 (0 * c))) • Ps i = 0 := by
        apply Finset.sum_eq_zero
        intro i hi
        have := elementValue_lt (hS i (Finset.mem_range.mp hi))
        rw [Nat.div_eq_of_lt (by simpa using this), zero_nsmul]
      rw [this]
      exact g2Infinity_represents b)
    (by
      intro m r hm ih _
      obtain ⟨res, rfl, hres⟩ := ih (by omega)
      obtain ⟨hch, hacc⟩ := hB m hm trivial
      have hmc : m * c < 256 := by
        have : m * c ≤ (nbChunksOf c - 1) * c := Nat.mul_le_mul_right _ (by omega)
        omega
      unfold reduceStep
      simp only
      rw [if_pos hch]
      refine ⟨_, rfl, ?_⟩
      have hlen : ((expectedBits c).getD m []).length = min c (256 - m * c) := by
        rw [expectedBits_getD c m hm]
        simp [sizeScalar, ElementLimbs]
      rw [hlen]
      have hadd := G2Jac.AddAssign_represents_g2Jac h2 (doublings_represent hres
        (min c (256 - m * c))) hacc
      have e : ∀ i ∈ Finset.range n,
          2 ^ (min c (256 - m * c)) •
              (elementValue (scalars.getD i []) / 2 ^ (256 - min 256 (m * c))) • Ps i
            + chunkDigit ((expectedBits c).getD m []) (scalars.getD i []) • Ps i
          = (elementValue (scalars.getD i []) / 2 ^ (256 - min 256 ((m + 1) * c))) • Ps i := by
        intro i hi
        rw [chunk_digit_expected (hS i (Finset.mem_range.mp hi)) c m hc0 hmc hm,
          ← mul_nsmul', ← add_nsmul]
        congr 1
        have e1 : 256 - min 256 (m * c)
            = (256 - min 256 ((m + 1) * c)) + min c (256 - m * c) := by
          rw [Nat.add_mul, one_mul]
          omega
        rw [e1, pow_add, ← Nat.div_div_eq_div_mul, mul_comm]
        exact Nat.div_add_mod' _ _
      rw [Finset.smul_sum, ← Finset.sum_add_distrib, Finset.sum_congr rfl e] at hadd
      exact hadd)
  obtain ⟨res, e, hres⟩ := key le_rfl
  refine ⟨res, e, ?_⟩
  have hz : 256 - min 256 (nbChunksOf c * c) = 0 := by omega
  rw [hz] at hres
  simpa using hres

end bn256

/-! ## Batch conversion to affine coordinates -/

namespace bw761

open Curve

theorem batch_prefix_ne_zero {F : Type} [Field F] [DecidableEq F] (Z : Nat → F) (m : Nat) :
    (∏ i ∈ Finset.range m, if Z i = 0 then 1 else Z i) ≠ 0 := by
  rw [Finset.prod_ne_zero_iff]
  intro i _
  by_cases h : Z i = 0
  · rw [if_pos h]; exact one_ne_zero
  · rw [if_neg h]; exact h

theorem batch_inverse_step {F : Type} [Field F] (pr z : F) (hp : pr ≠ 0) (hz : z ≠ 0) :
    (pr * z)⁻¹ * z = pr⁻¹ ∧ pr * (pr * z)⁻¹ = z⁻¹ := by
  constructor
  · rw [mul_inv_rev, mul_assoc, mul_comm pr⁻¹ z, ← mul_assoc, inv_mul_cancel₀ hz, one_mul]
  · rw [mul_inv_rev, mul_comm z⁻¹ pr⁻¹, ← mul_assoc, mul_inv_cancel₀ hp, one_mul]

/-- What `BatchJacobianToAffineG1` leaves in the result slice: `FromJacobian` of the point at
every position whose point has `Z ≠ 0`, and the value the slice held before the call at every
identity position. -/
theorem BatchJacobianToAffineG1_spec {F : Type} [Field F] [DecidableEq F]
    (points : List (G1Jac F)) (result : List (G1Affine F))
    (hlen : result.length = points.length) :
    (BatchJacobianToAffineG1 points result).length = points.length ∧
      ∀ i < points.length, (BatchJacobianToAffineG1 points result).getD i ⟨0, 0⟩ =
        if (points.getD i ⟨0, 0, 0⟩).Z = 0 then result.getD i ⟨0, 0⟩
        else G1Affine.FromJacobian (points.getD i ⟨0, 0, 0⟩) := by
  unfold BatchJacobianToAffineG1
  simp only
  -- first pass: prefix products
  have loop1 := foldl_range_induction (batchLoop1 points)
    (fun m (st : List Bool × F × List (G1Affine F)) => m ≤ points.length →
      st.1.length = points.length ∧ st.2.2.length = points.length ∧
      st.2.1 = (∏ i ∈ Finset.range m,
        if (points.getD i ⟨0, 0, 0⟩).Z = 0 then 1 else (points.getD i ⟨0, 0, 0⟩).Z) ∧
      (∀ i < points.length, st.1.getD i false
        = decide (i < m ∧ (points.getD i ⟨0, 0, 0⟩).Z = 0)) ∧
      (∀ i < points.length, st.2.2.getD i ⟨0, 0⟩ =
        if i < m ∧ (points.getD i ⟨0, 0, 0⟩).Z ≠ 0 then
          ⟨∏ k ∈ Finset.range i,
            if (points.getD k ⟨0, 0, 0⟩).Z = 0 then 1 else (points.getD k ⟨0, 0, 0⟩).Z,
            (result.getD i ⟨0, 0⟩).Y⟩
        else result.getD i ⟨0, 0⟩))
    points.length (List.replicate points.length false, 1, result)
    (by
      intro _
      refine ⟨by simp, hlen, by simp, ?_, ?_⟩
      · intro i hi
        rw [getD_replicate _ _ _ _ hi]
        exact (decide_eq_false (fun h => absurd h.1 (Nat.not_lt_zero i))).symm
      · intro i _
        rw [if_neg (fun h => absurd h.1 (Nat.not_lt_zero i))])
    (by
      intro m st hm ih _
      obtain ⟨l1, l2, hacc, hz, hr⟩ := ih (by omega)
      obtain ⟨zeroes, acc, res⟩ := st
      simp only at l1 l2 hacc hz hr
      unfold batchLoop1
      simp only
      by_cases hZ : (points.getD m ⟨0, 0, 0⟩).Z = 0
      · rw [if_pos hZ]
        refine ⟨by rw [List.length_set]; exact l1, l2, ?_, ?_, ?_⟩
        · rw [Finset.prod_range_succ, if_pos hZ, mul_one]; exact hacc
        · intro i hi
          by_cases him : i = m
          · subst him
            rw [getD_set_eq _ _ _ _ (by omega)]
            exact (decide_eq_true ⟨Nat.lt_succ_self _, hZ⟩).symm
          · rw [getD_set_ne _ _ _ _ _ (Ne.symm him), hz i hi]
            have : (i < m + 1) = (i < m) := by
              apply propext; constructor <;> intro h <;> omega
            simp only [this]
        · intro i hi
          rw [hr i hi]
          by_cases him : i = m
          · subst him
            rw [if_neg (fun h => h.2 hZ), if_neg (fun h => h.2 hZ)]
          · have : (i < m + 1) = (i < m) := by
              apply propext; constructor <;> intro h <;> omega
            simp only [this]
      · rw [if_neg hZ]
        refine ⟨l1, by rw [List.length_set]; exact l2, ?_, ?_, ?_⟩
        · rw [Finset.prod_range_succ, if_neg hZ, hacc]
        · intro i hi
          rw [hz i hi]
          by_cases him : i = m
          · subst him
            rw [decide_eq_false (fun h => hZ h.2), decide_eq_false (fun h => hZ h.2)]
          · have : (i < m + 1) = (i < m) := by
              apply propext; constructor <;> intro h <;> omega
            simp only [this]
        · intro i hi
          by_cases him : i = m
          · subst him
            rw [getD_set_eq _ _ _ _ (by omega), if_pos ⟨by omega, hZ⟩, hacc,
              hr i hi, if_neg (by omega)]
          · rw [getD_set_ne _ _ _ _ _ (Ne.symm him), hr i hi]
            have : (i < m + 1) = (i < m) := by
              apply propext; constructor <;> intro h <;> omega
            simp only [this])
  obtain ⟨l1, l2, hacc, hz, hr⟩ := loop1 le_rfl
  generalize (List.range points.length).foldl (batchLoop1 points)
    (List.replicate points.length false, 1, result) = st1 at l1 l2 hacc hz hr
  obtain ⟨zeroes, acc, res1⟩ := st1
  simp only at l1 l2 hacc hz hr ⊢
  have hz' : ∀ i < points.length,
      zeroes.getD i false = decide ((points.getD i ⟨0, 0, 0⟩).Z = 0) := by
    intro i hi
    rw [hz i hi]
    simp only [hi, true_and]
  -- second pass: the inverses
  have loop2 := foldl_range_reverse_induction (batchLoop2 points zeroes)
    (fun m (st : F × List (G1Affine F)) => m ≤ points.length →
      st.2.length = points.length ∧
      st.1 = (∏ i ∈ Finset.range m,
        if (points.getD i ⟨0, 0, 0⟩).Z = 0 then 1 else (points.getD i ⟨0, 0, 0⟩).Z)⁻¹ ∧
      (∀ i < points.length, st.2.getD i ⟨0, 0⟩ =
        if (points.getD i ⟨0, 0, 0⟩).Z = 0 then result.getD i ⟨0, 0⟩
        else if m ≤ i then ⟨((points.getD i ⟨0, 0, 0⟩).Z)⁻¹, (result.getD i ⟨0, 0⟩).Y⟩
        else
          ⟨∏ k ∈ Finset.range i,
            if (points.getD k ⟨0, 0, 0⟩).Z = 0 then 1 else (points.getD k ⟨0, 0, 0⟩).Z,
            (result.getD i ⟨0, 0⟩).Y⟩))
    points.length (acc⁻¹, res1)
    (by
      intro _
      refine ⟨l2, by rw [hacc], ?_⟩
      intro i hi
      rw [hr i hi]
      by_cases hZ : (points.getD i ⟨0, 0, 0⟩).Z = 0
      · rw [if_pos hZ, if_neg (by tauto)]
      · rw [if_neg hZ, if_pos ⟨hi, hZ⟩, if_neg (by omega)])
    (by
      intro m st hm ih _
      obtain ⟨l, hinv, hres⟩ := ih (by omega)
      obtain ⟨accInv, res⟩ := st
      simp only at l hinv hres
      unfold batchLoop2
      simp only
      rw [hz' m hm]
      by_cases hZ : (points.getD m ⟨0, 0, 0⟩).Z = 0
      · rw [if_pos (decide_eq_true hZ)]
        rw [Finset.prod_range_succ, if_pos hZ, mul_one] at hinv
        refine ⟨l, hinv, ?_⟩
        intro i hi
        rw [hres i hi]
        by_cases him : i = m
        · subst him
          rw [if_pos hZ, if_pos hZ]
        · have : (m + 1 ≤ i) = (m ≤ i) := by
            apply propext; constructor <;> intro h <;> omega
          simp only [this]
      · rw [if_neg (by rw [decide_eq_false hZ]; exact Bool.false_ne_true)]
        rw [Finset.prod_range_succ, if_neg hZ] at hinv
        have hpre := batch_prefix_ne_zero (fun i => (points.getD i ⟨0, 0, 0⟩).Z) m
        simp only at hpre
        refine ⟨by rw [List.length_set]; exact l, ?_, ?_⟩
        · rw [hinv]; exact (batch_inverse_step _ _ hpre hZ).1
        · intro i hi
          by_cases him : i = m
          · subst him
            rw [getD_set_eq _ _ _ _ (by omega), if_neg hZ, if_pos le_rfl, hres i hi, if_neg hZ,
              if_neg (by omega), hinv]
            congr 1
            exact (batch_inverse_step _ _ hpre hZ).2
          · rw [getD_set_ne _ _ _ _ _ (Ne.symm him), hres i hi]
            have : (m + 1 ≤ i) = (m ≤ i) := by
              apply propext; constructor <;> intro h <;> omega
            simp only [this])
  obtain ⟨l3, _, hr2⟩ := loop2 (Nat.zero_le _)
  generalize (List.range points.length).reverse.foldl (batchLoop2 points zeroes)
    (acc⁻¹, res1) = st2 at l3 hr2
  obtain ⟨accInv, res2⟩ := st2
  simp only at l3 hr2 ⊢
  -- third pass: the affine coordinates
  have loop3 := foldl_range_induction (batchLoop3 points zeroes)
    (fun m (res : List (G1Affine F)) => m ≤ points.length →
      res.length = points.length ∧
      (∀ i < points.length, res.getD i ⟨0, 0⟩ =
        if (points.getD i ⟨0, 0, 0⟩).Z = 0 then result.getD i ⟨0, 0⟩
        else if i < m then G1Affine.FromJacobian (points.getD i ⟨0, 0, 0⟩)
        else ⟨((points.getD i ⟨0, 0, 0⟩).Z)⁻¹, (result.getD i ⟨0, 0⟩).Y⟩))
    points.length res2
    (by
      intro _
      refine ⟨l3, ?_⟩
      intro i hi
      rw [hr2 i hi]
      by_cases hZ : (points.getD i ⟨0, 0, 0⟩).Z = 0
      · rw [if_pos hZ, if_pos hZ]
      · rw [if_neg hZ, if_neg hZ, if_pos (Nat.zero_le i), if_neg (Nat.not_lt_zero i)])
    (by
      intro m res hm ih _
      obtain ⟨l, hres⟩ := ih (by omega)
      unfold batchLoop3
      simp only
      rw [hz' m hm]
      by_cases hZ : (points.getD m ⟨0, 0, 0⟩).Z = 0
      · rw [if_pos (decide_eq_true hZ)]
        refine ⟨l, ?_⟩
        intro i hi
        rw [hres i hi]
        by_cases him : i = m
        · subst him
          rw [if_pos hZ, if_pos hZ]
        · have : (i < m + 1) = (i < m) := by
            apply propext; constructor <;> intro h <;> omega
          simp only [this]
      · rw [if_neg (by rw [decide_eq_false hZ]; exact Bool.false_ne_true)]
        refine ⟨by rw [List.length_set]; exact l, ?_⟩
        intro i hi
        by_cases him : i = m
        · subst him
          rw [getD_set_eq _ _ _ _ (by omega), if_neg hZ, if_pos (by omega), hres i hi,
            if_neg hZ, if_neg (by omega)]
          unfold G1Affine.FromJacobian
          rw [if_neg hZ]
        · rw [getD_set_ne _ _ _ _ _ (Ne.symm him), hres i hi]
          have : (i < m + 1) = (i < m) := by
            apply propext; constructor <;> intro h <;> omega
          simp only [this])
  obtain ⟨l4, hr3⟩ := loop3 le_rfl
  refine ⟨l4, ?_⟩
  intro i hi
  rw [hr3 i hi]
  by_cases hZ : (points.getD i ⟨0, 0, 0⟩).Z = 0
  · rw [if_pos hZ, if_pos hZ]
  · rw [if_neg hZ, if_neg hZ, if_pos hi]

end bw761

/-! ## Point arithmetic: the addition and doubling formulas -/

section PointArithmetic

open Curve

theorem bn256.g2JacExtended.represents_of_onCurve_xyzz {F : Type} [Field F] {b : F}
    (h2 : (2 : F) ≠ 0) (h3 : (3 : F) ≠ 0) (hb : b ≠ 0) {p : bn256.g2JacExtended F}
    (hp : p.OnCurve b) : ∃ P : (W b).Point, p.Represents b P := by
  by_cases hZ : p.ZZ = 0
  · exact ⟨0, Or.inl ⟨hZ, rfl⟩⟩
  · rcases hp with h0 | ⟨hinv, heq⟩
    · exact absurd h0 hZ
    · exact ⟨_, Or.inr ⟨hZ, hinv, nonsingular_of_equation h2 h3 hb heq, rfl⟩⟩

/-- C3: for Jacobian points p and a satisfying Y^2 = X^3 + b*Z^6 over a field of
characteristic other than 2 and 3 (with b ≠ 0, either point may be the identity Z = 0, they may
represent the same point or opposite points), `p.AddAssign(a)` is a Jacobian representation of
the group sum of the points represented by p and a, and its Z is 0 exactly when that sum is the
identity. Stated for `G1Jac` (bw761) and `G2Jac` (bn256). -/
theorem AddAssign_represents_group_sum {F : Type} [Field F] [DecidableEq F] (b : F)
    (h2 : (2 : F) ≠ 0) (h3 : (3 : F) ≠ 0) (hb : b ≠ 0)
    (p a : bw761.G1Jac F) (hp : p.OnCurve b) (ha : a.OnCurve b)
    (q c : bn256.G2Jac F) (hq : q.OnCurve b) (hc : c.OnCurve b) :
    (∃ P Q : (W b).Point, p.Represents b P ∧ a.Represents b Q ∧
        (p.AddAssign a).Represents b (P + Q) ∧ ((p.AddAssign a).Z = 0 ↔ P + Q = 0)) ∧
    (∃ P Q : (W b).Point, q.Represents b P ∧ c.Represents b Q ∧
        (q.AddAssign c).Represents b (P + Q) ∧ ((q.AddAssign c).Z = 0 ↔ P + Q = 0)) := by
  obtain ⟨P, hP⟩ := bw761.G1Jac.represents_of_onCurve_g1Jac h2 h3 hb hp
  obtain ⟨Q, hQ⟩ := bw761.G1Jac.represents_of_onCurve_g1Jac h2 h3 hb ha
  obtain ⟨P', hP'⟩ := bn256.G2Jac.represents_of_onCurve_g2Jac h2 h3 hb hq
  obtain ⟨Q', hQ'⟩ := bn256.G2Jac.represents_of_onCurve_g2Jac h2 h3 hb hc
  have h1 := bw761.G1Jac.AddAssign_represents_g1Jac h2 hP hQ
  have h1' := bn256.G2Jac.AddAssign_represents_g2Jac h2 hP' hQ'
  exact ⟨⟨P, Q, hP, hQ, h1, bw761.G1Jac.represents_Z_iff_g1Jac h1⟩,
    ⟨P', Q', hP', hQ', h1', bn256.G2Jac.represents_Z_iff_g2Jac h1'⟩⟩

theorem AddAssign_represents_group_sum_witness :
    ((2 : ZMod 7) ≠ 0 ∧ (3 : ZMod 7) ≠ 0 ∧
      (⟨1, 2, 1⟩ : bw761.G1Jac (ZMod 7)).OnCurve 3 ∧
      (⟨2, 2, 1⟩ : bw761.G1Jac (ZMod 7)).OnCurve 3 ∧
      (⟨4, 2, 2⟩ : bn256.G2Jac (ZMod 7)).OnCurve 3 ∧
      (⟨1, 5, 1⟩ : bn256.G2Jac (ZMod 7)).OnCurve 3) ∧
    ((∃ P Q : (W (3 : ZMod 7)).Point, (⟨1, 2, 1⟩ : bw761.G1Jac (ZMod 7)).Represents 3 P ∧
        (⟨2, 2, 1⟩ : bw761.G1Jac (ZMod 7)).Represents 3 Q ∧
        ((⟨1, 2, 1⟩ : bw761.G1Jac (ZMod 7)).AddAssign ⟨2, 2, 1⟩).Represents 3 (P + Q) ∧
        (((⟨1, 2, 1⟩ : bw761.G1Jac (ZMod 7)).AddAssign ⟨2, 2, 1⟩).Z = 0 ↔ P + Q = 0)) ∧
    (∃ P Q : (W (3 : ZMod 7)).Point, (⟨4, 2, 2⟩ : bn256.G2Jac (ZMod 7)).Represents 3 P ∧
        (⟨1, 5, 1⟩ : bn256.G2Jac (ZMod 7)).Represents 3 Q ∧
        ((⟨4, 2, 2⟩ : bn256.G2Jac (ZMod 7)).AddAssign ⟨1, 5, 1⟩).Represents 3 (P + Q) ∧
        (((⟨4, 2, 2⟩ : bn256.G2Jac (ZMod 7)).AddAssign ⟨1, 5, 1⟩).Z = 0 ↔ P + Q = 0))) :=
  ⟨by decide, AddAssign_represents_group_sum (3 : ZMod 7) (by decide) (by decide) (by decide)
    ⟨1, 2, 1⟩ ⟨2, 2, 1⟩ (by decide) (by decide) ⟨4, 2, 2⟩ ⟨1, 5, 1⟩ (by decide) (by decide)⟩

/-- C4: for an on-curve Jacobian point p (identity allowed) and an affine point a that is on the
curve or is the identity sentinel (0,0), over a field of characteristic other than 2 and 3 with
b ≠ 0, `p.AddMixed(a)` is a Jacobian representation of the sum of the points represented by p
and a. In particular: p is returned unchanged when a is (0,0); the result is (a.X, a.Y, 1) when
p is the identity (and a is not (0,0)); and when a is the affine point p represents the method
falls through to `DoubleAssign`. Stated for `G1Jac` (bw761) and `G2Jac` (bn256). -/
theorem AddMixed_represents_group_sum {F : Type} [Field F] [DecidableEq F] (b : F)
    (h2 : (2 : F) ≠ 0) (h3 : (3 : F) ≠ 0) (hb : b ≠ 0)
    (p : bw761.G1Jac F) (a : bw761.G1Affine F) (hp : p.OnCurve b) (ha : a.OnCurve b)
    (q : bn256.G2Jac F) (c : bn256.G2Affine F) (hq : q.OnCurve b) (hc : c.OnCurve b) :
    ((∃ P Q : (W b).Point, p.Represents b P ∧ a.Represents b Q ∧
        (p.AddMixed a).Represents b (P + Q)) ∧
      (a.X = 0 ∧ a.Y = 0 → p.AddMixed a = p) ∧
      (¬ (a.X = 0 ∧ a.Y = 0) → p.Z = 0 → p.AddMixed a = ⟨a.X, a.Y, 1⟩) ∧
      (¬ (a.X = 0 ∧ a.Y = 0) → p.Z ≠ 0 → p.X = a.X * p.Z ^ 2 → p.Y = a.Y * p.Z ^ 3 →
        p.AddMixed a = p.DoubleAssign)) ∧
    ((∃ P Q : (W b).Point, q.Represents b P ∧ c.Represents b Q ∧
        (q.AddMixed c).Represents b (P + Q)) ∧
      (c.X = 0 ∧ c.Y = 0 → q.AddMixed c = q) ∧
      (¬ (c.X = 0 ∧ c.Y = 0) → q.Z = 0 → q.AddMixed c = ⟨c.X, c.Y, 1⟩) ∧
      (¬ (c.X = 0 ∧ c.Y = 0) → q.Z ≠ 0 → q.X = c.X * q.Z ^ 2 → q.Y = c.Y * q.Z ^ 3 →
        q.AddMixed c = q.DoubleAssign)) := by
  obtain ⟨P, hP⟩ := bw761.G1Jac.represents_of_onCurve_g1Jac h2 h3 hb hp
  obtain ⟨Q, hQ⟩ := bw761.G1Affine.represents_of_onCurve_g1Affine h2 h3 hb ha
  obtain ⟨P', hP'⟩ := bn256.G2Jac.represents_of_onCurve_g2Jac h2 h3 hb hq
  obtain ⟨Q', hQ'⟩ := bn256.G2Affine.represents_of_onCurve_g2Affine h2 h3 hb hc
  refine ⟨⟨⟨P, Q, hP, hQ, bw761.G1Jac.AddMixed_represents_g1Jac h2 hP hQ⟩, ?_, ?_, ?_⟩,
    ⟨⟨P', Q', hP', hQ', bn256.G2Jac.AddMixed_represents_g2Jac h2 hP' hQ'⟩, ?_, ?_, ?_⟩⟩
  · intro h0
    unfold bw761.G1Jac.AddMixed
    rw [if_pos h0]
  · intro h0 hZ
    unfold bw761.G1Jac.AddMixed
    rw [if_neg h0, if_pos hZ]
  · intro h0 hZ hX hY
    unfold bw761.G1Jac.AddMixed
    rw [if_neg h0, if_neg hZ]
    simp only
    rw [if_pos ⟨hX.symm, by rw [hY]; ring⟩]
  · intro h0
    unfold bn256.G2Jac.AddMixed
    rw [if_pos h0]
  · intro h0 hZ
    unfold bn256.G2Jac.AddMixed
    rw [if_neg h0, if_pos hZ]
  · intro h0 hZ hX hY
    unfold bn256.G2Jac.AddMixed
    rw [if_neg h0, if_neg hZ]
    simp only
    rw [if_pos ⟨hX.symm, by rw [hY]; ring⟩]

theorem AddMixed_represents_group_sum_witness :
    ((2 : ZMod 7) ≠ 0 ∧ (3 : ZMod 7) ≠ 0 ∧
      (⟨4, 2, 2⟩ : bw761.G1Jac (ZMod 7)).OnCurve 3 ∧
      (⟨1, 2⟩ : bw761.G1Affine (ZMod 7)).OnCurve 3 ∧
      (⟨1, 2, 1⟩ : bn256.G2Jac (ZMod 7)).OnCurve 3 ∧
      (⟨2, 5⟩ : bn256.G2Affine (ZMod 7)).OnCurve 3) ∧
    ∃ P Q : (W (3 : ZMod 7)).Point, (⟨4, 2, 2⟩ : bw761.G1Jac (ZMod 7)).Represents 3 P ∧
        (⟨1, 2⟩ : bw761.G1Affine (ZMod 7)).Represents 3 Q ∧
        ((⟨4, 2, 2⟩ : bw761.G1Jac (ZMod 7)).AddMixed ⟨1, 2⟩).Represents 3 (P + Q) :=
  ⟨by decide, (AddMixed_represents_group_sum (3 : ZMod 7) (by decide) (by decide) (by decide)
    ⟨4, 2, 2⟩ ⟨1, 2⟩ (by decide) (by decide) ⟨1, 2, 1⟩ ⟨2, 5⟩ (by decide) (by decide)).1.1⟩

/-- C5: for a Jacobian point p on the curve Y^2 = X^3 + b (coefficient a = 0, b ≠ 0,
characteristic other than 2 and 3), `p.DoubleAssign()` is a Jacobian representation of P + P,
where P is the point p represents; doubling the identity (Z = 0) gives Z = 0 and doubling a
point with Y = 0 gives Z = 0 (these two for every triple). Stated for `G1Jac` and `G2Jac`. -/
theorem DoubleAssign_represents_double {F : Type} [Field F] (b : F)
    (h2 : (2 : F) ≠ 0) (h3 : (3 : F) ≠ 0) (hb : b ≠ 0)
    (p : bw761.G1Jac F) (hp : p.OnCurve b) (q : bn256.G2Jac F) (hq : q.OnCurve b) :
    ((∃ P : (W b).Point, p.Represents b P ∧ p.DoubleAssign.Represents b (P + P)) ∧
      (p.Z = 0 → p.DoubleAssign.Z = 0) ∧ (p.Y = 0 → p.DoubleAssign.Z = 0)) ∧
    ((∃ P : (W b).Point, q.Represents b P ∧ q.DoubleAssign.Represents b (P + P)) ∧
      (q.Z = 0 → q.DoubleAssign.Z = 0) ∧ (q.Y = 0 → q.DoubleAssign.Z = 0)) := by
  obtain ⟨P, hP⟩ := bw761.G1Jac.represents_of_onCurve_g1Jac h2 h3 hb hp
  obtain ⟨P', hP'⟩ := bn256.G2Jac.represents_of_onCurve_g2Jac h2 h3 hb hq
  have e : q.DoubleAssign.Z = 2 * q.Y * q.Z := bw761.G1Jac.DoubleAssign_Z q.asG1
  refine ⟨⟨⟨P, hP, bw761.G1Jac.DoubleAssign_represents_g1Jac hP⟩, ?_, ?_⟩,
    ⟨⟨P', hP', bn256.G2Jac.DoubleAssign_represents_g2Jac hP'⟩, ?_, ?_⟩⟩
  · intro h; rw [bw761.G1Jac.DoubleAssign_Z, h, mul_zero]
  · intro h; rw [bw761.G1Jac.DoubleAssign_Z, h, mul_zero, zero_mul]
  · intro h; rw [e, h, mul_zero]
  · intro h; rw [e, h, mul_zero, zero_mul]

theorem DoubleAssign_represents_double_witness :
    ((2 : ZMod 7) ≠ 0 ∧ (3 : ZMod 7) ≠ 0 ∧
      (⟨4, 2, 2⟩ : bw761.G1Jac (ZMod 7)).OnCurve 3 ∧
      (⟨1, 1, 0⟩ : bn256.G2Jac (ZMod 7)).OnCurve 3) ∧
    ((∃ P : (W (3 : ZMod 7)).Point, (⟨4, 2, 2⟩ : bw761.G1Jac (ZMod 7)).Represents 3 P ∧
        (⟨4, 2, 2⟩ : bw761.G1Jac (ZMod 7)).DoubleAssign.Represents 3 (P + P)) ∧
      ((1 : ZMod 7) = 0 → (⟨1, 1, 0⟩ : bn256.G2Jac (ZMod 7)).DoubleAssign.Z = 0)) :=
  ⟨by decide,
    (DoubleAssign_represents_double (3 : ZMod 7) (by decide) (by decide) (by decide)
      ⟨4, 2, 2⟩ (by decide) ⟨1, 1, 0⟩ (by decide)).1.1,
    (DoubleAssign_represents_double (3 : ZMod 7) (by decide) (by decide) (by decide)
      ⟨4, 2, 2⟩ (by decide) ⟨1, 1, 0⟩ (by decide)).2.2.2⟩

/-- C6: for an extended (XYZZ) accumulator p that is the identity (ZZ = 0) or represents the
on-curve affine point (X/ZZ, Y/ZZZ) (with the invariant ZZ^3 = ZZZ^2 of the type), and an affine
a that is on the curve or is (0,0), `p.mAdd(a)` represents the sum of the two points: p is
returned unchanged when a is (0,0), the result is (a.X, a.Y, 1, 1) when p is the identity (and a
is not (0,0)), it is `double(a)`, which represents the doubling of a, when both represent the
same point, and ZZ = ZZZ = 0 when a is the opposite of the (non-identity) point of p. -/
theorem mAdd_represents_group_sum {F : Type} [Field F] [DecidableEq F] (b : F)
    (h2 : (2 : F) ≠ 0) (h3 : (3 : F) ≠ 0) (hb : b ≠ 0)
    (p : bn256.g2JacExtended F) (a : bn256.G2Affine F) (hp : p.OnCurve b) (ha : a.OnCurve b) :
    (∃ P Q : (W b).Point, p.Represents b P ∧ a.Represents b Q ∧
        (p.mAdd a).Represents b (P + Q) ∧
        (P + Q = 0 → P ≠ 0 → (p.mAdd a).ZZ = 0 ∧ (p.mAdd a).ZZZ = 0) ∧
        (¬ (a.X = 0 ∧ a.Y = 0) → p.ZZ ≠ 0 → p.X = a.X * p.ZZ → p.Y = a.Y * p.ZZZ →
          (bn256.g2JacExtended.double a).Represents b (Q + Q))) ∧
      (a.X = 0 ∧ a.Y = 0 → p.mAdd a = p) ∧
      (¬ (a.X = 0 ∧ a.Y = 0) → p.ZZ = 0 → p.mAdd a = ⟨a.X, a.Y, 1, 1⟩) ∧
      (¬ (a.X = 0 ∧ a.Y = 0) → p.ZZ ≠ 0 → p.X = a.X * p.ZZ → p.Y = a.Y * p.ZZZ →
        p.mAdd a = bn256.g2JacExtended.double a) := by
  obtain ⟨P, hP⟩ := bn256.g2JacExtended.represents_of_onCurve_xyzz h2 h3 hb hp
  obtain ⟨Q, hQ⟩ := bn256.G2Affine.represents_of_onCurve_g2Affine h2 h3 hb ha
  refine ⟨⟨P, Q, hP, hQ, bn256.g2JacExtended.mAdd_represents hP hQ,
    bn256.g2JacExtended.mAdd_opposite hP hQ, ?_⟩, ?_, ?_, ?_⟩
  · intro h0 _ _ _
    obtain ⟨h, hQe⟩ := bw761.G1Affine.represents_elim_g1Affine hQ h0
    rw [hQe]
    exact bn256.g2JacExtended.double_represents h rfl rfl
  · intro h0
    unfold bn256.g2JacExtended.mAdd
    rw [if_pos h0]
  · intro h0 hZ
    unfold bn256.g2JacExtended.mAdd
    rw [if_neg h0, if_pos hZ]
  · intro h0 hZ hX hY
    unfold bn256.g2JacExtended.mAdd
    rw [if_neg h0, if_neg hZ]
    simp only
    rw [if_pos ⟨hX.symm, hY.symm⟩]

theorem mAdd_represents_group_sum_witness :
    ((2 : ZMod 7) ≠ 0 ∧ (3 : ZMod 7) ≠ 0 ∧
      (⟨4, 2, 4, 1⟩ : bn256.g2JacExtended (ZMod 7)).OnCurve 3 ∧
      (⟨1, 5⟩ : bn256.G2Affine (ZMod 7)).OnCurve 3) ∧
    ∃ P Q : (W (3 : ZMod 7)).Point, (⟨4, 2, 4, 1⟩ : bn256.g2JacExtended (ZMod 7)).Represents 3 P ∧
        (⟨1, 5⟩ : bn256.G2Affine (ZMod 7)).Represents 3 Q ∧
        ((⟨4, 2, 4, 1⟩ : bn256.g2JacExtended (ZMod 7)).mAdd ⟨1, 5⟩).Represents 3 (P + Q) ∧
        (P + Q = 0 → P ≠ 0 →
          ((⟨4, 2, 4, 1⟩ : bn256.g2JacExtended (ZMod 7)).mAdd ⟨1, 5⟩).ZZ = 0 ∧
          ((⟨4, 2, 4, 1⟩ : bn256.g2JacExtended (ZMod 7)).mAdd ⟨1, 5⟩).ZZZ = 0) ∧
        (¬ ((1 : ZMod 7) = 0 ∧ (5 : ZMod 7) = 0) → (4 : ZMod 7) ≠ 0 → (4 : ZMod 7) = 1 * 4 →
          (2 : ZMod 7) = 5 * 1 →
          (bn256.g2JacExtended.double (⟨1, 5⟩ : bn256.G2Affine (ZMod 7))).Represents 3 (Q + Q)) :=
  ⟨⟨by decide, by decide,
      Or.inr ⟨by decide, by rw [div_one, div_self (by decide)]; decide⟩, by decide⟩,
    (mAdd_represents_group_sum (3 : ZMod 7) (by decide) (by decide) (by decide)
      ⟨4, 2, 4, 1⟩ ⟨1, 5⟩
      (Or.inr ⟨by decide, by rw [div_one, div_self (by decide)]; decide⟩) (by decide)).1⟩

end PointArithmetic

section ScalarMultiplication

open Curve

/-- C7: for an on-curve Jacobian point a (curve Y^2 = X^3 + b, b ≠ 0, characteristic other than
2 and 3) and a non-negative integer s, `mulWindowed(a, s)`, which scans the big-endian bytes of
s two bits at a time from the most significant bit and adds entries of the table [a, 2a, 3a],
represents s•A, where A is the point a represents; the three table entries represent A, 2•A and
3•A; for s = 0 the result is the identity and for s = 1 it represents A. -/
theorem mulWindowed_represents_multiple {F : Type} [Field F] [DecidableEq F] (b : F)
    (h2 : (2 : F) ≠ 0) (h3 : (3 : F) ≠ 0) (hb : b ≠ 0) (a : bw761.G1Jac F)
    (ha : a.OnCurve b) (s : Nat) :
    ∃ A : (W b).Point, a.Represents b A ∧
      (bw761.G1Jac.mulWindowed a (s : Int)).Represents b (s • A) ∧
      (bw761.G1Jac.Double a).Represents b (2 • A) ∧
      (a.AddAssign (bw761.G1Jac.Double a)).Represents b (3 • A) ∧
      (bw761.G1Jac.mulWindowed a 0).Z = 0 ∧
      (bw761.G1Jac.mulWindowed a 1).Represents b A := by
  obtain ⟨A, hA⟩ := bw761.G1Jac.represents_of_onCurve_g1Jac h2 h3 hb ha
  have hs := bw761.G1Jac.mulWindowed_represents h2 hA (s : Int)
  have h0 := bw761.G1Jac.mulWindowed_represents h2 hA 0
  have h1 := bw761.G1Jac.mulWindowed_represents h2 hA 1
  simp only [Int.natAbs_ofNat, Int.natAbs_zero, Int.natAbs_one, zero_nsmul, one_nsmul]
    at hs h0 h1
  refine ⟨A, hA, hs, ?_, ?_, (bw761.G1Jac.represents_Z_iff_g1Jac h0).mpr rfl, h1⟩
  · simpa using bw761.mulWindowed_ops h2 hA 2 (by norm_num) (by norm_num)
  · simpa using bw761.mulWindowed_ops h2 hA 3 (by norm_num) (by norm_num)

theorem mulWindowed_represents_multiple_witness :
    ((2 : ZMod 7) ≠ 0 ∧ (3 : ZMod 7) ≠ 0 ∧ (⟨4, 2, 2⟩ : bw761.G1Jac (ZMod 7)).OnCurve 3) ∧
    ∃ A : (W (3 : ZMod 7)).Point, (⟨4, 2, 2⟩ : bw761.G1Jac (ZMod 7)).Represents 3 A ∧
      (bw761.G1Jac.mulWindowed (⟨4, 2, 2⟩ : bw761.G1Jac (ZMod 7)) ((300 : Nat) : Int)).Represents
        3 (300 • A) ∧
      (bw761.G1Jac.Double (⟨4, 2, 2⟩ : bw761.G1Jac (ZMod 7))).Represents 3 (2 • A) ∧
      ((⟨4, 2, 2⟩ : bw761.G1Jac (ZMod 7)).AddAssign
        (bw761.G1Jac.Double (⟨4, 2, 2⟩ : bw761.G1Jac (ZMod 7)))).Represents 3 (3 • A) ∧
      (bw761.G1Jac.mulWindowed (⟨4, 2, 2⟩ : bw761.G1Jac (ZMod 7)) 0).Z = 0 ∧
      (bw761.G1Jac.mulWindowed (⟨4, 2, 2⟩ : bw761.G1Jac (ZMod 7)) 1).Represents 3 A :=
  ⟨by decide, mulWindowed_represents_multiple (3 : ZMod 7) (by decide) (by decide) (by decide)
    ⟨4, 2, 2⟩ (by decide) 300⟩

/-- C9: for an on-curve Jacobian point a and a scalar given as four little-endian 64-bit limbs,
`ScalarMul(a, scalar)` represents v•A, where A is the point a represents and v is the integer
value of the limbs as stored; in particular v = 0 gives the identity (Z = 0) and v = 1 gives a
point `Equal` to a. -/
theorem ScalarMul_represents_multiple {F : Type} [Field F] [DecidableEq F] (b : F)
    (h2 : (2 : F) ≠ 0) (h3 : (3 : F) ≠ 0) (hb : b ≠ 0) (a : bn256.G2Jac F)
    (ha : a.OnCurve b) (scalar : bn256.Element) (hs : bn256.elementWF scalar) :
    ∃ A : (W b).Point, a.Represents b A ∧
      (bn256.G2Jac.ScalarMul a scalar).Represents b (bn256.elementValue scalar • A) ∧
      (bn256.elementValue scalar = 0 → (bn256.G2Jac.ScalarMul a scalar).Z = 0) ∧
      (bn256.elementValue scalar = 1 →
        bn256.G2Jac.Equal (bn256.G2Jac.ScalarMul a scalar) a = true) := by
  obtain ⟨A, hA⟩ := bn256.G2Jac.represents_of_onCurve_g2Jac h2 h3 hb ha
  have h := bn256.ScalarMul_represents h2 hA hs
  refine ⟨A, hA, h, ?_, ?_⟩
  · intro h0
    rw [h0, zero_nsmul] at h
    exact (bn256.G2Jac.represents_Z_iff_g2Jac h).mpr rfl
  · intro h1
    rw [h1, one_nsmul] at h
    exact (bn256.G2Jac.Equal_iff_g2Jac h hA).mpr rfl

theorem ScalarMul_represents_multiple_witness :
    ((2 : ZMod 7) ≠ 0 ∧ (3 : ZMod 7) ≠ 0 ∧ (⟨4, 2, 2⟩ : bn256.G2Jac (ZMod 7)).OnCurve 3 ∧
      bn256.elementWF [5, 0, 1, 0]) ∧
    ∃ A : (W (3 : ZMod 7)).Point, (⟨4, 2, 2⟩ : bn256.G2Jac (ZMod 7)).Represents 3 A ∧
      (bn256.G2Jac.ScalarMul (⟨4, 2, 2⟩ : bn256.G2Jac (ZMod 7)) [5, 0, 1, 0]).Represents 3
        (bn256.elementValue [5, 0, 1, 0] • A) ∧
      (bn256.elementValue [5, 0, 1, 0] = 0 →
        (bn256.G2Jac.ScalarMul (⟨4, 2, 2⟩ : bn256.G2Jac (ZMod 7)) [5, 0, 1, 0]).Z = 0) ∧
      (bn256.elementValue [5, 0, 1, 0] = 1 →
        bn256.G2Jac.Equal (bn256.G2Jac.ScalarMul (⟨4, 2, 2⟩ : bn256.G2Jac (ZMod 7)) [5, 0, 1, 0])
          ⟨4, 2, 2⟩ = true) :=
  ⟨by decide, ScalarMul_represents_multiple (3 : ZMod 7) (by decide) (by decide) (by decide)
    ⟨4, 2, 2⟩ (by decide) [5, 0, 1, 0] (by decide)⟩

end ScalarMultiplication

section WindowedFallback

open Curve

/-- C2 (the code at the failing input): over `ZMod 7` with b = 3 and G = (1, 2), calling
`WindowedMultiExp([G], [1])` on a receiver that already holds G yields a point that is not
`Equal` to 1•G = G but to 2•G (`DoubleAssign` of G): the partial sums are added to the old
value of the receiver. `MultiExp` on this input (at most 50 points) delivers the same value. -/
theorem WindowedMultiExp_adds_to_receiver :
    bn256.G2Jac.Equal
        (bn256.G2Jac.WindowedMultiExp [(0, 1)] (⟨1, 2, 1⟩ : bn256.G2Jac (ZMod 7)) [⟨1, 2, 1⟩]
          [[1, 0, 0, 0]]) ⟨1, 2, 1⟩ = false ∧
      bn256.G2Jac.Equal
        (bn256.G2Jac.WindowedMultiExp [(0, 1)] (⟨1, 2, 1⟩ : bn256.G2Jac (ZMod 7)) [⟨1, 2, 1⟩]
          [[1, 0, 0, 0]]) (bn256.G2Jac.DoubleAssign ⟨1, 2, 1⟩) = true ∧
      bn256.G2Jac.MultiExp 1 [(0, 1)] (⟨1, 2, 1⟩ : bn256.G2Jac (ZMod 7)) [⟨1, 2⟩] [[1, 0, 0, 0]]
        = some (bn256.G2Jac.WindowedMultiExp [(0, 1)] (⟨1, 2, 1⟩ : bn256.G2Jac (ZMod 7))
          [⟨1, 2, 1⟩] [[1, 0, 0, 0]]) := by
  have h2 : (2 : ZMod 7) ≠ 0 := by decide
  obtain ⟨A, hA⟩ := bn256.G2Jac.represents_of_onCurve_g2Jac (b := (3 : ZMod 7)) h2 (by decide)
    (by decide) (p := ⟨1, 2, 1⟩) (by decide)
  have hA0 : A ≠ 0 := fun h => absurd ((bn256.G2Jac.represents_Z_iff_g2Jac hA).mpr h) (by decide)
  have hv : bn256.elementValue [1, 0, 0, 0] = 1 := by
    simp [bn256.elementValue, Nat.ofDigits]
  have hr := bn256.WindowedMultiExp_represents h2 [⟨1, 2, 1⟩] [[1, 0, 0, 0]] (fun _ => A)
    (by intro i hi; have : i = 0 := by simpa using hi
        subst this; simpa using hA)
    (by intro i hi; have : i = 0 := by simpa using hi
        subst this; decide)
    [(0, 1)] (by simp) ⟨1, 2, 1⟩ A hA
  have hsum : A + ([(0, 1)].map (fun se : Nat × Nat =>
      ∑ i ∈ Finset.Ico se.1 se.2,
        bn256.elementValue (([[1, 0, 0, 0]] : List bn256.Element).getD i []) • A)).sum
      = A + A := by
    simp [hv]
  rw [hsum] at hr
  refine ⟨?_, ?_, ?_⟩
  · rw [← Bool.not_eq_true]
    intro h
    have := (bn256.G2Jac.Equal_iff_g2Jac hr hA).mp h
    exact hA0 (by simpa using this)
  · exact (bn256.G2Jac.Equal_iff_g2Jac hr (bn256.G2Jac.DoubleAssign_represents_g2Jac hA)).mpr rfl
  · rfl

end WindowedFallback

section GLV

open Curve

theorem bw761.G1Jac.represents_congr {F : Type} [Field F] {b : F} {p q : bw761.G1Jac F}
    {P : (W b).Point} (hp : p.Represents b P) (hpZ : p.Z ≠ 0) (hqZ : q.Z ≠ 0)
    (hX : p.X * q.Z ^ 2 = q.X * p.Z ^ 2) (hY : p.Y * q.Z ^ 3 = q.Y * p.Z ^ 3) :
    q.Represents b P := by
  rcases hp with ⟨h0, _⟩ | ⟨_, h, rfl⟩
  · exact absurd h0 hpZ
  · right
    refine ⟨hqZ, ?_⟩
    apply some_transport
    · rw [div_eq_div_iff (pow_ne_zero 2 hpZ) (pow_ne_zero 2 hqZ)]; exact hX
    · rw [div_eq_div_iff (pow_ne_zero 3 hpZ) (pow_ne_zero 3 hqZ)]; exact hY

/-- The point (1, 2) of the curve y^2 = x^3 + 3 over `ZMod 7`. -/
theorem nonsingular_one_two : (W (3 : ZMod 7)).Nonsingular 1 2 :=
  nonsingular_of_equation (by decide) (by decide) (by decide) (by decide)

theorem small_curve_G :
    (⟨1, 2, 1⟩ : bw761.G1Jac (ZMod 7)).Represents 3 (Affine.Point.some nonsingular_one_two) := by
  right
  refine ⟨by decide, ?_⟩
  apply some_transport <;> simp

/-- On the small curve, (1, 2) has order 13 and phi(1, 2) = (2, 2) = 3•(1, 2). -/
theorem small_curve_order_phi :
    13 • (Affine.Point.some nonsingular_one_two : (W (3 : ZMod 7)).Point) = 0 ∧
    (bw761.G1Jac.phi 2 (⟨1, 2, 1⟩ : bw761.G1Jac (ZMod 7))).Represents 3
      ((3 : Int) • (Affine.Point.some nonsingular_one_two : (W (3 : ZMod 7)).Point)) := by
  have h2 : (2 : ZMod 7) ≠ 0 := by decide
  have hG := small_curve_G
  generalize (Affine.Point.some nonsingular_one_two : (W (3 : ZMod 7)).Point) = A at hG
  have hD := bw761.G1Jac.DoubleAssign_represents_g1Jac hG
  have hT := bw761.G1Jac.AddAssign_represents_g1Jac h2 hG hD
  have h6 := bw761.G1Jac.DoubleAssign_represents_g1Jac hT
  have h12 := bw761.G1Jac.DoubleAssign_represents_g1Jac h6
  have h13 := bw761.G1Jac.AddAssign_represents_g1Jac h2 h12 hG
  constructor
  · have hz := (bw761.G1Jac.represents_Z_iff_g1Jac h13).mp (by decide)
    rw [← hz]
    have e : (13 : ℕ) • A = 1 • A + 12 • A := by rw [← add_nsmul]
    have e12 : (12 : ℕ) • A = 6 • A + 6 • A := by rw [← add_nsmul]
    have e6 : (6 : ℕ) • A = 3 • A + 3 • A := by rw [← add_nsmul]
    have e3 : (3 : ℕ) • A = 1 • A + 2 • A := by rw [← add_nsmul]
    have e2 : (2 : ℕ) • A = 1 • A + 1 • A := by rw [← add_nsmul]
    rw [e, e12, e6, e3, e2, one_nsmul]
    abel
  · have e3 : (3 : Int) • A = A + (A + A) := by
      have : (3 : Int) • A = (3 : ℕ) • A := by rw [← natCast_zsmul]; rfl
      rw [this, succ_nsmul, two_nsmul, add_comm]
    rw [e3]
    exact bw761.G1Jac.represents_congr hT (by decide) (by decide) (by decide) (by decide)

/-- C8: for a point a of the subgroup of order r (r•A = 0, 1 < r < 2^384, with
phi(a) representing lambda•A) and an integer s with 0 ≤ s < r, `mulGLV(a, s)`, which is what
`ScalarMultiplication` returns, is `Equal` to `mulWindowed(a, s)`. `SplitScalar` stands for
`utils.SplitScalar(s, &glvBasis)`, taken with the properties the specification states for it:
s ≡ k1 + k2*lambda (mod r) and |k1|, |k2| ≤ sqrt r. -/
theorem mulGLV_Equal_mulWindowed {F : Type} [Field F] [DecidableEq F] (b w : F)
    (h2 : (2 : F) ≠ 0) (r : Nat) (lam : Int) (SplitScalar : Int → Int × Int)
    (a : bw761.G1Jac F) (A : (W b).Point) (ha : a.Represents b A) (hrA : r • A = 0)
    (hr1 : 1 < r) (hr384 : r < 2 ^ 384)
    (hphi : (bw761.G1Jac.phi w a).Represents b (lam • A))
    (s : Int) (hs0 : 0 ≤ s) (_hsr : s < r)
    (hsplit : (SplitScalar s).1 + (SplitScalar s).2 * lam ≡ s [ZMOD (r : Int)])
    (hk1 : (SplitScalar s).1 ^ 2 ≤ (r : Int)) (hk2 : (SplitScalar s).2 ^ 2 ≤ (r : Int)) :
    bw761.G1Jac.ScalarMultiplication w r SplitScalar a s
        = bw761.G1Jac.mulGLV w r SplitScalar a s ∧
      bw761.G1Jac.Equal (bw761.G1Jac.mulGLV w r SplitScalar a s)
        (bw761.G1Jac.mulWindowed a s) = true := by
  refine ⟨rfl, ?_⟩
  have bound : ∀ k : Int, k ^ 2 ≤ (r : Int) → k.natAbs < r ∧ k.natAbs < 2 ^ 192 := by
    intro k hk
    have hk' : k.natAbs ^ 2 ≤ r := by
      have : ((k.natAbs ^ 2 : ℕ) : Int) ≤ (r : Int) := by
        rw [Nat.cast_pow, Int.natCast_natAbs, sq_abs]; exact hk
      exact_mod_cast this
    constructor
    · by_contra hc
      push_neg at hc
      have : r * r ≤ k.natAbs ^ 2 := by
        rw [sq]; exact Nat.mul_le_mul hc hc
      nlinarith
    · by_contra hc
      push_neg at hc
      have : (2 ^ 192) * (2 ^ 192) ≤ k.natAbs ^ 2 := by
        rw [sq]; exact Nat.mul_le_mul hc hc
      have e : (2 : ℕ) ^ 192 * 2 ^ 192 = 2 ^ 384 := by norm_num
      omega
  obtain ⟨b1, c1⟩ := bound _ hk1
  obtain ⟨b2, c2⟩ := bound _ hk2
  have hglv := bw761.G1Jac.mulGLV_represents h2 w r SplitScalar ha hphi s b1 b2 c1 c2
  have hwin := bw761.G1Jac.mulWindowed_represents h2 ha s
  apply (bw761.G1Jac.Equal_iff_g1Jac hglv hwin).mpr
  have hrZ : (r : Int) • A = 0 := by rw [natCast_zsmul]; exact hrA
  have e1 : (SplitScalar s).1 • A + (SplitScalar s).2 • lam • A
      = ((SplitScalar s).1 + (SplitScalar s).2 * lam) • A := by
    rw [add_smul, mul_smul]
  have e2 : s.natAbs • A = s • A := by
    rw [← natCast_zsmul, Int.natAbs_of_nonneg hs0]
  rw [e1, e2]
  obtain ⟨c, hc⟩ := (Int.modEq_iff_dvd.mp hsplit)
  have e3 : s = (SplitScalar s).1 + (SplitScalar s).2 * lam + (r : Int) * c := by
    linarith
  have e4 : ((r : Int) * c) • A = 0 := by
    rw [mul_comm, mul_smul, hrZ, smul_zero]
  conv_rhs => rw [e3]
  rw [add_smul ((SplitScalar s).1 + (SplitScalar s).2 * lam), e4, add_zero]

theorem mulGLV_Equal_mulWindowed_witness :
    bw761.G1Jac.ScalarMultiplication (2 : ZMod 7) 13 (fun _ => (1, -1)) ⟨1, 2, 1⟩ 11
        = bw761.G1Jac.mulGLV (2 : ZMod 7) 13 (fun _ => (1, -1)) ⟨1, 2, 1⟩ 11 ∧
      bw761.G1Jac.Equal (bw761.G1Jac.mulGLV (2 : ZMod 7) 13 (fun _ => (1, -1)) ⟨1, 2, 1⟩ 11)
        (bw761.G1Jac.mulWindowed (⟨1, 2, 1⟩ : bw761.G1Jac (ZMod 7)) 11) = true :=
  mulGLV_Equal_mulWindowed (3 : ZMod 7) 2 (by decide) 13 3 (fun _ => (1, -1)) ⟨1, 2, 1⟩
    (Affine.Point.some nonsingular_one_two) small_curve_G small_curve_order_phi.1
    (by norm_num) (by norm_num) small_curve_order_phi.2 11 (by norm_num) (by norm_num)
    (by decide) (by norm_num) (by norm_num)

end GLV

section BatchConversion

/-- C10 (the code at the failing input): over `ZMod 7`, converting the points
[(1, 2, 1), identity] into a result slice that holds [(3, 4), (5, 6)] leaves (5, 6) at the
identity position, whereas `FromJacobian` of the identity is (0, 0); the non-identity position
is converted correctly. -/
theorem BatchJacobianToAffineG1_stale_identity_slot :
    bw761.BatchJacobianToAffineG1
        [(⟨1, 2, 1⟩ : bw761.G1Jac (ZMod 7)), ⟨1, 1, 0⟩] [⟨3, 4⟩, ⟨5, 6⟩]
      = [⟨1, 2⟩, ⟨5, 6⟩] ∧
    bw761.G1Affine.FromJacobian (⟨1, 1, 0⟩ : bw761.G1Jac (ZMod 7)) = ⟨0, 0⟩ ∧
    bw761.G1Affine.FromJacobian (⟨1, 2, 1⟩ : bw761.G1Jac (ZMod 7)) = ⟨1, 2⟩ := by
  have hr : List.range 2 = [0, 1] := by decide
  refine ⟨?_, ?_, ?_⟩
  · simp [bw761.BatchJacobianToAffineG1, bw761.batchLoop1, bw761.batchLoop2,
      bw761.batchLoop3, hr]
  · simp [bw761.G1Affine.FromJacobian]
  · simp [bw761.G1Affine.FromJacobian]

end BatchConversion

namespace bn256

open Curve

theorem digit_le_mask {scalars : List Element} (n c : Nat)
    (hc : c = 8 ∨ c = 11 ∨ c = 13 ∨ c = 14 ∨ c = 16)
    (hS : ∀ i < n, elementWF (scalars.getD i [])) :
    ∀ t < nbChunksOf c, ∀ i < n,
      chunkDigit ((expectedBits c).getD t []) (scalars.getD i []) ≤ 2 ^ c - 1 := by
  intro t ht i hi
  obtain ⟨_, hK1, _⟩ := nbChunksOf_pos c hc
  have hc0 : 0 < c := by rcases hc with rfl | rfl | rfl | rfl | rfl <;> norm_num
  have htc : t * c < 256 := by
    have : t * c ≤ (nbChunksOf c - 1) * c := Nat.mul_le_mul_right _ (by omega)
    omega
  rw [chunk_digit_expected (hS i hi) c t hc0 htc ht]
  have h1 : elementValue (scalars.getD i []) / 2 ^ (256 - min 256 ((t + 1) * c))
      % 2 ^ min c (256 - t * c) < 2 ^ min c (256 - t * c) := Nat.mod_lt _ (by positivity)
  have h2 : 2 ^ min c (256 - t * c) ≤ 2 ^ c := Nat.pow_le_pow_right (by norm_num) (by omega)
  omega

/-- The large-n pipeline of `MultiExp` delivers a representation of the full sum, for every
number of workers and every receiver. -/
theorem MultiExp_large_represents {F : Type} [Field F] [DecidableEq F] {b : F}
    (h2 : (2 : F) ≠ 0) (nbCpus : Nat) (hcpu : 0 < nbCpus) (chunks : List (Nat × Nat))
    (p : G2Jac F) (points : List (G2Affine F)) (scalars : List Element)
    (Ps : Nat → (W b).Point) (hn : 50 < points.length)
    (hP : ∀ i < points.length, (points.getD i ⟨0, 0⟩).Represents b (Ps i))
    (hS : ∀ i < points.length, elementWF (scalars.getD i [])) :
    ∃ res, G2Jac.MultiExp nbCpus chunks p points scalars = some res ∧
      res.Represents b
        (∑ i ∈ Finset.range points.length, elementValue (scalars.getD i []) • Ps i) := by
  have hc := chunkSizeOf_cases points.length
  unfold G2Jac.MultiExp
  simp only
  rw [if_neg (by omega)]
  generalize chunkSizeOf points.length = c at hc
  rw [bitsForTaskOf_eq c hc]
  simp only
  have hK : (if sizeScalar % c = 0 then sizeScalar / c else sizeScalar / c + 1)
      = nbChunksOf c := rfl
  rw [hK, mask_eq c hc]
  have hmask : 0 < 2 ^ c - 1 := by
    have : 2 ^ 1 ≤ 2 ^ c := Nat.pow_le_pow_right (by norm_num)
      (by rcases hc with rfl | rfl | rfl | rfl | rfl <;> norm_num)
    omega
  have hdig := digit_le_mask points.length c hc hS
  have h0 : msmInv b (expectedBits c) scalars Ps points.length (2 ^ c - 1) (nbChunksOf c)
      (fun _ => False) (fun _ => False)
      ({ indices := List.replicate ((2 ^ c - 1) * nbChunksOf c) []
         accumulators := List.replicate (nbChunksOf c) ⟨0, 0, 0⟩
         chIndices := List.replicate (nbChunksOf c) false
         chPoints := List.replicate (nbChunksOf c) false } : msmState F) := by
    refine ⟨by simp, by simp, by simp, by simp, fun _ _ h => h.elim, ?_, fun _ _ h => h.elim⟩
    intro t ht _ j hj
    rw [getD_replicate _ _ _ _ (slot_lt ht hj)]
  obtain ⟨st', e, hinv⟩ := spawn_inv h2 points hP hdig nbCpus hcpu h0
  rw [e]
  simp only
  exact reduce_represents h2 points.length (2 ^ c - 1) c hc hS hinv

end bn256

section MultiScalarMultiplication

open Curve

/-- C1: for more than 50 affine points on the curve (the identity (0,0) allowed at any
position) and as many scalars given as little-endian 64-bit limbs in regular form (zero
allowed), the value `MultiExp` delivers represents the sum of s_i • P_i, where s_i is the
integer value of the limbs and P_i the point of index i; a value is delivered, and it represents
that same sum, for every number of workers and every value the receiver held before the call
(any two such results are `Equal`). The field has characteristic other than 2 and 3 and
b ≠ 0. -/
theorem MultiExp_represents_sum {F : Type} [Field F] [DecidableEq F] (b : F)
    (h2 : (2 : F) ≠ 0) (h3 : (3 : F) ≠ 0) (hb : b ≠ 0)
    (points : List (bn256.G2Affine F)) (scalars : List bn256.Element)
    (hn : 50 < points.length) (hlen : scalars.length = points.length)
    (hP : ∀ a ∈ points, a.OnCurve b) (hS : ∀ e ∈ scalars, bn256.elementWF e) :
    ∃ Ps : Nat → (W b).Point,
      (∀ i < points.length, (points.getD i ⟨0, 0⟩).Represents b (Ps i)) ∧
      (∀ (nbCpus : Nat) (chunks : List (Nat × Nat)) (p : bn256.G2Jac F), 0 < nbCpus →
        ∃ res, bn256.G2Jac.MultiExp nbCpus chunks p points scalars = some res ∧
          res.Represents b
            (∑ i ∈ Finset.range points.length,
              bn256.elementValue (scalars.getD i []) • Ps i)) ∧
      (∀ (nbCpus nbCpus' : Nat) (chunks chunks' : List (Nat × Nat)) (p p' : bn256.G2Jac F),
        0 < nbCpus → 0 < nbCpus' →
        ∃ res res', bn256.G2Jac.MultiExp nbCpus chunks p points scalars = some res ∧
          bn256.G2Jac.MultiExp nbCpus' chunks' p' points scalars = some res' ∧
          bn256.G2Jac.Equal res res' = true) := by
  have hex : ∀ i, ∃ P : (W b).Point, i < points.length →
      (points.getD i ⟨0, 0⟩).Represents b P := by
    intro i
    by_cases hi : i < points.length
    · have hmem : points.getD i ⟨0, 0⟩ ∈ points := by
        rw [List.getD_eq_getElem _ _ hi]
        exact List.getElem_mem hi
      obtain ⟨P, hP'⟩ := bn256.G2Affine.represents_of_onCurve_g2Affine h2 h3 hb (hP _ hmem)
      exact ⟨P, fun _ => hP'⟩
    · exact ⟨0, fun h => absurd h hi⟩
  choose Ps hPs using hex
  have hS' : ∀ i < points.length, bn256.elementWF (scalars.getD i []) := by
    intro i hi
    apply hS
    rw [List.getD_eq_getElem _ _ (by omega)]
    exact List.getElem_mem (by omega)
  refine ⟨Ps, hPs, ?_, ?_⟩
  · intro nbCpus chunks p hcpu
    exact bn256.MultiExp_large_represents h2 nbCpus hcpu chunks p points scalars Ps hn hPs hS'
  · intro nbCpus nbCpus' chunks chunks' p p' hcpu hcpu'
    obtain ⟨res, e, hres⟩ :=
      bn256.MultiExp_large_represents h2 nbCpus hcpu chunks p points scalars Ps hn hPs hS'
    obtain ⟨res', e', hres'⟩ :=
      bn256.MultiExp_large_represents h2 nbCpus' hcpu' chunks' p' points scalars Ps hn hPs hS'
    exact ⟨res, res', e, e', (bn256.G2Jac.Equal_iff_g2Jac hres hres').mpr rfl⟩

theorem MultiExp_represents_sum_witness :
    ((2 : ZMod 7) ≠ 0 ∧ (3 : ZMod 7) ≠ 0 ∧
      50 < (List.replicate 51 (⟨1, 2⟩ : bn256.G2Affine (ZMod 7))).length ∧
      (∀ a ∈ List.replicate 51 (⟨1, 2⟩ : bn256.G2Affine (ZMod 7)), a.OnCurve 3) ∧
      (∀ e ∈ List.replicate 51 ([5, 0, 0, 0] : bn256.Element), bn256.elementWF e)) ∧
    ∃ Ps : Nat → (W (3 : ZMod 7)).Point,
      (∀ i < (List.replicate 51 (⟨1, 2⟩ : bn256.G2Affine (ZMod 7))).length,
        ((List.replicate 51 (⟨1, 2⟩ : bn256.G2Affine (ZMod 7))).getD i ⟨0, 0⟩).Represents 3
          (Ps i)) ∧
      (∀ (nbCpus : Nat) (chunks : List (Nat × Nat)) (p : bn256.G2Jac (ZMod 7)), 0 < nbCpus →
        ∃ res, bn256.G2Jac.MultiExp nbCpus chunks p
            (List.replicate 51 (⟨1, 2⟩ : bn256.G2Affine (ZMod 7)))
            (List.replicate 51 ([5, 0, 0, 0] : bn256.Element)) = some res ∧
          res.Represents 3
            (∑ i ∈ Finset.range (List.replicate 51 (⟨1, 2⟩ : bn256.G2Affine (ZMod 7))).length,
              bn256.elementValue
                ((List.replicate 51 ([5, 0, 0, 0] : bn256.Element)).getD i []) • Ps i)) :=
  ⟨⟨by decide, by decide, by simp, by simp; decide, by simp; decide⟩,
    let h := MultiExp_represents_sum (3 : ZMod 7) (by decide) (by decide) (by decide)
      (List.replicate 51 (⟨1, 2⟩ : bn256.G2Affine (ZMod 7)))
      (List.replicate 51 ([5, 0, 0, 0] : bn256.Element)) (by simp) (by simp)
      (by simp; decide) (by simp; decide)
    ⟨h.choose, h.choose_spec.1, h.choose_spec.2.1⟩⟩

end MultiScalarMultiplication

/-! ## The endomorphism `phi` -/

namespace Curve

theorem cube_root_facts {F : Type} [Field F] {w : F} (hw : w ^ 3 = 1) :
    w ≠ 0 ∧ w⁻¹ = w ^ 2 := by
  have hw0 : w ≠ 0 := by
    rintro rfl
    simp at hw
  exact ⟨hw0, inv_eq_of_mul_eq_one_left (by linear_combination hw)⟩

theorem slope_phi {F : Type} [Field F] {b : F} {w : F} (hw : w ^ 3 = 1) (x1 x2 y1 y2 : F)
    (hxy : x1 = x2 → y1 ≠ (W b).negY x2 y2) :
    (W b).slope (x1 * w) (x2 * w) y1 y2 = (W b).slope x1 x2 y1 y2 * w ^ 2 := by
  obtain ⟨hw0, hinv⟩ := cube_root_facts hw
  by_cases hx : x1 = x2
  · have hy := hxy hx
    have hy' : y1 ≠ (W b).negY (x2 * w) y2 := by
      rw [negY_eq] at hy ⊢; exact hy
    rw [Affine.slope_of_Y_ne (by rw [hx]) hy', Affine.slope_of_Y_ne hx hy]
    simp only [W, negY_eq, Affine.negY]
    ring_nf
  · have hx' : x1 * w ≠ x2 * w := fun h => hx (mul_right_cancel₀ hw0 h)
    rw [Affine.slope_of_X_ne hx', Affine.slope_of_X_ne hx]
    have hd : x1 - x2 ≠ 0 := sub_ne_zero.mpr hx
    have hd' : x1 * w - x2 * w ≠ 0 := sub_ne_zero.mpr hx'
    rw [div_mul_eq_mul_div, div_eq_div_iff hd' hd]
    linear_combination (-(y1 - y2) * (x1 - x2)) * hw

theorem phiPoint_add {F : Type} [Field F] [DecidableEq F] {b : F} (w : F) (hw : w ^ 3 = 1)
    (A B : (W b).Point) :
    phiPoint w hw (A + B) = phiPoint w hw A + phiPoint w hw B := by
  obtain ⟨hw0, hinv⟩ := cube_root_facts hw
  rcases A with _ | @⟨x1, y1, h1⟩
  · show phiPoint w hw (0 + B) = 0 + phiPoint w hw B
    rw [zero_add, zero_add]
  rcases B with _ | @⟨x2, y2, h2⟩
  · show phiPoint w hw (Affine.Point.some h1 + 0) = phiPoint w hw (Affine.Point.some h1) + 0
    rw [add_zero, add_zero]
  by_cases hxy : x1 = x2 ∧ y1 = (W b).negY x2 y2
  · rw [Affine.Point.add_of_Y_eq hxy.1 hxy.2]
    simp only [phiPoint]
    rw [Affine.Point.add_of_Y_eq (by rw [hxy.1]) (by rw [negY_eq]; rw [negY_eq] at hxy; exact hxy.2)]
    rfl
  · have himp : x1 = x2 → y1 ≠ (W b).negY x2 y2 := fun hx hy => hxy ⟨hx, hy⟩
    have himp' : x1 * w = x2 * w → y1 ≠ (W b).negY (x2 * w) y2 := by
      intro hx
      rw [negY_eq]
      have := himp (mul_right_cancel₀ hw0 hx)
      rwa [negY_eq] at this
    rw [Affine.Point.add_of_imp himp]
    simp only [phiPoint]
    rw [Affine.Point.add_of_imp himp']
    simp only [Affine.Point.some.injEq]
    rw [slope_phi hw x1 x2 y1 y2 himp]
    generalize (W b).slope x1 x2 y1 y2 = L
    simp only [Affine.addX, Affine.addY, Affine.negAddY, Affine.negY, W]
    constructor
    · linear_combination (-(L ^ 2 * w)) * hw
    · linear_combination (L ^ 3 * (w ^ 3 + 1) - L * (2 * x1 + x2)) * hw

end Curve

namespace Curve

theorem phiPoint_zero {F : Type} [Field F] {b : F} (w : F) (hw : w ^ 3 = 1) :
    phiPoint w hw (0 : (W b).Point) = 0 :=
  rfl

theorem phiPoint_neg {F : Type} [Field F] [DecidableEq F] {b : F} (w : F) (hw : w ^ 3 = 1)
    (A : (W b).Point) : phiPoint w hw (-A) = -phiPoint w hw A := by
  apply eq_neg_of_add_eq_zero_left
  rw [← phiPoint_add, neg_add_cancel, phiPoint_zero]

theorem phiPoint_nsmul {F : Type} [Field F] [DecidableEq F] {b : F} (w : F) (hw : w ^ 3 = 1)
    (n : Nat) (A : (W b).Point) : phiPoint w hw (n • A) = n • phiPoint w hw A := by
  induction n with
  | zero => rw [zero_nsmul, zero_nsmul, phiPoint_zero]
  | succ n ih => rw [succ_nsmul, succ_nsmul, phiPoint_add, ih]

theorem phiPoint_zsmul {F : Type} [Field F] [DecidableEq F] {b : F} (w : F) (hw : w ^ 3 = 1)
    (k : Int) (A : (W b).Point) : phiPoint w hw (k • A) = k • phiPoint w hw A := by
  cases k with
  | ofNat n => simp only [Int.ofNat_eq_coe, natCast_zsmul]; exact phiPoint_nsmul w hw n A
  | negSucc n =>
    simp only [negSucc_zsmul]
    rw [phiPoint_neg, phiPoint_nsmul]

theorem phiPoint_sub {F : Type} [Field F] [DecidableEq F] {b : F} (w : F) (hw : w ^ 3 = 1)
    (A B : (W b).Point) : phiPoint w hw (A - B) = phiPoint w hw A - phiPoint w hw B := by
  rw [sub_eq_add_neg, sub_eq_add_neg, phiPoint_add, phiPoint_neg]

end Curve

/-! ## The subgroup test -/

namespace bw761

open Curve

theorem G1Jac.phi_represents {F : Type} [Field F] {b : F} (w : F) (hw : w ^ 3 = 1)
    {a : G1Jac F} {A : (W b).Point} (ha : a.Represents b A) :
    (G1Jac.phi w a).Represents b (phiPoint w hw A) := by
  rcases ha with ⟨hZ, rfl⟩ | ⟨hZ, h, rfl⟩
  · exact Or.inl ⟨hZ, rfl⟩
  · right
    refine ⟨hZ, ?_⟩
    simp only [phiPoint, G1Jac.phi]
    apply some_transport
    · have hZ' : a.Z ≠ 0 := hZ
      field_simp
    · rfl

theorem G1Jac.IsOnCurve_iff {F : Type} [Field F] [DecidableEq F] (b : F) (p : G1Jac F) :
    p.IsOnCurve b = true ↔ p.OnCurve b := by
  unfold G1Jac.IsOnCurve G1Jac.OnCurve
  simp only [decide_eq_true_eq]
  constructor <;> intro h <;> linear_combination h

theorem g1Infinity_onCurve {F : Type} [Field F] (b : F) : (g1Infinity : G1Jac F).OnCurve b := by
  simp [G1Jac.OnCurve, g1Infinity]

theorem G1Jac.DoubleAssign_onCurve {F : Type} [Field F] {b : F} {p : G1Jac F}
    (hp : p.OnCurve b) : p.DoubleAssign.OnCurve b := by
  unfold G1Jac.OnCurve at hp ⊢
  simp only [G1Jac.DoubleAssign]
  linear_combination (64 * p.Y ^ 6) * hp

theorem G1Jac.Neg_onCurve {F : Type} [Field F] {b : F} {p : G1Jac F}
    (hp : p.OnCurve b) : p.Neg.OnCurve b := by
  unfold G1Jac.OnCurve at hp ⊢
  simp only [G1Jac.Neg]
  linear_combination hp

theorem G1Jac.phi_onCurve {F : Type} [Field F] {b : F} (w : F) (hw : w ^ 3 = 1) {p : G1Jac F}
    (hp : p.OnCurve b) : (G1Jac.phi w p).OnCurve b := by
  unfold G1Jac.OnCurve at hp ⊢
  simp only [G1Jac.phi]
  linear_combination hp - p.X ^ 3 * hw

theorem G1Jac.AddAssign_onCurve {F : Type} [Field F] [DecidableEq F] {b : F} {p a : G1Jac F}
    (hp : p.OnCurve b) (ha : a.OnCurve b) : (p.AddAssign a).OnCurve b := by
  unfold G1Jac.AddAssign
  by_cases hpZ : p.Z = 0
  · rw [if_pos hpZ]; exact ha
  rw [if_neg hpZ]
  by_cases haZ : a.Z = 0
  · rw [if_pos haZ]; exact hp
  rw [if_neg haZ]
  simp only
  split_ifs with h
  · exact G1Jac.DoubleAssign_onCurve hp
  · unfold G1Jac.OnCurve at hp ha ⊢
    simp only
    linear_combination
      ((64 * (p.X * a.Z ^ 2 - a.X * p.Z ^ 2) ^ 6
        - (64 * (p.X * a.Z ^ 2 - a.X * p.Z ^ 2) ^ 3
            * (p.Y * a.Z * a.Z ^ 2 - a.Y * p.Z * p.Z ^ 2) ^ 2
          + (128 * (a.X * p.Z ^ 2) ^ 6 - 576 * (a.X * p.Z ^ 2) ^ 5 * (p.X * a.Z ^ 2)
            + 960 * (a.X * p.Z ^ 2) ^ 4 * (p.X * a.Z ^ 2) ^ 2
            - 640 * (a.X * p.Z ^ 2) ^ 3 * (p.X * a.Z ^ 2) ^ 3
            + 192 * (a.X * p.Z ^ 2) * (p.X * a.Z ^ 2) ^ 5 - 64 * (p.X * a.Z ^ 2) ^ 6)))
        * p.Z ^ 6) * ha
      + ((64 * (p.X * a.Z ^ 2 - a.X * p.Z ^ 2) ^ 3
            * (p.Y * a.Z * a.Z ^ 2 - a.Y * p.Z * p.Z ^ 2) ^ 2
          + (128 * (a.X * p.Z ^ 2) ^ 6 - 576 * (a.X * p.Z ^ 2) ^ 5 * (p.X * a.Z ^ 2)
            + 960 * (a.X * p.Z ^ 2) ^ 4 * (p.X * a.Z ^ 2) ^ 2
            - 640 * (a.X * p.Z ^ 2) ^ 3 * (p.X * a.Z ^ 2) ^ 3
            + 192 * (a.X * p.Z ^ 2) * (p.X * a.Z ^ 2) ^ 5 - 64 * (p.X * a.Z ^ 2) ^ 6))
        * a.Z ^ 6) * hp

theorem G1Jac.SubAssign_onCurve {F : Type} [Field F] [DecidableEq F] {b : F} {p a : G1Jac F}
    (hp : p.OnCurve b) (ha : a.OnCurve b) : (p.SubAssign a).OnCurve b :=
  G1Jac.AddAssign_onCurve hp (G1Jac.Neg_onCurve ha)

theorem G1Jac.SubAssign_represents {F : Type} [Field F] [DecidableEq F] {b : F}
    (h2 : (2 : F) ≠ 0) {p a : G1Jac F} {P Q : (W b).Point} (hp : p.Represents b P)
    (ha : a.Represents b Q) : (p.SubAssign a).Represents b (P - Q) := by
  rw [sub_eq_add_neg]
  exact G1Jac.AddAssign_represents_g1Jac h2 hp (G1Jac.Neg_represents_g1Jac ha)

theorem mulGLVStep_onCurve {F : Type} [Field F] [DecidableEq F] {b : F}
    (table : List (G1Jac F)) (ht : ∀ i, (table.getD i g1Infinity).OnCurve b)
    (k1 k2 : List Nat) (i : Nat) (st : G1Jac F × Nat) (j : Nat) (hst : st.1.OnCurve b) :
    (mulGLVStep table k1 k2 i st j).1.OnCurve b := by
  unfold mulGLVStep
  simp only
  split_ifs
  · exact G1Jac.AddAssign_onCurve (G1Jac.DoubleAssign_onCurve hst) (ht _)
  · exact G1Jac.DoubleAssign_onCurve hst

theorem G1Jac.mulGLV_onCurve {F : Type} [Field F] [DecidableEq F] {b : F} (w : F)
    (hw : w ^ 3 = 1) (r : Nat) (SplitScalar : Int → Int × Int) {a : G1Jac F}
    (ha : a.OnCurve b) (s : Int) : (G1Jac.mulGLV w r SplitScalar a s).OnCurve b := by
  unfold G1Jac.mulGLV
  simp only
  have h0 : (if (SplitScalar s).1 < 0 then a.Neg else a).OnCurve b := by
    split_ifs
    · exact G1Jac.Neg_onCurve ha
    · exact ha
  have h1 : (if (SplitScalar s).2 < 0 then (G1Jac.phi w a).Neg else G1Jac.phi w a).OnCurve b := by
    split_ifs
    · exact G1Jac.Neg_onCurve (G1Jac.phi_onCurve w hw ha)
    · exact G1Jac.phi_onCurve w hw ha
  generalize (if (SplitScalar s).1 < 0 then a.Neg else a) = t0 at h0
  generalize (if (SplitScalar s).2 < 0 then (G1Jac.phi w a).Neg else G1Jac.phi w a) = t1 at h1
  have ht : ∀ i, (([t0, t1, t0.AddAssign t1] : List (G1Jac F)).getD i g1Infinity).OnCurve b := by
    intro i
    rcases i with _ | _ | _ | i
    · exact h0
    · exact h1
    · exact G1Jac.AddAssign_onCurve h0 h1
    · exact g1Infinity_onCurve b
  generalize frSetBigIntFromMont r (if (SplitScalar s).1 < 0 then -(SplitScalar s).1
    else (SplitScalar s).1) = K1
  generalize frSetBigIntFromMont r (if (SplitScalar s).2 < 0 then -(SplitScalar s).2
    else (SplitScalar s).2) = K2
  have key := foldl_range_reverse_induction
    (fun (res : G1Jac F) i => ((List.range 64).foldl
      (mulGLVStep [t0, t1, t0.AddAssign t1] K1 K2 i) (res, 1 <<< 63)).1)
    (fun _ (res : G1Jac F) => res.OnCurve b) (K1.length / 2) g1Infinity
    (g1Infinity_onCurve b)
    (by
      intro m res _ hres
      exact foldl_range_induction (mulGLVStep [t0, t1, t0.AddAssign t1] K1 K2 m)
        (fun _ st => st.1.OnCurve b) 64 (res, 1 <<< 63) hres
        (fun j st _ hst => mulGLVStep_onCurve _ ht K1 K2 m st j hst))
  exact key

end bw761

namespace bw761

open Curve

/-- What `ScalarMultiplication` computes on any point of the curve: with `(k1, k2)` the split
of the scalar, the result represents `k1*A + k2*phi(A)`. -/
theorem G1Jac.ScalarMultiplication_represents {F : Type} [Field F] [DecidableEq F] {b : F}
    (h2 : (2 : F) ≠ 0) (w : F) (hw : w ^ 3 = 1) (r : Nat) (SplitScalar : Int → Int × Int)
    {a : G1Jac F} {A : (W b).Point} (ha : a.Represents b A) (s : Int)
    (hk1 : (SplitScalar s).1.natAbs < r) (hk2 : (SplitScalar s).2.natAbs < r)
    (hb1 : (SplitScalar s).1.natAbs < 2 ^ 192) (hb2 : (SplitScalar s).2.natAbs < 2 ^ 192) :
    (G1Jac.ScalarMultiplication w r SplitScalar a s).Represents b
      ((SplitScalar s).1 • A + (SplitScalar s).2 • phiPoint w hw A) :=
  G1Jac.mulGLV_represents h2 w r SplitScalar ha (G1Jac.phi_represents w hw ha) s hk1 hk2 hb1 hb2

/-- The point whose vanishing `G1Jac.IsInSubGroup` tests, for a triple on the curve. -/
theorem G1Jac.IsInSubGroup_iff {F : Type} [Field F] [DecidableEq F] {b : F}
    (h2 : (2 : F) ≠ 0) (w : F) (hw : w ^ 3 = 1) (r : Nat) (SplitScalar : Int → Int × Int)
    (xGen : Int) {p : G1Jac F} {P : (W b).Point} (hp : p.Represents b P) (hc : p.OnCurve b)
    (hk1 : (SplitScalar xGen).1.natAbs < r) (hk2 : (SplitScalar xGen).2.natAbs < r)
    (hb1 : (SplitScalar xGen).1.natAbs < 2 ^ 192)
    (hb2 : (SplitScalar xGen).2.natAbs < 2 ^ 192)
    (mu : (W b).Point → (W b).Point)
    (hmu : ∀ Q, mu Q = (SplitScalar xGen).1 • Q + (SplitScalar xGen).2 • phiPoint w hw Q) :
    G1Jac.IsInSubGroup b w r SplitScalar xGen p = true ↔
      mu P + P + (mu (mu (mu (phiPoint w hw P) - phiPoint w hw P)) + phiPoint w hw P) = 0 := by
  unfold G1Jac.IsInSubGroup
  simp only
  have sm : ∀ {a : G1Jac F} {A : (W b).Point}, a.Represents b A →
      (G1Jac.ScalarMultiplication w r SplitScalar a xGen).Represents b (mu A) := by
    intro a A ha
    rw [hmu]
    exact G1Jac.ScalarMultiplication_represents h2 w hw r SplitScalar ha xGen hk1 hk2 hb1 hb2
  have smc : ∀ {a : G1Jac F}, a.OnCurve b →
      (G1Jac.ScalarMultiplication w r SplitScalar a xGen).OnCurve b :=
    fun ha => G1Jac.mulGLV_onCurve w hw r SplitScalar ha xGen
  have r0 := G1Jac.phi_represents w hw hp
  have c0 := G1Jac.phi_onCurve w hw hc
  have r1 := G1Jac.SubAssign_represents h2 (sm r0) r0
  have c1 := G1Jac.SubAssign_onCurve (smc c0) c0
  have r2 := G1Jac.AddAssign_represents_g1Jac h2 (sm (sm r1)) r0
  have c2 := G1Jac.AddAssign_onCurve (smc (smc c1)) c0
  have r3 := G1Jac.AddAssign_represents_g1Jac h2
    (G1Jac.AddAssign_represents_g1Jac h2 (sm hp) hp) r2
  have c3 := G1Jac.AddAssign_onCurve (G1Jac.AddAssign_onCurve (smc hc) hc) c2
  rw [Bool.and_eq_true, G1Jac.IsOnCurve_iff, decide_eq_true_eq,
    G1Jac.represents_Z_iff_g1Jac r3]
  exact ⟨fun h => h.2, fun h => ⟨c3, h⟩⟩

theorem G1Affine.IsInSubGroup_eq {F : Type} [Field F] [DecidableEq F] (b w : F) (r : Nat)
    (SplitScalar : Int → Int × Int) (xGen : Int) (a : G1Affine F) :
    G1Affine.IsInSubGroup b w r SplitScalar xGen a
      = ((G1Jac.FromAffine a).IsOnCurve b
          && (G1Jac.FromAffine a).IsInSubGroup b w r SplitScalar xGen) :=
  rfl

theorem G1Jac.FromAffine_onCurve {F : Type} [Field F] [DecidableEq F] {b : F}
    {a : G1Affine F} (ha : a.OnCurve b) : (G1Jac.FromAffine a).OnCurve b := by
  unfold G1Jac.FromAffine
  by_cases h0 : a.X = 0 ∧ a.Y = 0
  · rw [if_pos h0]; simp [G1Jac.OnCurve]
  · rw [if_neg h0]
    rcases ha with h | h
    · exact absurd h h0
    · unfold G1Jac.OnCurve; simp only; linear_combination h

end bw761

namespace bw761

open Curve

/-- On the multiples of a point `P` with `phi(P) = lam*P` and `r*P = 0`, the subgroup test
evaluates `[(x+1) + (x^3-x^2+1)*lam]*P`, which vanishes. -/
theorem G1Jac.IsInSubGroup_of_eigen {F : Type} [Field F] [DecidableEq F] {b : F}
    (h2 : (2 : F) ≠ 0) (w : F) (hw : w ^ 3 = 1) (r : Nat) (lam xGen : Int)
    (SplitScalar : Int → Int × Int)
    (hk1 : (SplitScalar xGen).1.natAbs < r) (hk2 : (SplitScalar xGen).2.natAbs < r)
    (hb1 : (SplitScalar xGen).1.natAbs < 2 ^ 192)
    (hb2 : (SplitScalar xGen).2.natAbs < 2 ^ 192)
    (hsplit : (SplitScalar xGen).1 + (SplitScalar xGen).2 * lam ≡ xGen [ZMOD (r : Int)])
    (hker : (xGen + 1) + (xGen ^ 3 - xGen ^ 2 + 1) * lam ≡ 0 [ZMOD (r : Int)])
    {P : (W b).Point} (hrP : r • P = 0) (hphi : phiPoint w hw P = lam • P)
    {q : G1Jac F} (hq : q.Represents b P) (hc : q.OnCurve b) :
    G1Jac.IsInSubGroup b w r SplitScalar xGen q = true := by
  rw [G1Jac.IsInSubGroup_iff h2 w hw r SplitScalar xGen hq hc hk1 hk2 hb1 hb2
    (fun Q => (SplitScalar xGen).1 • Q + (SplitScalar xGen).2 • phiPoint w hw Q)
    (fun _ => rfl)]
  generalize (SplitScalar xGen).1 = k1 at hsplit
  generalize (SplitScalar xGen).2 = k2 at hsplit
  have hmu : ∀ c : Int, k1 • (c • P) + k2 • phiPoint w hw (c • P)
      = (c * (k1 + k2 * lam)) • P := by
    intro c
    rw [phiPoint_zsmul, hphi, smul_smul, smul_smul, smul_smul, ← add_smul]
    congr 1
    ring
  have h1 : k1 • P + k2 • lam • P = (k1 + k2 * lam) • P := by
    module
  rw [hphi, h1, hmu, ← sub_smul, hmu, hmu, ← add_smul]
  have e1 : (k1 + k2 * lam) • P + P = ((k1 + k2 * lam) + 1) • P := by
    module
  rw [e1, ← add_smul]
  obtain ⟨m, hm⟩ := Int.modEq_iff_dvd.mp hsplit
  obtain ⟨m', hm'⟩ := Int.modEq_iff_dvd.mp hker
  have hk : k1 + k2 * lam = xGen - (r : Int) * m := by linarith
  have hcoef : (k1 + k2 * lam) + 1
        + ((lam * (k1 + k2 * lam) - lam) * (k1 + k2 * lam) * (k1 + k2 * lam) + lam)
      = (r : Int) * (-m' - m * (1 + lam * (3 * xGen ^ 2 - 3 * xGen * ((r : Int) * m)
          + ((r : Int) * m) ^ 2 - 2 * xGen + (r : Int) * m))) := by
    rw [hk]
    linear_combination -hm'
  rw [hcoef, mul_comm, mul_smul, natCast_zsmul, hrP, smul_zero]

end bw761

/-! ## Serialization: bytes, words and values -/

namespace bls12377

open Curve

theorem ext_getD {l l' : List Nat} (hlen : l.length = l'.length)
    (h : ∀ j < l.length, l.getD j 0 = l'.getD j 0) : l = l' := by
  apply List.ext_getElem hlen
  intro j h1 h2
  have := h j h1
  rwa [List.getD_eq_getElem _ _ h1, List.getD_eq_getElem _ _ h2] at this

theorem PutUint64_spec (res : List Nat) (lo v : Nat) :
    (PutUint64 res lo v).length = res.length ∧
    ∀ j d, (PutUint64 res lo v).getD j d
      = if lo ≤ j ∧ j < lo + 8 ∧ j < res.length then v / 2 ^ (8 * (7 - (j - lo))) % 256
        else res.getD j d := by
  unfold PutUint64
  have key := foldl_range_induction
    (fun r i => r.set (lo + i) ((v >>> (8 * (7 - i))) % 256))
    (fun m (r : List Nat) => r.length = res.length ∧
      ∀ j d, r.getD j d
        = if lo ≤ j ∧ j < lo + m ∧ j < res.length then v / 2 ^ (8 * (7 - (j - lo))) % 256
          else res.getD j d) 8 res
    ⟨rfl, by intro j d; rw [if_neg (by omega)]⟩
    (by
      intro m a _ ⟨hl, hg⟩
      refine ⟨by rw [List.length_set]; exact hl, ?_⟩
      intro j d
      by_cases hj : lo + m = j
      · subst hj
        by_cases hlen : lo + m < res.length
        · rw [getD_set_eq _ _ _ _ (by omega), if_pos ⟨by omega, by omega, hlen⟩,
            Nat.shiftRight_eq_div_pow]
          congr 4
          omega
        · rw [if_neg (by omega), List.getD_eq_default _ _ (by rw [List.length_set]; omega),
            List.getD_eq_default _ _ (by omega)]
      · rw [getD_set_ne _ _ _ _ _ hj, hg]
        by_cases hc : lo ≤ j ∧ j < lo + m ∧ j < res.length
        · rw [if_pos hc, if_pos ⟨hc.1, by omega, hc.2.2⟩]
        · rw [if_neg hc, if_neg (by omega)])
  exact key

theorem FromMont_getD {q : Nat} (x : ZMod q) (i : Nat) (hi : i < 6) :
    (FromMont x).getD i 0 = x.val / 2 ^ (64 * i) % 2 ^ 64 := by
  unfold FromMont fpLimbs
  rw [List.getD_eq_getElem?_getD, List.getElem?_map, List.getElem?_range hi]
  rfl

theorem word_byte (n a c : Nat) (hc : c + 8 ≤ 64) :
    n / 2 ^ a % 2 ^ 64 / 2 ^ c % 256 = n / 2 ^ (a + c) % 256 := by
  have e64 : (2 : Nat) ^ 64 = 2 ^ c * 2 ^ (64 - c) := by
    rw [← pow_add]; congr 1; omega
  have e256 : (256 : Nat) ∣ 2 ^ (64 - c) := by
    have : (256 : Nat) = 2 ^ 8 := by norm_num
    rw [this]
    exact pow_dvd_pow 2 (by omega)
  rw [e64, Nat.mod_mul_right_div_self, Nat.mod_mod_of_dvd _ e256, Nat.div_div_eq_div_mul,
    ← pow_add]

theorem beBytes_length (k n : Nat) : (beBytes k n).length = k := by
  simp [beBytes]

theorem beBytes_getD (k n j : Nat) (hj : j < k) :
    (beBytes k n).getD j 0 = n / 256 ^ (k - 1 - j) % 256 := by
  unfold beBytes
  rw [List.getD_eq_getElem?_getD, List.getElem?_map, List.getElem?_range hj]
  rfl

theorem beBytes_succ (k n : Nat) :
    beBytes (k + 1) n = (n / 256 ^ k % 256) :: beBytes k n := by
  unfold beBytes
  rw [List.range_succ_eq_map, List.map_cons, List.map_map]
  congr 1
  apply List.map_congr_left
  intro i _
  simp only [Function.comp]
  congr 3
  omega

theorem beBytes_foldl (k n a : Nat) :
    (beBytes k n).foldl (fun acc x => acc * 256 + x) a = a * 256 ^ k + n % 256 ^ k := by
  induction k generalizing a with
  | zero => simp [beBytes, Nat.mod_one]
  | succ k ih =>
    rw [beBytes_succ, List.foldl_cons, ih, Nat.mod_pow_succ]
    ring

theorem fpSetBytes_beBytes {q : Nat} [NeZero q] (x : ZMod q) (k : Nat)
    (hx : x.val < 256 ^ k) : fpSetBytes q (beBytes k x.val) = x := by
  unfold fpSetBytes
  rw [beBytes_foldl, zero_mul, zero_add, Nat.mod_eq_of_lt hx, ZMod.natCast_zmod_val]

end bls12377

namespace bls12377

open Curve

theorem PutUint64_word {q : Nat} (res : List Nat) (lo o i : Nat) (hlo : lo + 8 * i = o + 40)
    (hi : i < 6) (x : ZMod q) (j d : Nat) :
    (PutUint64 res lo ((FromMont x).getD i 0)).getD j d
      = if lo ≤ j ∧ j < lo + 8 ∧ j < res.length then x.val / 256 ^ (o + 47 - j) % 256
        else res.getD j d := by
  rw [(PutUint64_spec res lo _).2, FromMont_getD x i hi]
  by_cases hc : lo ≤ j ∧ j < lo + 8 ∧ j < res.length
  · rw [if_pos hc, if_pos hc, word_byte _ _ _ (by omega)]
    have e : (256 : Nat) = 2 ^ 8 := by norm_num
    rw [e, ← pow_mul]
    congr 3
    omega
  · rw [if_neg hc, if_neg hc]

/-- Writing the six words of an element, least significant word last in the buffer, stores
the 48-byte big-endian form of its value at offset `o`. -/
theorem PutUint64_element {q : Nat} (res : List Nat) (o : Nat) (x : ZMod q)
    (ho : o + 48 ≤ res.length) :
    (PutUint64 (PutUint64 (PutUint64 (PutUint64 (PutUint64 (PutUint64 res (o + 40)
        ((FromMont x).getD 0 0)) (o + 32) ((FromMont x).getD 1 0)) (o + 24)
        ((FromMont x).getD 2 0)) (o + 16) ((FromMont x).getD 3 0)) (o + 8)
        ((FromMont x).getD 4 0)) (o + 0) ((FromMont x).getD 5 0)).length = res.length ∧
    ∀ j, (PutUint64 (PutUint64 (PutUint64 (PutUint64 (PutUint64 (PutUint64 res (o + 40)
        ((FromMont x).getD 0 0)) (o + 32) ((FromMont x).getD 1 0)) (o + 24)
        ((FromMont x).getD 2 0)) (o + 16) ((FromMont x).getD 3 0)) (o + 8)
        ((FromMont x).getD 4 0)) (o + 0) ((FromMont x).getD 5 0)).getD j 0
      = if o ≤ j ∧ j < o + 48 then x.val / 256 ^ (o + 47 - j) % 256 else res.getD j 0 := by
  refine ⟨by simp only [(PutUint64_spec _ _ _).1], ?_⟩
  intro j
  rw [PutUint64_word _ (o + 0) o 5 (by omega) (by omega),
    PutUint64_word _ (o + 8) o 4 (by omega) (by omega),
    PutUint64_word _ (o + 16) o 3 (by omega) (by omega),
    PutUint64_word _ (o + 24) o 2 (by omega) (by omega),
    PutUint64_word _ (o + 32) o 1 (by omega) (by omega),
    PutUint64_word _ (o + 40) o 0 (by omega) (by omega)]
  simp only [(PutUint64_spec _ _ _).1]
  split_ifs <;> first | rfl | omega

end bls12377

namespace bls12377

open Curve

theorem Bytes_identity {q : Nat} (Lex : ZMod q → Bool) :
    G1Affine.Bytes Lex (⟨0, 0⟩ : G1Affine q) = 0xC0 :: List.replicate 47 0 := by
  unfold G1Affine.Bytes
  rw [if_pos ⟨rfl, rfl⟩]
  decide

theorem RawBytes_identity {q : Nat} :
    G1Affine.RawBytes (⟨0, 0⟩ : G1Affine q) = 0x40 :: List.replicate 95 0 := by
  unfold G1Affine.RawBytes
  rw [if_pos ⟨rfl, rfl⟩]
  decide

theorem Bytes_point {q : Nat} (Lex : ZMod q → Bool) (p : G1Affine q)
    (hp : ¬ (p.X = 0 ∧ p.Y = 0)) :
    G1Affine.Bytes Lex p
      = (beBytes 48 p.X.val).set 0
          (p.X.val / 256 ^ 47 % 256
            ||| (if Lex p.Y then mCompressedLargest else mCompressedSmallest)) := by
  unfold G1Affine.Bytes
  simp only
  rw [if_neg hp]
  obtain ⟨hl, hg⟩ := PutUint64_element (List.replicate SizeOfG1AffineCompressed 0) 0 p.X
    (by simp [SizeOfG1AffineCompressed])
  simp only [Nat.zero_add] at hl hg
  generalize PutUint64 (PutUint64 (PutUint64 (PutUint64 (PutUint64 (PutUint64
    (List.replicate SizeOfG1AffineCompressed 0) 40 ((FromMont p.X).getD 0 0)) 32
    ((FromMont p.X).getD 1 0)) 24 ((FromMont p.X).getD 2 0)) 16 ((FromMont p.X).getD 3 0)) 8
    ((FromMont p.X).getD 4 0)) 0 ((FromMont p.X).getD 5 0) = R at hl hg
  have hR : R = beBytes 48 p.X.val := by
    apply ext_getD
    · rw [hl, beBytes_length]; simp [SizeOfG1AffineCompressed]
    · intro j hj
      have hj' : j < 48 := by
        rw [hl] at hj; simpa [SizeOfG1AffineCompressed] using hj
      rw [hg j, if_pos ⟨Nat.zero_le _, hj'⟩, beBytes_getD _ _ _ hj']
  rw [hR, beBytes_getD _ _ _ (by norm_num)]

theorem RawBytes_point {q : Nat} (p : G1Affine q) (hp : ¬ (p.X = 0 ∧ p.Y = 0)) :
    G1Affine.RawBytes p = beBytes 48 p.X.val ++ beBytes 48 p.Y.val := by
  unfold G1Affine.RawBytes
  simp only
  rw [if_neg hp]
  obtain ⟨hl1, hg1⟩ := PutUint64_element (List.replicate SizeOfG1AffineUncompressed 0) 48 p.Y
    (by simp [SizeOfG1AffineUncompressed, SizeOfG1AffineCompressed])
  simp only [show 48 + 40 = 88 from rfl, show 48 + 32 = 80 from rfl, show 48 + 24 = 72 from rfl,
    show 48 + 16 = 64 from rfl, show 48 + 8 = 56 from rfl, show 48 + 0 = 48 from rfl]
    at hl1 hg1
  generalize PutUint64 (PutUint64 (PutUint64 (PutUint64 (PutUint64 (PutUint64
    (List.replicate SizeOfG1AffineUncompressed 0) 88 ((FromMont p.Y).getD 0 0)) 80
    ((FromMont p.Y).getD 1 0)) 72 ((FromMont p.Y).getD 2 0)) 64 ((FromMont p.Y).getD 3 0)) 56
    ((FromMont p.Y).getD 4 0)) 48 ((FromMont p.Y).getD 5 0) = R1 at hl1 hg1
  have hlen1 : R1.length = 96 := by
    rw [hl1]; simp [SizeOfG1AffineUncompressed, SizeOfG1AffineCompressed]
  obtain ⟨hl2, hg2⟩ := PutUint64_element R1 0 p.X (by omega)
  simp only [Nat.zero_add] at hl2 hg2
  generalize PutUint64 (PutUint64 (PutUint64 (PutUint64 (PutUint64 (PutUint64
    R1 40 ((FromMont p.X).getD 0 0)) 32
    ((FromMont p.X).getD 1 0)) 24 ((FromMont p.X).getD 2 0)) 16 ((FromMont p.X).getD 3 0)) 8
    ((FromMont p.X).getD 4 0)) 0 ((FromMont p.X).getD 5 0) = R2 at hl2 hg2
  have hR : R2 = beBytes 48 p.X.val ++ beBytes 48 p.Y.val := by
    apply ext_getD
    · rw [hl2, hlen1, List.length_append, beBytes_length, beBytes_length]
    · intro j hj
      rw [hl2, hlen1] at hj
      rw [hg2 j]
      by_cases h48 : j < 48
      · rw [if_pos ⟨Nat.zero_le _, by omega⟩, List.getD_append _ _ _ _
          (by rw [beBytes_length]; exact h48), beBytes_getD _ _ _ h48]
      · rw [if_neg (by omega), hg1 j, if_pos ⟨by omega, by omega⟩,
          List.getD_append_right _ _ _ _ (by rw [beBytes_length]; omega), beBytes_length,
          beBytes_getD _ _ _ (by omega)]
        congr 3
        omega
  rw [hR]
  have e0 : (beBytes 48 p.X.val ++ beBytes 48 p.Y.val).getD 0 0 ||| mUncompressed
      = (beBytes 48 p.X.val ++ beBytes 48 p.Y.val).getD 0 0 := by
    simp [mUncompressed]
  rw [e0]
  apply ext_getD
  · rw [List.length_set]
  · intro j _
    by_cases h0 : j = 0
    · subst h0
      rw [getD_set_eq _ _ _ _ (by simp [beBytes_length])]
    · rw [getD_set_ne _ _ _ _ _ (Ne.symm h0)]

end bls12377

namespace bls12377

open Curve

/-- The value `SetBytes` computes from a compressed encoding. -/
theorem SetBytes_compressed {q : Nat} (b : ZMod q) (Sqrt : ZMod q → Option (ZMod q))
    (Lex : ZMod q → Bool) (Sub : G1Affine q → Bool) (p : G1Affine q) (buf : List Nat)
    (hlen : 48 ≤ buf.length) (h0 : buf.getD 0 0 &&& mMask ≠ mUncompressed)
    (h1 : buf.getD 0 0 &&& mMask ≠ mUncompressedInfinity)
    (h2 : buf.getD 0 0 &&& mMask ≠ mCompressedInfinity) :
    G1Affine.SetBytes b Sqrt Lex Sub p buf
      = match Sqrt (fpSetBytes q ((buf.take 48).set 0 ((buf.take 48).getD 0 0 &&& 31))
            * fpSetBytes q ((buf.take 48).set 0 ((buf.take 48).getD 0 0 &&& 31))
            * fpSetBytes q ((buf.take 48).set 0 ((buf.take 48).getD 0 0 &&& 31)) + b) with
        | none =>
          (⟨fpSetBytes q ((buf.take 48).set 0 ((buf.take 48).getD 0 0 &&& 31)), p.Y⟩, 0,
            some DecodeError.squareRootDoesNotExist)
        | some Y =>
          if Sub ⟨fpSetBytes q ((buf.take 48).set 0 ((buf.take 48).getD 0 0 &&& 31)),
              if Lex Y then
                (if buf.getD 0 0 &&& mMask = mCompressedSmallest then -Y else Y)
              else (if buf.getD 0 0 &&& mMask = mCompressedLargest then -Y else Y)⟩ = true
          then
            (⟨fpSetBytes q ((buf.take 48).set 0 ((buf.take 48).getD 0 0 &&& 31)),
              if Lex Y then
                (if buf.getD 0 0 &&& mMask = mCompressedSmallest then -Y else Y)
              else (if buf.getD 0 0 &&& mMask = mCompressedLargest then -Y else Y)⟩, 48, none)
          else
            (⟨fpSetBytes q ((buf.take 48).set 0 ((buf.take 48).getD 0 0 &&& 31)),
              if Lex Y then
                (if buf.getD 0 0 &&& mMask = mCompressedSmallest then -Y else Y)
              else (if buf.getD 0 0 &&& mMask = mCompressedLargest then -Y else Y)⟩, 0,
              some DecodeError.subgroupCheckFailed) := by
  unfold G1Affine.SetBytes
  rw [if_neg (by simp only [SizeOfG1AffineCompressed]; omega)]
  simp only
  rw [if_neg (fun h => by rcases h.1 with h | h; exact h0 h; exact h1 h), if_neg h2, if_neg h1,
    if_neg h0]
  have e31 : 255 ^^^ mMask = 31 := by decide
  simp only [fpBytes, e31, SizeOfG1AffineCompressed]
  cases Sqrt (fpSetBytes q ((buf.take 48).set 0 ((buf.take 48).getD 0 0 &&& 31))
            * fpSetBytes q ((buf.take 48).set 0 ((buf.take 48).getD 0 0 &&& 31))
            * fpSetBytes q ((buf.take 48).set 0 ((buf.take 48).getD 0 0 &&& 31)) + b) with
  | none => rfl
  | some Y =>
    simp only
    split_ifs <;> rfl

/-- The value `SetBytes` computes from an uncompressed encoding. -/
theorem SetBytes_uncompressed {q : Nat} (b : ZMod q) (Sqrt : ZMod q → Option (ZMod q))
    (Lex : ZMod q → Bool) (Sub : G1Affine q → Bool) (p : G1Affine q) (buf : List Nat)
    (hlen : 96 ≤ buf.length) (h0 : buf.getD 0 0 &&& mMask = mUncompressed) :
    G1Affine.SetBytes b Sqrt Lex Sub p buf
      = if Sub ⟨fpSetBytes q (buf.take 48), fpSetBytes q ((buf.take 96).drop 48)⟩ = true then
          (⟨fpSetBytes q (buf.take 48), fpSetBytes q ((buf.take 96).drop 48)⟩, 96, none)
        else
          (⟨fpSetBytes q (buf.take 48), fpSetBytes q ((buf.take 96).drop 48)⟩, 0,
            some DecodeError.subgroupCheckFailed) := by
  unfold G1Affine.SetBytes
  rw [if_neg (by simp only [SizeOfG1AffineCompressed]; omega)]
  simp only
  rw [if_neg (fun h => by
    have := h.2; simp only [SizeOfG1AffineUncompressed, SizeOfG1AffineCompressed] at this
    omega), h0]
  rw [if_neg (by decide), if_neg (by decide), if_pos rfl]
  simp only [fpBytes, SizeOfG1AffineUncompressed, SizeOfG1AffineCompressed]
  split_ifs <;> rfl

theorem mask_bits : ∀ v < 32, (v ||| 128) &&& 224 = 128 ∧ (v ||| 160) &&& 224 = 160 ∧
    (v ||| 128) &&& 31 = v ∧ (v ||| 160) &&& 31 = v ∧ v &&& 224 = 0 := by
  decide

theorem top_byte_lt {n : Nat} (hn : n < 2 ^ 381) : n / 256 ^ 47 % 256 < 32 := by
  have h : n / 256 ^ 47 < 32 := by
    rw [Nat.div_lt_iff_lt_mul (by positivity)]
    have : (32 : Nat) * 256 ^ 47 = 2 ^ 381 := by norm_num
    omega
  exact lt_of_le_of_lt (Nat.mod_le _ _) h

theorem set_head_beBytes (n : Nat) : (beBytes 48 n).set 0 (n / 256 ^ 47 % 256) = beBytes 48 n := by
  rw [beBytes_succ]
  rfl

end bls12377

namespace bls12377

open Curve

set_option maxRecDepth 100000 in
theorem meta_bits : ∀ v < 256, (v &&& 224 = 0 ↔ v / 32 = 0) ∧ (v &&& 224 = 64 ↔ v / 32 = 2) ∧
    (v &&& 224 = 128 ↔ v / 32 = 4) ∧ (v &&& 224 = 160 ↔ v / 32 = 5) ∧
    (v &&& 224 = 192 ↔ v / 32 = 6) := by
  decide

theorem head_byte {buf : List Nat} (hb : ∀ v ∈ buf, v < 256) : buf.getD 0 0 < 256 := by
  cases buf with
  | nil => simp
  | cons a l => simpa using hb a (List.mem_cons_self a l)

/-- The value `SetBytes` (G2) computes from a compressed encoding whose `y^2` has Legendre
symbol -1. -/
theorem G2_SetBytes_no_root {q : Nat} (ops : E2Ops q) (bT : E2 q) (Sub : G2Affine q → Bool)
    (p : G2Affine q) (buf : List Nat) (hlen : 96 ≤ buf.length)
    (h0 : buf.getD 0 0 &&& mMask ≠ mUncompressed)
    (h1 : buf.getD 0 0 &&& mMask ≠ mUncompressedInfinity)
    (h2 : buf.getD 0 0 &&& mMask ≠ mCompressedInfinity)
    (hL : ops.Legendre (ops.Add (ops.Mul
        (ops.Square ⟨fpSetBytes q ((buf.take 96).drop 48),
          fpSetBytes q ((buf.take 48).set 0 ((buf.take 48).getD 0 0 &&& 31))⟩)
        ⟨fpSetBytes q ((buf.take 96).drop 48),
          fpSetBytes q ((buf.take 48).set 0 ((buf.take 48).getD 0 0 &&& 31))⟩) bT) = -1) :
    G2Affine.SetBytes ops bT Sub p buf
      = (⟨⟨fpSetBytes q ((buf.take 96).drop 48),
          fpSetBytes q ((buf.take 48).set 0 ((buf.take 48).getD 0 0 &&& 31))⟩, p.Y⟩, 0,
          some DecodeError.squareRootDoesNotExist) := by
  unfold G2Affine.SetBytes
  rw [if_neg (by simp only [SizeOfG2AffineCompressed]; omega)]
  simp only
  rw [if_neg (fun h => by rcases h.1 with h | h; exact h0 h; exact h1 h), if_neg h2, if_neg h1,
    if_neg h0]
  have e31 : 255 ^^^ mMask = 31 := by decide
  simp only [fpBytes, e31] at hL ⊢
  rw [if_pos hL]

theorem G2_SetBytes_short {q : Nat} (ops : E2Ops q) (bT : E2 q) (Sub : G2Affine q → Bool)
    (p : G2Affine q) (buf : List Nat) (hlen : buf.length < 96) :
    G2Affine.SetBytes ops bT Sub p buf = (p, 0, some DecodeError.ErrShortBuffer) := by
  unfold G2Affine.SetBytes
  rw [if_pos (by simp only [SizeOfG2AffineCompressed]; omega)]

theorem SetBytes_compressed_infinity {q : Nat} (b : ZMod q) (Sqrt : ZMod q → Option (ZMod q))
    (Lex : ZMod q → Bool) (Sub : G1Affine q → Bool) (p : G1Affine q) (buf : List Nat)
    (hlen : 48 ≤ buf.length) (h0 : buf.getD 0 0 &&& mMask = mCompressedInfinity) :
    G1Affine.SetBytes b Sqrt Lex Sub p buf = (⟨0, 0⟩, 48, none) := by
  unfold G1Affine.SetBytes
  rw [if_neg (by simp only [SizeOfG1AffineCompressed]; omega)]
  simp only
  rw [h0, if_neg (fun h => by rcases h.1 with h | h <;> exact absurd h (by decide)),
    if_pos rfl]
  rfl

theorem SetBytes_uncompressed_infinity {q : Nat} (b : ZMod q)
    (Sqrt : ZMod q → Option (ZMod q)) (Lex : ZMod q → Bool) (Sub : G1Affine q → Bool)
    (p : G1Affine q) (buf : List Nat) (hlen : 96 ≤ buf.length)
    (h0 : buf.getD 0 0 &&& mMask = mUncompressedInfinity) :
    G1Affine.SetBytes b Sqrt Lex Sub p buf = (⟨0, 0⟩, 96, none) := by
  unfold G1Affine.SetBytes
  rw [if_neg (by simp only [SizeOfG1AffineCompressed]; omega)]
  simp only
  rw [h0, if_neg (fun h => by
    have := h.2; simp only [SizeOfG1AffineUncompressed, SizeOfG1AffineCompressed] at this
    omega), if_neg (by decide), if_pos rfl]
  rfl

end bls12377

section SubgroupCheck

open Curve

/-- C14: let P be a point of the subgroup of order r (r•P = 0) on which phi acts as
multiplication by lambda, represented by a Jacobian triple p on the curve (the identity
included). With the constants declared outside `g1.go` taken with their documented properties
(`thirdRootOneG1` a cube root of unity, `(x+1, x^3-x^2+1)` in the kernel of
`(u,v) ↦ u + lambda*v mod r`, `SplitScalar(x)` a decomposition of x with both parts at most
sqrt r, r below 2^384), `G1Jac.IsInSubGroup(p)` returns true, and so does
`G1Affine.IsInSubGroup` on every affine point (the sentinel (0,0) included) that represents
P. -/
theorem IsInSubGroup_accepts_subgroup {F : Type} [Field F] [DecidableEq F] (b w : F)
    (h2 : (2 : F) ≠ 0) (hw : w ^ 3 = 1) (r : Nat) (lam xGen : Int)
    (SplitScalar : Int → Int × Int) (hr384 : r < 2 ^ 384)
    (hsplit : (SplitScalar xGen).1 + (SplitScalar xGen).2 * lam ≡ xGen [ZMOD (r : Int)])
    (hk1 : (SplitScalar xGen).1 ^ 2 ≤ (r : Int)) (hk2 : (SplitScalar xGen).2 ^ 2 ≤ (r : Int))
    (hker : (xGen + 1) + (xGen ^ 3 - xGen ^ 2 + 1) * lam ≡ 0 [ZMOD (r : Int)])
    (p : bw761.G1Jac F) (P : (W b).Point) (hp : p.Represents b P) (hc : p.OnCurve b)
    (hrP : r • P = 0) (hr1 : 1 < r) (hphi : (bw761.G1Jac.phi w p).Represents b (lam • P)) :
    bw761.G1Jac.IsInSubGroup b w r SplitScalar xGen p = true ∧
      ∀ a : bw761.G1Affine F, a.Represents b P →
        bw761.G1Affine.IsInSubGroup b w r SplitScalar xGen a = true := by
  have bound : ∀ k : Int, k ^ 2 ≤ (r : Int) → k.natAbs < r ∧ k.natAbs < 2 ^ 192 := by
    intro k hk
    have hk' : k.natAbs ^ 2 ≤ r := by
      have : ((k.natAbs ^ 2 : ℕ) : Int) ≤ (r : Int) := by
        rw [Nat.cast_pow, Int.natCast_natAbs, sq_abs]; exact hk
      exact_mod_cast this
    constructor
    · by_contra hcon
      push_neg at hcon
      have : r * r ≤ k.natAbs ^ 2 := by
        rw [sq]; exact Nat.mul_le_mul hcon hcon
      have h1 : r ≤ 1 :=
        Nat.le_of_mul_le_mul_left (by rw [mul_one]; exact le_trans this hk') (by omega)
      omega
    · by_contra hcon
      push_neg at hcon
      have : (2 ^ 192) * (2 ^ 192) ≤ k.natAbs ^ 2 := by
        rw [sq]; exact Nat.mul_le_mul hcon hcon
      have e : (2 : ℕ) ^ 192 * 2 ^ 192 = 2 ^ 384 := by norm_num
      omega
  obtain ⟨b1, c1⟩ := bound _ hk1
  obtain ⟨b2, c2⟩ := bound _ hk2
  have hphiP : phiPoint w hw P = lam • P :=
    bw761.G1Jac.represents_unique_g1Jac (bw761.G1Jac.phi_represents w hw hp) hphi
  have main : ∀ q : bw761.G1Jac F, q.Represents b P → q.OnCurve b →
      bw761.G1Jac.IsInSubGroup b w r SplitScalar xGen q = true :=
    fun q hq hqc => bw761.G1Jac.IsInSubGroup_of_eigen h2 w hw r lam xGen SplitScalar b1 b2 c1 c2
      hsplit hker hrP hphiP hq hqc
  refine ⟨main p hp hc, ?_⟩
  intro a ha
  have hon : a.OnCurve b := by
    rcases ha with ⟨hx, hy, _⟩ | ⟨h, _⟩
    · exact Or.inl ⟨hx, hy⟩
    · exact Or.inr ((nonsingular_iff b a.X a.Y).mp h).1
  have hcJ := bw761.G1Jac.FromAffine_onCurve hon
  rw [bw761.G1Affine.IsInSubGroup_eq, (bw761.G1Jac.IsOnCurve_iff b _).mpr hcJ,
    main _ (bw761.G1Jac.FromAffine_represents_g1Jac ha) hcJ]
  rfl

theorem bw761.G1Jac.represents_affine {F : Type} [Field F] {b : F} {x y : F}
    (h : (W b).Nonsingular x y) :
    (⟨x, y, 1⟩ : bw761.G1Jac F).Represents b (Affine.Point.some h) := by
  right
  refine ⟨one_ne_zero, ?_⟩
  apply some_transport <;> simp

/-- The point (7, 3) of the curve y^2 = x^3 + 4 over `ZMod 13` (a curve with 21 points). -/
theorem nonsingular_seven_three : (W (4 : ZMod 13)).Nonsingular 7 3 :=
  nonsingular_of_equation (by decide) (by decide) (by decide) (by decide)

/-- On the curve y^2 = x^3 + 4 over `ZMod 13`, the point (7, 3) has order 7 and
phi(7, 3) = (11, 3) = 2•(7, 3) for the cube root of unity 9. -/
theorem thirteen_curve_G :
    7 • (Affine.Point.some nonsingular_seven_three : (W (4 : ZMod 13)).Point) = 0 ∧
    (bw761.G1Jac.phi 9 (⟨7, 3, 1⟩ : bw761.G1Jac (ZMod 13))).Represents 4
      ((2 : Int) • (Affine.Point.some nonsingular_seven_three : (W (4 : ZMod 13)).Point)) := by
  have h2 : (2 : ZMod 13) ≠ 0 := by decide
  have hG := bw761.G1Jac.represents_affine nonsingular_seven_three
  generalize (Affine.Point.some nonsingular_seven_three : (W (4 : ZMod 13)).Point) = A at hG
  have hD := bw761.G1Jac.DoubleAssign_represents_g1Jac hG
  have hT := bw761.G1Jac.AddAssign_represents_g1Jac h2 hG hD
  have h6 := bw761.G1Jac.DoubleAssign_represents_g1Jac hT
  have h7 := bw761.G1Jac.AddAssign_represents_g1Jac h2 h6 hG
  constructor
  · have hz := (bw761.G1Jac.represents_Z_iff_g1Jac h7).mp (by decide)
    rw [← hz]
    module
  · have e2 : (2 : Int) • A = A + A := by module
    rw [e2]
    exact bw761.G1Jac.represents_congr hD (by decide) (by decide) (by decide) (by decide)

theorem IsInSubGroup_accepts_subgroup_witness :
    bw761.G1Jac.IsInSubGroup (4 : ZMod 13) 9 7 (fun _ => (1, 1)) 3 ⟨7, 3, 1⟩ = true ∧
      ∀ a : bw761.G1Affine (ZMod 13),
        a.Represents 4 (Affine.Point.some nonsingular_seven_three) →
        bw761.G1Affine.IsInSubGroup (4 : ZMod 13) 9 7 (fun _ => (1, 1)) 3 a = true :=
  IsInSubGroup_accepts_subgroup (4 : ZMod 13) 9 (by decide) (by decide) 7 2 3
    (fun _ => (1, 1)) (by norm_num) (by decide) (by norm_num) (by norm_num) (by decide)
    ⟨7, 3, 1⟩ (Affine.Point.some nonsingular_seven_three)
    (bw761.G1Jac.represents_affine nonsingular_seven_three) (by decide) thirteen_curve_G.1
    (by norm_num) thirteen_curve_G.2

end SubgroupCheck

section Serialization

open bls12377

/-- C11: over a base field whose modulus is below 2^381, with a `Sqrt` that returns a square
root whenever one exists and a `LexicographicallyLargest` that holds for exactly one of y and
-y when y ≠ 0, for every point P accepted by `IsInSubGroup` (which accepts only the identity
(0,0) and points of the curve), `Bytes` gives 48 bytes and `SetBytes` applied to them returns
(48, nil) and sets the receiver to exactly P, whatever the receiver held. -/
theorem SetBytes_Bytes_roundtrip {q : Nat} [Fact q.Prime] (hq : q < 2 ^ 381) (b : ZMod q)
    (Sqrt : ZMod q → Option (ZMod q)) (Lex : ZMod q → Bool) (Sub : G1Affine q → Bool)
    (hSqrt : ∀ a : ZMod q, (∃ y, y * y = a) → ∃ y, Sqrt a = some y ∧ y * y = a)
    (hLex : ∀ y : ZMod q, y ≠ 0 → (Lex y = true ↔ Lex (-y) = false))
    (hSub : ∀ a, Sub a = true → (a.X = 0 ∧ a.Y = 0) ∨ a.Y ^ 2 = a.X ^ 3 + b)
    (P : G1Affine q) (hP : Sub P = true) (p0 : G1Affine q) :
    (G1Affine.Bytes Lex P).length = 48 ∧
      G1Affine.SetBytes b Sqrt Lex Sub p0 (G1Affine.Bytes Lex P) = (P, 48, none) := by
  by_cases hid : P.X = 0 ∧ P.Y = 0
  · have hPe : P = ⟨0, 0⟩ := by
      cases P; simp only at hid; rw [hid.1, hid.2]
    rw [hPe, Bytes_identity]
    exact ⟨rfl, rfl⟩
  · have hcurve : P.Y ^ 2 = P.X ^ 3 + b := by
      rcases hSub P hP with h | h
      · exact absurd h hid
      · exact h
    have hq0 : q ≠ 0 := (Fact.out : q.Prime).ne_zero
    haveI : NeZero q := ⟨hq0⟩
    have hn : P.X.val < 2 ^ 381 := lt_trans (ZMod.val_lt P.X) hq
    have hb0 := top_byte_lt hn
    obtain ⟨m128a, m160a, m128b, m160b, _⟩ := mask_bits _ hb0
    rw [Bytes_point Lex P hid]
    have hlen : ((beBytes 48 P.X.val).set 0 (P.X.val / 256 ^ 47 % 256
        ||| (if Lex P.Y then mCompressedLargest else mCompressedSmallest))).length = 48 := by
      rw [List.length_set, beBytes_length]
    refine ⟨hlen, ?_⟩
    have hhead : ((beBytes 48 P.X.val).set 0 (P.X.val / 256 ^ 47 % 256
        ||| (if Lex P.Y then mCompressedLargest else mCompressedSmallest))).getD 0 0
        = P.X.val / 256 ^ 47 % 256
          ||| (if Lex P.Y then mCompressedLargest else mCompressedSmallest) :=
      Curve.getD_set_eq _ _ _ _ (by rw [beBytes_length]; norm_num)
    generalize hbuf : (beBytes 48 P.X.val).set 0 (P.X.val / 256 ^ 47 % 256
        ||| (if Lex P.Y then mCompressedLargest else mCompressedSmallest)) = buf at hlen hhead
    have hmeta : buf.getD 0 0 &&& mMask
        = if Lex P.Y then mCompressedLargest else mCompressedSmallest := by
      rw [hhead]
      by_cases hl : Lex P.Y = true
      · rw [if_pos hl]; exact m160a
      · rw [if_neg hl]; exact m128a
    have hx : fpSetBytes q ((buf.take 48).set 0 ((buf.take 48).getD 0 0 &&& 31)) = P.X := by
      rw [List.take_of_length_le (by omega), hhead]
      have e : (P.X.val / 256 ^ 47 % 256
          ||| (if Lex P.Y then mCompressedLargest else mCompressedSmallest)) &&& 31
          = P.X.val / 256 ^ 47 % 256 := by
        by_cases hl : Lex P.Y = true
        · rw [if_pos hl]; exact m160b
        · rw [if_neg hl]; exact m128b
      rw [e, ← hbuf, List.set_set, set_head_beBytes]
      exact fpSetBytes_beBytes P.X 48 (lt_trans hn (by norm_num))
    have hne : ∀ c, c ≠ mCompressedLargest → c ≠ mCompressedSmallest →
        buf.getD 0 0 &&& mMask ≠ c := by
      intro c h1 h2 h
      rw [hmeta] at h
      by_cases hl : Lex P.Y = true
      · rw [if_pos hl] at h; exact h1 h.symm
      · rw [if_neg hl] at h; exact h2 h.symm
    rw [SetBytes_compressed b Sqrt Lex Sub p0 buf (by omega) (hne _ (by decide) (by decide))
      (hne _ (by decide) (by decide)) (hne _ (by decide) (by decide)), hx]
    obtain ⟨y, hy, hyy⟩ := hSqrt (P.X * P.X * P.X + b) ⟨P.Y, by rw [← sq, hcurve]; ring⟩
    rw [hy]
    simp only
    have hsel : (if Lex y then
          (if buf.getD 0 0 &&& mMask = mCompressedSmallest then -y else y)
        else (if buf.getD 0 0 &&& mMask = mCompressedLargest then -y else y)) = P.Y := by
      have hsq : y * y = P.Y * P.Y := by rw [hyy, ← sq P.Y, hcurve]; ring
      rw [hmeta]
      rcases mul_self_eq_mul_self_iff.mp hsq with h | h
      · -- the square root is the Y coordinate itself
        rw [← h]
        by_cases hl : Lex y = true
        · rw [if_pos hl, if_pos hl, if_neg (by decide)]
        · rw [if_neg hl, if_neg hl, if_neg (by decide)]
      · -- the square root is the opposite of the Y coordinate
        have hY : P.Y = -y := by rw [h, neg_neg]
        by_cases hy0 : y = 0
        · rw [hY, hy0]; simp
        · have hflip := hLex y hy0
          rw [← hY] at hflip
          by_cases hl : Lex y = true
          · have hl' : ¬ Lex P.Y = true := by rw [hflip.mp hl]; decide
            rw [if_pos hl, if_neg hl', if_pos rfl, hY]
          · have hl' : Lex P.Y = true := by
              by_contra hc
              exact hl (hflip.mpr (by simpa using hc))
            rw [if_neg hl, if_pos hl', if_pos rfl, hY]
    rw [hsel]
    have hPe : (⟨P.X, P.Y⟩ : G1Affine q) = P := by cases P; rfl
    rw [hPe, if_pos hP]

theorem SetBytes_Bytes_roundtrip_witness :
    (G1Affine.Bytes lexSeven (⟨1, 2⟩ : G1Affine 7)).length = 48 ∧
      G1Affine.SetBytes 3 sqrtSeven lexSeven inSubGroupSeven ⟨0, 0⟩
        (G1Affine.Bytes lexSeven (⟨1, 2⟩ : G1Affine 7)) = (⟨1, 2⟩, 48, none) :=
  SetBytes_Bytes_roundtrip (by norm_num) (3 : ZMod 7) sqrtSeven lexSeven inSubGroupSeven
    (by decide) (by decide)
    (by intro a h; simpa [inSubGroupSeven] using h) ⟨1, 2⟩ (by decide) ⟨0, 0⟩

/-- C12: over a base field whose modulus is below 2^381, for every point P accepted by
`IsInSubGroup` (the identity included), `RawBytes` gives 96 bytes, `SetBytes` applied to them
returns (96, nil) and sets the receiver to exactly P, and `Unmarshal(Marshal(P))` succeeds and
yields P. -/
theorem SetBytes_RawBytes_roundtrip {q : Nat} [NeZero q] (hq : q < 2 ^ 381) (b : ZMod q)
    (Sqrt : ZMod q → Option (ZMod q)) (Lex : ZMod q → Bool) (Sub : G1Affine q → Bool)
    (P : G1Affine q) (hP : Sub P = true) (p0 : G1Affine q) :
    (G1Affine.RawBytes P).length = 96 ∧
      G1Affine.SetBytes b Sqrt Lex Sub p0 (G1Affine.RawBytes P) = (P, 96, none) ∧
      G1Affine.Unmarshal b Sqrt Lex Sub p0 (G1Affine.Marshal P) = (P, none) := by
  have key : (G1Affine.RawBytes P).length = 96 ∧
      G1Affine.SetBytes b Sqrt Lex Sub p0 (G1Affine.RawBytes P) = (P, 96, none) := by
    by_cases hid : P.X = 0 ∧ P.Y = 0
    · have hPe : P = ⟨0, 0⟩ := by
        cases P; simp only at hid; rw [hid.1, hid.2]
      rw [hPe, RawBytes_identity]
      exact ⟨rfl, rfl⟩
    · have hnx : P.X.val < 2 ^ 381 := lt_trans (ZMod.val_lt P.X) hq
      have hny : P.Y.val < 2 ^ 381 := lt_trans (ZMod.val_lt P.Y) hq
      rw [RawBytes_point P hid]
      have hlen : (beBytes 48 P.X.val ++ beBytes 48 P.Y.val).length = 96 := by
        rw [List.length_append, beBytes_length, beBytes_length]
      refine ⟨hlen, ?_⟩
      have hhead : (beBytes 48 P.X.val ++ beBytes 48 P.Y.val).getD 0 0
          = P.X.val / 256 ^ 47 % 256 := by
        rw [List.getD_append _ _ _ _ (by rw [beBytes_length]; norm_num),
          beBytes_getD _ _ _ (by norm_num)]
      have hmeta : (beBytes 48 P.X.val ++ beBytes 48 P.Y.val).getD 0 0 &&& mMask
          = mUncompressed := by
        rw [hhead]
        exact (mask_bits _ (top_byte_lt hnx)).2.2.2.2
      rw [SetBytes_uncompressed b Sqrt Lex Sub p0 _ (by omega) hmeta]
      have e1 : (beBytes 48 P.X.val ++ beBytes 48 P.Y.val).take 48 = beBytes 48 P.X.val :=
        List.take_left' (beBytes_length _ _)
      have e2 : ((beBytes 48 P.X.val ++ beBytes 48 P.Y.val).take 96).drop 48
          = beBytes 48 P.Y.val := by
        rw [List.take_of_length_le (by omega)]
        exact List.drop_left' (beBytes_length _ _)
      rw [e1, e2, fpSetBytes_beBytes P.X 48 (lt_trans hnx (by norm_num)),
        fpSetBytes_beBytes P.Y 48 (lt_trans hny (by norm_num))]
      have hPe : (⟨P.X, P.Y⟩ : G1Affine q) = P := by cases P; rfl
      rw [hPe, if_pos hP]
  refine ⟨key.1, key.2, ?_⟩
  unfold G1Affine.Unmarshal G1Affine.Marshal
  rw [key.2]

theorem SetBytes_RawBytes_roundtrip_witness :
    (G1Affine.RawBytes (⟨1, 5⟩ : G1Affine 7)).length = 96 ∧
      G1Affine.SetBytes 3 sqrtSeven lexSeven inSubGroupSeven ⟨0, 0⟩
        (G1Affine.RawBytes (⟨1, 5⟩ : G1Affine 7)) = (⟨1, 5⟩, 96, none) ∧
      G1Affine.Unmarshal 3 sqrtSeven lexSeven inSubGroupSeven ⟨0, 0⟩
        (G1Affine.Marshal (⟨1, 5⟩ : G1Affine 7)) = (⟨1, 5⟩, none) :=
  SetBytes_RawBytes_roundtrip (by norm_num) (3 : ZMod 7) sqrtSeven lexSeven inSubGroupSeven
    ⟨1, 5⟩ (by decide) ⟨0, 0⟩

/-- C13: for every buffer whose metadata is not one of the two infinity codes, a nil error
from `SetBytes` means the receiver satisfies `IsInSubGroup`, every error comes with a count of
0, and the parsed (uncompressed) or recovered (compressed) point is the only value ever
returned with a nil error: when it fails `IsInSubGroup` the result is (0, error) with the
subgroup-check error, and no other point is substituted. -/
theorem SetBytes_subgroup_checked {q : Nat} (b : ZMod q) (Sqrt : ZMod q → Option (ZMod q))
    (Lex : ZMod q → Bool) (Sub : G1Affine q → Bool) (p : G1Affine q) (buf : List Nat)
    (hc : buf.getD 0 0 &&& mMask ≠ mCompressedInfinity)
    (hu : buf.getD 0 0 &&& mMask ≠ mUncompressedInfinity) :
    ((G1Affine.SetBytes b Sqrt Lex Sub p buf).2.2 = none →
        Sub (G1Affine.SetBytes b Sqrt Lex Sub p buf).1 = true) ∧
    ((G1Affine.SetBytes b Sqrt Lex Sub p buf).2.2 ≠ none →
        (G1Affine.SetBytes b Sqrt Lex Sub p buf).2.1 = 0) ∧
    (96 ≤ buf.length → buf.getD 0 0 &&& mMask = mUncompressed →
      G1Affine.SetBytes b Sqrt Lex Sub p buf
        = if Sub ⟨fpSetBytes q (buf.take 48), fpSetBytes q ((buf.take 96).drop 48)⟩ = true then
            (⟨fpSetBytes q (buf.take 48), fpSetBytes q ((buf.take 96).drop 48)⟩, 96, none)
          else
            (⟨fpSetBytes q (buf.take 48), fpSetBytes q ((buf.take 96).drop 48)⟩, 0,
              some DecodeError.subgroupCheckFailed)) ∧
    (48 ≤ buf.length → buf.getD 0 0 &&& mMask ≠ mUncompressed →
      ∀ Y, Sqrt (fpSetBytes q ((buf.take 48).set 0 ((buf.take 48).getD 0 0 &&& 31))
            * fpSetBytes q ((buf.take 48).set 0 ((buf.take 48).getD 0 0 &&& 31))
            * fpSetBytes q ((buf.take 48).set 0 ((buf.take 48).getD 0 0 &&& 31)) + b)
          = some Y →
      G1Affine.SetBytes b Sqrt Lex Sub p buf
        = if Sub ⟨fpSetBytes q ((buf.take 48).set 0 ((buf.take 48).getD 0 0 &&& 31)),
              if Lex Y then
                (if buf.getD 0 0 &&& mMask = mCompressedSmallest then -Y else Y)
              else (if buf.getD 0 0 &&& mMask = mCompressedLargest then -Y else Y)⟩ = true
          then
            (⟨fpSetBytes q ((buf.take 48).set 0 ((buf.take 48).getD 0 0 &&& 31)),
              if Lex Y then
                (if buf.getD 0 0 &&& mMask = mCompressedSmallest then -Y else Y)
              else (if buf.getD 0 0 &&& mMask = mCompressedLargest then -Y else Y)⟩, 48, none)
          else
            (⟨fpSetBytes q ((buf.take 48).set 0 ((buf.take 48).getD 0 0 &&& 31)),
              if Lex Y then
                (if buf.getD 0 0 &&& mMask = mCompressedSmallest then -Y else Y)
              else (if buf.getD 0 0 &&& mMask = mCompressedLargest then -Y else Y)⟩, 0,
              some DecodeError.subgroupCheckFailed)) := by
  have hunc : 96 ≤ buf.length → buf.getD 0 0 &&& mMask = mUncompressed → _ :=
    fun hlen h0 => SetBytes_uncompressed b Sqrt Lex Sub p buf hlen h0
  have hcmp : 48 ≤ buf.length → buf.getD 0 0 &&& mMask ≠ mUncompressed → _ :=
    fun hlen h0 => SetBytes_compressed b Sqrt Lex Sub p buf hlen h0 hu hc
  have hshort1 : buf.length < 48 →
      G1Affine.SetBytes b Sqrt Lex Sub p buf = (p, 0, some DecodeError.ErrShortBuffer) := by
    intro h
    unfold G1Affine.SetBytes
    rw [if_pos (by simpa [SizeOfG1AffineCompressed] using h)]
  have hshort2 : 48 ≤ buf.length → buf.length < 96 →
      buf.getD 0 0 &&& mMask = mUncompressed →
      G1Affine.SetBytes b Sqrt Lex Sub p buf = (p, 0, some DecodeError.ErrShortBuffer) := by
    intro h h' h0
    unfold G1Affine.SetBytes
    rw [if_neg (by simp only [SizeOfG1AffineCompressed]; omega)]
    simp only
    rw [if_pos ⟨Or.inl h0, by
      simp only [SizeOfG1AffineUncompressed, SizeOfG1AffineCompressed]; omega⟩]
  refine ⟨?_, ?_, hunc, ?_⟩
  · intro hnil
    by_cases h48 : buf.length < 48
    · rw [hshort1 h48] at hnil; exact absurd hnil (by simp)
    · by_cases h0 : buf.getD 0 0 &&& mMask = mUncompressed
      · by_cases h96 : buf.length < 96
        · rw [hshort2 (by omega) h96 h0] at hnil; exact absurd hnil (by simp)
        · rw [hunc (by omega) h0] at hnil ⊢
          split_ifs at hnil ⊢
          assumption
      · rw [hcmp (by omega) h0] at hnil ⊢
        cases hsq : Sqrt (fpSetBytes q ((buf.take 48).set 0 ((buf.take 48).getD 0 0 &&& 31))
            * fpSetBytes q ((buf.take 48).set 0 ((buf.take 48).getD 0 0 &&& 31))
            * fpSetBytes q ((buf.take 48).set 0 ((buf.take 48).getD 0 0 &&& 31)) + b) with
        | none => rw [hsq] at hnil; exact absurd hnil (by simp)
        | some Y =>
          rw [hsq] at hnil
          simp only at hnil ⊢
          split_ifs at hnil ⊢ <;> assumption
  · intro herr
    by_cases h48 : buf.length < 48
    · rw [hshort1 h48]
    · by_cases h0 : buf.getD 0 0 &&& mMask = mUncompressed
      · by_cases h96 : buf.length < 96
        · rw [hshort2 (by omega) h96 h0]
        · rw [hunc (by omega) h0] at herr ⊢
          split_ifs at herr ⊢ <;> first | rfl | exact absurd rfl herr
      · rw [hcmp (by omega) h0] at herr ⊢
        cases hsq : Sqrt (fpSetBytes q ((buf.take 48).set 0 ((buf.take 48).getD 0 0 &&& 31))
            * fpSetBytes q ((buf.take 48).set 0 ((buf.take 48).getD 0 0 &&& 31))
            * fpSetBytes q ((buf.take 48).set 0 ((buf.take 48).getD 0 0 &&& 31)) + b) with
        | none => rfl
        | some Y =>
          rw [hsq] at herr
          simp only at herr ⊢
          split_ifs at herr ⊢ <;> first | rfl | exact absurd rfl herr
  · intro hlen h0 Y hY
    rw [hcmp hlen h0, hY]

theorem SetBytes_subgroup_checked_witness :
    inSubGroupSeven (G1Affine.SetBytes (3 : ZMod 7) sqrtSeven lexSeven inSubGroupSeven ⟨0, 0⟩
      (0 :: (List.replicate 46 0 ++ 1 :: (List.replicate 47 0 ++ [2])))).1 = true :=
  (SetBytes_subgroup_checked (3 : ZMod 7) sqrtSeven lexSeven inSubGroupSeven ⟨0, 0⟩
    (0 :: (List.replicate 46 0 ++ 1 :: (List.replicate 47 0 ++ [2]))) (by decide)
    (by decide)).1 (by decide)

/-- C16: for a buffer of bytes, `SetBytes` returns `io.ErrShortBuffer` exactly when the buffer
has fewer than 48 bytes, or the top three bits of its first byte are 000 or 010 (uncompressed)
and it has fewer than 96 bytes; in that case the count is 0 and the receiver is unchanged; a
buffer of 96 bytes or more never gives `ErrShortBuffer`. -/
theorem SetBytes_ErrShortBuffer_iff {q : Nat} (b : ZMod q) (Sqrt : ZMod q → Option (ZMod q))
    (Lex : ZMod q → Bool) (Sub : G1Affine q → Bool) (p : G1Affine q) (buf : List Nat)
    (hb : ∀ v ∈ buf, v < 256) :
    ((G1Affine.SetBytes b Sqrt Lex Sub p buf).2.2 = some DecodeError.ErrShortBuffer ↔
      (buf.length < 48 ∨
        ((buf.getD 0 0 / 32 = 0b000 ∨ buf.getD 0 0 / 32 = 0b010) ∧ buf.length < 96))) ∧
    ((G1Affine.SetBytes b Sqrt Lex Sub p buf).2.2 = some DecodeError.ErrShortBuffer →
      G1Affine.SetBytes b Sqrt Lex Sub p buf = (p, 0, some DecodeError.ErrShortBuffer)) ∧
    (96 ≤ buf.length →
      (G1Affine.SetBytes b Sqrt Lex Sub p buf).2.2 ≠ some DecodeError.ErrShortBuffer) := by
  obtain ⟨m0, m2, _, _, _⟩ := meta_bits _ (head_byte hb)
  have hcond : ((buf.getD 0 0 &&& mMask = mUncompressed
        ∨ buf.getD 0 0 &&& mMask = mUncompressedInfinity)
        ∧ buf.length < SizeOfG1AffineUncompressed)
      ↔ ((buf.getD 0 0 / 32 = 0b000 ∨ buf.getD 0 0 / 32 = 0b010) ∧ buf.length < 96) := by
    have e0 : buf.getD 0 0 &&& mMask = mUncompressed ↔ buf.getD 0 0 / 32 = 0b000 := m0
    have e2 : buf.getD 0 0 &&& mMask = mUncompressedInfinity ↔ buf.getD 0 0 / 32 = 0b010 := m2
    rw [e0, e2]
    simp only [SizeOfG1AffineUncompressed, SizeOfG1AffineCompressed]
  have main : (G1Affine.SetBytes b Sqrt Lex Sub p buf).2.2 = some DecodeError.ErrShortBuffer →
      (buf.length < 48 ∨
        ((buf.getD 0 0 / 32 = 0b000 ∨ buf.getD 0 0 / 32 = 0b010) ∧ buf.length < 96)) := by
    intro h
    by_contra hne
    push_neg at hne
    by_cases hci : buf.getD 0 0 &&& mMask = mCompressedInfinity
    · rw [SetBytes_compressed_infinity b Sqrt Lex Sub p buf hne.1 hci] at h
      exact absurd h (by simp)
    by_cases hui : buf.getD 0 0 &&& mMask = mUncompressedInfinity
    · rw [SetBytes_uncompressed_infinity b Sqrt Lex Sub p buf
        (hne.2 (Or.inr (m2.mp hui))) hui] at h
      exact absurd h (by simp)
    by_cases hun : buf.getD 0 0 &&& mMask = mUncompressed
    · rw [SetBytes_uncompressed b Sqrt Lex Sub p buf (hne.2 (Or.inl (m0.mp hun))) hun] at h
      split_ifs at h
      exact absurd h (by simp)
    · rw [SetBytes_compressed b Sqrt Lex Sub p buf hne.1 hun hui hci] at h
      split at h
      · exact absurd h (by simp)
      · split_ifs at h <;> exact absurd h (by simp)
  have back : (buf.length < 48 ∨
        ((buf.getD 0 0 / 32 = 0b000 ∨ buf.getD 0 0 / 32 = 0b010) ∧ buf.length < 96)) →
      G1Affine.SetBytes b Sqrt Lex Sub p buf = (p, 0, some DecodeError.ErrShortBuffer) := by
    intro h
    unfold G1Affine.SetBytes
    by_cases h48 : buf.length < 48
    · rw [if_pos (by simpa [SizeOfG1AffineCompressed] using h48)]
    · rw [if_neg (by simpa [SizeOfG1AffineCompressed] using h48)]
      simp only
      rcases h with h | h
      · exact absurd h h48
      · rw [if_pos (hcond.mpr h)]
  refine ⟨⟨main, fun h => by rw [back h]⟩, fun h => back (main h), ?_⟩
  intro h96 h
  rcases main h with h' | h' <;> omega

theorem SetBytes_ErrShortBuffer_iff_witness :
    G1Affine.SetBytes (3 : ZMod 7) sqrtSeven lexSeven inSubGroupSeven ⟨1, 2⟩
        (List.replicate 95 0) = (⟨1, 2⟩, 0, some DecodeError.ErrShortBuffer) :=
  (SetBytes_ErrShortBuffer_iff (3 : ZMod 7) sqrtSeven lexSeven inSubGroupSeven ⟨1, 2⟩
    (List.replicate 95 0) (by decide)).2.1 (by decide)

/-- C17: for a buffer of at least 48 bytes whose metadata marks a compressed non-infinity
point, with x the field element parsed from the first 48 bytes after clearing the three
metadata bits: if x^3 + b has no square root (and `Sqrt` only ever returns square roots),
`SetBytes` returns (0, error), the error being the missing square root; the receiver then
holds x and its old Y. `G2Affine.SetBytes` returns (0, error) when the Legendre symbol of
x^3 + b' is -1 (the missing square root when the buffer has its 96 bytes). -/
theorem SetBytes_no_square_root {q : Nat} (b : ZMod q) (Sqrt : ZMod q → Option (ZMod q))
    (Lex : ZMod q → Bool) (Sub : G1Affine q → Bool) (p : G1Affine q) (buf : List Nat)
    (hlen : 48 ≤ buf.length)
    (hmeta : buf.getD 0 0 &&& mMask = mCompressedSmallest
      ∨ buf.getD 0 0 &&& mMask = mCompressedLargest)
    (hSqrt : ∀ a y, Sqrt a = some y → y * y = a) :
    ((∀ y, y * y ≠
        (fpSetBytes q ((buf.take 48).set 0 ((buf.take 48).getD 0 0 &&& 31))) ^ 3 + b) →
      G1Affine.SetBytes b Sqrt Lex Sub p buf
        = (⟨fpSetBytes q ((buf.take 48).set 0 ((buf.take 48).getD 0 0 &&& 31)), p.Y⟩, 0,
            some DecodeError.squareRootDoesNotExist)) ∧
    (∀ (ops : E2Ops q) (bT : E2 q) (Sub2 : G2Affine q → Bool) (p2 : G2Affine q),
      ops.Legendre (ops.Add (ops.Mul
        (ops.Square ⟨fpSetBytes q ((buf.take 96).drop 48),
          fpSetBytes q ((buf.take 48).set 0 ((buf.take 48).getD 0 0 &&& 31))⟩)
        ⟨fpSetBytes q ((buf.take 96).drop 48),
          fpSetBytes q ((buf.take 48).set 0 ((buf.take 48).getD 0 0 &&& 31))⟩) bT) = -1 →
      (G2Affine.SetBytes ops bT Sub2 p2 buf).2.1 = 0 ∧
      (G2Affine.SetBytes ops bT Sub2 p2 buf).2.2 ≠ none ∧
      (96 ≤ buf.length →
        G2Affine.SetBytes ops bT Sub2 p2 buf
          = (⟨⟨fpSetBytes q ((buf.take 96).drop 48),
              fpSetBytes q ((buf.take 48).set 0 ((buf.take 48).getD 0 0 &&& 31))⟩, p2.Y⟩, 0,
              some DecodeError.squareRootDoesNotExist))) := by
  have h0 : buf.getD 0 0 &&& mMask ≠ mUncompressed := by
    rcases hmeta with h | h <;> rw [h] <;> decide
  have h1 : buf.getD 0 0 &&& mMask ≠ mUncompressedInfinity := by
    rcases hmeta with h | h <;> rw [h] <;> decide
  have h2 : buf.getD 0 0 &&& mMask ≠ mCompressedInfinity := by
    rcases hmeta with h | h <;> rw [h] <;> decide
  constructor
  · intro hno
    rw [SetBytes_compressed b Sqrt Lex Sub p buf hlen h0 h1 h2]
    cases hs : Sqrt (fpSetBytes q ((buf.take 48).set 0 ((buf.take 48).getD 0 0 &&& 31))
            * fpSetBytes q ((buf.take 48).set 0 ((buf.take 48).getD 0 0 &&& 31))
            * fpSetBytes q ((buf.take 48).set 0 ((buf.take 48).getD 0 0 &&& 31)) + b) with
    | none => rfl
    | some y =>
      exfalso
      apply hno y
      rw [hSqrt _ _ hs]
      ring
  · intro ops bT Sub2 p2 hL
    by_cases h96 : 96 ≤ buf.length
    · have e := G2_SetBytes_no_root ops bT Sub2 p2 buf h96 h0 h1 h2 hL
      rw [e]
      exact ⟨rfl, by simp, fun _ => rfl⟩
    · have e := G2_SetBytes_short ops bT Sub2 p2 buf (by omega)
      rw [e]
      exact ⟨rfl, by simp, fun h => absurd h h96⟩

theorem SetBytes_no_square_root_witness :
    G1Affine.SetBytes (3 : ZMod 7) sqrtSeven lexSeven inSubGroupSeven ⟨1, 2⟩
        (0x80 :: List.replicate 47 0)
      = (⟨fpSetBytes 7 (((0x80 :: List.replicate 47 0).take 48).set 0
            (((0x80 :: List.replicate 47 0).take 48).getD 0 0 &&& 31)), 2⟩, 0,
          some DecodeError.squareRootDoesNotExist) :=
  (SetBytes_no_square_root (3 : ZMod 7) sqrtSeven lexSeven inSubGroupSeven ⟨1, 2⟩
    (0x80 :: List.replicate 47 0) (by decide) (by decide) (by decide)).1 (by decide)

/-- C18: for a buffer of at least 96 bytes whose first byte has top three bits 010, whatever
the other bits and bytes are, `SetBytes` sets the receiver to the identity (0,0) and returns
(96, nil); for a buffer of at least 48 bytes whose first byte has top three bits 110 it sets
the identity and returns (48, nil). -/
theorem SetBytes_infinity {q : Nat} (b : ZMod q) (Sqrt : ZMod q → Option (ZMod q))
    (Lex : ZMod q → Bool) (Sub : G1Affine q → Bool) (p : G1Affine q) (buf : List Nat)
    (hb : ∀ v ∈ buf, v < 256) :
    (96 ≤ buf.length → buf.getD 0 0 / 32 = 0b010 →
      G1Affine.SetBytes b Sqrt Lex Sub p buf = (⟨0, 0⟩, 96, none)) ∧
    (48 ≤ buf.length → buf.getD 0 0 / 32 = 0b110 →
      G1Affine.SetBytes b Sqrt Lex Sub p buf = (⟨0, 0⟩, 48, none)) := by
  obtain ⟨_, m2, _, _, m6⟩ := meta_bits _ (head_byte hb)
  exact ⟨fun hlen h => SetBytes_uncompressed_infinity b Sqrt Lex Sub p buf hlen (m2.mpr h),
    fun hlen h => SetBytes_compressed_infinity b Sqrt Lex Sub p buf hlen (m6.mpr h)⟩

theorem SetBytes_infinity_witness :
    G1Affine.SetBytes (3 : ZMod 7) sqrtSeven lexSeven inSubGroupSeven ⟨1, 2⟩
        (0x5f :: List.replicate 95 0xff) = (⟨0, 0⟩, 96, none) :=
  (SetBytes_infinity (3 : ZMod 7) sqrtSeven lexSeven inSubGroupSeven ⟨1, 2⟩
    (0x5f :: List.replicate 95 0xff) (by decide)).1 (by decide) (by decide)

/-- C19 (as stated, at the identity): the compressed encoding of (0,0) does not start with the
byte 0x60; its first byte is `mCompressedInfinity = 0b110 << 5 = 0xC0`. -/
theorem Bytes_identity_not_0x60 :
    G1Affine.Bytes lexSeven (⟨0, 0⟩ : G1Affine 7) ≠ 0x60 :: List.replicate 47 0 ∧
      (G1Affine.Bytes lexSeven (⟨0, 0⟩ : G1Affine 7)).getD 0 0 = 0xC0 ∧
      mCompressedInfinity = 0xC0 := by
  rw [Bytes_identity]
  decide

/-- C19 (amended): the compressed encoding `Bytes()` of the identity point (0,0) is the byte
0xC0 followed by 47 zero bytes, for every base field. -/
theorem Bytes_identity_0xC0 {q : Nat} (Lex : ZMod q → Bool) :
    G1Affine.Bytes Lex (⟨0, 0⟩ : G1Affine q) = 0xC0 :: List.replicate 47 0 :=
  Bytes_identity Lex

/-- C20: the uncompressed encoding `RawBytes()` of the identity point (0,0) is the byte 0x40
followed by 95 zero bytes, for every base field. -/
theorem RawBytes_identity_0x40 {q : Nat} :
    G1Affine.RawBytes (⟨0, 0⟩ : G1Affine q) = 0x40 :: List.replicate 95 0 :=
  RawBytes_identity

end Serialization

section Conversions

open Curve

/-- C24: for every Jacobian triple P (the identity and every other triple included),
`FromAffine(FromJacobian(P))` is `Equal` to P; for every affine pair Q (the sentinel (0,0)
included), `FromJacobian(FromAffine(Q))` is Q itself; and `FromJacobian` returns (0,0) when
Z = 0 and (X/Z^2, Y/Z^3) otherwise. -/
theorem FromAffine_FromJacobian_roundtrip {F : Type} [Field F] [DecidableEq F] :
    (∀ P : bw761.G1Jac F,
        (bw761.G1Jac.FromAffine (bw761.G1Affine.FromJacobian P)).Equal P = true) ∧
    (∀ Q : bw761.G1Affine F, bw761.G1Affine.FromJacobian (bw761.G1Jac.FromAffine Q) = Q) ∧
    (∀ P : bw761.G1Jac F, bw761.G1Affine.FromJacobian P
        = if P.Z = 0 then ⟨0, 0⟩ else ⟨P.X / P.Z ^ 2, P.Y / P.Z ^ 3⟩) := by
  have back : ∀ Q : bw761.G1Affine F,
      bw761.G1Affine.FromJacobian (bw761.G1Jac.FromAffine Q) = Q := by
    intro Q
    unfold bw761.G1Jac.FromAffine
    by_cases h0 : Q.X = 0 ∧ Q.Y = 0
    · rw [if_pos h0]
      unfold bw761.G1Affine.FromJacobian
      rw [if_pos rfl]
      cases Q
      simp only at h0
      rw [h0.1, h0.2]
    · rw [if_neg h0]
      unfold bw761.G1Affine.FromJacobian
      rw [if_neg one_ne_zero]
      cases Q
      simp
  refine ⟨?_, back, ?_⟩
  · intro P
    unfold bw761.G1Jac.Equal
    split_ifs with h
    · rfl
    · simp only [back, decide_True, Bool.and_self]
  · intro P
    unfold bw761.G1Affine.FromJacobian
    by_cases hz : P.Z = 0
    · rw [if_pos hz, if_pos hz]
    · rw [if_neg hz, if_neg hz]
      simp only [bw761.G1Affine.mk.injEq]
      constructor
      · rw [div_eq_mul_inv]; ring
      · rw [div_eq_mul_inv]; ring

/-- C25: for non-identity Jacobian triples p and a with the same affine X and opposite affine
Y (whatever Y is, zero included), `p.AddAssign(a)` has Z = 0; and for every non-identity
Jacobian p and every affine a other than (0,0) that is the opposite of p in affine form (in
particular `Neg(FromJacobian(p))`), `p.AddMixed(a)` has Z = 0. No branch of the formulas tests
for P = -Q. -/
theorem AddAssign_opposite_Z_zero {F : Type} [Field F] [DecidableEq F] :
    (∀ p a : bw761.G1Jac F, p.Z ≠ 0 → a.Z ≠ 0 → p.X / p.Z ^ 2 = a.X / a.Z ^ 2 →
        p.Y / p.Z ^ 3 = -(a.Y / a.Z ^ 3) → (p.AddAssign a).Z = 0) ∧
    (∀ (p : bw761.G1Jac F) (a : bw761.G1Affine F), p.Z ≠ 0 → ¬ (a.X = 0 ∧ a.Y = 0) →
        a.X = p.X / p.Z ^ 2 → a.Y = -(p.Y / p.Z ^ 3) → (p.AddMixed a).Z = 0) ∧
    (∀ p : bw761.G1Jac F, p.Z ≠ 0 →
        ¬ ((bw761.G1Affine.FromJacobian p).Neg.X = 0 ∧
            (bw761.G1Affine.FromJacobian p).Neg.Y = 0) →
        (p.AddMixed (bw761.G1Affine.FromJacobian p).Neg).Z = 0) := by
  have mixed : ∀ (p : bw761.G1Jac F) (a : bw761.G1Affine F), p.Z ≠ 0 →
      ¬ (a.X = 0 ∧ a.Y = 0) → a.X = p.X / p.Z ^ 2 → a.Y = -(p.Y / p.Z ^ 3) →
      (p.AddMixed a).Z = 0 := by
    intro p a hp ha hx hy
    have hU : a.X * p.Z ^ 2 = p.X := by rw [hx]; field_simp
    have hS : a.Y * p.Z * p.Z ^ 2 = -p.Y := by rw [hy]; field_simp; ring
    unfold bw761.G1Jac.AddMixed
    rw [if_neg ha, if_neg hp]
    simp only
    by_cases hd : a.X * p.Z ^ 2 = p.X ∧ a.Y * p.Z * p.Z ^ 2 = p.Y
    · rw [if_pos hd]
      have hY : 2 * p.Y = 0 := by linear_combination hS - hd.2
      simp only [bw761.G1Jac.DoubleAssign]
      linear_combination p.Z * hY
    · rw [if_neg hd]
      simp only [hU]
      ring
  refine ⟨?_, mixed, ?_⟩
  · intro p a hp ha hx hy
    have hU : a.X * p.Z ^ 2 = p.X * a.Z ^ 2 := by
      field_simp at hx
      linear_combination -hx
    have hS : a.Y * p.Z * p.Z ^ 2 = -(p.Y * a.Z * a.Z ^ 2) := by
      field_simp at hy
      linear_combination hy
    unfold bw761.G1Jac.AddAssign
    rw [if_neg hp, if_neg ha]
    simp only
    by_cases hd : a.X * p.Z ^ 2 = p.X * a.Z ^ 2 ∧ a.Y * p.Z * p.Z ^ 2 = p.Y * a.Z * a.Z ^ 2
    · rw [if_pos hd]
      have hY : 2 * p.Y * a.Z ^ 3 = 0 := by linear_combination hS - hd.2
      have hY' : 2 * p.Y = 0 := by
        rcases mul_eq_zero.mp hY with h | h
        · exact h
        · exact absurd (pow_eq_zero_iff (by norm_num) |>.mp h) ha
      simp only [bw761.G1Jac.DoubleAssign]
      linear_combination p.Z * hY'
    · rw [if_neg hd]
      simp only [hU]
      ring
  · intro p hp ha
    apply mixed p _ hp ha
    · unfold bw761.G1Affine.FromJacobian bw761.G1Affine.Neg
      rw [if_neg hp]
      simp only
      rw [div_eq_mul_inv]
      ring
    · unfold bw761.G1Affine.FromJacobian bw761.G1Affine.Neg
      rw [if_neg hp]
      simp only
      rw [div_eq_mul_inv]
      ring

theorem AddAssign_opposite_Z_zero_witness :
    ((⟨1, 2, 1⟩ : bw761.G1Jac (ZMod 7)).AddAssign ⟨4, 5, 2⟩).Z = 0 ∧
      ((⟨4, 2, 2⟩ : bw761.G1Jac (ZMod 7)).AddMixed ⟨1, 5⟩).Z = 0 :=
  ⟨AddAssign_opposite_Z_zero.1 ⟨1, 2, 1⟩ ⟨4, 5, 2⟩ (by decide) (by decide)
      (by rw [div_eq_iff (by decide), div_mul_eq_mul_div, eq_div_iff (by decide)]; decide)
      (by rw [← neg_div, div_eq_iff (by decide), div_mul_eq_mul_div, eq_div_iff (by decide)]
          decide),
    AddAssign_opposite_Z_zero.2.1 ⟨4, 2, 2⟩ ⟨1, 5⟩ (by decide) (by decide)
      (by rw [eq_div_iff (by decide)]; decide)
      (by rw [← neg_div, eq_div_iff (by decide)]; decide)⟩

end Conversions

section ExtendedInvariant

/-- C26: every `g2JacExtended` value obtained from `SetInfinity()` by a sequence of `mAdd`
calls with arbitrary affine arguments (the calls `mAdd` makes to `double` included) satisfies
`ZZ^3 = ZZZ^2`. -/
theorem mAdd_reachable_invariant {F : Type} [Field F] [DecidableEq F]
    (args : List (bn256.G2Affine F)) :
    (args.foldl bn256.g2JacExtended.mAdd bn256.g2JacExtended.SetInfinity).ZZ ^ 3
      = (args.foldl bn256.g2JacExtended.mAdd bn256.g2JacExtended.SetInfinity).ZZZ ^ 2 := by
  have gen : ∀ (l : List (bn256.G2Affine F)) (p : bn256.g2JacExtended F),
      p.ZZ ^ 3 = p.ZZZ ^ 2 →
      (l.foldl bn256.g2JacExtended.mAdd p).ZZ ^ 3
        = (l.foldl bn256.g2JacExtended.mAdd p).ZZZ ^ 2 := by
    intro l
    induction l with
    | nil => intro p hp; exact hp
    | cons a l ih =>
      intro p hp
      rw [List.foldl_cons]
      exact ih _ (bn256.g2JacExtended.mAdd_invariant p a hp)
  exact gen args _ (by simp [bn256.g2JacExtended.SetInfinity])

end ExtendedInvariant

section WindowChoice

/-- C27: `G2Jac.MultiExp` on n points takes the windowed fallback when n ≤ 50 and only then;
for n > 50 it runs the chunked pipeline with window width 8 when n ≤ 10000, 11 when
n ≤ 80000, 13 when n ≤ 400000, 14 when n ≤ 800000 and 16 above. -/
theorem MultiExp_window_choice {F : Type} [Field F] [DecidableEq F] (nbCpus : Nat)
    (chunks : List (Nat × Nat)) (p : bn256.G2Jac F) (points : List (bn256.G2Affine F))
    (scalars : List bn256.Element) :
    (points.length ≤ 50 →
      bn256.G2Jac.MultiExp nbCpus chunks p points scalars
        = some (bn256.G2Jac.WindowedMultiExp chunks p (points.map bn256.G2Jac.FromAffine)
            scalars)) ∧
    (50 < points.length → points.length ≤ 10000 →
      bn256.G2Jac.MultiExp nbCpus chunks p points scalars
        = bn256.G2Jac.multiExpChunked 8 nbCpus points scalars) ∧
    (10000 < points.length → points.length ≤ 80000 →
      bn256.G2Jac.MultiExp nbCpus chunks p points scalars
        = bn256.G2Jac.multiExpChunked 11 nbCpus points scalars) ∧
    (80000 < points.length → points.length ≤ 400000 →
      bn256.G2Jac.MultiExp nbCpus chunks p points scalars
        = bn256.G2Jac.multiExpChunked 13 nbCpus points scalars) ∧
    (400000 < points.length → points.length ≤ 800000 →
      bn256.G2Jac.MultiExp nbCpus chunks p points scalars
        = bn256.G2Jac.multiExpChunked 14 nbCpus points scalars) ∧
    (800000 < points.length →
      bn256.G2Jac.MultiExp nbCpus chunks p points scalars
        = bn256.G2Jac.multiExpChunked 16 nbCpus points scalars) := by
  have big : 50 < points.length →
      bn256.G2Jac.MultiExp nbCpus chunks p points scalars
        = bn256.G2Jac.multiExpChunked (bn256.chunkSizeOf points.length) nbCpus points
            scalars := by
    intro h
    unfold bn256.G2Jac.MultiExp bn256.G2Jac.multiExpChunked
    exact if_neg (by omega)
  refine ⟨?_, ?_, ?_, ?_, ?_, ?_⟩
  · intro h
    unfold bn256.G2Jac.MultiExp
    simp only
    rw [if_pos h]
  · intro h1 h2
    rw [big h1]
    unfold bn256.chunkSizeOf
    rw [if_pos h2]
  · intro h1 h2
    rw [big (by omega)]
    unfold bn256.chunkSizeOf
    rw [if_neg (by omega), if_pos h2]
  · intro h1 h2
    rw [big (by omega)]
    unfold bn256.chunkSizeOf
    rw [if_neg (by omega), if_neg (by omega), if_pos h2]
  · intro h1 h2
    rw [big (by omega)]
    unfold bn256.chunkSizeOf
    rw [if_neg (by omega), if_neg (by omega), if_neg (by omega), if_pos h2]
  · intro h1
    rw [big (by omega)]
    unfold bn256.chunkSizeOf
    rw [if_neg (by omega), if_neg (by omega), if_neg (by omega), if_neg (by omega)]

theorem MultiExp_window_choice_witness :
    bn256.G2Jac.MultiExp 2 [(0, 1)] (⟨1, 1, 0⟩ : bn256.G2Jac (ZMod 7)) [⟨1, 2⟩] [[3, 0, 0, 0]]
        = some (bn256.G2Jac.WindowedMultiExp [(0, 1)] ⟨1, 1, 0⟩
            ([⟨1, 2⟩].map bn256.G2Jac.FromAffine) [[3, 0, 0, 0]]) ∧
      bn256.G2Jac.MultiExp 2 [] (⟨1, 1, 0⟩ : bn256.G2Jac (ZMod 7))
          (List.replicate 51 ⟨1, 2⟩) (List.replicate 51 [3, 0, 0, 0])
        = bn256.G2Jac.multiExpChunked 8 2 (List.replicate 51 ⟨1, 2⟩)
            (List.replicate 51 [3, 0, 0, 0]) :=
  ⟨(MultiExp_window_choice 2 [(0, 1)] ⟨1, 1, 0⟩ [⟨1, 2⟩] [[3, 0, 0, 0]]).1 (by decide),
    (MultiExp_window_choice 2 [] ⟨1, 1, 0⟩ (List.replicate 51 ⟨1, 2⟩)
      (List.replicate 51 [3, 0, 0, 0])).2.1 (by simp) (by simp)⟩

end WindowChoice

section SubgroupCombination

open Curve

/-- C30: assume `ScalarMultiplication(q, xGen)` returns `x*q` (the triple it returns
represents x•Q whenever q represents Q). Then for every triple p on the curve representing P,
the triple `res` that `G1Jac.IsInSubGroup(p)` builds represents
`(x+1)•P + (x^3 - x^2 + 1)•phi(P)`, where `phi(X,Y,Z) = (w*X, Y, Z)`, and the method returns
true exactly when `res` satisfies the Jacobian curve equation and has `Z = 0`; for p on the
curve this is the case exactly when that point is the identity. -/
theorem IsInSubGroup_iff_combination {F : Type} [Field F] [DecidableEq F] {b : F}
    (h2 : (2 : F) ≠ 0) (w : F) (hw : w ^ 3 = 1) (r : Nat) (SplitScalar : Int → Int × Int)
    (xGen : Int)
    (hmul : ∀ (q : bw761.G1Jac F) (Q : (W b).Point), q.Represents b Q →
      (bw761.G1Jac.ScalarMultiplication w r SplitScalar q xGen).Represents b (xGen • Q))
    (p : bw761.G1Jac F) (P : (W b).Point) (hp : p.Represents b P) (hc : p.OnCurve b) :
    bw761.G1Jac.phi w p = ⟨w * p.X, p.Y, p.Z⟩ ∧
    ∃ res : bw761.G1Jac F,
      res.Represents b ((xGen + 1) • P + (xGen ^ 3 - xGen ^ 2 + 1) • phiPoint w hw P) ∧
      bw761.G1Jac.IsInSubGroup b w r SplitScalar xGen p
        = (res.IsOnCurve b && decide (res.Z = 0)) ∧
      (bw761.G1Jac.IsInSubGroup b w r SplitScalar xGen p = true ↔
        (xGen + 1) • P + (xGen ^ 3 - xGen ^ 2 + 1) • phiPoint w hw P = 0) := by
  refine ⟨by simp [bw761.G1Jac.phi, mul_comm], ?_⟩
  have smc : ∀ {a : bw761.G1Jac F}, a.OnCurve b →
      (bw761.G1Jac.ScalarMultiplication w r SplitScalar a xGen).OnCurve b :=
    fun ha => bw761.G1Jac.mulGLV_onCurve w hw r SplitScalar ha xGen
  have r0 := bw761.G1Jac.phi_represents w hw hp
  have c0 := bw761.G1Jac.phi_onCurve w hw hc
  have r1 := bw761.G1Jac.SubAssign_represents h2 (hmul _ _ r0) r0
  have c1 := bw761.G1Jac.SubAssign_onCurve (smc c0) c0
  have r2 := bw761.G1Jac.AddAssign_represents_g1Jac h2 (hmul _ _ (hmul _ _ r1)) r0
  have c2 := bw761.G1Jac.AddAssign_onCurve (smc (smc c1)) c0
  have r3 := bw761.G1Jac.AddAssign_represents_g1Jac h2
    (bw761.G1Jac.AddAssign_represents_g1Jac h2 (hmul _ _ hp) hp) r2
  have c3 := bw761.G1Jac.AddAssign_onCurve (bw761.G1Jac.AddAssign_onCurve (smc hc) hc) c2
  have hcomb : xGen • P + P
      + (xGen • xGen • (xGen • phiPoint w hw P - phiPoint w hw P) + phiPoint w hw P)
      = (xGen + 1) • P + (xGen ^ 3 - xGen ^ 2 + 1) • phiPoint w hw P := by
    module
  rw [hcomb] at r3
  refine ⟨_, r3, rfl, ?_⟩
  unfold bw761.G1Jac.IsInSubGroup
  simp only
  rw [Bool.and_eq_true, bw761.G1Jac.IsOnCurve_iff, decide_eq_true_eq,
    bw761.G1Jac.represents_Z_iff_g1Jac r3]
  exact ⟨fun h => h.2, fun h => ⟨c3, h⟩⟩

theorem IsInSubGroup_iff_combination_witness :
    bw761.G1Jac.phi (9 : ZMod 13) ⟨7, 3, 1⟩ = ⟨9 * 7, 3, 1⟩ ∧
    ∃ res : bw761.G1Jac (ZMod 13),
      res.Represents 4 (((3 : Int) + 1) • Affine.Point.some nonsingular_seven_three
        + ((3 : Int) ^ 3 - 3 ^ 2 + 1)
          • phiPoint 9 (by decide) (Affine.Point.some nonsingular_seven_three)) ∧
      bw761.G1Jac.IsInSubGroup (4 : ZMod 13) 9 7 (fun s => (s, 0)) 3 ⟨7, 3, 1⟩
        = (res.IsOnCurve 4 && decide (res.Z = 0)) ∧
      (bw761.G1Jac.IsInSubGroup (4 : ZMod 13) 9 7 (fun s => (s, 0)) 3 ⟨7, 3, 1⟩ = true ↔
        ((3 : Int) + 1) • Affine.Point.some nonsingular_seven_three
          + ((3 : Int) ^ 3 - 3 ^ 2 + 1)
            • phiPoint 9 (by decide) (Affine.Point.some nonsingular_seven_three) = 0) :=
  IsInSubGroup_iff_combination (by decide) 9 (by decide) 7 (fun s => (s, 0)) 3
    (fun q Q hq => by
      simpa using bw761.G1Jac.ScalarMultiplication_represents (by decide) 9 (by decide) 7
        (fun s => (s, 0)) hq 3 (by decide) (by decide) (by decide) (by decide))
    ⟨7, 3, 1⟩ (Affine.Point.some nonsingular_seven_three)
    (bw761.G1Jac.represents_affine nonsingular_seven_three) (by decide)

end SubgroupCombination

namespace bls12377

theorem mask_split : ∀ v < 32, (v ||| 160) / 32 = 5 ∧ (v ||| 128) / 32 = 4 ∧
    (v ||| 160) % 32 = v ∧ (v ||| 128) % 32 = v ∧ v / 32 = 0 ∧ v % 32 = v := by
  decide

theorem beBytes_append_getD (n m i : Nat) (hi : i < 48) :
    (beBytes 48 n ++ beBytes 48 m).getD i 0 = (beBytes 48 n).getD i 0 := by
  rw [List.getD_append _ _ _ _ (by rw [beBytes_length]; exact hi)]

end bls12377

section PointLayout

open bls12377

/-- C21: for every non-identity `G1Affine` p whose regular-form X is below 2^381, `Bytes(p)`
has 48 bytes: byte 0 has top three bits 101 when `p.Y` is lexicographically largest and 100
otherwise, its low five bits are those of byte 0 of the 48-byte big-endian regular form of X,
and every other byte is that of the big-endian form of X. `RawBytes(p)` is the 48-byte
big-endian form of X followed by that of Y (96 bytes), and the top three bits of its byte 0
are 000. -/
theorem Bytes_RawBytes_layout {q : Nat} (Lex : ZMod q → Bool) (p : G1Affine q)
    (hp : ¬ (p.X = 0 ∧ p.Y = 0)) (hX : p.X.val < 2 ^ 381) :
    (G1Affine.Bytes Lex p).length = 48 ∧
    (G1Affine.Bytes Lex p).getD 0 0 / 32 = (if Lex p.Y then 0b101 else 0b100) ∧
    (G1Affine.Bytes Lex p).getD 0 0 % 32 = (beBytes 48 p.X.val).getD 0 0 % 32 ∧
    (∀ i, 1 ≤ i → i < 48 →
      (G1Affine.Bytes Lex p).getD i 0 = (beBytes 48 p.X.val).getD i 0) ∧
    G1Affine.RawBytes p = beBytes 48 p.X.val ++ beBytes 48 p.Y.val ∧
    (G1Affine.RawBytes p).length = 96 ∧
    (G1Affine.RawBytes p).getD 0 0 / 32 = 0b000 := by
  have hb0 := top_byte_lt hX
  obtain ⟨d160, d128, m160, m128, d0, m0⟩ := mask_split _ hb0
  have hx0 : (beBytes 48 p.X.val).getD 0 0 = p.X.val / 256 ^ 47 % 256 := by
    rw [beBytes_getD _ _ _ (by norm_num)]
  rw [Bytes_point Lex p hp, RawBytes_point p hp]
  refine ⟨?_, ?_, ?_, ?_, rfl, ?_, ?_⟩
  · rw [List.length_set, beBytes_length]
  · rw [Curve.getD_set_eq _ _ _ _ (by rw [beBytes_length]; norm_num)]
    by_cases hl : Lex p.Y = true
    · rw [if_pos hl, if_pos hl]; exact d160
    · rw [if_neg hl, if_neg hl]; exact d128
  · rw [Curve.getD_set_eq _ _ _ _ (by rw [beBytes_length]; norm_num), hx0]
    by_cases hl : Lex p.Y = true
    · rw [if_pos hl, m0]; exact m160
    · rw [if_neg hl, m0]; exact m128
  · intro i h1 _
    exact Curve.getD_set_ne _ _ _ _ _ (by omega)
  · rw [List.length_append, beBytes_length, beBytes_length]
  · rw [beBytes_append_getD _ _ _ (by norm_num), hx0]
    exact d0

theorem Bytes_RawBytes_layout_witness :
    (G1Affine.Bytes lexSeven (⟨1, 2⟩ : G1Affine 7)).length = 48 ∧
    (G1Affine.Bytes lexSeven (⟨1, 2⟩ : G1Affine 7)).getD 0 0 / 32
      = (if lexSeven 2 then 0b101 else 0b100) ∧
    (G1Affine.Bytes lexSeven (⟨1, 2⟩ : G1Affine 7)).getD 0 0 % 32
      = (beBytes 48 (1 : ZMod 7).val).getD 0 0 % 32 ∧
    (∀ i, 1 ≤ i → i < 48 →
      (G1Affine.Bytes lexSeven (⟨1, 2⟩ : G1Affine 7)).getD i 0
        = (beBytes 48 (1 : ZMod 7).val).getD i 0) ∧
    G1Affine.RawBytes (⟨1, 2⟩ : G1Affine 7)
      = beBytes 48 (1 : ZMod 7).val ++ beBytes 48 (2 : ZMod 7).val ∧
    (G1Affine.RawBytes (⟨1, 2⟩ : G1Affine 7)).length = 96 ∧
    (G1Affine.RawBytes (⟨1, 2⟩ : G1Affine 7)).getD 0 0 / 32 = 0b000 :=
  Bytes_RawBytes_layout lexSeven ⟨1, 2⟩ (by decide)
    (lt_trans (ZMod.val_lt (1 : ZMod 7)) (by norm_num))

end PointLayout

namespace bls12377

open Curve

theorem getD_append3 (A B C : List Nat) (j : Nat) :
    (A ++ B ++ C).getD j 0
      = if j < A.length then A.getD j 0
        else if j < A.length + B.length then B.getD (j - A.length) 0
        else C.getD (j - A.length - B.length) 0 := by
  by_cases h1 : j < A.length
  · rw [if_pos h1, List.append_assoc, List.getD_append _ _ _ _ h1]
  · rw [if_neg h1]
    by_cases h2 : j < A.length + B.length
    · rw [if_pos h2, List.getD_append _ _ _ _ (by rw [List.length_append]; exact h2),
        List.getD_append_right _ _ _ _ (by omega)]
    · rw [if_neg h2, List.getD_append_right _ _ _ _ (by rw [List.length_append]; omega),
        List.length_append, Nat.sub_add_eq]

/-- Writing the six words of an element at offset `o` replaces bytes `o .. o+47` by the
48-byte big-endian form of its value. -/
theorem PutUint64_element_eq {q : Nat} (res : List Nat) (o : Nat) (x : ZMod q)
    (ho : o + 48 ≤ res.length) :
    PutUint64 (PutUint64 (PutUint64 (PutUint64 (PutUint64 (PutUint64 res (o + 40)
        ((FromMont x).getD 0 0)) (o + 32) ((FromMont x).getD 1 0)) (o + 24)
        ((FromMont x).getD 2 0)) (o + 16) ((FromMont x).getD 3 0)) (o + 8)
        ((FromMont x).getD 4 0)) (o + 0) ((FromMont x).getD 5 0)
      = res.take o ++ beBytes 48 x.val ++ res.drop (o + 48) := by
  obtain ⟨hl, hg⟩ := PutUint64_element res o x ho
  have hA : (res.take o).length = o := by rw [List.length_take]; omega
  have hB : (beBytes 48 x.val).length = 48 := beBytes_length _ _
  apply ext_getD
  · rw [hl, List.length_append, List.length_append, hA, hB, List.length_drop]
    omega
  · intro j hj
    rw [hl] at hj
    rw [hg j, getD_append3, hA, hB]
    by_cases h1 : j < o
    · rw [if_neg (by omega), if_pos h1, List.getD_eq_getElem?_getD,
        List.getD_eq_getElem?_getD, List.getElem?_take_of_lt h1]
    · by_cases h2 : j < o + 48
      · rw [if_pos ⟨by omega, h2⟩, if_neg h1, if_pos h2, beBytes_getD _ _ _ (by omega)]
        have e : o + 47 - j = 48 - 1 - (j - o) := by omega
        rw [e]
      · rw [if_neg (by omega), if_neg h1, if_neg h2, List.getD_eq_getElem?_getD,
          List.getD_eq_getElem?_getD, List.getElem?_drop]
        have e : o + 48 + (j - o - 48) = j := by omega
        rw [e]


/-- Writing an element at the offset where a 48-byte block `B` sits replaces that block. -/
theorem write_at {q : Nat} (A B C : List Nat) (x : ZMod q) (o : Nat) (hA : A.length = o)
    (hB : B.length = 48) :
    PutUint64 (PutUint64 (PutUint64 (PutUint64 (PutUint64 (PutUint64 (A ++ (B ++ C)) (o + 40)
        ((FromMont x).getD 0 0)) (o + 32) ((FromMont x).getD 1 0)) (o + 24)
        ((FromMont x).getD 2 0)) (o + 16) ((FromMont x).getD 3 0)) (o + 8)
        ((FromMont x).getD 4 0)) (o + 0) ((FromMont x).getD 5 0)
      = A ++ (beBytes 48 x.val ++ C) := by
  rw [PutUint64_element_eq _ o x (by
    rw [List.length_append, List.length_append, hA, hB]; omega)]
  rw [List.take_left' hA, List.append_assoc]
  congr 2
  rw [← List.append_assoc]
  exact List.drop_left' (by rw [List.length_append, hA, hB])

theorem set_or_zero (l : List Nat) : l.set 0 (l.getD 0 0 ||| mUncompressed) = l := by
  cases l with
  | nil => rfl
  | cons a l => simp [mUncompressed]

theorem G2_identity_iff {q : Nat} (p : G2Affine q) :
    (p.X.IsZero = true ∧ p.Y.IsZero = true) ↔ p = ⟨⟨0, 0⟩, ⟨0, 0⟩⟩ := by
  obtain ⟨⟨a, b⟩, ⟨c, d⟩⟩ := p
  simp [E2.IsZero]

theorem zeros_length (n : Nat) : (List.replicate n (0 : Nat)).length = n :=
  List.length_replicate n 0

theorem G2_Bytes_point {q : Nat} (ops : E2Ops q) (p : G2Affine q)
    (hp : p ≠ ⟨⟨0, 0⟩, ⟨0, 0⟩⟩) :
    G2Affine.Bytes ops p
      = (beBytes 48 p.X.A1.val ++ beBytes 48 p.X.A0.val).set 0
          ((beBytes 48 p.X.A1.val ++ beBytes 48 p.X.A0.val).getD 0 0
            ||| (if ops.LexicographicallyLargest p.Y then mCompressedLargest
                  else mCompressedSmallest)) := by
  unfold G2Affine.Bytes
  simp only
  rw [if_neg (fun h => hp ((G2_identity_iff p).mp h))]
  have e0 : List.replicate SizeOfG2AffineCompressed (0 : Nat)
      = List.replicate 48 0 ++ (List.replicate 48 0 ++ []) := by
    rw [List.append_nil, ← List.replicate_add]; rfl
  have h1 := write_at (List.replicate 48 0) (List.replicate 48 0) [] p.X.A0 48
    (zeros_length _) (zeros_length _)
  simp only [show 48 + 40 = 88 from rfl, show 48 + 32 = 80 from rfl, show 48 + 24 = 72 from rfl,
    show 48 + 16 = 64 from rfl, show 48 + 8 = 56 from rfl, show 48 + 0 = 48 from rfl] at h1
  rw [e0, h1]
  have h2 := write_at [] (List.replicate 48 0) (beBytes 48 p.X.A0.val ++ []) p.X.A1 0 rfl
    (zeros_length _)
  simp only [Nat.zero_add, List.nil_append] at h2
  rw [h2, List.append_nil]

theorem G2_RawBytes_point {q : Nat} (p : G2Affine q) (hp : p ≠ ⟨⟨0, 0⟩, ⟨0, 0⟩⟩) :
    G2Affine.RawBytes p
      = beBytes 48 p.X.A1.val ++ (beBytes 48 p.X.A0.val ++ (beBytes 48 p.Y.A1.val
          ++ beBytes 48 p.Y.A0.val)) := by
  unfold G2Affine.RawBytes
  simp only
  rw [if_neg (fun h => hp ((G2_identity_iff p).mp h)), set_or_zero]
  have e0 : List.replicate SizeOfG2AffineUncompressed (0 : Nat)
      = List.replicate 144 0 ++ (List.replicate 48 0 ++ []) := by
    rw [List.append_nil, ← List.replicate_add]; rfl
  have h1 := write_at (List.replicate 144 0) (List.replicate 48 0) [] p.Y.A0 144
    (zeros_length _) (zeros_length _)
  simp only [show 144 + 40 = 184 from rfl, show 144 + 32 = 176 from rfl,
    show 144 + 24 = 168 from rfl, show 144 + 16 = 160 from rfl, show 144 + 8 = 152 from rfl,
    show 144 + 0 = 144 from rfl] at h1
  rw [e0, h1]
  have e1 : List.replicate 144 (0 : Nat) = List.replicate 96 0 ++ List.replicate 48 0 := by
    rw [← List.replicate_add]
  have h2 := write_at (List.replicate 96 0) (List.replicate 48 0)
    (beBytes 48 p.Y.A0.val ++ []) p.Y.A1 96 (zeros_length _) (zeros_length _)
  simp only [show 96 + 40 = 136 from rfl, show 96 + 32 = 128 from rfl,
    show 96 + 24 = 120 from rfl, show 96 + 16 = 112 from rfl, show 96 + 8 = 104 from rfl,
    show 96 + 0 = 96 from rfl] at h2
  rw [e1, List.append_assoc, h2]
  have e2 : List.replicate 96 (0 : Nat) = List.replicate 48 0 ++ List.replicate 48 0 := by
    rw [← List.replicate_add]
  have h3 := write_at [] (List.replicate 48 0)
    (List.replicate 48 0 ++ (beBytes 48 p.Y.A1.val ++ (beBytes 48 p.Y.A0.val ++ [])))
    p.X.A1 0 rfl (zeros_length _)
  simp only [Nat.zero_add, List.nil_append] at h3
  rw [e2, List.append_assoc, h3]
  have h4 := write_at (beBytes 48 p.X.A1.val) (List.replicate 48 0)
    (beBytes 48 p.Y.A1.val ++ (beBytes 48 p.Y.A0.val ++ [])) p.X.A0 48
    (beBytes_length _ _) (zeros_length _)
  simp only [show 48 + 40 = 88 from rfl, show 48 + 32 = 80 from rfl, show 48 + 24 = 72 from rfl,
    show 48 + 16 = 64 from rfl, show 48 + 8 = 56 from rfl, show 48 + 0 = 48 from rfl] at h4
  rw [h4, List.append_nil]

/-- The value `SetBytes` (G2) computes from an uncompressed encoding. -/
theorem G2_SetBytes_uncompressed {q : Nat} (ops : E2Ops q) (bT : E2 q)
    (Sub : G2Affine q → Bool) (p : G2Affine q) (buf : List Nat)
    (hlen : 192 ≤ buf.length) (h0 : buf.getD 0 0 &&& mMask = mUncompressed) :
    G2Affine.SetBytes ops bT Sub p buf
      = if Sub ⟨⟨fpSetBytes q ((buf.take 96).drop 48), fpSetBytes q (buf.take 48)⟩,
            ⟨fpSetBytes q ((buf.take 192).drop 144),
              fpSetBytes q ((buf.take 144).drop 96)⟩⟩ = true then
          (⟨⟨fpSetBytes q ((buf.take 96).drop 48), fpSetBytes q (buf.take 48)⟩,
            ⟨fpSetBytes q ((buf.take 192).drop 144),
              fpSetBytes q ((buf.take 144).drop 96)⟩⟩, 192, none)
        else
          (⟨⟨fpSetBytes q ((buf.take 96).drop 48), fpSetBytes q (buf.take 48)⟩,
            ⟨fpSetBytes q ((buf.take 192).drop 144),
              fpSetBytes q ((buf.take 144).drop 96)⟩⟩, 0,
            some DecodeError.subgroupCheckFailed) := by
  unfold G2Affine.SetBytes
  rw [if_neg (by simp only [SizeOfG2AffineCompressed]; omega)]
  simp only
  rw [if_neg (fun h => by
    have := h.2; simp only [SizeOfG2AffineUncompressed, SizeOfG2AffineCompressed] at this
    omega), h0]
  rw [if_neg (by decide), if_neg (by decide), if_pos rfl]
  simp only [fpBytes, SizeOfG2AffineUncompressed, SizeOfG2AffineCompressed]
  split_ifs <;> rfl

/-- The four 48-byte blocks of a 192-byte buffer. -/
theorem blocks_of_append (A B C D : List Nat) (hA : A.length = 48) (hB : B.length = 48)
    (hC : C.length = 48) (hD : D.length = 48) :
    (A ++ (B ++ (C ++ D))).take 48 = A ∧
    ((A ++ (B ++ (C ++ D))).take 96).drop 48 = B ∧
    ((A ++ (B ++ (C ++ D))).take 144).drop 96 = C ∧
    ((A ++ (B ++ (C ++ D))).take 192).drop 144 = D := by
  refine ⟨List.take_left' hA, ?_, ?_, ?_⟩
  · have e : A ++ (B ++ (C ++ D)) = (A ++ B) ++ (C ++ D) := by rw [List.append_assoc]
    rw [e, List.take_left' (by rw [List.length_append, hA, hB])]
    exact List.drop_left' hA
  · have e : A ++ (B ++ (C ++ D)) = (A ++ B ++ C) ++ D := by simp only [List.append_assoc]
    rw [e, List.take_left' (by rw [List.length_append, List.length_append, hA, hB, hC])]
    exact List.drop_left' (by rw [List.length_append, hA, hB])
  · have e : A ++ (B ++ (C ++ D)) = (A ++ B ++ C) ++ D := by simp only [List.append_assoc]
    rw [List.take_of_length_le (by
      rw [List.length_append, List.length_append, List.length_append, hA, hB, hC, hD]), e]
    exact List.drop_left' (by rw [List.length_append, List.length_append, hA, hB, hC])

end bls12377

section G2Layout

open bls12377

/-- C22: for every non-identity `G2Affine` p, `Bytes(p)` is `be(X.A1) || be(X.A0)` (96 bytes)
and `RawBytes(p)` is `be(X.A1) || be(X.A0) || be(Y.A1) || be(Y.A0)` (192 bytes), each `be(.)`
the 48-byte big-endian regular form, with the metadata bits OR-ed into byte 0 (the
compressed-largest or compressed-smallest mask for `Bytes`, the all-zero uncompressed mask for
`RawBytes`). The modulus being below 2^381, `SetBytes(RawBytes(p))` sets the receiver to p
(all four base-field components), whatever the receiver held and whatever the subgroup check
answers, and returns (192, nil) when p passes the subgroup check. -/
theorem G2Affine_encoding_layout {q : Nat} [NeZero q] (ops : E2Ops q) (bT : E2 q)
    (Sub : G2Affine q → Bool) (p : G2Affine q)
    (hp : ¬ (p.X.IsZero = true ∧ p.Y.IsZero = true)) (hq : q < 2 ^ 381)
    (p0 : G2Affine q) :
    G2Affine.Bytes ops p
      = (beBytes 48 p.X.A1.val ++ beBytes 48 p.X.A0.val).set 0
          ((beBytes 48 p.X.A1.val ++ beBytes 48 p.X.A0.val).getD 0 0
            ||| (if ops.LexicographicallyLargest p.Y then mCompressedLargest
                  else mCompressedSmallest)) ∧
    (G2Affine.Bytes ops p).length = 96 ∧
    G2Affine.RawBytes p
      = (beBytes 48 p.X.A1.val ++ (beBytes 48 p.X.A0.val ++ (beBytes 48 p.Y.A1.val
          ++ beBytes 48 p.Y.A0.val))).set 0
          ((beBytes 48 p.X.A1.val ++ (beBytes 48 p.X.A0.val ++ (beBytes 48 p.Y.A1.val
            ++ beBytes 48 p.Y.A0.val))).getD 0 0 ||| mUncompressed) ∧
    G2Affine.RawBytes p
      = beBytes 48 p.X.A1.val ++ (beBytes 48 p.X.A0.val ++ (beBytes 48 p.Y.A1.val
          ++ beBytes 48 p.Y.A0.val)) ∧
    (G2Affine.RawBytes p).length = 192 ∧
    (G2Affine.SetBytes ops bT Sub p0 (G2Affine.RawBytes p)).1 = p ∧
    G2Affine.SetBytes ops bT Sub p0 (G2Affine.RawBytes p)
      = (if Sub p = true then (p, 192, none)
          else (p, 0, some DecodeError.subgroupCheckFailed)) := by
  have hp' : p ≠ ⟨⟨0, 0⟩, ⟨0, 0⟩⟩ := fun h => hp ((G2_identity_iff p).mpr h)
  have hB := G2_Bytes_point ops p hp'
  have hR := G2_RawBytes_point p hp'
  have hlenR : (G2Affine.RawBytes p).length = 192 := by
    rw [hR]
    simp only [List.length_append, beBytes_length]
  refine ⟨hB, ?_, ?_, hR, hlenR, ?_⟩
  · rw [hB, List.length_set, List.length_append, beBytes_length, beBytes_length]
  · rw [set_or_zero]; exact hR
  · have hv : ∀ x : ZMod q, x.val < 2 ^ 381 := fun x => lt_trans (ZMod.val_lt x) hq
    have hv' : ∀ x : ZMod q, fpSetBytes q (beBytes 48 x.val) = x :=
      fun x => fpSetBytes_beBytes x 48 (lt_trans (hv x) (by norm_num))
    have hmeta : (G2Affine.RawBytes p).getD 0 0 &&& mMask = mUncompressed := by
      rw [hR, List.getD_append _ _ _ _ (by rw [beBytes_length]; norm_num),
        beBytes_getD _ _ _ (by norm_num)]
      exact (mask_bits _ (top_byte_lt (hv _))).2.2.2.2
    have hS := G2_SetBytes_uncompressed ops bT Sub p0 _ (le_of_eq hlenR.symm) hmeta
    obtain ⟨b1, b2, b3, b4⟩ := blocks_of_append (beBytes 48 p.X.A1.val)
      (beBytes 48 p.X.A0.val) (beBytes 48 p.Y.A1.val) (beBytes 48 p.Y.A0.val)
      (beBytes_length _ _) (beBytes_length _ _) (beBytes_length _ _) (beBytes_length _ _)
    rw [hR] at hS
    rw [b1, b2, b3, b4, hv', hv', hv', hv'] at hS
    have hpe : (⟨⟨p.X.A0, p.X.A1⟩, ⟨p.Y.A0, p.Y.A1⟩⟩ : G2Affine q) = p := by
      obtain ⟨⟨a, b⟩, ⟨c, d⟩⟩ := p; rfl
    rw [hpe, ← hR] at hS
    refine ⟨?_, hS⟩
    rw [hS]
    split_ifs <;> rfl

theorem G2Affine_encoding_layout_witness :
    G2Affine.Bytes opsSeven (⟨⟨1, 2⟩, ⟨3, 4⟩⟩ : G2Affine 7)
      = (beBytes 48 (2 : ZMod 7).val ++ beBytes 48 (1 : ZMod 7).val).set 0
          ((beBytes 48 (2 : ZMod 7).val ++ beBytes 48 (1 : ZMod 7).val).getD 0 0
            ||| (if opsSeven.LexicographicallyLargest ⟨3, 4⟩ then mCompressedLargest
                  else mCompressedSmallest)) ∧
    (G2Affine.Bytes opsSeven (⟨⟨1, 2⟩, ⟨3, 4⟩⟩ : G2Affine 7)).length = 96 ∧
    G2Affine.RawBytes (⟨⟨1, 2⟩, ⟨3, 4⟩⟩ : G2Affine 7)
      = (beBytes 48 (2 : ZMod 7).val ++ (beBytes 48 (1 : ZMod 7).val
          ++ (beBytes 48 (4 : ZMod 7).val ++ beBytes 48 (3 : ZMod 7).val))).set 0
          ((beBytes 48 (2 : ZMod 7).val ++ (beBytes 48 (1 : ZMod 7).val
            ++ (beBytes 48 (4 : ZMod 7).val ++ beBytes 48 (3 : ZMod 7).val))).getD 0 0
              ||| mUncompressed) ∧
    G2Affine.RawBytes (⟨⟨1, 2⟩, ⟨3, 4⟩⟩ : G2Affine 7)
      = beBytes 48 (2 : ZMod 7).val ++ (beBytes 48 (1 : ZMod 7).val
          ++ (beBytes 48 (4 : ZMod 7).val ++ beBytes 48 (3 : ZMod 7).val)) ∧
    (G2Affine.RawBytes (⟨⟨1, 2⟩, ⟨3, 4⟩⟩ : G2Affine 7)).length = 192 ∧
    (G2Affine.SetBytes opsSeven ⟨1, 0⟩ (fun _ => true) ⟨⟨0, 0⟩, ⟨0, 0⟩⟩
      (G2Affine.RawBytes (⟨⟨1, 2⟩, ⟨3, 4⟩⟩ : G2Affine 7))).1 = ⟨⟨1, 2⟩, ⟨3, 4⟩⟩ ∧
    G2Affine.SetBytes opsSeven ⟨1, 0⟩ (fun _ => true) ⟨⟨0, 0⟩, ⟨0, 0⟩⟩
        (G2Affine.RawBytes (⟨⟨1, 2⟩, ⟨3, 4⟩⟩ : G2Affine 7))
      = (if (fun _ => true) (⟨⟨1, 2⟩, ⟨3, 4⟩⟩ : G2Affine 7) = true
          then (⟨⟨1, 2⟩, ⟨3, 4⟩⟩, 192, none)
          else (⟨⟨1, 2⟩, ⟨3, 4⟩⟩, 0, some DecodeError.subgroupCheckFailed)) :=
  G2Affine_encoding_layout opsSeven ⟨1, 0⟩ (fun _ => true) ⟨⟨1, 2⟩, ⟨3, 4⟩⟩ (by decide)
    (by norm_num) ⟨⟨0, 0⟩, ⟨0, 0⟩⟩

end G2Layout

namespace bls12377

open Curve

theorem ReadFull_append (A R : List Nat) (k : Nat) (hA : A.length = k) :
    ReadFull (A ++ R) k = (A, R, k, none) := by
  unfold ReadFull
  rw [if_pos (by rw [List.length_append, hA]; omega), List.take_left' hA, List.drop_left' hA]

theorem Uint32_PutUint32 (v : Nat) (hv : v < 2 ^ 32) : Uint32 (PutUint32 v) = v := by
  unfold Uint32 PutUint32
  simp only [List.getD_cons_zero, List.getD_cons_succ]
  omega

theorem PutUint32_length (v : Nat) : (PutUint32 v).length = 4 := rfl

theorem readUint32_PutUint32 (v n : Nat) (R : List Nat) (hv : v < 2 ^ 32) :
    Decoder.readUint32 ⟨PutUint32 v ++ R, n⟩ = (⟨R, n + 4⟩, v, none) := by
  unfold Decoder.readUint32
  simp only
  rw [ReadFull_append _ _ 4 (PutUint32_length v)]
  simp only [Uint32_PutUint32 v hv]

theorem isCompressed_false_iff (x : Nat) :
    isCompressed x = false
      ↔ (x &&& mMask = mUncompressed ∨ x &&& mMask = mUncompressedInfinity) := by
  unfold isCompressed
  simp only [Bool.not_eq_false', Bool.or_eq_true, decide_eq_true_eq]

theorem isCompressed_true_iff (x : Nat) :
    isCompressed x = true
      ↔ (x &&& mMask ≠ mUncompressed ∧ x &&& mMask ≠ mUncompressedInfinity) := by
  unfold isCompressed
  simp only [Bool.not_eq_true', Bool.or_eq_false_iff, decide_eq_false_iff_not, ne_eq]

/-- What `SetBytes` answers on a framed element does not depend on the receiver: the error
never does, and the point does not when there is no error. -/
theorem SetBytes_receiver {q : Nat} (b : ZMod q) (Sqrt : ZMod q → Option (ZMod q))
    (Lex : ZMod q → Bool) (Sub : G1Affine q → Bool) (p p' : G1Affine q) (e : List Nat)
    (hframe : e.length = if isCompressed (e.getD 0 0) = true then 48 else 96) :
    (G1Affine.SetBytes b Sqrt Lex Sub p e).2.2 = (G1Affine.SetBytes b Sqrt Lex Sub p' e).2.2 ∧
    ((G1Affine.SetBytes b Sqrt Lex Sub p e).2.2 = none →
      (G1Affine.SetBytes b Sqrt Lex Sub p e).1 = (G1Affine.SetBytes b Sqrt Lex Sub p' e).1) := by
  by_cases hc : isCompressed (e.getD 0 0) = true
  · rw [if_pos hc] at hframe
    obtain ⟨h0, h1⟩ := (isCompressed_true_iff _).mp hc
    by_cases h2 : e.getD 0 0 &&& mMask = mCompressedInfinity
    · rw [SetBytes_compressed_infinity b Sqrt Lex Sub p e (by omega) h2,
        SetBytes_compressed_infinity b Sqrt Lex Sub p' e (by omega) h2]
      exact ⟨rfl, fun _ => rfl⟩
    · rw [SetBytes_compressed b Sqrt Lex Sub p e (by omega) h0 h1 h2,
        SetBytes_compressed b Sqrt Lex Sub p' e (by omega) h0 h1 h2]
      cases Sqrt (fpSetBytes q ((e.take 48).set 0 ((e.take 48).getD 0 0 &&& 31))
            * fpSetBytes q ((e.take 48).set 0 ((e.take 48).getD 0 0 &&& 31))
            * fpSetBytes q ((e.take 48).set 0 ((e.take 48).getD 0 0 &&& 31)) + b) with
      | none => exact ⟨rfl, fun h => by simp at h⟩
      | some Y => exact ⟨rfl, fun _ => rfl⟩
  · rw [if_neg hc] at hframe
    rw [Bool.not_eq_true] at hc
    rcases (isCompressed_false_iff _).mp hc with h | h
    · rw [SetBytes_uncompressed b Sqrt Lex Sub p e (by omega) h,
        SetBytes_uncompressed b Sqrt Lex Sub p' e (by omega) h]
      exact ⟨rfl, fun _ => rfl⟩
    · rw [SetBytes_uncompressed_infinity b Sqrt Lex Sub p e (by omega) h,
        SetBytes_uncompressed_infinity b Sqrt Lex Sub p' e (by omega) h]
      exact ⟨rfl, fun _ => rfl⟩

theorem mData_mod (x : Nat) : (x &&& mMask) % 2 ^ 64 % 256 = x &&& mMask := by
  have h : x &&& mMask ≤ 224 := Nat.and_le_right
  omega

/-- On a compressed element, the two steps of the decoder compute what `SetBytes` computes. -/
theorem unsafe_steps_agree {q : Nat} (b : ZMod q) (Sqrt : ZMod q → Option (ZMod q))
    (Lex : ZMod q → Bool) (Sub : G1Affine q → Bool) (p p0 : G1Affine q) (e : List Nat)
    (hlen : e.length = 48) (hc : isCompressed (e.getD 0 0) = true) :
    (if (G1Affine.unsafeSetCompressedBytes p e).2.2 = true then
        ((G1Affine.unsafeSetCompressedBytes p e).1, (none : Option DecodeError))
      else G1Affine.unsafeComputeY b Sqrt Lex Sub (G1Affine.unsafeSetCompressedBytes p e).1
        (G1Affine.unsafeSetCompressedBytes p e).2.1).2
      = (G1Affine.SetBytes b Sqrt Lex Sub p0 e).2.2 ∧
    ((G1Affine.SetBytes b Sqrt Lex Sub p0 e).2.2 = none →
      (if (G1Affine.unsafeSetCompressedBytes p e).2.2 = true then
          ((G1Affine.unsafeSetCompressedBytes p e).1, (none : Option DecodeError))
        else G1Affine.unsafeComputeY b Sqrt Lex Sub (G1Affine.unsafeSetCompressedBytes p e).1
          (G1Affine.unsafeSetCompressedBytes p e).2.1).1
        = (G1Affine.SetBytes b Sqrt Lex Sub p0 e).1) := by
  obtain ⟨h0, h1⟩ := (isCompressed_true_iff _).mp hc
  have e31 : 255 ^^^ mMask = 31 := by decide
  by_cases h2 : e.getD 0 0 &&& mMask = mCompressedInfinity
  · rw [SetBytes_compressed_infinity b Sqrt Lex Sub p0 e (by omega) h2]
    unfold G1Affine.unsafeSetCompressedBytes
    simp only
    rw [if_pos h2]
    exact ⟨rfl, fun _ => rfl⟩
  · rw [SetBytes_compressed b Sqrt Lex Sub p0 e (by omega) h0 h1 h2]
    unfold G1Affine.unsafeSetCompressedBytes G1Affine.unsafeComputeY
    simp only
    rw [if_neg h2]
    simp only [fpBytes, e31, mData_mod, Bool.false_eq_true, if_false]
    cases Sqrt (fpSetBytes q ((e.take 48).set 0 ((e.take 48).getD 0 0 &&& 31))
          * fpSetBytes q ((e.take 48).set 0 ((e.take 48).getD 0 0 &&& 31))
          * fpSetBytes q ((e.take 48).set 0 ((e.take 48).getD 0 0 &&& 31)) + b) with
    | none => exact ⟨rfl, fun h => by simp at h⟩
    | some Y =>
      simp only
      split_ifs <;> exact ⟨rfl, fun _ => rfl⟩

end bls12377

namespace bls12377

open Curve

theorem ite_not_bool {α : Type} (c : Bool) (A B : α) :
    (if (! c) = true then A else B) = (if c = true then B else A) := by
  cases c <;> rfl

/-- One iteration of the reading loop on a framed element. -/
theorem readG1Point_framed {q : Nat} (b : ZMod q) (Sqrt : ZMod q → Option (ZMod q))
    (Lex : ZMod q → Bool) (Sub : G1Affine q → Bool) (p : G1Affine q) (e R : List Nat)
    (n : Nat) (hframe : e.length = if isCompressed (e.getD 0 0) = true then 48 else 96) :
    Decoder.readG1Point b Sqrt Lex Sub ⟨e ++ R, n⟩ p
      = (⟨R, n + e.length⟩,
          if isCompressed (e.getD 0 0) = true then
            Except.ok ((G1Affine.unsafeSetCompressedBytes p e).1,
              (G1Affine.unsafeSetCompressedBytes p e).2.1,
              ! (G1Affine.unsafeSetCompressedBytes p e).2.2)
          else
            match (G1Affine.SetBytes b Sqrt Lex Sub p e).2.2 with
            | some err => Except.error (StreamError.setBytes err)
            | none => Except.ok ((G1Affine.SetBytes b Sqrt Lex Sub p e).1, 0, false)) := by
  unfold Decoder.readG1Point
  simp only [SizeOfG1AffineCompressed, SizeOfG1AffineUncompressed]
  by_cases hc : isCompressed (e.getD 0 0) = true
  · rw [if_pos hc] at hframe
    rw [ReadFull_append e R 48 hframe]
    simp only [hc, Bool.not_true, Bool.false_eq_true, if_false, if_true, hframe]
  · rw [if_neg hc] at hframe
    have hsplit : e = e.take 48 ++ e.drop 48 := (List.take_append_drop 48 e).symm
    have h1 : (e.take 48).length = 48 := by rw [List.length_take]; omega
    have h2 : (e.drop 48).length = 48 := by rw [List.length_drop]; omega
    have hhead : (e.take 48).getD 0 0 = e.getD 0 0 := by
      rw [List.getD_eq_getElem?_getD, List.getD_eq_getElem?_getD,
        List.getElem?_take_of_lt (by norm_num)]
    have hr : ReadFull (e ++ R) 48 = (e.take 48, e.drop 48 ++ R, 48, none) := by
      conv_lhs => rw [hsplit, List.append_assoc]
      exact ReadFull_append _ _ 48 h1
    rw [hr]
    simp only [hhead]
    rw [Bool.not_eq_true] at hc
    simp only [hc, Bool.not_false, if_true]
    rw [show 48 * 2 - 48 = 48 from rfl, ReadFull_append _ _ 48 h2]
    simp only [List.take_append_drop, Bool.false_eq_true, if_false, hframe]
    cases (G1Affine.SetBytes b Sqrt Lex Sub p e).2.2 with
    | none => rfl
    | some err => rfl

/-- The reading loop on a stream of framed elements: an error can only come from an element
that `SetBytes` rejects, and on success every entry, once its Y coordinate is computed, agrees
with what `SetBytes` answers on the bytes of that element. -/
theorem readG1Points_framed {q : Nat} (b : ZMod q) (Sqrt : ZMod q → Option (ZMod q))
    (Lex : ZMod q → Bool) (Sub : G1Affine q → Bool) (R : List Nat) :
    ∀ (encs : List (List Nat)) (ts : List (G1Affine q)) (n : Nat),
      ts.length = encs.length →
      (∀ e ∈ encs, e.length = if isCompressed (e.getD 0 0) = true then 48 else 96) →
      (∀ d err, Decoder.readG1Points b Sqrt Lex Sub ⟨encs.flatten ++ R, n⟩ ts
          = (d, Except.error err) →
        ∃ e ∈ encs, ∀ p0, (G1Affine.SetBytes b Sqrt Lex Sub p0 e).2.2 ≠ none) ∧
      (∀ d l, Decoder.readG1Points b Sqrt Lex Sub ⟨encs.flatten ++ R, n⟩ ts = (d, Except.ok l) →
        d.r = R ∧
        List.Forall₂ (fun x e => ∀ p0,
          (if x.2.2 = true then G1Affine.unsafeComputeY b Sqrt Lex Sub x.1 x.2.1
            else (x.1, none)).2 = (G1Affine.SetBytes b Sqrt Lex Sub p0 e).2.2 ∧
          ((G1Affine.SetBytes b Sqrt Lex Sub p0 e).2.2 = none →
            (if x.2.2 = true then G1Affine.unsafeComputeY b Sqrt Lex Sub x.1 x.2.1
              else (x.1, none)).1 = (G1Affine.SetBytes b Sqrt Lex Sub p0 e).1)) l encs) := by
  intro encs
  induction encs with
  | nil =>
    intro ts n hlen _
    have hts : ts = [] := List.length_eq_zero.mp hlen
    subst hts
    simp only [List.flatten_nil, List.nil_append, Decoder.readG1Points]
    constructor
    · intro d err h
      simp at h
    · intro d l h
      simp only [Prod.mk.injEq, Except.ok.injEq] at h
      obtain ⟨h1, h2⟩ := h
      subst h1 h2
      exact ⟨rfl, List.Forall₂.nil⟩
  | cons e encs ih =>
    intro ts n hlen hframe
    cases ts with
    | nil => simp at hlen
    | cons p ts =>
      have hlen' : ts.length = encs.length := by simpa using hlen
      have hfe := hframe e (List.mem_cons_self _ _)
      have hframe' : ∀ e' ∈ encs,
          e'.length = if isCompressed (e'.getD 0 0) = true then 48 else 96 :=
        fun e' he' => hframe e' (List.mem_cons_of_mem _ he')
      obtain ⟨ihE, ihO⟩ := ih ts (n + e.length) hlen' hframe'
      have hstep := readG1Point_framed b Sqrt Lex Sub p e (encs.flatten ++ R) n hfe
      have hrec : Decoder.readG1Points b Sqrt Lex Sub ⟨(e :: encs).flatten ++ R, n⟩ (p :: ts)
          = match Decoder.readG1Point b Sqrt Lex Sub ⟨e ++ (encs.flatten ++ R), n⟩ p with
            | (dec, Except.error err) => (dec, Except.error err)
            | (dec, Except.ok x) =>
              match Decoder.readG1Points b Sqrt Lex Sub dec ts with
              | (dec, Except.error err) => (dec, Except.error err)
              | (dec, Except.ok l) => (dec, Except.ok (x :: l)) := by
        rw [List.flatten_cons, List.append_assoc]
        rfl
      rw [hrec, hstep]
      by_cases hc : isCompressed (e.getD 0 0) = true
      · rw [if_pos hc] at hfe
        rw [if_pos hc]
        simp only
        have hrel := unsafe_steps_agree b Sqrt Lex Sub p
        cases hrest : Decoder.readG1Points b Sqrt Lex Sub ⟨encs.flatten ++ R, n + e.length⟩ ts with
        | mk d' res =>
          cases res with
          | error err' =>
            simp only
            constructor
            · intro d err _
              obtain ⟨e', he', hbad⟩ := ihE d' err' hrest
              exact ⟨e', List.mem_cons_of_mem _ he', hbad⟩
            · intro d l h
              simp at h
          | ok l' =>
            simp only
            constructor
            · intro d err h
              simp at h
            · intro d l h
              simp only [Prod.mk.injEq, Except.ok.injEq] at h
              obtain ⟨h1, h2⟩ := h
              subst h1 h2
              obtain ⟨hr, hall⟩ := ihO d' l' hrest
              refine ⟨hr, List.Forall₂.cons ?_ hall⟩
              intro p0
              simp only [ite_not_bool]
              exact hrel p0 e hfe hc
      · rw [if_neg hc] at hfe
        rw [if_neg hc]
        have hcf : isCompressed (e.getD 0 0) = false := by simpa using hc
        have hfe' : e.length = if isCompressed (e.getD 0 0) = true then 48 else 96 := by
          rw [if_neg hc]; exact hfe
        cases hS : (G1Affine.SetBytes b Sqrt Lex Sub p e).2.2 with
        | some err0 =>
          simp only
          constructor
          · intro d err _
            refine ⟨e, List.mem_cons_self _ _, fun p0 => ?_⟩
            rw [(SetBytes_receiver b Sqrt Lex Sub p0 p e hfe').1, hS]
            simp
          · intro d l h
            simp at h
        | none =>
          simp only
          cases hrest : Decoder.readG1Points b Sqrt Lex Sub ⟨encs.flatten ++ R, n + e.length⟩ ts with
          | mk d' res =>
            cases res with
            | error err' =>
              simp only
              constructor
              · intro d err _
                obtain ⟨e', he', hbad⟩ := ihE d' err' hrest
                exact ⟨e', List.mem_cons_of_mem _ he', hbad⟩
              · intro d l h
                simp at h
            | ok l' =>
              simp only
              constructor
              · intro d err h
                simp at h
              · intro d l h
                simp only [Prod.mk.injEq, Except.ok.injEq] at h
                obtain ⟨h1, h2⟩ := h
                subst h1 h2
                obtain ⟨hr, hall⟩ := ihO d' l' hrest
                refine ⟨hr, List.Forall₂.cons ?_ hall⟩
                intro p0
                obtain ⟨r1, r2⟩ := SetBytes_receiver b Sqrt Lex Sub p p0 e hfe'
                simp only [Bool.false_eq_true, if_false]
                exact ⟨by rw [← r1, hS], fun _ => r2 hS⟩

end bls12377

namespace bls12377

open Curve

/-- The compressed encoding of a point accepted by the subgroup check decodes to that point
(the fact behind the round trip of `Bytes`, in the form the decoder of slices uses). -/
theorem SetBytes_of_Bytes {q : Nat} [Fact q.Prime] (hq : q < 2 ^ 381) (b : ZMod q)
    (Sqrt : ZMod q → Option (ZMod q)) (Lex : ZMod q → Bool) (Sub : G1Affine q → Bool)
    (hSqrt : ∀ a : ZMod q, (∃ y, y * y = a) → ∃ y, Sqrt a = some y ∧ y * y = a)
    (hLex : ∀ y : ZMod q, y ≠ 0 → (Lex y = true ↔ Lex (-y) = false))
    (hSub : ∀ a, Sub a = true → (a.X = 0 ∧ a.Y = 0) ∨ a.Y ^ 2 = a.X ^ 3 + b)
    (P : G1Affine q) (hP : Sub P = true) (p0 : G1Affine q) :
    (G1Affine.Bytes Lex P).length = 48 ∧
      G1Affine.SetBytes b Sqrt Lex Sub p0 (G1Affine.Bytes Lex P) = (P, 48, none) := by
  by_cases hid : P.X = 0 ∧ P.Y = 0
  · have hPe : P = ⟨0, 0⟩ := by
      cases P; simp only at hid; rw [hid.1, hid.2]
    rw [hPe, Bytes_identity]
    exact ⟨rfl, rfl⟩
  · have hcurve : P.Y ^ 2 = P.X ^ 3 + b := by
      rcases hSub P hP with h | h
      · exact absurd h hid
      · exact h
    have hq0 : q ≠ 0 := (Fact.out : q.Prime).ne_zero
    haveI : NeZero q := ⟨hq0⟩
    have hn : P.X.val < 2 ^ 381 := lt_trans (ZMod.val_lt P.X) hq
    have hb0 := top_byte_lt hn
    obtain ⟨m128a, m160a, m128b, m160b, _⟩ := mask_bits _ hb0
    rw [Bytes_point Lex P hid]
    have hlen : ((beBytes 48 P.X.val).set 0 (P.X.val / 256 ^ 47 % 256
        ||| (if Lex P.Y then mCompressedLargest else mCompressedSmallest))).length = 48 := by
      rw [List.length_set, beBytes_length]
    refine ⟨hlen, ?_⟩
    have hhead : ((beBytes 48 P.X.val).set 0 (P.X.val / 256 ^ 47 % 256
        ||| (if Lex P.Y then mCompressedLargest else mCompressedSmallest))).getD 0 0
        = P.X.val / 256 ^ 47 % 256
          ||| (if Lex P.Y then mCompressedLargest else mCompressedSmallest) :=
      Curve.getD_set_eq _ _ _ _ (by rw [beBytes_length]; norm_num)
    generalize hbuf : (beBytes 48 P.X.val).set 0 (P.X.val / 256 ^ 47 % 256
        ||| (if Lex P.Y then mCompressedLargest else mCompressedSmallest)) = buf at hlen hhead
    have hmeta : buf.getD 0 0 &&& mMask
        = if Lex P.Y then mCompressedLargest else mCompressedSmallest := by
      rw [hhead]
      by_cases hl : Lex P.Y = true
      · rw [if_pos hl]; exact m160a
      · rw [if_neg hl]; exact m128a
    have hx : fpSetBytes q ((buf.take 48).set 0 ((buf.take 48).getD 0 0 &&& 31)) = P.X := by
      rw [List.take_of_length_le (by omega), hhead]
      have e : (P.X.val / 256 ^ 47 % 256
          ||| (if Lex P.Y then mCompressedLargest else mCompressedSmallest)) &&& 31
          = P.X.val / 256 ^ 47 % 256 := by
        by_cases hl : Lex P.Y = true
        · rw [if_pos hl]; exact m160b
        · rw [if_neg hl]; exact m128b
      rw [e, ← hbuf, List.set_set, set_head_beBytes]
      exact fpSetBytes_beBytes P.X 48 (lt_trans hn (by norm_num))
    have hne : ∀ c, c ≠ mCompressedLargest → c ≠ mCompressedSmallest →
        buf.getD 0 0 &&& mMask ≠ c := by
      intro c h1 h2 h
      rw [hmeta] at h
      by_cases hl : Lex P.Y = true
      · rw [if_pos hl] at h; exact h1 h.symm
      · rw [if_neg hl] at h; exact h2 h.symm
    rw [SetBytes_compressed b Sqrt Lex Sub p0 buf (by omega) (hne _ (by decide) (by decide))
      (hne _ (by decide) (by decide)) (hne _ (by decide) (by decide)), hx]
    obtain ⟨y, hy, hyy⟩ := hSqrt (P.X * P.X * P.X + b) ⟨P.Y, by rw [← sq, hcurve]; ring⟩
    rw [hy]
    simp only
    have hsel : (if Lex y then
          (if buf.getD 0 0 &&& mMask = mCompressedSmallest then -y else y)
        else (if buf.getD 0 0 &&& mMask = mCompressedLargest then -y else y)) = P.Y := by
      have hsq : y * y = P.Y * P.Y := by rw [hyy, ← sq P.Y, hcurve]; ring
      rw [hmeta]
      rcases mul_self_eq_mul_self_iff.mp hsq with h | h
      · -- the square root is the Y coordinate itself
        rw [← h]
        by_cases hl : Lex y = true
        · rw [if_pos hl, if_pos hl, if_neg (by decide)]
        · rw [if_neg hl, if_neg hl, if_neg (by decide)]
      · -- the square root is the opposite of the Y coordinate
        have hY : P.Y = -y := by rw [h, neg_neg]
        by_cases hy0 : y = 0
        · rw [hY, hy0]; simp
        · have hflip := hLex y hy0
          rw [← hY] at hflip
          by_cases hl : Lex y = true
          · have hl' : ¬ Lex P.Y = true := by rw [hflip.mp hl]; decide
            rw [if_pos hl, if_neg hl', if_pos rfl, hY]
          · have hl' : Lex P.Y = true := by
              by_contra hc
              exact hl (hflip.mpr (by simpa using hc))
            rw [if_neg hl, if_pos hl', if_pos rfl, hY]
    rw [hsel]
    have hPe : (⟨P.X, P.Y⟩ : G1Affine q) = P := by cases P; rfl
    rw [hPe, if_pos hP]

/-- The uncompressed encoding of a point accepted by the subgroup check decodes to that
point. -/
theorem SetBytes_of_RawBytes {q : Nat} [NeZero q] (hq : q < 2 ^ 381) (b : ZMod q)
    (Sqrt : ZMod q → Option (ZMod q)) (Lex : ZMod q → Bool) (Sub : G1Affine q → Bool)
    (P : G1Affine q) (hP : Sub P = true) (p0 : G1Affine q) :
    (G1Affine.RawBytes P).length = 96 ∧
      G1Affine.SetBytes b Sqrt Lex Sub p0 (G1Affine.RawBytes P) = (P, 96, none) := by
  by_cases hid : P.X = 0 ∧ P.Y = 0
  · have hPe : P = ⟨0, 0⟩ := by
      cases P; simp only at hid; rw [hid.1, hid.2]
    rw [hPe, RawBytes_identity]
    exact ⟨rfl, rfl⟩
  · have hnx : P.X.val < 2 ^ 381 := lt_trans (ZMod.val_lt P.X) hq
    have hny : P.Y.val < 2 ^ 381 := lt_trans (ZMod.val_lt P.Y) hq
    rw [RawBytes_point P hid]
    have hlen : (beBytes 48 P.X.val ++ beBytes 48 P.Y.val).length = 96 := by
      rw [List.length_append, beBytes_length, beBytes_length]
    refine ⟨hlen, ?_⟩
    have hhead : (beBytes 48 P.X.val ++ beBytes 48 P.Y.val).getD 0 0
        = P.X.val / 256 ^ 47 % 256 := by
      rw [List.getD_append _ _ _ _ (by rw [beBytes_length]; norm_num),
        beBytes_getD _ _ _ (by norm_num)]
    have hmeta : (beBytes 48 P.X.val ++ beBytes 48 P.Y.val).getD 0 0 &&& mMask
        = mUncompressed := by
      rw [hhead]
      exact (mask_bits _ (top_byte_lt hnx)).2.2.2.2
    rw [SetBytes_uncompressed b Sqrt Lex Sub p0 _ (by omega) hmeta]
    have e1 : (beBytes 48 P.X.val ++ beBytes 48 P.Y.val).take 48 = beBytes 48 P.X.val :=
      List.take_left' (beBytes_length _ _)
    have e2 : ((beBytes 48 P.X.val ++ beBytes 48 P.Y.val).take 96).drop 48
        = beBytes 48 P.Y.val := by
      rw [List.take_of_length_le (by omega)]
      exact List.drop_left' (beBytes_length _ _)
    rw [e1, e2, fpSetBytes_beBytes P.X 48 (lt_trans hnx (by norm_num)),
      fpSetBytes_beBytes P.Y 48 (lt_trans hny (by norm_num))]
    have hPe : (⟨P.X, P.Y⟩ : G1Affine q) = P := by cases P; rfl
    rw [hPe, if_pos hP]

end bls12377

namespace bls12377

open Curve

theorem filter_errors_zero {α : Type} (rs : List (α × Option DecodeError))
    (hlen : rs.length < 2 ^ 64) :
    (rs.filter (fun x => decide (x.2 ≠ none))).length % 2 ^ 64 = 0 ↔ ∀ x ∈ rs, x.2 = none := by
  have hle : (rs.filter (fun x => decide (x.2 ≠ none))).length ≤ rs.length :=
    List.length_filter_le _ _
  rw [Nat.mod_eq_of_lt (lt_of_le_of_lt hle hlen), List.length_eq_zero, List.filter_eq_nil_iff]
  constructor
  · intro h x hx
    have := h x hx
    simpa using this
  · intro h x hx
    simp [h x hx]

theorem forall₂_errors {α : Type} {Rl : α → Option DecodeError} {Sl : List Nat → Option DecodeError}
    {l : List α} {encs : List (List Nat)}
    (h : List.Forall₂ (fun x e => Rl x = Sl e) l encs) :
    (∀ x ∈ l, Rl x = none) ↔ ∀ e ∈ encs, Sl e = none := by
  induction h with
  | nil => simp
  | cons hxe _ ih =>
    simp only [List.forall_mem_cons, ih, hxe]

/-- Decoding a slice from a framed stream: the error is nil exactly when `SetBytes` accepts
every element, and the slice then holds the points `SetBytes` yields. -/
theorem Decode_framed {q : Nat} (b : ZMod q) (Sqrt : ZMod q → Option (ZMod q))
    (Lex : ZMod q → Bool) (Sub : G1Affine q → Bool) (encs : List (List Nat))
    (rest : List Nat) (n0 : Nat) (t0 : List (G1Affine q)) (p0 : G1Affine q)
    (hn : encs.length < 2 ^ 32)
    (hframe : ∀ e ∈ encs, e.length = if isCompressed (e.getD 0 0) = true then 48 else 96) :
    ((∃ d pts, Decoder.Decode b Sqrt Lex Sub
          ⟨PutUint32 encs.length ++ (encs.flatten ++ rest), n0⟩ t0 = (d, Except.ok pts))
      ↔ ∀ e ∈ encs, (G1Affine.SetBytes b Sqrt Lex Sub p0 e).2.2 = none) ∧
    (∀ d pts, Decoder.Decode b Sqrt Lex Sub
          ⟨PutUint32 encs.length ++ (encs.flatten ++ rest), n0⟩ t0 = (d, Except.ok pts) →
      d.r = rest ∧ pts = encs.map (fun e => (G1Affine.SetBytes b Sqrt Lex Sub p0 e).1)) := by
  unfold Decoder.Decode
  simp only [readUint32_PutUint32 _ _ _ hn]
  have hts : (if t0.length ≠ encs.length
      then List.replicate encs.length (⟨0, 0⟩ : G1Affine q) else t0).length = encs.length := by
    split_ifs with h
    · exact List.length_replicate _ _
    · exact not_not.mp h
  generalize (if t0.length ≠ encs.length
      then List.replicate encs.length (⟨0, 0⟩ : G1Affine q) else t0) = ts at hts
  obtain ⟨hE, hO⟩ := readG1Points_framed b Sqrt Lex Sub rest encs ts (n0 + 4) hts hframe
  cases hrd : Decoder.readG1Points b Sqrt Lex Sub ⟨encs.flatten ++ rest, n0 + 4⟩ ts with
  | mk d' res =>
    cases res with
    | error err =>
      obtain ⟨e, he, hbad⟩ := hE d' err hrd
      simp only
      constructor
      · constructor
        · rintro ⟨d, pts, h⟩
          simp at h
        · intro h
          exact absurd (h e he) (hbad p0)
      · intro d pts h
        simp at h
    | ok l =>
      obtain ⟨hr, hall⟩ := hO d' l hrd
      simp only
      have hlen : l.length = encs.length := hall.length_eq
      have hcount := filter_errors_zero (l.map (fun x =>
        if x.2.2 = true then G1Affine.unsafeComputeY b Sqrt Lex Sub x.1 x.2.1
        else (x.1, none))) (by rw [List.length_map, hlen]; omega)
      have herr : (∀ x ∈ l.map (fun x =>
          if x.2.2 = true then G1Affine.unsafeComputeY b Sqrt Lex Sub x.1 x.2.1
          else (x.1, none)), x.2 = none)
          ↔ ∀ e ∈ encs, (G1Affine.SetBytes b Sqrt Lex Sub p0 e).2.2 = none := by
        rw [List.forall_mem_map]
        exact forall₂_errors (hall.imp (fun x e h => (h p0).1))
      have hpts : (∀ e ∈ encs, (G1Affine.SetBytes b Sqrt Lex Sub p0 e).2.2 = none) →
          (l.map (fun x =>
            if x.2.2 = true then G1Affine.unsafeComputeY b Sqrt Lex Sub x.1 x.2.1
            else (x.1, none))).map (fun x => x.1)
          = encs.map (fun e => (G1Affine.SetBytes b Sqrt Lex Sub p0 e).1) := by
        intro hok
        clear hcount herr hlen hrd hE hO hts hframe hn
        induction hall with
        | nil => rfl
        | cons hxe _ ih =>
          rw [List.map_cons, List.map_cons, List.map_cons,
            (hxe p0).2 (hok _ (List.mem_cons_self _ _)),
            ih (fun e he => hok e (List.mem_cons_of_mem _ he))]
      by_cases hz : (List.filter (fun x => decide (x.2 ≠ none)) (l.map (fun x =>
          if x.2.2 = true then G1Affine.unsafeComputeY b Sqrt Lex Sub x.1 x.2.1
          else (x.1, none)))).length % 2 ^ 64 = 0
      · have hok := herr.mp (hcount.mp hz)
        rw [if_neg (not_not.mpr hz)]
        constructor
        · exact ⟨fun _ => hok, fun _ => ⟨_, _, rfl⟩⟩
        · intro d pts h
          simp only [Prod.mk.injEq, Except.ok.injEq] at h
          obtain ⟨h1, h2⟩ := h
          subst h1 h2
          exact ⟨hr, hpts hok⟩
      · rw [if_pos hz]
        constructor
        · constructor
          · rintro ⟨d, pts, h⟩
            simp at h
          · intro h
            exact absurd (hcount.mpr (herr.mpr h)) hz
        · intro d pts h
          simp at h

end bls12377

namespace bls12377

open Curve

theorem encode_foldl_w {q : Nat} (f : G1Affine q → List Nat) (ps : List (G1Affine q)) :
    ∀ enc : Encoder,
      (ps.foldl (fun enc p => (⟨enc.w ++ f p, enc.n + (f p).length, enc.raw⟩ : Encoder)) enc).w
        = enc.w ++ (ps.map f).flatten := by
  induction ps with
  | nil => intro enc; simp
  | cons p ps ih =>
    intro enc
    rw [List.foldl_cons, ih, List.map_cons, List.flatten_cons, List.append_assoc]

/-- The bytes `Encode` writes for a slice: the length on four bytes, then the encodings. -/
theorem Encode_w {q : Nat} (Lex : ZMod q → Bool) (w0 : List Nat) (n0 : Nat) (raw : Bool)
    (ps : List (G1Affine q)) :
    (Encoder.Encode Lex ⟨w0, n0, raw⟩ ps).w
      = w0 ++ (PutUint32 (ps.length % 2 ^ 32)
          ++ (ps.map (fun p => if raw = true then G1Affine.RawBytes p
                else G1Affine.Bytes Lex p)).flatten) := by
  unfold Encoder.Encode
  cases raw with
  | true =>
    simp only [if_true]
    unfold Encoder.encodeRaw
    simp only
    rw [encode_foldl_w G1Affine.RawBytes ps, List.append_assoc]
  | false =>
    simp only [Bool.false_eq_true, if_false]
    unfold Encoder.encode
    simp only
    rw [encode_foldl_w (G1Affine.Bytes Lex) ps, List.append_assoc]

theorem SetBytes_short_uncompressed {q : Nat} (b : ZMod q) (Sqrt : ZMod q → Option (ZMod q))
    (Lex : ZMod q → Bool) (Sub : G1Affine q → Bool) (p : G1Affine q) (buf : List Nat)
    (hlen : buf.length < 96) (hc : isCompressed (buf.getD 0 0) = false) :
    (G1Affine.SetBytes b Sqrt Lex Sub p buf).2.2 = some DecodeError.ErrShortBuffer := by
  unfold G1Affine.SetBytes
  by_cases h48 : buf.length < SizeOfG1AffineCompressed
  · rw [if_pos h48]
  · rw [if_neg h48]
    simp only
    rw [if_pos ⟨(isCompressed_false_iff _).mp hc, by
      simp only [SizeOfG1AffineUncompressed, SizeOfG1AffineCompressed]; omega⟩]

theorem SetBytes_count_compressed {q : Nat} (b : ZMod q) (Sqrt : ZMod q → Option (ZMod q))
    (Lex : ZMod q → Bool) (Sub : G1Affine q → Bool) (p : G1Affine q) (buf : List Nat)
    (hlen : 48 ≤ buf.length) (hc : isCompressed (buf.getD 0 0) = true) :
    (G1Affine.SetBytes b Sqrt Lex Sub p buf).2.1 ≠ 96 := by
  obtain ⟨h0, h1⟩ := (isCompressed_true_iff _).mp hc
  by_cases h2 : buf.getD 0 0 &&& mMask = mCompressedInfinity
  · rw [SetBytes_compressed_infinity b Sqrt Lex Sub p buf hlen h2]
    simp
  · rw [SetBytes_compressed b Sqrt Lex Sub p buf hlen h0 h1 h2]
    cases Sqrt (fpSetBytes q ((buf.take 48).set 0 ((buf.take 48).getD 0 0 &&& 31))
          * fpSetBytes q ((buf.take 48).set 0 ((buf.take 48).getD 0 0 &&& 31))
          * fpSetBytes q ((buf.take 48).set 0 ((buf.take 48).getD 0 0 &&& 31)) + b) with
    | none => simp
    | some Y =>
      simp only
      split_ifs <;> simp

/-- Decoding what `Encode` wrote for fewer than 2^32 points that pass the subgroup check gives
the points back. -/
theorem Decode_Encode {q : Nat} [Fact q.Prime] (hq : q < 2 ^ 381) (b : ZMod q)
    (Sqrt : ZMod q → Option (ZMod q)) (Lex : ZMod q → Bool) (Sub : G1Affine q → Bool)
    (hSqrt : ∀ a : ZMod q, (∃ y, y * y = a) → ∃ y, Sqrt a = some y ∧ y * y = a)
    (hLex : ∀ y : ZMod q, y ≠ 0 → (Lex y = true ↔ Lex (-y) = false))
    (hSub : ∀ a, Sub a = true → (a.X = 0 ∧ a.Y = 0) ∨ a.Y ^ 2 = a.X ^ 3 + b)
    (raw : Bool) (ps t0 : List (G1Affine q)) (hn : ps.length < 2 ^ 32)
    (hps : ∀ p ∈ ps, Sub p = true) :
    (Decoder.Decode b Sqrt Lex Sub ⟨(Encoder.Encode Lex ⟨[], 0, raw⟩ ps).w, 0⟩ t0).2
      = Except.ok ps := by
  haveI : NeZero q := ⟨(Fact.out : q.Prime).ne_zero⟩
  rw [Encode_w, List.nil_append, Nat.mod_eq_of_lt hn]
  have hround : ∀ p ∈ ps,
      (if raw = true then G1Affine.RawBytes p else G1Affine.Bytes Lex p).length
          = (if isCompressed ((if raw = true then G1Affine.RawBytes p
              else G1Affine.Bytes Lex p).getD 0 0) = true then 48 else 96) ∧
      G1Affine.SetBytes b Sqrt Lex Sub ⟨0, 0⟩
          (if raw = true then G1Affine.RawBytes p else G1Affine.Bytes Lex p)
        = (p, (if raw = true then 96 else 48), none) := by
    intro p hp
    cases raw with
    | true =>
      simp only [if_true]
      obtain ⟨h1, h2⟩ := SetBytes_of_RawBytes hq b Sqrt Lex Sub p (hps p hp) ⟨0, 0⟩
      refine ⟨?_, h2⟩
      have hc : isCompressed ((G1Affine.RawBytes p).getD 0 0) = false := by
        by_contra hcon
        rw [Bool.not_eq_false] at hcon
        have := SetBytes_count_compressed b Sqrt Lex Sub ⟨0, 0⟩ _ (by omega) hcon
        rw [h2] at this
        exact this rfl
      rw [hc, h1]
      rfl
    | false =>
      simp only [Bool.false_eq_true, if_false]
      obtain ⟨h1, h2⟩ := SetBytes_of_Bytes hq b Sqrt Lex Sub hSqrt hLex hSub p (hps p hp) ⟨0, 0⟩
      refine ⟨?_, h2⟩
      have hc : isCompressed ((G1Affine.Bytes Lex p).getD 0 0) = true := by
        by_contra hcon
        rw [Bool.not_eq_true] at hcon
        have := SetBytes_short_uncompressed b Sqrt Lex Sub ⟨0, 0⟩ _ (by omega) hcon
        rw [h2] at this
        exact absurd this (by simp)
      rw [hc, h1]
      rfl
  have hlen : (ps.map (fun p => if raw = true then G1Affine.RawBytes p
      else G1Affine.Bytes Lex p)).length = ps.length := List.length_map _ _
  have hD := Decode_framed b Sqrt Lex Sub
    (ps.map (fun p => if raw = true then G1Affine.RawBytes p else G1Affine.Bytes Lex p))
    [] 0 t0 ⟨0, 0⟩ (by rw [hlen]; exact hn)
    (by
      intro e he
      obtain ⟨p, hp, rfl⟩ := List.mem_map.mp he
      exact (hround p hp).1)
  rw [hlen, List.append_nil] at hD
  obtain ⟨hiff, hpts⟩ := hD
  obtain ⟨d, pts, hdec⟩ := hiff.mpr (by
    intro e he
    obtain ⟨p, hp, rfl⟩ := List.mem_map.mp he
    rw [(hround p hp).2])
  rw [hdec]
  simp only
  rw [(hpts d pts hdec).2, List.map_map]
  congr 1
  conv_rhs => rw [← List.map_id ps]
  apply List.map_congr_left
  intro p hp
  simp only [Function.comp_apply, id_eq]
  rw [(hround p hp).2]

end bls12377

section SliceDecoding

open bls12377

/-- C23 (as stated, refuted): the slice of 2^32 identity points consists of subgroup points,
yet decoding what `Encode` wrote for it returns a nil error and the empty slice: the length
prefix is `uint32(len)`, which is 0 for 2^32 elements. -/
theorem Decode_Encode_long_slice :
    (∀ p ∈ List.replicate (2 ^ 32) (⟨0, 0⟩ : G1Affine 7), inSubGroupSeven p = true) ∧
    (Decoder.Decode (3 : ZMod 7) sqrtSeven lexSeven inSubGroupSeven
        ⟨(Encoder.Encode lexSeven ⟨[], 0, false⟩
          (List.replicate (2 ^ 32) (⟨0, 0⟩ : G1Affine 7))).w, 0⟩ []).2 = Except.ok [] ∧
    ([] : List (G1Affine 7)) ≠ List.replicate (2 ^ 32) (⟨0, 0⟩ : G1Affine 7) := by
  refine ⟨?_, ?_, ?_⟩
  · intro p hp
    rw [List.eq_of_mem_replicate hp]
    decide
  · rw [Encode_w, List.nil_append, List.length_replicate, Nat.mod_self]
    obtain ⟨hiff, hpts⟩ := Decode_framed (3 : ZMod 7) sqrtSeven lexSeven inSubGroupSeven []
      ((List.replicate (2 ^ 32) (⟨0, 0⟩ : G1Affine 7)).map (fun p =>
        if false = true then G1Affine.RawBytes p else G1Affine.Bytes lexSeven p)).flatten
      0 [] ⟨0, 0⟩ (by norm_num) (by simp)
    rw [List.flatten_nil, List.nil_append] at hiff hpts
    obtain ⟨d, pts, hdec⟩ := hiff.mpr (by simp)
    have e : PutUint32 ([] : List (List Nat)).length = PutUint32 0 := rfl
    rw [e] at hdec hpts
    rw [hdec]
    simp only
    rw [(hpts d pts hdec).2]
    rfl
  · intro h
    have := congrArg List.length h
    rw [List.length_replicate, List.length_nil] at this
    exact absurd this (by norm_num)

/-- C23 (amended): for every byte stream holding a big-endian uint32 length n followed by n
complete point encodings (48 bytes when the top bits of the first byte say compressed, 96
otherwise), and whatever follows them, `Decoder.Decode` into `*[]G1Affine` returns a nil error
if and only if `G1Affine.SetBytes` succeeds on the bytes of every element, and then element i
is the point `SetBytes` yields for element i. Hence, over a field with modulus below 2^381,
with the contracts of `Sqrt`, `LexicographicallyLargest` and `IsInSubGroup`, decoding what
`Encoder.Encode` wrote (compressed or raw mode) for a slice of fewer than 2^32 points that
pass the subgroup check returns a nil error and an equal slice. -/
theorem Decode_slice_iff_SetBytes {q : Nat} [Fact q.Prime] (b : ZMod q)
    (Sqrt : ZMod q → Option (ZMod q)) (Lex : ZMod q → Bool) (Sub : G1Affine q → Bool) :
    (∀ (encs : List (List Nat)) (rest : List Nat) (n0 : Nat) (t0 : List (G1Affine q))
        (p0 : G1Affine q), encs.length < 2 ^ 32 →
      (∀ e ∈ encs, e.length = if isCompressed (e.getD 0 0) = true then 48 else 96) →
      ((∃ d pts, Decoder.Decode b Sqrt Lex Sub
            ⟨PutUint32 encs.length ++ (encs.flatten ++ rest), n0⟩ t0 = (d, Except.ok pts))
        ↔ ∀ e ∈ encs, (G1Affine.SetBytes b Sqrt Lex Sub p0 e).2.2 = none) ∧
      (∀ d pts, Decoder.Decode b Sqrt Lex Sub
            ⟨PutUint32 encs.length ++ (encs.flatten ++ rest), n0⟩ t0 = (d, Except.ok pts) →
        d.r = rest ∧ pts = encs.map (fun e => (G1Affine.SetBytes b Sqrt Lex Sub p0 e).1))) ∧
    (q < 2 ^ 381 →
      (∀ a : ZMod q, (∃ y, y * y = a) → ∃ y, Sqrt a = some y ∧ y * y = a) →
      (∀ y : ZMod q, y ≠ 0 → (Lex y = true ↔ Lex (-y) = false)) →
      (∀ a, Sub a = true → (a.X = 0 ∧ a.Y = 0) ∨ a.Y ^ 2 = a.X ^ 3 + b) →
      ∀ (raw : Bool) (ps t0 : List (G1Affine q)), ps.length < 2 ^ 32 →
        (∀ p ∈ ps, Sub p = true) →
        (Decoder.Decode b Sqrt Lex Sub ⟨(Encoder.Encode Lex ⟨[], 0, raw⟩ ps).w, 0⟩ t0).2
          = Except.ok ps) :=
  ⟨fun encs rest n0 t0 p0 hn hframe =>
      Decode_framed b Sqrt Lex Sub encs rest n0 t0 p0 hn hframe,
    fun hq hSqrt hLex hSub raw ps t0 hn hps =>
      Decode_Encode hq b Sqrt Lex Sub hSqrt hLex hSub raw ps t0 hn hps⟩

theorem Decode_slice_iff_SetBytes_witness :
    (((∃ d pts, Decoder.Decode (3 : ZMod 7) sqrtSeven lexSeven inSubGroupSeven
            ⟨PutUint32 [0x80 :: (List.replicate 46 0 ++ [1]), 0xC0 :: List.replicate 47 0,
                (List.replicate 47 0 ++ [1]) ++ (List.replicate 47 0 ++ [5])].length
              ++ ([0x80 :: (List.replicate 46 0 ++ [1]), 0xC0 :: List.replicate 47 0,
                (List.replicate 47 0 ++ [1]) ++ (List.replicate 47 0 ++ [5])].flatten
                ++ [7, 7]), 0⟩ [] = (d, Except.ok pts))
        ↔ ∀ e ∈ [0x80 :: (List.replicate 46 0 ++ [1]), 0xC0 :: List.replicate 47 0,
                (List.replicate 47 0 ++ [1]) ++ (List.replicate 47 0 ++ [5])],
            (G1Affine.SetBytes (3 : ZMod 7) sqrtSeven lexSeven inSubGroupSeven ⟨0, 0⟩ e).2.2
              = none) ∧
      (∀ d pts, Decoder.Decode (3 : ZMod 7) sqrtSeven lexSeven inSubGroupSeven
            ⟨PutUint32 [0x80 :: (List.replicate 46 0 ++ [1]), 0xC0 :: List.replicate 47 0,
                (List.replicate 47 0 ++ [1]) ++ (List.replicate 47 0 ++ [5])].length
              ++ ([0x80 :: (List.replicate 46 0 ++ [1]), 0xC0 :: List.replicate 47 0,
                (List.replicate 47 0 ++ [1]) ++ (List.replicate 47 0 ++ [5])].flatten
                ++ [7, 7]), 0⟩ [] = (d, Except.ok pts) →
        d.r = [7, 7] ∧
        pts = [0x80 :: (List.replicate 46 0 ++ [1]), 0xC0 :: List.replicate 47 0,
                (List.replicate 47 0 ++ [1]) ++ (List.replicate 47 0 ++ [5])].map
            (fun e => (G1Affine.SetBytes (3 : ZMod 7) sqrtSeven lexSeven inSubGroupSeven
              ⟨0, 0⟩ e).1))) ∧
    (Decoder.Decode (3 : ZMod 7) sqrtSeven lexSeven inSubGroupSeven
        ⟨(Encoder.Encode lexSeven ⟨[], 0, false⟩ [⟨1, 2⟩, ⟨0, 0⟩, ⟨1, 5⟩]).w, 0⟩ []).2
      = Except.ok [⟨1, 2⟩, ⟨0, 0⟩, ⟨1, 5⟩] :=
  ⟨(Decode_slice_iff_SetBytes (3 : ZMod 7) sqrtSeven lexSeven inSubGroupSeven).1
      [0x80 :: (List.replicate 46 0 ++ [1]), 0xC0 :: List.replicate 47 0,
        (List.replicate 47 0 ++ [1]) ++ (List.replicate 47 0 ++ [5])] [7, 7] 0 [] ⟨0, 0⟩
      (by norm_num) (by decide),
    (Decode_slice_iff_SetBytes (3 : ZMod 7) sqrtSeven lexSeven inSubGroupSeven).2
      (by norm_num) (by decide) (by decide)
      (by intro a h; simpa [inSubGroupSeven] using h) false [⟨1, 2⟩, ⟨0, 0⟩, ⟨1, 5⟩] []
      (by norm_num) (by decide)⟩

end SliceDecoding

namespace fft

theorem revBits_lt (k i : Nat) : revBits k i < 2 ^ k := by
  induction k with
  | zero => simp [revBits]
  | succ k ih =>
    rw [revBits, pow_succ]
    have : i / 2 ^ k % 2 < 2 := Nat.mod_lt _ (by norm_num)
    omega

theorem reverse_foldl (x w : Nat) :
    (List.range w).foldl (fun r j => 2 * r + x / 2 ^ j % 2) 0 = revBits w x := by
  induction w with
  | zero => rfl
  | succ w ih =>
    rw [List.range_succ, List.foldl_append, ih]
    rfl

theorem Reverse64_eq (x : Nat) : Reverse64 x = revBits 64 x :=
  reverse_foldl x 64

/-- Reversing more bits than the number has shifts the reversal to the left. -/
theorem revBits_high (k d i : Nat) (hi : i < 2 ^ k) :
    revBits (k + d) i = 2 ^ d * revBits k i := by
  induction d with
  | zero => simp
  | succ d ih =>
    rw [← Nat.add_assoc, revBits, ih]
    have h0 : i / 2 ^ (k + d) = 0 :=
      Nat.div_eq_of_lt (lt_of_lt_of_le hi (Nat.pow_le_pow_right (by norm_num) (by omega)))
    rw [h0, pow_succ]
    simp only [Nat.zero_mod, Nat.add_zero]
    ring

/-- The index `bits.Reverse64(i) >> (64 - k)` that the source computes is the reversal of the
k low-order bits of i. -/
theorem Reverse64_shift (k i : Nat) (hk : k ≤ 64) (hi : i < 2 ^ k) :
    Reverse64 i >>> (64 - k) = revBits k i := by
  have h : revBits (k + (64 - k)) i = 2 ^ (64 - k) * revBits k i := revBits_high k (64 - k) i hi
  rw [Nat.add_sub_cancel' hk] at h
  rw [Reverse64_eq, h, Nat.shiftRight_eq_div_pow, Nat.mul_div_cancel_left _ (by positivity)]

/-- Reversal in terms of the low bit: the low bit moves to the top. -/
theorem revBits_low (k j c : Nat) (hc : c < 2) :
    revBits (k + 1) (2 * j + c) = c * 2 ^ k + revBits k j := by
  induction k with
  | zero =>
    simp only [revBits, pow_zero, Nat.div_one, mul_one, Nat.mul_zero, Nat.zero_add, Nat.add_zero]
    omega
  | succ k ih =>
    rw [revBits, ih]
    have hdiv : (2 * j + c) / 2 ^ (k + 1) = j / 2 ^ k := by
      rw [pow_succ, Nat.mul_comm (2 ^ k) 2, ← Nat.div_div_eq_div_mul]
      congr 1
      omega
    rw [hdiv]
    conv_rhs => rw [revBits]
    rw [pow_succ]
    ring

/-- Bits at positions k and above do not matter to the reversal of the k low-order bits. -/
theorem revBits_add_mul (k x y : Nat) : revBits k (x + y * 2 ^ k) = revBits k x := by
  induction k generalizing x y with
  | zero => rfl
  | succ k ih =>
    rw [revBits, revBits]
    have h1 : x + y * 2 ^ (k + 1) = x + (2 * y) * 2 ^ k := by rw [pow_succ]; ring
    rw [h1, ih x (2 * y)]
    congr 1
    rw [Nat.add_mul_div_right _ _ (by positivity), Nat.add_mul_mod_self_left]

theorem revBits_involutive (k i : Nat) (hi : i < 2 ^ k) : revBits k (revBits k i) = i := by
  induction k generalizing i with
  | zero =>
    simp only [pow_zero, Nat.lt_one_iff] at hi
    subst hi
    rfl
  | succ k ih =>
    have hj : i / 2 < 2 ^ k := by
      rw [pow_succ] at hi
      omega
    have hc : i % 2 < 2 := Nat.mod_lt _ (by norm_num)
    have hi' : i = 2 * (i / 2) + i % 2 := by omega
    have hlow := revBits_low k (i / 2) (i % 2) hc
    rw [← hi'] at hlow
    rw [hlow, revBits]
    have hr := revBits_lt k (i / 2)
    have e1 : i % 2 * 2 ^ k + revBits k (i / 2) = revBits k (i / 2) + (i % 2) * 2 ^ k := by
      ring
    rw [e1, revBits_add_mul, ih _ hj, Nat.add_mul_div_right _ _ (by positivity),
      Nat.div_eq_of_lt hr]
    omega

/-- The bits of the reversal: bit j of `revBits k i` is bit k-1-j of i. -/
theorem revBits_testBit (k i j : Nat) (hj : j < k) :
    (revBits k i).testBit j = i.testBit (k - 1 - j) := by
  induction k generalizing j with
  | zero => omega
  | succ k ih =>
    rw [revBits]
    cases j with
    | zero =>
      rw [Nat.testBit_zero]
      have e : (2 * revBits k i + i / 2 ^ k % 2) % 2 = i / 2 ^ k % 2 := by omega
      rw [e, Nat.add_sub_cancel, Nat.sub_zero, Nat.testBit_to_div_mod]
    | succ j =>
      rw [Nat.testBit_succ]
      have e : (2 * revBits k i + i / 2 ^ k % 2) / 2 = revBits k i := by omega
      rw [e, ih j (by omega)]
      congr 1
      omega

theorem revBits_testBit_high (k i j : Nat) (hj : k ≤ j) : (revBits k i).testBit j = false :=
  Nat.testBit_lt_two_pow (lt_of_lt_of_le (revBits_lt k i) (Nat.pow_le_pow_right (by norm_num) hj))

set_option maxRecDepth 100000 in
theorem TrailingZeros64_two_pow (k : Nat) (hk : k < 64) : TrailingZeros64 (2 ^ k) = k := by
  interval_cases k <;> rfl

end fft

namespace fft

open Curve

theorem ext_getD_field {F : Type} [Field F] {l l' : List F} (hlen : l.length = l'.length)
    (h : ∀ j < l.length, l.getD j 0 = l'.getD j 0) : l = l' := by
  apply List.ext_getElem hlen
  intro j h1 h2
  have := h j h1
  rwa [List.getD_eq_getElem _ _ h1, List.getD_eq_getElem _ _ h2] at this

/-- The entries of `BitReverse(a)` for a slice of length 2^k. -/
theorem BitReverse_getD {F : Type} [Field F] (k : Nat) (hk : k < 64) (a : List F)
    (ha : a.length = 2 ^ k) :
    (BitReverse a).length = 2 ^ k ∧
      ∀ j < 2 ^ k, (BitReverse a).getD j 0 = a.getD (revBits k j) 0 := by
  have hn64 : (2 : Nat) ^ k < 2 ^ 64 := Nat.pow_lt_pow_right (by norm_num) hk
  unfold BitReverse
  simp only
  rw [ha, Nat.mod_eq_of_lt hn64, TrailingZeros64_two_pow k hk]
  have key := foldl_range_induction
    (fun (a : List F) i =>
      if Reverse64 i >>> (64 - k) > i then
        (a.set i (a.getD (Reverse64 i >>> (64 - k)) 0)).set (Reverse64 i >>> (64 - k))
          (a.getD i 0)
      else a)
    (fun t cur => cur.length = 2 ^ k ∧ ∀ j < 2 ^ k, cur.getD j 0
      = if j < t ∨ revBits k j < t then a.getD (revBits k j) 0 else a.getD j 0)
    (2 ^ k) a ⟨ha, fun j _ => by simp⟩
    (by
      intro t cur ht ⟨hlen, hcur⟩
      simp only
      rw [Reverse64_shift k t (by omega) ht]
      have hr := revBits_lt k t
      have hinv := revBits_involutive k t ht
      by_cases hgt : revBits k t > t
      · rw [if_pos hgt]
        refine ⟨by rw [List.length_set, List.length_set, hlen], ?_⟩
        intro j hj
        have hct : cur.getD t 0 = a.getD t 0 := by
          rw [hcur t ht, if_neg (by omega)]
        have hcr : cur.getD (revBits k t) 0 = a.getD (revBits k t) 0 := by
          rw [hcur _ hr, hinv, if_neg (by omega)]
        by_cases hjr : j = revBits k t
        · subst hjr
          rw [getD_set_eq _ _ _ _ (by rw [List.length_set, hlen]; exact hr), hct, hinv,
            if_pos (Or.inr (by omega))]
        · rw [getD_set_ne _ _ _ _ _ (Ne.symm hjr)]
          by_cases hjt : j = t
          · subst hjt
            rw [getD_set_eq _ _ _ _ (by rw [hlen]; exact ht), hcr, if_pos (Or.inl (by omega))]
          · rw [getD_set_ne _ _ _ _ _ (Ne.symm hjt), hcur j hj]
            have hne : revBits k j ≠ t := by
              intro h
              apply hjr
              rw [← h, revBits_involutive k j hj]
            by_cases hc : j < t ∨ revBits k j < t
            · rw [if_pos hc, if_pos (by omega)]
            · rw [if_neg hc, if_neg (by omega)]
      · rw [if_neg hgt]
        refine ⟨hlen, ?_⟩
        intro j hj
        rw [hcur j hj]
        by_cases hc : j < t ∨ revBits k j < t
        · rw [if_pos hc, if_pos (by omega)]
        · rw [if_neg hc]
          by_cases hc' : j < t + 1 ∨ revBits k j < t + 1
          · rw [if_pos hc']
            have hjt : j = t := by
              rcases hc' with h | h
              · omega
              · have h1 : revBits k j = t := by omega
                have h2 : j = revBits k t := by rw [← h1, revBits_involutive k j hj]
                omega
            subst hjt
            have : revBits k j = j := by omega
            rw [this]
          · rw [if_neg hc'])
  obtain ⟨hlen, hget⟩ := key
  refine ⟨hlen, ?_⟩
  intro j hj
  rw [hget j hj, if_pos (Or.inl hj)]

theorem revBits_perm (k : Nat) :
    List.Perm ((List.range (2 ^ k)).map (revBits k)) (List.range (2 ^ k)) := by
  rw [List.perm_ext_iff_of_nodup]
  · intro x
    simp only [List.mem_map, List.mem_range]
    constructor
    · rintro ⟨i, _, rfl⟩
      exact revBits_lt k i
    · intro hx
      exact ⟨revBits k x, revBits_lt k x, revBits_involutive k x hx⟩
  · apply List.Nodup.map_on _ (List.nodup_range _)
    intro x hx y hy hxy
    rw [List.mem_range] at hx hy
    rw [← revBits_involutive k x hx, ← revBits_involutive k y hy, hxy]
  · exact List.nodup_range _

theorem map_getD_range {F : Type} [Field F] (a : List F) :
    (List.range a.length).map (fun i => a.getD i 0) = a := by
  apply ext_getD_field
  · simp
  · intro j hj
    rw [List.length_map, List.length_range] at hj
    rw [List.getD_eq_getElem?_getD, List.getElem?_map, List.getElem?_range hj]
    rfl

theorem BitReverse_perm {F : Type} [Field F] (k : Nat) (hk : k < 64) (a : List F)
    (ha : a.length = 2 ^ k) : List.Perm (BitReverse a) a := by
  obtain ⟨hlen, hget⟩ := BitReverse_getD k hk a ha
  have h1 : BitReverse a = ((List.range (2 ^ k)).map (revBits k)).map (fun i => a.getD i 0) := by
    apply ext_getD_field
    · simp [hlen]
    · intro j hj
      rw [hlen] at hj
      rw [hget j hj, List.map_map, List.getD_eq_getElem?_getD (l := List.map _ _),
        List.getElem?_map, List.getElem?_range hj]
      rfl
  have h2 : a = (List.range (2 ^ k)).map (fun i => a.getD i 0) := by
    rw [← ha]; exact (map_getD_range a).symm
  rw [h1]
  conv_rhs => rw [h2]
  exact (revBits_perm k).map _

theorem BitReverse_twice {F : Type} [Field F] (k : Nat) (hk : k < 64) (a : List F)
    (ha : a.length = 2 ^ k) : BitReverse (BitReverse a) = a := by
  obtain ⟨hlen, hget⟩ := BitReverse_getD k hk a ha
  obtain ⟨hlen2, hget2⟩ := BitReverse_getD k hk (BitReverse a) hlen
  apply ext_getD_field
  · rw [hlen2, ha]
  · intro j hj
    rw [hlen2] at hj
    rw [hget2 j hj, hget _ (revBits_lt k j), revBits_involutive k j hj]

end fft

section BitReversal

open fft

/-- C29: for every slice a of length 2^k (k ≥ 0; k < 64, as the length of a slice is a 64-bit
value), after `BitReverse(a)` the slice has the same length and its element at index i is the
former element at index `rev_k(i)`, where `rev_k(i) < 2^k` has bit j equal to bit k-1-j of i
for every j < k and no other bit set, and `rev_k(rev_k(i)) = i`; consequently `BitReverse(a)`
is a permutation of a, and applying `BitReverse` twice restores a. -/
theorem BitReverse_spec {F : Type} [Field F] (k : Nat) (hk : k < 64) (a : List F)
    (ha : a.length = 2 ^ k) :
    (BitReverse a).length = a.length ∧
    (∀ i < 2 ^ k, (BitReverse a).getD i 0 = a.getD (revBits k i) 0) ∧
    (∀ i < 2 ^ k, revBits k i < 2 ^ k ∧ revBits k (revBits k i) = i ∧
      (∀ j < k, (revBits k i).testBit j = i.testBit (k - 1 - j)) ∧
      (∀ j, k ≤ j → (revBits k i).testBit j = false)) ∧
    List.Perm (BitReverse a) a ∧
    BitReverse (BitReverse a) = a := by
  obtain ⟨hlen, hget⟩ := BitReverse_getD k hk a ha
  exact ⟨by rw [hlen, ha], hget,
    fun i hi => ⟨revBits_lt k i, revBits_involutive k i hi,
      fun j hj => revBits_testBit k i j hj, fun j hj => revBits_testBit_high k i j hj⟩,
    BitReverse_perm k hk a ha, BitReverse_twice k hk a ha⟩

theorem BitReverse_spec_witness :
    (BitReverse ([1, 5, 3, 0, 9, 11, 2, 7] : List (ZMod 7))).length
      = ([1, 5, 3, 0, 9, 11, 2, 7] : List (ZMod 7)).length ∧
    (∀ i < 2 ^ 3, (BitReverse ([1, 5, 3, 0, 9, 11, 2, 7] : List (ZMod 7))).getD i 0
      = ([1, 5, 3, 0, 9, 11, 2, 7] : List (ZMod 7)).getD (revBits 3 i) 0) ∧
    (∀ i < 2 ^ 3, revBits 3 i < 2 ^ 3 ∧ revBits 3 (revBits 3 i) = i ∧
      (∀ j < 3, (revBits 3 i).testBit j = i.testBit (3 - 1 - j)) ∧
      (∀ j, 3 ≤ j → (revBits 3 i).testBit j = false)) ∧
    List.Perm (BitReverse ([1, 5, 3, 0, 9, 11, 2, 7] : List (ZMod 7)))
      [1, 5, 3, 0, 9, 11, 2, 7] ∧
    BitReverse (BitReverse ([1, 5, 3, 0, 9, 11, 2, 7] : List (ZMod 7)))
      = [1, 5, 3, 0, 9, 11, 2, 7] :=
  BitReverse_spec 3 (by norm_num) [1, 5, 3, 0, 9, 11, 2, 7] rfl

end BitReversal

namespace fft

open Curve

theorem getD_append3_field {F : Type} [Field F] (A B C : List F) (j : Nat) :
    (A ++ B ++ C).getD j 0
      = if j < A.length then A.getD j 0
        else if j < A.length + B.length then B.getD (j - A.length) 0
        else C.getD (j - A.length - B.length) 0 := by
  by_cases h1 : j < A.length
  · rw [if_pos h1, List.append_assoc, List.getD_append _ _ _ _ h1]
  · rw [if_neg h1]
    by_cases h2 : j < A.length + B.length
    · rw [if_pos h2, List.getD_append _ _ _ _ (by rw [List.length_append]; exact h2),
        List.getD_append_right _ _ _ _ (by omega)]
    · rw [if_neg h2, List.getD_append_right _ _ _ _ (by rw [List.length_append]; omega),
        List.length_append, Nat.sub_add_eq]

theorem getD_take_field {F : Type} [Field F] (a : List F) (n j : Nat) (hj : j < n) :
    (a.take n).getD j 0 = a.getD j 0 := by
  rw [List.getD_eq_getElem?_getD, List.getD_eq_getElem?_getD, List.getElem?_take_of_lt hj]

theorem getD_drop_field {F : Type} [Field F] (a : List F) (n j : Nat) :
    (a.drop n).getD j 0 = a.getD (n + j) 0 := by
  rw [List.getD_eq_getElem?_getD, List.getD_eq_getElem?_getD, List.getElem?_drop]

theorem getD_map_range {F : Type} [Field F] (f : Nat → F) (n j : Nat) (hj : j < n) :
    ((List.range n).map f).getD j 0 = f j := by
  rw [List.getD_eq_getElem?_getD, List.getElem?_map, List.getElem?_range hj]
  rfl

theorem difBlock_length {F : Type} [Field F] (tws b : List F) :
    (difBlock tws b).length = b.length / 2 + b.length / 2 := by
  simp [difBlock]

theorem ditBlock_length {F : Type} [Field F] (tws b : List F) :
    (ditBlock tws b).length = b.length / 2 + b.length / 2 := by
  simp [ditBlock]

theorem difBlock_getD {F : Type} [Field F] (tws b : List F) (m : Nat) (hb : b.length = 2 * m)
    (x : Nat) (hx : x < 2 * m) :
    (difBlock tws b).getD x 0
      = if x < m then b.getD x 0 + b.getD (x + m) 0
        else (b.getD (x - m) 0 - b.getD x 0) * tws.getD (x - m) 0 := by
  have hm : b.length / 2 = m := by omega
  unfold difBlock
  rw [hm]
  by_cases h : x < m
  · rw [if_pos h, List.getD_append _ _ _ _ (by simp [h]), getD_map_range _ _ _ h]
  · rw [if_neg h, List.getD_append_right _ _ _ _ (by simp; omega)]
    simp only [List.length_map, List.length_range]
    rw [getD_map_range _ _ _ (by omega), Nat.sub_add_cancel (by omega)]

theorem ditBlock_getD {F : Type} [Field F] (tws b : List F) (m : Nat) (hb : b.length = 2 * m)
    (x : Nat) (hx : x < 2 * m) :
    (ditBlock tws b).getD x 0
      = if x < m then b.getD x 0 + b.getD (x + m) 0 * tws.getD x 0
        else b.getD (x - m) 0 - b.getD x 0 * tws.getD (x - m) 0 := by
  have hm : b.length / 2 = m := by omega
  unfold ditBlock
  rw [hm]
  by_cases h : x < m
  · rw [if_pos h, List.getD_append _ _ _ _ (by simp [h]), getD_map_range _ _ _ h]
  · rw [if_neg h, List.getD_append_right _ _ _ _ (by simp; omega)]
    simp only [List.length_map, List.length_range]
    rw [getD_map_range _ _ _ (by omega), Nat.sub_add_cancel (by omega)]

/-- The entries after the first t butterflies of a block of `difFFT`. -/
theorem difButterfly_loop {F : Type} [Field F] (tw : List (List F)) (s lo m : Nat)
    (a : List F) (ha : lo + 2 * m ≤ a.length) (t : Nat) (ht : t ≤ m) :
    ((List.range t).foldl (difButterfly tw s lo m) a).length = a.length ∧
    ∀ x, ((List.range t).foldl (difButterfly tw s lo m) a).getD x 0
      = if lo ≤ x ∧ x < lo + t then a.getD x 0 + a.getD (x + m) 0
        else if lo + m ≤ x ∧ x < lo + m + t then
          (a.getD (x - m) 0 - a.getD x 0) * (tw.getD s []).getD (x - lo - m) 0
        else a.getD x 0 := by
  induction t with
  | zero =>
    refine ⟨rfl, fun x => ?_⟩
    rw [if_neg (by omega), if_neg (by omega)]
    rfl
  | succ t ih =>
    obtain ⟨hlen, hget⟩ := ih (by omega)
    rw [List.range_succ, List.foldl_append]
    simp only [List.foldl_cons, List.foldl_nil]
    generalize (List.range t).foldl (difButterfly tw s lo m) a = cur at hlen hget ⊢
    unfold difButterfly
    simp only
    have h1 : cur.getD (lo + t) 0 = a.getD (lo + t) 0 := by
      rw [hget, if_neg (by omega), if_neg (by omega)]
    have h2 : cur.getD (lo + t + m) 0 = a.getD (lo + t + m) 0 := by
      rw [hget, if_neg (by omega), if_neg (by omega)]
    have h3 : (cur.set (lo + t) (cur.getD (lo + t) 0 + cur.getD (lo + t + m) 0)).getD
        (lo + t + m) 0 = a.getD (lo + t + m) 0 := by
      rw [getD_set_ne _ _ _ _ _ (by omega), h2]
    rw [h3, h1, h2]
    refine ⟨by rw [List.length_set, List.length_set, hlen], fun x => ?_⟩
    by_cases hx2 : x = lo + t + m
    · subst hx2
      rw [getD_set_eq _ _ _ _ (by rw [List.length_set, hlen]; omega), if_neg (by omega),
        if_pos ⟨by omega, by omega⟩]
      have e1 : lo + t + m - m = lo + t := by omega
      have e2 : lo + t + m - lo - m = t := by omega
      rw [e1, e2]
    · rw [getD_set_ne _ _ _ _ _ (Ne.symm hx2)]
      by_cases hx1 : x = lo + t
      · subst hx1
        rw [getD_set_eq _ _ _ _ (by rw [hlen]; omega), if_pos ⟨by omega, by omega⟩]
      · rw [getD_set_ne _ _ _ _ _ (Ne.symm hx1), hget x]
        by_cases c1 : lo ≤ x ∧ x < lo + t
        · rw [if_pos c1, if_pos (show lo ≤ x ∧ x < lo + (t + 1) from ⟨c1.1, by omega⟩)]
        · rw [if_neg c1, if_neg (show ¬ (lo ≤ x ∧ x < lo + (t + 1)) by omega)]
          by_cases c2 : lo + m ≤ x ∧ x < lo + m + t
          · rw [if_pos c2,
              if_pos (show lo + m ≤ x ∧ x < lo + m + (t + 1) from ⟨c2.1, by omega⟩)]
          · rw [if_neg c2, if_neg (show ¬ (lo + m ≤ x ∧ x < lo + m + (t + 1)) by omega)]

/-- The butterflies of one block of the first loop of `difFFT` replace the block by its
image under `difBlock`. -/
theorem difButterfly_block {F : Type} [Field F] (tw : List (List F)) (s lo m : Nat)
    (a : List F) (ha : lo + 2 * m ≤ a.length) :
    (List.range m).foldl (difButterfly tw s lo m) a
      = a.take lo ++ difBlock (tw.getD s []) ((a.drop lo).take (2 * m))
          ++ a.drop (lo + 2 * m) := by
  obtain ⟨hlen, hget⟩ := difButterfly_loop tw s lo m a ha m (le_refl m)
  have hb : ((a.drop lo).take (2 * m)).length = 2 * m := by
    rw [List.length_take, List.length_drop]; omega
  have hA : (a.take lo).length = lo := by rw [List.length_take]; omega
  have hB : (difBlock (tw.getD s []) ((a.drop lo).take (2 * m))).length = 2 * m := by
    rw [difBlock_length, hb]; omega
  apply ext_getD_field
  · rw [hlen, List.length_append, List.length_append, hA, hB, List.length_drop]
    omega
  · intro x hx
    rw [hlen] at hx
    rw [hget x, getD_append3_field, hA, hB]
    by_cases c0 : x < lo
    · rw [if_pos c0, if_neg (by omega), if_neg (by omega), getD_take_field _ _ _ c0]
    · rw [if_neg c0]
      by_cases c3 : x < lo + 2 * m
      · rw [if_pos c3, difBlock_getD _ _ m hb _ (by omega)]
        by_cases c1 : x - lo < m
        · rw [if_pos c1, if_pos ⟨by omega, by omega⟩, getD_take_field _ _ _ (by omega),
            getD_take_field _ _ _ (by omega), getD_drop_field, getD_drop_field]
          have e1 : lo + (x - lo) = x := by omega
          have e2 : lo + (x - lo + m) = x + m := by omega
          rw [e1, e2]
        · rw [if_neg c1, if_neg (by omega), if_pos ⟨by omega, by omega⟩,
            getD_take_field _ _ _ (by omega), getD_take_field _ _ _ (by omega),
            getD_drop_field, getD_drop_field]
          have e1 : lo + (x - lo - m) = x - m := by omega
          have e2 : lo + (x - lo) = x := by omega
          rw [e1, e2]
      · rw [if_neg c3, if_neg (by omega), if_neg (by omega), getD_drop_field]
        congr 1
        omega

/-- The worker's butterflies on one block (the first without multiplication) also replace the
block by its image under `difBlock`, when the first twiddle of the stage is 1. -/
theorem difButterfly_block_worker {F : Type} [Field F] (tw : List (List F)) (s lo m : Nat)
    (a : List F) (ha : lo + 2 * m ≤ a.length) (hm : 0 < m)
    (h1 : (tw.getD s []).getD 0 0 = 1) :
    (List.range' 1 (2 * m - m - 1)).foldl (difButterfly tw s lo m) (difButterflyZero lo m a)
      = a.take lo ++ difBlock (tw.getD s []) ((a.drop lo).take (2 * m))
          ++ a.drop (lo + 2 * m) := by
  rw [← difButterfly_block tw s lo m a ha]
  have e : List.range m = 0 :: List.range' 1 (2 * m - m - 1) := by
    have hm' : m = (2 * m - m - 1) + 1 := by omega
    conv_lhs => rw [hm', List.range_eq_range', List.range'_succ]
  rw [e, List.foldl_cons]
  congr 1
  unfold difButterfly difButterflyZero
  simp only [Nat.add_zero, h1, mul_one]

end fft

namespace fft

open Curve

/-- The entries after the first t butterflies of `ditFFT`. -/
theorem ditButterfly_loop {F : Type} [Field F] (tw : List (List F)) (s m : Nat)
    (a : List F) (ha : a.length = 2 * m) (t : Nat) (ht : t ≤ m) :
    ((List.range t).foldl (ditButterfly tw s m) a).length = a.length ∧
    ∀ x, ((List.range t).foldl (ditButterfly tw s m) a).getD x 0
      = if x < t then a.getD x 0 + a.getD (x + m) 0 * (tw.getD s []).getD x 0
        else if m ≤ x ∧ x < m + t then
          a.getD (x - m) 0 - a.getD x 0 * (tw.getD s []).getD (x - m) 0
        else a.getD x 0 := by
  induction t with
  | zero =>
    refine ⟨rfl, fun x => ?_⟩
    rw [if_neg (by omega), if_neg (by omega)]
    rfl
  | succ t ih =>
    obtain ⟨hlen, hget⟩ := ih (by omega)
    rw [List.range_succ, List.foldl_append]
    simp only [List.foldl_cons, List.foldl_nil]
    generalize (List.range t).foldl (ditButterfly tw s m) a = cur at hlen hget ⊢
    unfold ditButterfly
    simp only
    have h1 : cur.getD t 0 = a.getD t 0 := by
      rw [hget, if_neg (by omega), if_neg (by omega)]
    have h2 : cur.getD (t + m) 0 = a.getD (t + m) 0 := by
      rw [hget, if_neg (by omega), if_neg (by omega)]
    rw [h1, h2]
    refine ⟨by rw [List.length_set, List.length_set, hlen], fun x => ?_⟩
    by_cases hx2 : x = t + m
    · subst hx2
      rw [getD_set_eq _ _ _ _ (by rw [List.length_set, hlen]; omega),
        if_neg (show ¬ (t + m < t + 1) by omega),
        if_pos (show m ≤ t + m ∧ t + m < m + (t + 1) from ⟨by omega, by omega⟩)]
      have e1 : t + m - m = t := by omega
      rw [e1]
    · rw [getD_set_ne _ _ _ _ _ (Ne.symm hx2)]
      by_cases hx1 : x = t
      · subst hx1
        rw [getD_set_eq _ _ _ _ (by rw [hlen]; omega), if_pos (show x < x + 1 by omega)]
      · rw [getD_set_ne _ _ _ _ _ (Ne.symm hx1), hget x]
        by_cases c1 : x < t
        · rw [if_pos c1, if_pos (show x < t + 1 by omega)]
        · rw [if_neg c1, if_neg (show ¬ (x < t + 1) by omega)]
          by_cases c2 : m ≤ x ∧ x < m + t
          · rw [if_pos c2, if_pos (show m ≤ x ∧ x < m + (t + 1) from ⟨c2.1, by omega⟩)]
          · rw [if_neg c2, if_neg (show ¬ (m ≤ x ∧ x < m + (t + 1)) by omega)]

/-- The butterflies of the parallel branch of `ditFFT` replace the slice by its image under
`ditBlock`. -/
theorem ditButterfly_block {F : Type} [Field F] (tw : List (List F)) (s m : Nat)
    (a : List F) (ha : a.length = 2 * m) :
    (List.range m).foldl (ditButterfly tw s m) a = ditBlock (tw.getD s []) a := by
  obtain ⟨hlen, hget⟩ := ditButterfly_loop tw s m a ha m (le_refl m)
  apply ext_getD_field
  · rw [hlen, ditBlock_length, ha]; omega
  · intro x hx
    rw [hlen, ha] at hx
    rw [hget x, ditBlock_getD _ _ m ha _ hx]
    by_cases c1 : x < m
    · rw [if_pos c1, if_pos c1]
    · rw [if_neg c1, if_neg c1, if_pos ⟨by omega, by omega⟩]

/-- The butterflies of the sequential branch of `ditFFT` (the first without multiplication)
give the same slice when the first twiddle of the stage is 1. -/
theorem ditButterfly_block_seq {F : Type} [Field F] (tw : List (List F)) (s m : Nat)
    (a : List F) (ha : a.length = 2 * m) (hm : 0 < m) (h1 : (tw.getD s []).getD 0 0 = 1) :
    (List.range' 1 (m - 1)).foldl (ditButterfly tw s m) (ditButterflyZero m a)
      = ditBlock (tw.getD s []) a := by
  rw [← ditButterfly_block tw s m a ha]
  have e : List.range m = 0 :: List.range' 1 (m - 1) := by
    have hm' : m = (m - 1) + 1 := by omega
    conv_lhs => rw [hm', List.range_eq_range', List.range'_succ]
  rw [e, List.foldl_cons]
  congr 1
  unfold ditButterfly ditButterflyZero
  simp only [Nat.zero_add, h1, mul_one]
  rw [getD_set_ne _ _ _ _ _ (by omega)]

end fft

namespace fft

open Curve

theorem ditRec_length {F : Type} [Field F] (tw : List (List F)) :
    ∀ (r s : Nat) (a : List F), a.length = 2 ^ r → (ditRec tw r s a).length = 2 ^ r := by
  intro r
  induction r with
  | zero => intro s a ha; exact ha
  | succ r ih =>
    intro s a ha
    have h1 : (a.take (2 ^ r)).length = 2 ^ r := by
      rw [List.length_take, ha, pow_succ]; omega
    have h2 : (a.drop (2 ^ r)).length = 2 ^ r := by
      rw [List.length_drop, ha, pow_succ]; omega
    rw [ditRec, ditBlock_length, List.length_append, ih _ _ h1, ih _ _ h2, pow_succ]
    omega

/-- The function `ditFFT` returns, and returns the value of the reference recursion, for every
value of `maxSplits`, when the first twiddle of every stage is 1. -/
theorem ditFFT_eq_rec {F : Type} [Field F] (tw : List (List F)) (maxSplits : Int)
    (h1 : ∀ s, s < tw.length → (tw.getD s []).getD 0 0 = 1) :
    ∀ (r fuel s : Nat) (a : List F), a.length = 2 ^ r → r < fuel → s + r ≤ tw.length →
      ditFFT tw maxSplits fuel a s = some (ditRec tw r s a) := by
  intro r
  induction r with
  | zero =>
    intro fuel s a ha hf _
    cases fuel with
    | zero => omega
    | succ f =>
      rw [ditFFT]
      simp only
      rw [if_pos (by rw [ha]; rfl)]
      rfl
  | succ r ih =>
    intro fuel s a ha hf hs
    cases fuel with
    | zero => omega
    | succ f =>
      have hpos : 0 < 2 ^ r := by positivity
      have hn1 : a.length ≠ 1 := by rw [ha, pow_succ]; omega
      have hm : a.length >>> 1 = 2 ^ r := by
        rw [Nat.shiftRight_eq_div_pow, ha, pow_succ]; omega
      have ht : (a.take (2 ^ r)).length = 2 ^ r := by
        rw [List.length_take, ha, pow_succ]; omega
      have hd : (a.drop (2 ^ r)).length = 2 ^ r := by
        rw [List.length_drop, ha, pow_succ]; omega
      rw [ditFFT]
      simp only
      rw [if_neg hn1, hm, ih f (s + 1) _ ht (by omega) (by omega),
        ih f (s + 1) _ hd (by omega) (by omega)]
      simp only
      have hl : (ditRec tw r (s + 1) (a.take (2 ^ r))
          ++ ditRec tw r (s + 1) (a.drop (2 ^ r))).length = 2 * 2 ^ r := by
        rw [List.length_append, ditRec_length tw r _ _ ht, ditRec_length tw r _ _ hd]
        omega
      split_ifs
      · rw [ditButterfly_block tw s (2 ^ r) _ hl]
        rfl
      · rw [ditButterfly_block_seq tw s (2 ^ r) _ hl hpos (h1 s (by omega))]
        rfl

end fft

namespace fft

open Curve

theorem mapBlocks_length {F : Type} (L : Nat) (f : List F → List F)
    (hf : ∀ b, b.length = L → (f b).length = L) :
    ∀ (c : Nat) (a : List F), c * L ≤ a.length → (mapBlocks L f c a).length = a.length := by
  intro c
  induction c with
  | zero => intro a _; rfl
  | succ c ih =>
    intro a ha
    have hL : L ≤ a.length := by
      have : (c + 1) * L = c * L + L := by ring
      omega
    have h1 : (a.take L).length = L := by rw [List.length_take]; omega
    have h2 : c * L ≤ (a.drop L).length := by
      rw [List.length_drop]
      have : (c + 1) * L = c * L + L := by ring
      omega
    rw [mapBlocks, List.length_append, hf _ h1, ih _ h2, List.length_drop]
    omega

theorem mapBlocks_append {F : Type} (L : Nat) (f : List F → List F) (c2 : Nat) (y : List F) :
    ∀ (c1 : Nat) (x : List F), x.length = c1 * L →
      mapBlocks L f (c1 + c2) (x ++ y) = mapBlocks L f c1 x ++ mapBlocks L f c2 y := by
  intro c1
  induction c1 with
  | zero =>
    intro x hx
    rw [Nat.zero_mul] at hx
    rw [List.length_eq_zero.mp hx, Nat.zero_add]
    rfl
  | succ c1 ih =>
    intro x hx
    have hL : L ≤ x.length := by
      have : (c1 + 1) * L = c1 * L + L := by ring
      omega
    have hd : (x.drop L).length = c1 * L := by
      rw [List.length_drop, hx]
      have : (c1 + 1) * L = c1 * L + L := by ring
      omega
    have e : c1 + 1 + c2 = (c1 + c2) + 1 := by omega
    rw [e, mapBlocks, mapBlocks, List.take_append_of_le_length hL,
      List.drop_append_of_le_length hL, ih _ hd, List.append_assoc]

theorem mapBlocks_congr {F : Type} (L : Nat) (f g : List F → List F)
    (hfg : ∀ b, b.length = L → f b = g b) :
    ∀ (c : Nat) (a : List F), c * L ≤ a.length → mapBlocks L f c a = mapBlocks L g c a := by
  intro c
  induction c with
  | zero => intro a _; rfl
  | succ c ih =>
    intro a ha
    have hL : L ≤ a.length := by
      have : (c + 1) * L = c * L + L := by ring
      omega
    have h1 : (a.take L).length = L := by rw [List.length_take]; omega
    have h2 : c * L ≤ (a.drop L).length := by
      rw [List.length_drop]
      have : (c + 1) * L = c * L + L := by ring
      omega
    rw [mapBlocks, mapBlocks, hfg _ h1, ih _ h2]

theorem mapBlocks_id {F : Type} (L : Nat) :
    ∀ (c : Nat) (a : List F), mapBlocks L (fun b => b) c a = a := by
  intro c
  induction c with
  | zero => intro a; rfl
  | succ c ih =>
    intro a
    rw [mapBlocks, ih, List.take_append_drop]

theorem take_append_len {F : Type} (P M : List F) (L n : Nat) (h : P.length = L) :
    (P ++ M).take (L + n) = P ++ M.take n := by
  subst h
  exact List.take_append _

theorem drop_append_len {F : Type} (P M : List F) (L n : Nat) (h : P.length = L) :
    (P ++ M).drop (L + n) = M.drop n := by
  subst h
  exact List.drop_append _

/-- Processing one more block: block number t of the list is replaced by its image. -/
theorem mapBlocks_snoc {F : Type} (L : Nat) (f : List F → List F)
    (hf : ∀ b, b.length = L → (f b).length = L) :
    ∀ (t : Nat) (a : List F), (t + 1) * L ≤ a.length →
      mapBlocks L f (t + 1) a
        = (mapBlocks L f t a).take (t * L)
            ++ f (((mapBlocks L f t a).drop (t * L)).take L)
            ++ (mapBlocks L f t a).drop (t * L + L) := by
  intro t
  induction t with
  | zero =>
    intro a _
    simp only [mapBlocks, Nat.zero_mul, List.take_zero, List.drop_zero, List.nil_append,
      Nat.zero_add]
  | succ t ih =>
    intro a ha
    have e1 : (t + 1 + 1) * L = (t + 1) * L + L := by ring
    have hL : L ≤ a.length := by
      have : 0 ≤ (t + 1) * L := Nat.zero_le _
      omega
    have h1 : (a.take L).length = L := by rw [List.length_take]; omega
    have h2 : (t + 1) * L ≤ (a.drop L).length := by
      rw [List.length_drop]; omega
    have hfl : (f (a.take L)).length = L := hf _ h1
    have e2 : (t + 1) * L = L + t * L := by ring
    have e3 : (t + 1) * L + L = L + (t * L + L) := by ring
    have hM : mapBlocks L f (t + 1) a = f (a.take L) ++ mapBlocks L f t (a.drop L) := rfl
    have hM2 : mapBlocks L f (t + 1 + 1) a
        = f (a.take L) ++ mapBlocks L f (t + 1) (a.drop L) := rfl
    rw [hM2, ih _ h2, hM, e3, e2, take_append_len _ _ L _ hfl, drop_append_len _ _ L _ hfl,
      drop_append_len _ _ L _ hfl]
    simp only [List.append_assoc]

/-- A loop that replaces block `nn` of the slice by its image under `f`, for `nn` from 0 to
`c - 1`, computes `mapBlocks`. -/
theorem blocks_loop {F : Type} (L : Nat) (f : List F → List F)
    (hf : ∀ b, b.length = L → (f b).length = L) (step : List F → Nat → List F) (c : Nat)
    (a : List F) (ha : c * L ≤ a.length)
    (hstep : ∀ (cur : List F) (t : Nat), t < c → cur.length = a.length →
      step cur t = cur.take (t * L) ++ f ((cur.drop (t * L)).take L) ++ cur.drop (t * L + L)) :
    (List.range c).foldl step a = mapBlocks L f c a := by
  have key := foldl_range_induction step
    (fun t cur => t ≤ c → cur = mapBlocks L f t a) c a (fun _ => rfl)
    (by
      intro t cur ht hcur _
      have hc := hcur (by omega)
      have hle : (t + 1) * L ≤ a.length :=
        le_trans (Nat.mul_le_mul_right L (by omega)) ha
      have hlen : cur.length = a.length := by
        rw [hc]
        exact mapBlocks_length L f hf t a (le_trans (Nat.mul_le_mul_right L (by omega)) hle)
      rw [hstep cur t ht hlen, mapBlocks_snoc L f hf t a hle, hc])
  exact key (le_refl c)

end fft

namespace fft

open Curve

theorem difBlock_length_eq {F : Type} [Field F] (tws : List F) (m : Nat) (b : List F)
    (hb : b.length = 2 * m) : (difBlock tws b).length = 2 * m := by
  rw [difBlock_length, hb]; omega

/-- One stage of the first loop of `difFFT` over `nb` blocks of length `2m`. -/
theorem difStage_loop {F : Type} [Field F] (tw : List (List F)) (s m nb : Nat) (a : List F)
    (ha : nb * (2 * m) ≤ a.length) :
    (List.range nb).foldl (fun a nn =>
        (List.range (2 * m - m)).foldl (difButterfly tw s ((nn <<< 1) * m) m) a) a
      = mapBlocks (2 * m) (difBlock (tw.getD s [])) nb a := by
  apply blocks_loop (2 * m) (difBlock (tw.getD s [])) (difBlock_length_eq _ m) _ nb a ha
  intro cur t ht hlen
  have e1 : 2 * m - m = m := by omega
  have e2 : (t <<< 1) * m = t * (2 * m) := by
    rw [Nat.shiftLeft_eq]; ring
  have hle : (t + 1) * (2 * m) ≤ a.length :=
    le_trans (Nat.mul_le_mul_right _ (by omega)) ha
  rw [e1, e2, difButterfly_block tw s (t * (2 * m)) m cur (by
    rw [hlen]
    have : (t + 1) * (2 * m) = t * (2 * m) + 2 * m := by ring
    omega)]

/-- One stage of the worker of `difFFT` over `nb` blocks of length `2m`. -/
theorem difStage_loop_worker {F : Type} [Field F] (tw : List (List F)) (s m nb : Nat)
    (a : List F) (ha : nb * (2 * m) ≤ a.length) (hm : 0 < m)
    (h1 : (tw.getD s []).getD 0 0 = 1) :
    (List.range nb).foldl (fun a nn =>
        (List.range' 1 (2 * m - m - 1)).foldl (difButterfly tw s ((nn <<< 1) * m) m)
          (difButterflyZero ((nn <<< 1) * m) m a)) a
      = mapBlocks (2 * m) (difBlock (tw.getD s [])) nb a := by
  apply blocks_loop (2 * m) (difBlock (tw.getD s [])) (difBlock_length_eq _ m) _ nb a ha
  intro cur t ht hlen
  have e2 : (t <<< 1) * m = t * (2 * m) := by
    rw [Nat.shiftLeft_eq]; ring
  have hle : (t + 1) * (2 * m) ≤ a.length :=
    le_trans (Nat.mul_le_mul_right _ (by omega)) ha
  rw [e2, difButterfly_block_worker tw s (t * (2 * m)) m cur (by
    rw [hlen]
    have : (t + 1) * (2 * m) = t * (2 * m) + 2 * m := by ring
    omega) hm h1]

theorem two_pow_split (r j : Nat) (hj : j ≤ r) : 2 ^ j * 2 ^ (r - j) = 2 ^ r := by
  rw [← pow_add]; congr 1; omega

theorem difLevels_length {F : Type} [Field F] (tw : List (List F)) (s r : Nat) (b : List F)
    (hb : b.length = 2 ^ r) :
    ∀ j, j ≤ r → (difLevels tw j s r b).length = 2 ^ r := by
  intro j
  induction j with
  | zero => intro _; exact hb
  | succ j ih =>
    intro hj
    have hl := ih (by omega)
    have h2 : 2 ^ (r - j) = 2 * 2 ^ (r - j - 1) := by
      rw [← pow_succ']; congr 1; omega
    rw [difLevels, mapBlocks_length _ _ (by
      intro b' hb'
      rw [h2] at hb' ⊢
      exact difBlock_length_eq _ _ _ hb') _ _ (by rw [hl, two_pow_split r j (by omega)]), hl]

/-- The stages one after the other on a list are the stages on the two halves of its image
under the first stage. -/
theorem difLevels_split {F : Type} [Field F] (tw : List (List F)) (s r : Nat) (b : List F)
    (hb : b.length = 2 ^ (r + 1)) :
    ∀ j, j ≤ r →
      difLevels tw (j + 1) s (r + 1) b
        = difLevels tw j (s + 1) r ((difBlock (tw.getD s []) b).take (2 ^ r))
          ++ difLevels tw j (s + 1) r ((difBlock (tw.getD s []) b).drop (2 ^ r)) := by
  have hc : (difBlock (tw.getD s []) b).length = 2 * 2 ^ r :=
    difBlock_length_eq _ _ _ (by rw [hb, pow_succ]; ring)
  have hx : ((difBlock (tw.getD s []) b).take (2 ^ r)).length = 2 ^ r := by
    rw [List.length_take, hc]; omega
  have hy : ((difBlock (tw.getD s []) b).drop (2 ^ r)).length = 2 ^ r := by
    rw [List.length_drop, hc]; omega
  intro j
  induction j with
  | zero =>
    intro _
    simp only [difLevels, mapBlocks, Nat.sub_zero, Nat.add_zero, pow_zero]
    rw [List.take_of_length_le (by rw [hb]), List.drop_of_length_le (by rw [hb]),
      List.append_nil, List.take_append_drop]
  | succ j ih =>
    intro hj
    have hX := difLevels_length tw (s + 1) r _ hx j (by omega)
    rw [difLevels, ih (by omega)]
    have e1 : r + 1 - (j + 1) = r - j := by omega
    have e2 : (2 : Nat) ^ (j + 1) = 2 ^ j + 2 ^ j := by rw [pow_succ]; ring
    have e3 : s + (j + 1) = s + 1 + j := by omega
    rw [e1, e2, e3, mapBlocks_append _ _ _ _ _ _ (by rw [hX, two_pow_split r j (by omega)])]
    rfl

theorem difRec_zero {F : Type} [Field F] (tw : List (List F)) (s : Nat) :
    difRec tw 0 s = fun b => b := by
  funext b
  rfl

/-- The reference recursion is the first j stages over the whole list followed by the
recursion on each of the `2^j` blocks. -/
theorem difRec_eq_levels {F : Type} [Field F] (tw : List (List F)) :
    ∀ (r s : Nat) (b : List F) (j : Nat), b.length = 2 ^ r → j ≤ r →
      difRec tw r s b
        = mapBlocks (2 ^ (r - j)) (difRec tw (r - j) (s + j)) (2 ^ j)
            (difLevels tw j s r b) := by
  intro r
  induction r with
  | zero =>
    intro s b j hb hj
    have hj0 : j = 0 := by omega
    subst hj0
    simp only [difLevels, mapBlocks, Nat.sub_zero, pow_zero, Nat.add_zero]
    rw [List.take_of_length_le (by rw [hb]; norm_num), List.drop_of_length_le (by rw [hb]; norm_num),
      List.append_nil]
  | succ r ih =>
    intro s b j hb hj
    cases j with
    | zero =>
      simp only [difLevels, mapBlocks, Nat.sub_zero, pow_zero, Nat.add_zero]
      rw [List.take_of_length_le (by rw [hb]), List.drop_of_length_le (by rw [hb]),
        List.append_nil]
    | succ j =>
      have hc : (difBlock (tw.getD s []) b).length = 2 * 2 ^ r :=
        difBlock_length_eq _ _ _ (by rw [hb, pow_succ]; ring)
      have hx : ((difBlock (tw.getD s []) b).take (2 ^ r)).length = 2 ^ r := by
        rw [List.length_take, hc]; omega
      have hy : ((difBlock (tw.getD s []) b).drop (2 ^ r)).length = 2 ^ r := by
        rw [List.length_drop, hc]; omega
      have hX := difLevels_length tw (s + 1) r _ hx j (by omega)
      have e1 : r + 1 - (j + 1) = r - j := by omega
      have e2 : (2 : Nat) ^ (j + 1) = 2 ^ j + 2 ^ j := by rw [pow_succ]; ring
      have e3 : s + (j + 1) = s + 1 + j := by omega
      rw [difLevels_split tw s r b hb j (by omega), e1, e2, e3,
        mapBlocks_append _ _ _ _ _ _ (by rw [hX, two_pow_split r j (by omega)]),
        ← ih (s + 1) _ j hx (by omega), ← ih (s + 1) _ j hy (by omega)]
      rfl

/-- All the stages one after the other compute the reference recursion. -/
theorem difLevels_full {F : Type} [Field F] (tw : List (List F)) (r s : Nat) (b : List F)
    (hb : b.length = 2 ^ r) : difLevels tw r s r b = difRec tw r s b := by
  rw [difRec_eq_levels tw r s b r hb (le_refl r), Nat.sub_self, difRec_zero, mapBlocks_id]

end fft

namespace fft

open Curve

theorem foldl_range'_induction {α : Type} (f : α → Nat → α) (I : Nat → α → Prop) (s n : Nat)
    (init : α) (h0 : I 0 init) (hstep : ∀ i a, i < n → I i a → I (i + 1) (f a (s + i))) :
    I n ((List.range' s n).foldl f init) := by
  induction n with
  | zero => simpa using h0
  | succ n ih =>
    rw [List.range'_concat, List.foldl_append]
    simp only [List.foldl_cons, List.foldl_nil, Nat.one_mul]
    apply hstep n _ (Nat.lt_succ_self n)
    exact ih (fun m a hm => hstep m a (Nat.lt_succ_of_lt hm))

theorem one_shiftLeft_div (c i : Nat) : (1 <<< (c + i)) / 2 ^ c = 2 ^ i := by
  rw [Nat.shiftLeft_eq, Nat.one_mul, pow_add, Nat.mul_div_cancel_left _ (by positivity)]

theorem two_pow_shiftRight (n : Nat) (hn : 0 < n) : (2 ^ n) >>> 1 = 2 ^ (n - 1) := by
  rw [Nat.shiftRight_eq_div_pow, pow_one]
  obtain ⟨m, rfl⟩ : ∃ m, n = m + 1 := ⟨n - 1, by omega⟩
  rw [pow_succ, Nat.add_sub_cancel, Nat.mul_div_cancel _ (by norm_num)]

/-- The worker of `difFFT`, started at stage c on a sub-array of length `2^r` when the table
has `c + r` stages, runs the r stages one after the other. -/
theorem difWorker_eq_levels {F : Type} [Field F] (tw : List (List F)) (c r : Nat)
    (htw : tw.length = c + r) (h1 : ∀ s, s < tw.length → (tw.getD s []).getD 0 0 = 1)
    (sub : List F) (hsub : sub.length = 2 ^ r) :
    difWorker tw (2 ^ c) sub c = difLevels tw r c r sub := by
  unfold difWorker
  have e : tw.length - c = r := by omega
  rw [e]
  have key := foldl_range'_induction
    (fun (st : List F × Nat) _stage =>
      ((List.range ((1 <<< _stage) / 2 ^ c)).foldl (fun subfft nn =>
        (List.range' 1 (2 * (st.2 >>> 1) - st.2 >>> 1 - 1)).foldl
          (difButterfly tw _stage ((nn <<< 1) * (st.2 >>> 1)) (st.2 >>> 1))
          (difButterflyZero ((nn <<< 1) * (st.2 >>> 1)) (st.2 >>> 1) subfft)) st.1,
        st.2 >>> 1))
    (fun i st => i ≤ r → st = (difLevels tw i c r sub, 2 ^ (r - i))) c r (sub, sub.length)
    (fun _ => by rw [hsub]; rfl)
    (by
      intro i st hi hst _
      rw [hst (by omega)]
      simp only
      have hm : (2 ^ (r - i)) >>> 1 = 2 ^ (r - (i + 1)) := by
        rw [two_pow_shiftRight _ (by omega)]; congr 1
      have h2 : 2 * 2 ^ (r - (i + 1)) = 2 ^ (r - i) := by
        rw [← pow_succ']; congr 1; omega
      rw [hm, one_shiftLeft_div, difStage_loop_worker tw (c + i) (2 ^ (r - (i + 1))) (2 ^ i) _
        (by
          rw [difLevels_length tw c r sub hsub i (by omega), h2, two_pow_split r i (by omega)])
        (by positivity) (h1 (c + i) (by omega)), h2]
      rfl)
  exact congrArg Prod.fst (key (le_refl r))

/-- The first loop of `difFFT` with `2^c` CPUs on a slice of length `2^k`: it runs the stages
below `min c k` one after the other. -/
theorem difStages_eq_levels {F : Type} [Field F] (tw : List (List F)) (c k : Nat)
    (a : List F) (ha : a.length = 2 ^ k) :
    ∀ (count j : Nat), j + count = k → j ≤ min c k →
      difStages tw (2 ^ c) count j (2 ^ (k - j)) (difLevels tw j 0 k a)
        = (difLevels tw (min c k) 0 k a, min c k, 2 ^ (k - min c k)) := by
  intro count
  induction count with
  | zero =>
    intro j hj hje
    have : j = min c k := by omega
    rw [difStages, ← this]
  | succ count ih =>
    intro j hj hje
    rw [difStages]
    by_cases hb : 1 <<< j = 2 ^ c
    · rw [if_pos hb]
      have hjc : j = c := by
        rw [Nat.shiftLeft_eq, Nat.one_mul] at hb
        exact Nat.pow_right_injective (le_refl 2) hb
      have : min c k = j := by omega
      rw [this]
    · rw [if_neg hb]
      have hjc : j ≠ c := by
        intro h
        apply hb
        rw [h, Nat.shiftLeft_eq, Nat.one_mul]
      have hm : (2 ^ (k - j)) >>> 1 = 2 ^ (k - (j + 1)) := by
        rw [two_pow_shiftRight _ (by omega)]; congr 1
      have h2 : 2 * 2 ^ (k - (j + 1)) = 2 ^ (k - j) := by
        rw [← pow_succ']; congr 1; omega
      have h3 : 1 <<< j = 2 ^ j := by rw [Nat.shiftLeft_eq, Nat.one_mul]
      simp only
      rw [hm, h3, difStage_loop tw j (2 ^ (k - (j + 1))) (2 ^ j) _ (by
        rw [difLevels_length tw 0 k a ha j (by omega), h2, two_pow_split k j (by omega)]), h2]
      have hnext : mapBlocks (2 ^ (k - j)) (difBlock (tw.getD j [])) (2 ^ j)
          (difLevels tw j 0 k a) = difLevels tw (j + 1) 0 k a := by
        rw [difLevels, Nat.zero_add]
      rw [hnext]
      exact ih (j + 1) (by omega) (by omega)

end fft

namespace fft

open Curve

theorem difRec_length {F : Type} [Field F] (tw : List (List F)) :
    ∀ (r s : Nat) (a : List F), a.length = 2 ^ r → (difRec tw r s a).length = 2 ^ r := by
  intro r s a ha
  rw [← difLevels_full tw r s a ha]
  exact difLevels_length tw s r a ha r (le_refl r)

theorem drop_take_block {F : Type} (a : List F) (lo L : Nat) :
    (a.take (lo + L)).drop lo = (a.drop lo).take L := by
  rw [List.drop_take, Nat.add_sub_cancel_left]

theorem difWorker_nil {F : Type} [Field F] (tw : List (List F)) (nCpus : Nat) :
    difWorker tw nCpus ([] : List F) tw.length = [] := by
  unfold difWorker
  rw [Nat.sub_self]
  rfl

/-- The function `difFFT` computes the reference recursion for every number of CPUs (and it
does not read `stage` and `maxSplits`), when the slice has length `2^k`, the table has k
stages and the first twiddle of every stage is 1. -/
theorem difFFT_eq_rec {F : Type} [Field F] (tw : List (List F)) (k : Nat)
    (htw : tw.length = k) (h1 : ∀ s, s < tw.length → (tw.getD s []).getD 0 0 = 1)
    (a : List F) (ha : a.length = 2 ^ k) (stage : Nat) (maxSplits : Int) (numCPU : Nat) :
    difFFT a tw stage maxSplits numCPU = difRec tw k 0 a := by
  unfold difFFT
  simp only
  by_cases hk : k = 0
  · subst hk
    rw [if_pos (by rw [ha]; rfl)]
    rfl
  · have hn1 : a.length ≠ 1 := by
      rw [ha]
      intro h
      have : 2 ^ k = 2 ^ 0 := by rw [h]; rfl
      exact hk (Nat.pow_right_injective (le_refl 2) this)
    rw [if_neg hn1, htw]
    unfold NextPowerOfTwo
    generalize Nat.clog 2 numCPU = c
    have hst := difStages_eq_levels tw c k a ha k 0 (by omega) (by omega)
    rw [Nat.sub_zero] at hst
    have h0 : difLevels tw 0 0 k a = a := rfl
    rw [h0, ← ha] at hst
    rw [hst]
    simp only
    by_cases hck : c ≤ k
    · have hmin : min c k = c := by omega
      rw [hmin]
      have hlen := difLevels_length tw 0 k a ha c hck
      have hoff : (difLevels tw c 0 k a).length / 2 ^ c = 2 ^ (k - c) := by
        rw [hlen, ← two_pow_split k c hck, Nat.mul_div_cancel_left _ (by positivity)]
      rw [hoff]
      have hw : ∀ b : List F, b.length = 2 ^ (k - c) →
          difWorker tw (2 ^ c) b c = difRec tw (k - c) c b := by
        intro b hb
        rw [difWorker_eq_levels tw c (k - c) (by omega) h1 b hb, difLevels_full tw _ _ b hb]
      rw [blocks_loop (2 ^ (k - c)) (fun b => difWorker tw (2 ^ c) b c)
        (by
          intro b hb
          show (difWorker tw (2 ^ c) b c).length = 2 ^ (k - c)
          rw [hw b hb]
          exact difRec_length tw _ _ b hb)
        _ (2 ^ c) _ (by rw [hlen, two_pow_split k c hck])
        (by
          intro cur t _ _
          rw [drop_take_block])]
      rw [mapBlocks_congr _ _ (difRec tw (k - c) c) hw _ _ (by
        rw [hlen, two_pow_split k c hck])]
      have := difRec_eq_levels tw k 0 a c ha hck
      rw [Nat.zero_add] at this
      exact this.symm
    · have hmin : min c k = k := by omega
      rw [hmin]
      have hlen := difLevels_length tw 0 k a ha k (le_refl k)
      have hoff : (difLevels tw k 0 k a).length / 2 ^ c = 0 := by
        rw [hlen]
        exact Nat.div_eq_of_lt (Nat.pow_lt_pow_right (by norm_num) (by omega))
      rw [hoff]
      have key := foldl_range_induction
        (fun (a : List F) i =>
          a.take (i * 0) ++ difWorker tw (2 ^ c) ((a.take (i * 0 + 0)).drop (i * 0)) k
            ++ a.drop (i * 0 + 0))
        (fun _ cur => cur = difLevels tw k 0 k a) (2 ^ c) (difLevels tw k 0 k a) rfl
        (by
          intro i cur _ hcur
          simp only [Nat.mul_zero, Nat.add_zero, List.take_zero, List.drop_zero,
            List.nil_append]
          have hnil : difWorker tw (2 ^ c) ([] : List F) k = [] := by
            rw [← htw]; exact difWorker_nil tw (2 ^ c)
          have hd : List.drop 0 ([] : List F) = [] := rfl
          rw [hnil, List.nil_append, hcur])
      rw [key]
      exact difLevels_full tw k 0 a ha

end fft

namespace fft

open Curve

theorem getD_append_left_field {F : Type} [Field F] (A B : List F) (j : Nat)
    (hj : j < A.length) : (A ++ B).getD j 0 = A.getD j 0 :=
  List.getD_append _ _ _ _ hj

theorem getD_append_right_field {F : Type} [Field F] (A B : List F) (n j : Nat)
    (hA : A.length = n) : (A ++ B).getD (n + j) 0 = B.getD j 0 := by
  rw [List.getD_append_right _ _ _ _ (by omega), hA, Nat.add_sub_cancel_left]

/-- The two halves of the image of a block under `difBlock`. -/
theorem difBlock_halves {F : Type} [Field F] (tws b : List F) (m : Nat)
    (hb : b.length = 2 * m) :
    ((difBlock tws b).take m).length = m ∧ ((difBlock tws b).drop m).length = m ∧
    (∀ i < m, ((difBlock tws b).take m).getD i 0 = b.getD i 0 + b.getD (i + m) 0) ∧
    (∀ i < m, ((difBlock tws b).drop m).getD i 0
      = (b.getD i 0 - b.getD (i + m) 0) * tws.getD i 0) := by
  have hc := difBlock_length_eq tws m b hb
  refine ⟨by rw [List.length_take, hc]; omega, by rw [List.length_drop, hc]; omega, ?_, ?_⟩
  · intro i hi
    rw [getD_take_field _ _ _ hi, difBlock_getD tws b m hb i (by omega), if_pos hi]
  · intro i hi
    rw [getD_drop_field, difBlock_getD tws b m hb (m + i) (by omega), if_neg (by omega),
      Nat.add_sub_cancel_left, Nat.add_comm m i]

/-- The reference recursion computes the discrete Fourier transform in bit-reversed order. -/
theorem difRec_dft {F : Type} [Field F] (tw : List (List F)) :
    ∀ (r s : Nat) (W : F) (b : List F), b.length = 2 ^ r → W ^ (2 ^ r) = 1 →
      (0 < r → W ^ (2 ^ (r - 1)) = -1) →
      (∀ j < r, ∀ i < 2 ^ (r - 1 - j), (tw.getD (s + j) []).getD i 0 = W ^ (i * 2 ^ j)) →
      ∀ t < 2 ^ r, (difRec tw r s b).getD (revBits r t) 0 = dft W b t := by
  intro r
  induction r with
  | zero =>
    intro s W b hb _ _ _ t ht
    have ht0 : t = 0 := by simpa using ht
    subst ht0
    simp only [difRec, revBits, dft, hb, pow_zero, Finset.range_one, Finset.sum_singleton,
      Nat.mul_zero, mul_one]
  | succ r ih =>
    intro s W b hb hW hneg htw t ht
    have hb2 : b.length = 2 * 2 ^ r := by rw [hb, pow_succ]; ring
    obtain ⟨hxl, hyl, hx, hy⟩ := difBlock_halves (tw.getD s []) b (2 ^ r) hb2
    have hWm : W ^ (2 ^ r) = -1 := by
      have := hneg (by omega)
      rwa [Nat.add_sub_cancel] at this
    have hW2 : (W ^ 2) ^ (2 ^ r) = 1 := by
      rw [← pow_mul, ← pow_succ']; exact hW
    have hneg2 : 0 < r → (W ^ 2) ^ (2 ^ (r - 1)) = -1 := by
      intro hr
      rw [← pow_mul, ← pow_succ', show r - 1 + 1 = r by omega]
      exact hWm
    have htw2 : ∀ j < r, ∀ i < 2 ^ (r - 1 - j),
        (tw.getD (s + 1 + j) []).getD i 0 = (W ^ 2) ^ (i * 2 ^ j) := by
      intro j hj i hi
      have := htw (j + 1) (by omega) i (by
        have e : r + 1 - 1 - (j + 1) = r - 1 - j := by omega
        rw [e]; exact hi)
      rw [show s + 1 + j = s + (j + 1) by omega, this, ← pow_mul]
      congr 1
      rw [pow_succ]; ring
    have htw0 : ∀ i < 2 ^ r, (tw.getD s []).getD i 0 = W ^ i := by
      intro i hi
      have := htw 0 (by omega) i (by simpa using hi)
      simpa using this
    have hX := difRec_length tw r (s + 1) _ hxl
    have ht' : t / 2 < 2 ^ r := by rw [pow_succ] at ht; omega
    have hte : t = 2 * (t / 2) + t % 2 := by omega
    have hlow := revBits_low r (t / 2) (t % 2) (Nat.mod_lt _ (by norm_num))
    rw [← hte] at hlow
    have hrl := revBits_lt r (t / 2)
    have hsplit : dft W b t
        = ∑ i in Finset.range (2 ^ r),
            (b.getD i 0 * W ^ (i * t) + b.getD (i + 2 ^ r) 0 * W ^ ((i + 2 ^ r) * t)) := by
      unfold dft
      rw [hb2, two_mul, Finset.sum_range_add, Finset.sum_add_distrib]
      congr 1
      apply Finset.sum_congr rfl
      intro i _
      rw [Nat.add_comm (2 ^ r) i]
    rw [difRec, hlow, hsplit]
    generalize t / 2 = q at ht' hte hrl ⊢
    rcases Nat.mod_two_eq_zero_or_one t with he | he
    · rw [he, Nat.zero_mul, Nat.zero_add, getD_append_left_field _ _ _ (by rw [hX]; exact hrl),
        ih (s + 1) (W ^ 2) _ hxl hW2 hneg2 htw2 _ ht']
      rw [he, Nat.add_zero] at hte
      subst hte
      unfold dft
      rw [hxl]
      apply Finset.sum_congr rfl
      intro i hi
      rw [Finset.mem_range] at hi
      have p1 : (W ^ 2) ^ (i * q) = W ^ (i * (2 * q)) := by
        rw [← pow_mul]; congr 1; ring
      have p2 : W ^ ((i + 2 ^ r) * (2 * q)) = W ^ (i * (2 * q)) := by
        have : (i + 2 ^ r) * (2 * q) = i * (2 * q) + 2 ^ (r + 1) * q := by
          rw [pow_succ]; ring
        rw [this, pow_add, pow_mul W (2 ^ (r + 1)) q, hW, one_pow, mul_one]
      rw [hx i hi, p1, p2]
      ring
    · rw [he, Nat.one_mul, getD_append_right_field _ _ _ _ hX,
        ih (s + 1) (W ^ 2) _ hyl hW2 hneg2 htw2 _ ht']
      rw [he] at hte
      subst hte
      unfold dft
      rw [hyl]
      apply Finset.sum_congr rfl
      intro i hi
      rw [Finset.mem_range] at hi
      have p1 : W ^ i * (W ^ 2) ^ (i * q) = W ^ (i * (2 * q + 1)) := by
        rw [← pow_mul, ← pow_add]; congr 1; ring
      have p2 : W ^ ((i + 2 ^ r) * (2 * q + 1)) = -W ^ (i * (2 * q + 1)) := by
        have : (i + 2 ^ r) * (2 * q + 1) = i * (2 * q + 1) + (2 ^ (r + 1) * q + 2 ^ r) := by
          rw [pow_succ]; ring
        rw [this, pow_add, pow_add, pow_mul W (2 ^ (r + 1)) q, hW, one_pow, one_mul, hWm]
        ring
      rw [hy i hi, htw0 i hi, p2, ← p1]
      ring

theorem getD_map_mul {F : Type} [Field F] (l : List F) (c : F) (i : Nat) :
    (l.map (fun v => v * c)).getD i 0 = l.getD i 0 * c := by
  rw [List.getD_eq_getElem?_getD, List.getD_eq_getElem?_getD, List.getElem?_map]
  cases l[i]? with
  | none => simp
  | some v => rfl

/-- The decimation in time with the inverse twiddles undoes the decimation in frequency, up to
the factor `2^r`. -/
theorem ditRec_difRec {F : Type} [Field F] (tw twInv : List (List F)) :
    ∀ (r s : Nat) (b : List F), b.length = 2 ^ r →
      (∀ j < r, ∀ i < 2 ^ (r - 1 - j),
        (tw.getD (s + j) []).getD i 0 * (twInv.getD (s + j) []).getD i 0 = 1) →
      ditRec twInv r s (difRec tw r s b) = b.map (fun v => v * (2 : F) ^ r) := by
  intro r
  induction r with
  | zero =>
    intro s b _ _
    simp only [ditRec, difRec, pow_zero, mul_one, List.map_id']
  | succ r ih =>
    intro s b hb hinv
    have hb2 : b.length = 2 * 2 ^ r := by rw [hb, pow_succ]; ring
    obtain ⟨hxl, hyl, hx, hy⟩ := difBlock_halves (tw.getD s []) b (2 ^ r) hb2
    have hinv2 : ∀ j < r, ∀ i < 2 ^ (r - 1 - j),
        (tw.getD (s + 1 + j) []).getD i 0 * (twInv.getD (s + 1 + j) []).getD i 0 = 1 := by
      intro j hj i hi
      have := hinv (j + 1) (by omega) i (by
        have e : r + 1 - 1 - (j + 1) = r - 1 - j := by omega
        rw [e]; exact hi)
      rwa [show s + (j + 1) = s + 1 + j by omega] at this
    have hinv0 : ∀ i < 2 ^ r, (tw.getD s []).getD i 0 * (twInv.getD s []).getD i 0 = 1 := by
      intro i hi
      have := hinv 0 (by omega) i (by simpa using hi)
      simpa using this
    have hX := difRec_length tw r (s + 1) _ hxl
    rw [difRec, ditRec, List.take_left' hX, List.drop_left' hX, ih (s + 1) _ hxl hinv2,
      ih (s + 1) _ hyl hinv2]
    have hl : (List.map (fun v => v * (2 : F) ^ r)
          ((difBlock (tw.getD s []) b).take (2 ^ r))
        ++ List.map (fun v => v * (2 : F) ^ r)
          ((difBlock (tw.getD s []) b).drop (2 ^ r))).length = 2 * 2 ^ r := by
      rw [List.length_append, List.length_map, List.length_map, hxl, hyl]; ring
    have hml : (List.map (fun v => v * (2 : F) ^ r)
        ((difBlock (tw.getD s []) b).take (2 ^ r))).length = 2 ^ r := by
      rw [List.length_map, hxl]
    apply ext_getD_field
    · rw [ditBlock_length, hl, List.length_map, hb2]; omega
    · intro i hi
      rw [ditBlock_length, hl] at hi
      have hi' : i < 2 * 2 ^ r := by omega
      rw [ditBlock_getD _ _ (2 ^ r) hl i hi', getD_map_mul]
      by_cases c1 : i < 2 ^ r
      · rw [if_pos c1, getD_append_left_field _ _ _ (by rw [hml]; exact c1),
          Nat.add_comm i (2 ^ r), getD_append_right_field _ _ _ _ hml, getD_map_mul,
          getD_map_mul, hx i c1, hy i c1]
        have h := hinv0 i c1
        rw [pow_succ]
        linear_combination
          ((b.getD i 0 - b.getD (i + 2 ^ r) 0) * (2 : F) ^ r) * h
      · obtain ⟨i', rfl⟩ : ∃ i', i = 2 ^ r + i' := ⟨i - 2 ^ r, by omega⟩
        have c2 : i' < 2 ^ r := by omega
        rw [if_neg c1, Nat.add_sub_cancel_left,
          getD_append_left_field _ _ _ (by rw [hml]; exact c2),
          getD_append_right_field _ _ _ _ hml, getD_map_mul, getD_map_mul, hx _ c2, hy _ c2,
          Nat.add_comm (2 ^ r) i']
        have h := hinv0 _ c2
        rw [pow_succ]
        linear_combination
          (-(b.getD i' 0 - b.getD (i' + 2 ^ r) 0) * (2 : F) ^ r) * h

end fft

namespace fft

open Curve

/-- The loop `a[i] *= f(i)` over the whole slice. -/
theorem scaleBy_getD {F : Type} [Field F] (a : List F) (f : Nat → F) :
    (scaleBy a f).length = a.length ∧
      ∀ x < a.length, (scaleBy a f).getD x 0 = a.getD x 0 * f x := by
  unfold scaleBy
  have key := foldl_range_induction (fun (a : List F) i => a.set i (a.getD i 0 * f i))
    (fun t cur => cur.length = a.length ∧
      ∀ x, cur.getD x 0 = if x < t then a.getD x 0 * f x else a.getD x 0)
    a.length a ⟨rfl, fun x => by simp⟩
    (by
      intro t cur ht ⟨hlen, hget⟩
      refine ⟨by rw [List.length_set, hlen], fun x => ?_⟩
      by_cases hx : x = t
      · subst hx
        rw [getD_set_eq _ _ _ _ (by rw [hlen]; exact ht), hget x, if_neg (by omega),
          if_pos (by omega)]
      · rw [getD_set_ne _ _ _ _ _ (Ne.symm hx), hget x]
        by_cases c : x < t
        · rw [if_pos c, if_pos (by omega)]
        · rw [if_neg c, if_neg (by omega)])
  exact ⟨key.1, fun x hx => by rw [key.2 x, if_pos hx]⟩

theorem two_pow_ne_zero_of_root {F : Type} [Field F] (k : Nat) (w : F)
    (hw : IsPrimitiveRoot w (2 ^ k)) : (2 : F) ^ k ≠ 0 := by
  cases k with
  | zero => simp
  | succ k =>
    apply pow_ne_zero
    intro h2
    have h1 : w ^ (2 ^ k) ≠ 1 :=
      hw.pow_ne_one_of_pos_of_lt (by positivity) (Nat.pow_lt_pow_right (by norm_num) (by omega))
    have hsq : w ^ (2 ^ k) * w ^ (2 ^ k) = 1 := by
      rw [← pow_add, ← two_mul, ← pow_succ']
      exact hw.pow_eq_one
    rcases mul_self_eq_one_iff.mp hsq with h | h
    · exact h1 h
    · apply h1
      rw [h]
      have : (-1 : F) = 1 - 2 := by ring
      rw [this, h2, sub_zero]

theorem root_half_neg_one {F : Type} [Field F] (k : Nat) (w : F)
    (hw : IsPrimitiveRoot w (2 ^ k)) (hk : 0 < k) : w ^ (2 ^ (k - 1)) = -1 := by
  obtain ⟨k', rfl⟩ : ∃ k', k = k' + 1 := ⟨k - 1, by omega⟩
  rw [Nat.add_sub_cancel]
  have h1 : w ^ (2 ^ k') ≠ 1 :=
    hw.pow_ne_one_of_pos_of_lt (by positivity) (Nat.pow_lt_pow_right (by norm_num) (by omega))
  have hsq : w ^ (2 ^ k') * w ^ (2 ^ k') = 1 := by
    rw [← pow_add, ← two_mul, ← pow_succ']
    exact hw.pow_eq_one
  rcases mul_self_eq_one_iff.mp hsq with h | h
  · exact absurd h h1
  · exact h

end fft

section FourierTransform

open fft

/-- C28: let the domain have cardinality n = 2^k: k stages of twiddles with
`Twiddles[s][i] = w^(i*2^s)` for a primitive n-th root of unity w, `TwiddlesInv` built likewise
from `w⁻¹`, and `CardinalityInv = 1/n`. For every slice a of length n and every number of
CPUs, `FFT(a, DIF, 0)` returns a slice A of length n that holds the discrete Fourier transform
of a in bit-reversed order (`A[rev_k(j)] = sum_i a[i] * w^(i*j)`), and `FFTInverse(A, DIT, 0)`
returns and restores a exactly. -/
theorem FFT_FFTInverse_roundtrip {F : Type} [Field F] (domain : Domain F) (k : Nat) (w : F)
    (hw : IsPrimitiveRoot w (2 ^ k)) (hlen : domain.Twiddles.length = k)
    (hlenInv : domain.TwiddlesInv.length = k)
    (htw : ∀ s < k, ∀ i < 2 ^ (k - 1 - s), (domain.Twiddles.getD s []).getD i 0 = w ^ (i * 2 ^ s))
    (htwInv : ∀ s < k, ∀ i < 2 ^ (k - 1 - s),
      (domain.TwiddlesInv.getD s []).getD i 0 = w⁻¹ ^ (i * 2 ^ s))
    (hCI : domain.CardinalityInv = (((2 ^ k : Nat) : F))⁻¹) (numCPU numCPU' : Nat)
    (a : List F) (ha : a.length = 2 ^ k) :
    ∃ A : List F, domain.FFT numCPU a Decimation.DIF 0 = some A ∧ A.length = 2 ^ k ∧
      (∀ j < 2 ^ k, A.getD (revBits k j) 0 = dft w a j) ∧
      domain.FFTInverse numCPU' A Decimation.DIT 0 = some a := by
  have hw0 : w ≠ 0 := by
    intro h
    have := hw.pow_eq_one
    rw [h, zero_pow (by positivity)] at this
    exact zero_ne_one this
  have h1 : ∀ s, s < domain.Twiddles.length → (domain.Twiddles.getD s []).getD 0 0 = 1 := by
    intro s hs
    rw [htw s (by omega) 0 (by positivity), Nat.zero_mul, pow_zero]
  have h1' : ∀ s, s < domain.TwiddlesInv.length →
      (domain.TwiddlesInv.getD s []).getD 0 0 = 1 := by
    intro s hs
    rw [htwInv s (by omega) 0 (by positivity), Nat.zero_mul, pow_zero]
  refine ⟨difRec domain.Twiddles k 0 a, ?_, difRec_length _ k 0 a ha, ?_, ?_⟩
  · unfold Domain.FFT
    simp only [ne_eq, not_true_eq_false, if_false]
    rw [difFFT_eq_rec domain.Twiddles k hlen h1 a ha]
  · exact difRec_dft domain.Twiddles k 0 w a ha hw.pow_eq_one (root_half_neg_one k w hw)
      (fun j hj i hi => by rw [Nat.zero_add]; exact htw j hj i hi)
  · have hA := difRec_length domain.Twiddles k 0 a ha
    unfold Domain.FFTInverse
    simp only
    rw [ditFFT_eq_rec domain.TwiddlesInv _ h1' k _ 0 _ hA (by rw [hA]; exact Nat.lt_two_pow k)
      (by omega)]
    simp only [if_true]
    rw [ditRec_difRec domain.Twiddles domain.TwiddlesInv k 0 a ha (by
      intro j hj i hi
      rw [Nat.zero_add, htw j hj i hi, htwInv j hj i hi, inv_pow,
        mul_inv_cancel₀ (pow_ne_zero _ hw0)])]
    congr 1
    obtain ⟨hsl, hsg⟩ := scaleBy_getD (a.map (fun v => v * (2 : F) ^ k))
      (fun _ => domain.CardinalityInv)
    apply ext_getD_field
    · rw [hsl, List.length_map]
    · intro x hx
      rw [hsl] at hx
      rw [hsg x hx, getD_map_mul, hCI]
      have h2 := two_pow_ne_zero_of_root k w hw
      push_cast
      field_simp

theorem FFT_FFTInverse_roundtrip_witness :
    ∃ A : List (ZMod 13),
      (⟨10, [[1, 5], [1]], [[1, 8], [1]], [], [], [], [], 0⟩ : Domain (ZMod 13)).FFT 4
        [3, 1, 4, 1] Decimation.DIF 0 = some A ∧ A.length = 2 ^ 2 ∧
      (∀ j < 2 ^ 2, A.getD (revBits 2 j) 0 = dft 5 [3, 1, 4, 1] j) ∧
      (⟨10, [[1, 5], [1]], [[1, 8], [1]], [], [], [], [], 0⟩ : Domain (ZMod 13)).FFTInverse 1
        A Decimation.DIT 0 = some [3, 1, 4, 1] :=
  FFT_FFTInverse_roundtrip ⟨10, [[1, 5], [1]], [[1, 8], [1]], [], [], [], [], 0⟩ 2 5
    (IsPrimitiveRoot.mk_of_lt 5 (by norm_num) (by decide)
      (by intro l h0 hl; interval_cases l <;> decide))
    rfl rfl (by decide)
    (by
      have e : (5 : ZMod 13)⁻¹ = 8 := inv_eq_of_mul_eq_one_left (by decide)
      rw [e]
      decide)
    (eq_inv_of_mul_eq_one_left (by decide)) 4 1 [3, 1, 4, 1] rfl

end FourierTransform

section BitLists

open bn256

set_option maxRecDepth 100000 in
/-- C31: for the scalar bit length L = 256 (`sizeScalar`) and every window width c in
{8, 11, 13, 14, 16}, `MultiExp` builds K = ceil(L/c) bit lists (K is the value `nbChunks` of
the source) whose concatenation in chunk order is exactly L-1, L-2, ..., 1, 0; every list has
length c except, when c does not divide L, the last one, which has length L mod c. Filling the
lists never indexes outside a list: the construction returns (an index out of range is the
result `none`). -/
theorem bitsForTask_layout (c : Nat) (hc : c = 8 ∨ c = 11 ∨ c = 13 ∨ c = 14 ∨ c = 16) :
    sizeScalar = 256 ∧
    ∃ bits : List (List Int), bitsForTaskOf sizeScalar c = some bits ∧
      bits.length = (sizeScalar + c - 1) / c ∧
      bits.length = (if sizeScalar % c = 0 then sizeScalar / c else sizeScalar / c + 1) ∧
      bits.flatten = (List.range sizeScalar).reverse.map (fun q => (q : Int)) ∧
      (∀ i, i < bits.length →
        (bits.getD i []).length
          = if sizeScalar % c ≠ 0 ∧ i = bits.length - 1 then sizeScalar % c else c) := by
  refine ⟨rfl, expectedBits c, bitsForTaskOf_eq c hc, ?_⟩
  rcases hc with rfl | rfl | rfl | rfl | rfl <;> decide

theorem bitsForTask_layout_witness :
    sizeScalar = 256 ∧
    ∃ bits : List (List Int), bitsForTaskOf sizeScalar 11 = some bits ∧
      bits.length = (sizeScalar + 11 - 1) / 11 ∧
      bits.length = (if sizeScalar % 11 = 0 then sizeScalar / 11 else sizeScalar / 11 + 1) ∧
      bits.flatten = (List.range sizeScalar).reverse.map (fun q => (q : Int)) ∧
      (∀ i, i < bits.length →
        (bits.getD i []).length
          = if sizeScalar % 11 ≠ 0 ∧ i = bits.length - 1 then sizeScalar % 11 else 11) :=
  bitsForTask_layout 11 (by decide)

end BitLists

namespace bn256

open Curve

/-- The value `accumulateIndices` computes from the limbs of a scalar is the integer formed by
the bits of the scalar at the listed positions, read most significant first. -/
theorem chunkDigit_eq_bitsValue {e : Element} (he : elementWF e) (bits : List Int)
    (hbits : ∀ q ∈ bits, 0 ≤ q ∧ q < 256) :
    chunkDigit bits e = bitsValue bits (elementValue e) := by
  unfold chunkDigit bitsValue
  apply List.foldl_ext
  intro val q hq
  obtain ⟨h0, h1⟩ := hbits q hq
  obtain ⟨m, rfl⟩ := Int.eq_ofNat_of_zero_le h0
  have c1 : (((m : Nat) : Int) / 64).toNat = m / 64 := by omega
  have c2 : (((m : Nat) : Int) % 64).toNat = m % 64 := by omega
  simp only [c1, c2, Int.toNat_ofNat]
  rw [element_bit he m (by omega), Nat.shiftLeft_eq, pow_one, mul_comm]

/-- The positions of the bit list of chunk `t` are bit positions of the scalar. -/
theorem expectedBits_positions (c t : Nat) (ht : t < nbChunksOf c) :
    ∀ q ∈ (expectedBits c).getD t [], 0 ≤ q ∧ q < 256 := by
  intro q hq
  rw [expectedBits_getD c t ht, List.mem_map] at hq
  obtain ⟨j, _, rfl⟩ := hq
  omega

/-- Stage A on one chunk appends to every list of the chunk the indices of the scalars with
that digit, in increasing order, and leaves the other lists alone. -/
theorem accumulateIndicesTask_append (bits : List (List Int)) (scalars : List Element)
    (n mask K : Nat) (indices : List (List Nat)) (task : Nat) (htask : task < K)
    (hlen : indices.length = mask * K)
    (hdig : ∀ i < n, chunkDigit (bits.getD task []) (scalars.getD i []) ≤ mask) :
    (accumulateIndicesTask bits scalars n mask indices task).length = mask * K ∧
      (∀ j < mask, (accumulateIndicesTask bits scalars n mask indices task).getD
        (task * mask + j) []
          = indices.getD (task * mask + j) [] ++ slotList bits scalars n task j) ∧
      (∀ p, (∀ j < mask, p ≠ task * mask + j) →
        (accumulateIndicesTask bits scalars n mask indices task).getD p []
          = indices.getD p []) := by
  unfold accumulateIndicesTask slotList
  apply foldl_range_induction (accumulateIndicesPoint bits scalars mask task)
    (fun m (r : List (List Nat)) => r.length = mask * K ∧
      (∀ j < mask, r.getD (task * mask + j) [] = indices.getD (task * mask + j) [] ++
        (List.range m).filter
          (fun i => chunkDigit (bits.getD task []) (scalars.getD i []) = j + 1)) ∧
      (∀ p, (∀ j < mask, p ≠ task * mask + j) → r.getD p [] = indices.getD p []))
  · exact ⟨hlen, by simp, fun _ _ => rfl⟩
  · intro m r hm ⟨hl, hslots, hother⟩
    unfold accumulateIndicesPoint
    simp only
    have hd := hdig m hm
    generalize hval : chunkDigit (bits.getD task []) (scalars.getD m []) = val at hd
    by_cases h0 : val = 0
    · rw [if_neg (by simpa using h0)]
      refine ⟨hl, ?_, hother⟩
      intro j hj
      rw [filter_range_succ, hslots j hj, hval, if_neg (by omega), List.append_nil]
    · rw [if_pos h0, slot_pos task mask val h0]
      have hv : val - 1 < mask := by omega
      refine ⟨by rw [List.length_set]; exact hl, ?_, ?_⟩
      · intro j hj
        rw [filter_range_succ]
        by_cases hjv : j = val - 1
        · subst hjv
          rw [getD_set_eq _ _ _ _ (by rw [hl]; exact slot_lt htask hv), hslots _ hv, hval,
            if_pos (by omega), List.append_assoc]
        · have hne : task * mask + (val - 1) ≠ task * mask + j := by omega
          rw [getD_set_ne _ _ _ _ _ hne, hslots j hj, hval, if_neg (by omega),
            List.append_nil]
      · intro p hp
        rw [getD_set_ne _ _ _ _ _ (Ne.symm (hp _ hv))]
        exact hother p hp

end bn256

section IndexBucketing

open bn256

/-- C32: stage A on chunk k (window width c in {8, 11, 13, 14, 16}, scalars of four 64-bit
limbs, `indices` of length (2^c - 1) * K). The value computed for scalar i is the integer
formed by the bits of s_i at the positions of chunk k read most significant first, and is below
2^c. For every digit d in [1, 2^c) the list indices[k*(2^c - 1) + (d - 1)] receives, appended
to what it held, the strictly increasing list of exactly those i in [0, n) whose chunk-k digit
equals d, so that a list that was empty (as every list is when its chunk is taken up) is that
list; scalars whose digit is 0 are appended to no list of chunk k, and no list of another chunk
is modified. -/
theorem accumulateIndices_digit_lists (c : Nat)
    (hc : c = 8 ∨ c = 11 ∨ c = 13 ∨ c = 14 ∨ c = 16) (scalars : List Element) (n : Nat)
    (hS : ∀ i < n, elementWF (scalars.getD i [])) (indices : List (List Nat))
    (hlen : indices.length = (2 ^ c - 1) * nbChunksOf c) (k : Nat) (hk : k < nbChunksOf c) :
    (∀ i < n,
      chunkDigit ((expectedBits c).getD k []) (scalars.getD i [])
          = bitsValue ((expectedBits c).getD k []) (elementValue (scalars.getD i [])) ∧
        bitsValue ((expectedBits c).getD k []) (elementValue (scalars.getD i [])) < 2 ^ c) ∧
    (∀ d, 1 ≤ d → d < 2 ^ c →
      (accumulateIndicesTask (expectedBits c) scalars n (2 ^ c - 1) indices k).getD
          (k * (2 ^ c - 1) + (d - 1)) []
        = indices.getD (k * (2 ^ c - 1) + (d - 1)) [] ++ (List.range n).filter
            (fun i => decide (bitsValue ((expectedBits c).getD k [])
              (elementValue (scalars.getD i [])) = d)) ∧
      (indices.getD (k * (2 ^ c - 1) + (d - 1)) [] = [] →
        (accumulateIndicesTask (expectedBits c) scalars n (2 ^ c - 1) indices k).getD
            (k * (2 ^ c - 1) + (d - 1)) []
          = (List.range n).filter
              (fun i => decide (bitsValue ((expectedBits c).getD k [])
                (elementValue (scalars.getD i [])) = d))) ∧
      List.Sorted (· < ·) ((List.range n).filter
        (fun i => decide (bitsValue ((expectedBits c).getD k [])
          (elementValue (scalars.getD i [])) = d))) ∧
      (∀ i, i ∈ (List.range n).filter
          (fun i => decide (bitsValue ((expectedBits c).getD k [])
            (elementValue (scalars.getD i [])) = d))
        ↔ (i < n ∧ bitsValue ((expectedBits c).getD k [])
            (elementValue (scalars.getD i [])) = d))) ∧
    (∀ i, bitsValue ((expectedBits c).getD k []) (elementValue (scalars.getD i [])) = 0 →
      ∀ d, 1 ≤ d → d < 2 ^ c → i ∉ (List.range n).filter
        (fun i => decide (bitsValue ((expectedBits c).getD k [])
          (elementValue (scalars.getD i [])) = d))) ∧
    (∀ p, (∀ d, 1 ≤ d → d < 2 ^ c → p ≠ k * (2 ^ c - 1) + (d - 1)) →
      (accumulateIndicesTask (expectedBits c) scalars n (2 ^ c - 1) indices k).getD p []
        = indices.getD p []) ∧
    (accumulateIndicesTask (expectedBits c) scalars n (2 ^ c - 1) indices k).length
      = indices.length := by
  have hpos := expectedBits_positions c k hk
  have hbv : ∀ i < n, chunkDigit ((expectedBits c).getD k []) (scalars.getD i [])
      = bitsValue ((expectedBits c).getD k []) (elementValue (scalars.getD i [])) :=
    fun i hi => chunkDigit_eq_bitsValue (hS i hi) _ hpos
  have hdig := digit_le_mask n c hc hS k hk
  have hpow : 1 ≤ 2 ^ c := Nat.one_le_two_pow
  obtain ⟨hl, hslots, hother⟩ := accumulateIndicesTask_append (expectedBits c) scalars n
    (2 ^ c - 1) (nbChunksOf c) indices k hk hlen hdig
  have hfilter : ∀ d, 1 ≤ d → slotList (expectedBits c) scalars n k (d - 1)
      = (List.range n).filter (fun i => decide (bitsValue ((expectedBits c).getD k [])
          (elementValue (scalars.getD i [])) = d)) := by
    intro d hd
    unfold slotList
    apply List.filter_congr
    intro i hi
    rw [hbv i (List.mem_range.mp hi), Nat.sub_add_cancel hd]
  refine ⟨?_, ?_, ?_, ?_, ?_⟩
  · intro i hi
    refine ⟨hbv i hi, ?_⟩
    have := hdig i hi
    rw [hbv i hi] at this
    omega
  · intro d hd1 hd2
    have e := hslots (d - 1) (by omega)
    rw [hfilter d hd1] at e
    refine ⟨e, ?_, ?_, ?_⟩
    · intro hnil
      rw [e, hnil, List.nil_append]
    · exact (List.sorted_lt_range n).filter _
    · intro i
      simp [List.mem_filter]
  · intro i h0 d hd1 _ hmem
    rw [List.mem_filter] at hmem
    have := hmem.2
    simp only [decide_eq_true_eq] at this
    omega
  · intro p hp
    apply hother
    intro j hj
    have := hp (j + 1) (by omega) (by omega)
    simpa using this
  · rw [hl, hlen]

theorem accumulateIndices_digit_lists_witness :
    ((∀ i < 3, elementWF (([[5, 0, 0, 0], [0, 0, 0, 0], [261, 0, 0, 7]] : List Element).getD i
        [])) ∧
      (List.replicate ((2 ^ 8 - 1) * nbChunksOf 8) ([] : List Nat)).length
        = (2 ^ 8 - 1) * nbChunksOf 8 ∧ 31 < nbChunksOf 8) ∧
    (accumulateIndicesTask (expectedBits 8) [[5, 0, 0, 0], [0, 0, 0, 0], [261, 0, 0, 7]] 3
        (2 ^ 8 - 1) (List.replicate ((2 ^ 8 - 1) * nbChunksOf 8) []) 31).getD
        (31 * (2 ^ 8 - 1) + (5 - 1)) []
      = (List.replicate ((2 ^ 8 - 1) * nbChunksOf 8) ([] : List Nat)).getD
          (31 * (2 ^ 8 - 1) + (5 - 1)) [] ++ (List.range 3).filter
          (fun i => decide (bitsValue ((expectedBits 8).getD 31 [])
            (elementValue (([[5, 0, 0, 0], [0, 0, 0, 0], [261, 0, 0, 7]] :
              List Element).getD i [])) = 5)) :=
  ⟨⟨by decide, by simp, by decide⟩,
    ((accumulateIndices_digit_lists 8 (by decide) [[5, 0, 0, 0], [0, 0, 0, 0], [261, 0, 0, 7]] 3
      (by decide) (List.replicate ((2 ^ 8 - 1) * nbChunksOf 8) []) (by simp) 31
      (by decide)).2.1 5 (by norm_num) (by norm_num)).1⟩

end IndexBucketing

namespace bn256

open Curve

/-- One bucket of stage B: if the running sum and the accumulator are those of the buckets
above `m`, after bucket `m` they are those of the buckets from `m` on. -/
theorem accumulatePointsBucket_inv {F : Type} [Field F] [DecidableEq F] {b : F}
    (h2 : (2 : F) ≠ 0) (points : List (G2Affine F)) (Ps : Nat → (W b).Point)
    (hP : ∀ i < points.length, (points.getD i ⟨0, 0⟩).Represents b (Ps i))
    (mask : Nat) (indices : List (List Nat)) (task : Nat)
    (hL : ∀ j < mask, ∀ k ∈ indices.getD (task * mask + j) [], k < points.length)
    (m : Nat) (hm : m < mask) (st : g2JacExtended F × G2Jac F)
    (htmp : st.1.Represents b
      (∑ j ∈ Finset.Ico (m + 1) mask, ((indices.getD (task * mask + j) []).map Ps).sum))
    (hinv : st.1.ZZ ^ 3 = st.1.ZZZ ^ 2)
    (hacc : st.2.Represents b
      (∑ j ∈ Finset.Ico (m + 1) mask,
        (j + 1 - (m + 1)) • ((indices.getD (task * mask + j) []).map Ps).sum)) :
    (accumulatePointsBucket points mask indices task st m).1.Represents b
        (∑ j ∈ Finset.Ico m mask, ((indices.getD (task * mask + j) []).map Ps).sum) ∧
      (accumulatePointsBucket points mask indices task st m).1.ZZ ^ 3
        = (accumulatePointsBucket points mask indices task st m).1.ZZZ ^ 2 ∧
      (accumulatePointsBucket points mask indices task st m).2.Represents b
        (∑ j ∈ Finset.Ico m mask,
          (j + 1 - m) • ((indices.getD (task * mask + j) []).map Ps).sum) := by
  unfold accumulatePointsBucket
  simp only
  obtain ⟨htmp', hinv'⟩ := bucket_mAdd_represents points Ps hP
    (indices.getD (task * mask + m) []) (hL m hm) st.1 _ htmp hinv
  have hsum1 : (∑ j ∈ Finset.Ico (m + 1) mask,
        ((indices.getD (task * mask + j) []).map Ps).sum)
      + ((indices.getD (task * mask + m) []).map Ps).sum
      = ∑ j ∈ Finset.Ico m mask, ((indices.getD (task * mask + j) []).map Ps).sum := by
    rw [Finset.sum_eq_sum_Ico_succ_bot hm, add_comm]
  rw [hsum1] at htmp'
  refine ⟨htmp', hinv', ?_⟩
  have hadd := G2Jac.AddAssign_represents_g2Jac h2 hacc
    (g2JacExtended.ToJac_represents htmp' hinv')
  have hsum2 : (∑ j ∈ Finset.Ico (m + 1) mask,
        (j + 1 - (m + 1)) • ((indices.getD (task * mask + j) []).map Ps).sum)
      + ∑ j ∈ Finset.Ico m mask, ((indices.getD (task * mask + j) []).map Ps).sum
      = ∑ j ∈ Finset.Ico m mask,
        (j + 1 - m) • ((indices.getD (task * mask + j) []).map Ps).sum := by
    rw [Finset.sum_eq_sum_Ico_succ_bot hm, Finset.sum_eq_sum_Ico_succ_bot hm
      (fun j => (j + 1 - m) • ((indices.getD (task * mask + j) []).map Ps).sum),
      ← add_assoc, add_comm _ (((indices.getD (task * mask + m) []).map Ps).sum),
      add_assoc, ← Finset.sum_add_distrib]
    congr 1
    · have : m + 1 - m = 1 := by omega
      rw [this, one_nsmul]
    · apply Finset.sum_congr rfl
      intro j hj
      have hj' := (Finset.mem_Ico.mp hj).1
      have : j + 1 - m = (j + 1 - (m + 1)) + 1 := by omega
      rw [this, succ_nsmul]
  rw [hsum2] at hadd
  exact hadd

/-- The buckets are visited from the highest down: the first `t + 1` buckets visited are the
first `t` followed by bucket `mask - 1 - t`. -/
theorem reverse_range_take_succ (mask t : Nat) (ht : t < mask) :
    (List.range mask).reverse.take (t + 1)
      = (List.range mask).reverse.take t ++ [mask - 1 - t] := by
  rw [List.take_succ]
  congr 1
  have h1 : t < (List.range mask).length := by simpa using ht
  rw [List.getElem?_reverse h1, List.length_range, List.getElem?_range (by omega)]
  rfl

/-- The running sum and the accumulator of stage B after the first `t` buckets. -/
theorem accumulatePoints_prefix {F : Type} [Field F] [DecidableEq F] {b : F}
    (h2 : (2 : F) ≠ 0) (points : List (G2Affine F)) (Ps : Nat → (W b).Point)
    (hP : ∀ i < points.length, (points.getD i ⟨0, 0⟩).Represents b (Ps i))
    (mask : Nat) (indices : List (List Nat)) (task : Nat)
    (hL : ∀ j < mask, ∀ k ∈ indices.getD (task * mask + j) [], k < points.length)
    (t : Nat) (ht : t ≤ mask) :
    (((List.range mask).reverse.take t).foldl (accumulatePointsBucket points mask indices task)
        (g2JacExtended.SetInfinity, g2Infinity)).1.Represents b
        (∑ j ∈ Finset.Ico (mask - t) mask, ((indices.getD (task * mask + j) []).map Ps).sum) ∧
      (((List.range mask).reverse.take t).foldl
          (accumulatePointsBucket points mask indices task)
          (g2JacExtended.SetInfinity, g2Infinity)).1.ZZ ^ 3
        = (((List.range mask).reverse.take t).foldl
          (accumulatePointsBucket points mask indices task)
          (g2JacExtended.SetInfinity, g2Infinity)).1.ZZZ ^ 2 ∧
      (((List.range mask).reverse.take t).foldl (accumulatePointsBucket points mask indices task)
        (g2JacExtended.SetInfinity, g2Infinity)).2.Represents b
        (∑ j ∈ Finset.Ico (mask - t) mask,
          (j + 1 - (mask - t)) • ((indices.getD (task * mask + j) []).map Ps).sum) := by
  induction t with
  | zero =>
    simp only [List.take_zero, List.foldl_nil, Nat.sub_zero, Finset.Ico_self, Finset.sum_empty]
    exact ⟨g2JacExtended.SetInfinity_represents b, by simp [g2JacExtended.SetInfinity],
      g2Infinity_represents b⟩
  | succ t ih =>
    obtain ⟨h1, h2', h3⟩ := ih (by omega)
    rw [reverse_range_take_succ mask t (by omega), List.foldl_append]
    simp only [List.foldl_cons, List.foldl_nil]
    have e1 : mask - t = (mask - 1 - t) + 1 := by omega
    have e2 : mask - (t + 1) = mask - 1 - t := by omega
    rw [e1] at h1 h3
    rw [e2]
    exact accumulatePointsBucket_inv h2 points Ps hP mask indices task hL (mask - 1 - t)
      (by omega) _ h1 h2' h3

/-- Every affine point on the curve (or the sentinel (0,0)) represents a point of the group. -/
theorem exists_points_represented {F : Type} [Field F] {b : F} (h2 : (2 : F) ≠ 0)
    (h3 : (3 : F) ≠ 0) (hb : b ≠ 0) (points : List (G2Affine F))
    (hP : ∀ a ∈ points, a.OnCurve b) :
    ∃ Ps : Nat → (W b).Point,
      ∀ i < points.length, (points.getD i ⟨0, 0⟩).Represents b (Ps i) := by
  have hex : ∀ i, ∃ P : (W b).Point, i < points.length →
      (points.getD i ⟨0, 0⟩).Represents b P := by
    intro i
    by_cases hi : i < points.length
    · have hmem : points.getD i ⟨0, 0⟩ ∈ points := by
        rw [List.getD_eq_getElem _ _ hi]
        exact List.getElem_mem hi
      obtain ⟨P, hP'⟩ := G2Affine.represents_of_onCurve_g2Affine h2 h3 hb (hP _ hmem)
      exact ⟨P, fun _ => hP'⟩
    · exact ⟨0, fun h => absurd h hi⟩
  choose Ps hPs using hex
  exact ⟨Ps, hPs⟩

end bn256

section BucketAccumulation

open Curve bn256

/-- C33: stage B on chunk k (`task`), for affine points on the curve (the sentinel (0,0)
allowed) and index lists that hold indices of points. The accumulator of chunk k represents
the sum over d from 1 to 2^c - 1 (`mask`) of d • B_d, where B_d is the sum of the points whose
indices are in the list of digit d. Buckets are visited from d = mask down to 1: after the first
t buckets the running XYZZ sum, which is never reset, represents the sum of the B_d visited so
far and keeps ZZ^3 = ZZZ^2, its conversion by `ToJac` represents the same point, and the
accumulator represents the sum of (d - (mask - t)) • B_d over the buckets visited. The closure
stores this value in accumulators[task] once chIndices[task] has been signalled. -/
theorem accumulatePoints_bucket_sum {F : Type} [Field F] [DecidableEq F] (b : F)
    (h2 : (2 : F) ≠ 0) (h3 : (3 : F) ≠ 0) (hb : b ≠ 0) (points : List (G2Affine F))
    (hP : ∀ a ∈ points, a.OnCurve b) (mask : Nat) (indices : List (List Nat)) (task : Nat)
    (hL : ∀ j < mask, ∀ k ∈ indices.getD (task * mask + j) [], k < points.length) :
    ∃ Ps : Nat → (W b).Point,
      (∀ i < points.length, (points.getD i ⟨0, 0⟩).Represents b (Ps i)) ∧
      (accumulatePointsTask points mask indices task).Represents b
        (∑ d ∈ Finset.Icc 1 mask,
          d • ((indices.getD (task * mask + (d - 1)) []).map Ps).sum) ∧
      (∀ t, t ≤ mask →
        (((List.range mask).reverse.take t).foldl
            (accumulatePointsBucket points mask indices task)
            (g2JacExtended.SetInfinity, g2Infinity)).1.Represents b
          (∑ d ∈ Finset.Icc (mask - t + 1) mask,
            ((indices.getD (task * mask + (d - 1)) []).map Ps).sum) ∧
        (((List.range mask).reverse.take t).foldl
            (accumulatePointsBucket points mask indices task)
            (g2JacExtended.SetInfinity, g2Infinity)).1.ZZ ^ 3
          = (((List.range mask).reverse.take t).foldl
            (accumulatePointsBucket points mask indices task)
            (g2JacExtended.SetInfinity, g2Infinity)).1.ZZZ ^ 2 ∧
        (((List.range mask).reverse.take t).foldl
            (accumulatePointsBucket points mask indices task)
            (g2JacExtended.SetInfinity, g2Infinity)).1.ToJac.Represents b
          (∑ d ∈ Finset.Icc (mask - t + 1) mask,
            ((indices.getD (task * mask + (d - 1)) []).map Ps).sum) ∧
        (((List.range mask).reverse.take t).foldl
            (accumulatePointsBucket points mask indices task)
            (g2JacExtended.SetInfinity, g2Infinity)).2.Represents b
          (∑ d ∈ Finset.Icc (mask - t + 1) mask,
            (d - (mask - t)) • ((indices.getD (task * mask + (d - 1)) []).map Ps).sum)) ∧
      (∀ (st : msmState F) (cpuID n i : Nat), cpuID + i * n = task →
        task < st.accumulators.length → st.indices = indices →
        st.chIndices.getD task false = true →
        ∃ st', accumulatePointsStep points mask cpuID n (some st) i = some st' ∧
          st'.accumulators.getD task ⟨0, 0, 0⟩ = accumulatePointsTask points mask indices task ∧
          st'.indices = indices) := by
  obtain ⟨Ps, hPs⟩ := exists_points_represented h2 h3 hb points hP
  have shift : ∀ (lo : Nat) (f : Nat → (W b).Point),
      ∑ d ∈ Finset.Icc (lo + 1) mask, f (d - 1) = ∑ j ∈ Finset.Ico lo mask, f j := by
    intro lo f
    rw [← Nat.Ico_succ_right, Finset.sum_Ico_eq_sum_range, Finset.sum_Ico_eq_sum_range]
    have e : mask.succ - (lo + 1) = mask - lo := by omega
    rw [e]
    apply Finset.sum_congr rfl
    intro x _
    congr 1
    omega
  refine ⟨Ps, hPs, ?_, ?_, ?_⟩
  · have h := accumulatePointsTask_buckets h2 points Ps hPs mask indices task hL
    have e := shift 0 (fun j => (j + 1) • ((indices.getD (task * mask + j) []).map Ps).sum)
    rw [Finset.range_eq_Ico, ← e] at h
    have e' : ∑ d ∈ Finset.Icc (0 + 1) mask,
        (d - 1 + 1) • ((indices.getD (task * mask + (d - 1)) []).map Ps).sum
        = ∑ d ∈ Finset.Icc 1 mask,
          d • ((indices.getD (task * mask + (d - 1)) []).map Ps).sum := by
      apply Finset.sum_congr rfl
      intro d hd
      have := (Finset.mem_Icc.mp hd).1
      rw [Nat.sub_add_cancel this]
    rw [← e']
    exact h
  · intro t ht
    obtain ⟨h1, hinv, hacc⟩ :=
      accumulatePoints_prefix h2 points Ps hPs mask indices task hL t ht
    have e1 := shift (mask - t) (fun j => ((indices.getD (task * mask + j) []).map Ps).sum)
    have e2 : ∑ d ∈ Finset.Icc (mask - t + 1) mask,
        (d - (mask - t)) • ((indices.getD (task * mask + (d - 1)) []).map Ps).sum
        = ∑ j ∈ Finset.Ico (mask - t) mask,
          (j + 1 - (mask - t)) • ((indices.getD (task * mask + j) []).map Ps).sum := by
      rw [← shift (mask - t)
        (fun j => (j + 1 - (mask - t)) • ((indices.getD (task * mask + j) []).map Ps).sum)]
      apply Finset.sum_congr rfl
      intro d hd
      have := (Finset.mem_Icc.mp hd).1
      have e : d - 1 + 1 = d := by omega
      simp only [e]
    rw [e1, e2]
    exact ⟨h1, hinv, g2JacExtended.ToJac_represents h1 hinv, hacc⟩
  · intro st cpuID n i htask hlt hidx hch
    unfold accumulatePointsStep
    simp only
    rw [htask, if_pos hch]
    refine ⟨_, rfl, ?_, hidx⟩
    simp only
    rw [getD_set_eq _ _ _ _ hlt, hidx]

theorem accumulatePoints_bucket_sum_witness :
    ((2 : ZMod 7) ≠ 0 ∧ (3 : ZMod 7) ≠ 0 ∧
      (∀ a ∈ ([⟨1, 2⟩, ⟨0, 0⟩, ⟨1, 5⟩, ⟨2, 2⟩] : List (G2Affine (ZMod 7))), a.OnCurve 3) ∧
      (∀ j < 3, ∀ k ∈ ([[], [], [], [0, 2], [1], [3, 0]] : List (List Nat)).getD (1 * 3 + j) [],
        k < ([⟨1, 2⟩, ⟨0, 0⟩, ⟨1, 5⟩, ⟨2, 2⟩] : List (G2Affine (ZMod 7))).length)) ∧
    ∃ Ps : Nat → (W (3 : ZMod 7)).Point,
      (∀ i < ([⟨1, 2⟩, ⟨0, 0⟩, ⟨1, 5⟩, ⟨2, 2⟩] : List (G2Affine (ZMod 7))).length,
        (([⟨1, 2⟩, ⟨0, 0⟩, ⟨1, 5⟩, ⟨2, 2⟩] : List (G2Affine (ZMod 7))).getD i
          ⟨0, 0⟩).Represents 3 (Ps i)) ∧
      (accumulatePointsTask ([⟨1, 2⟩, ⟨0, 0⟩, ⟨1, 5⟩, ⟨2, 2⟩] : List (G2Affine (ZMod 7))) 3
          [[], [], [], [0, 2], [1], [3, 0]] 1).Represents 3
        (∑ d ∈ Finset.Icc 1 3,
          d • ((([[], [], [], [0, 2], [1], [3, 0]] : List (List Nat)).getD (1 * 3 + (d - 1))
            []).map Ps).sum) :=
  ⟨by decide,
    (accumulatePoints_bucket_sum (3 : ZMod 7) (by decide) (by decide) (by decide)
      [⟨1, 2⟩, ⟨0, 0⟩, ⟨1, 5⟩, ⟨2, 2⟩] (by decide) 3 [[], [], [], [0, 2], [1], [3, 0]] 1
      (by decide)).imp (fun _ h => ⟨h.1, h.2.1⟩)⟩

end BucketAccumulation

namespace bn256

open Curve

/-- One step of the final reduction: `len(bitsForTask[i])` doublings, then the accumulator of
chunk `i` is added. -/
theorem reduceStep_represents {F : Type} [Field F] [DecidableEq F] {b : F}
    (h2 : (2 : F) ≠ 0) (bits : List (List Int)) (st : msmState F) (i : Nat)
    {A R : (W b).Point} (hacc : (st.accumulators.getD i ⟨0, 0, 0⟩).Represents b A)
    (hch : st.chPoints.getD i false = true) {res : G2Jac F} (hres : res.Represents b R) :
    ∃ res', reduceStep bits st (some res) i = some res' ∧
      res'.Represents b (2 ^ (bits.getD i []).length • R + A) := by
  unfold reduceStep
  simp only
  rw [if_pos hch]
  exact ⟨_, rfl, G2Jac.AddAssign_represents_g2Jac h2 (doublings_represent hres _) hacc⟩

/-- The final reduction for arbitrary bit lists: chunk `k` is weighted by 2 to the number of
bits of the chunks after it. -/
theorem reduce_general {F : Type} [Field F] [DecidableEq F] {b : F} (h2 : (2 : F) ≠ 0)
    (bits : List (List Int)) (K : Nat) (st : msmState F) (As : Nat → (W b).Point)
    (hacc : ∀ k < K, (st.accumulators.getD k ⟨0, 0, 0⟩).Represents b (As k))
    (hch : ∀ k < K, st.chPoints.getD k false = true) :
    ∃ res, reduce bits K st = some res ∧
      res.Represents b (∑ k ∈ Finset.range K,
        2 ^ (∑ k' ∈ Finset.Ico (k + 1) K, (bits.getD k' []).length) • As k) := by
  unfold reduce
  have key := foldl_range_induction (reduceStep bits st)
    (fun m (r : Option (G2Jac F)) => m ≤ K → ∃ res, r = some res ∧
      res.Represents b (∑ k ∈ Finset.range m,
        2 ^ (∑ k' ∈ Finset.Ico (k + 1) m, (bits.getD k' []).length) • As k))
    K (some g2Infinity)
    (by
      intro _
      exact ⟨g2Infinity, rfl, by simpa using g2Infinity_represents b⟩)
    (by
      intro m r hm ih _
      obtain ⟨res, rfl, hres⟩ := ih (by omega)
      obtain ⟨res', e, hres'⟩ :=
        reduceStep_represents h2 bits st m (hacc m hm) (hch m hm) hres
      refine ⟨res', e, ?_⟩
      have hs : 2 ^ (bits.getD m []).length • (∑ k ∈ Finset.range m,
            2 ^ (∑ k' ∈ Finset.Ico (k + 1) m, (bits.getD k' []).length) • As k) + As m
          = ∑ k ∈ Finset.range (m + 1),
            2 ^ (∑ k' ∈ Finset.Ico (k + 1) (m + 1), (bits.getD k' []).length) • As k := by
        rw [Finset.sum_range_succ, Finset.Ico_self, Finset.sum_empty, pow_zero, one_nsmul,
          Finset.smul_sum]
        congr 1
        apply Finset.sum_congr rfl
        intro k hk
        have hk' := Finset.mem_range.mp hk
        rw [Finset.sum_Ico_succ_top (by omega), pow_add, ← mul_nsmul, mul_comm]
      rw [hs] at hres'
      exact hres')
  exact key le_rfl

set_option maxRecDepth 100000 in
/-- The lowest bit position of chunk `k` is the number of bits of the chunks after it. -/
theorem lowestBit_expectedBits (c : Nat) (hc : c = 8 ∨ c = 11 ∨ c = 13 ∨ c = 14 ∨ c = 16) :
    ∀ k, k < nbChunksOf c →
      lowestBit (expectedBits c) k = 256 - min 256 ((k + 1) * c) ∧
      lowestBit (expectedBits c) k
        = (((expectedBits c).drop (k + 1)).map List.length).sum := by
  rcases hc with rfl | rfl | rfl | rfl | rfl <;> decide

/-- The number of bits of the chunks after chunk `k`, as a sum over the chunk ids. -/
theorem sum_Ico_lengths (bits : List (List Int)) (k : Nat) :
    ∑ k' ∈ Finset.Ico k bits.length, (bits.getD k' []).length
      = ((bits.drop k).map List.length).sum := by
  induction bits generalizing k with
  | nil => simp
  | cons x xs ih =>
    cases k with
    | zero =>
      have h0 := ih 0
      simp only [List.drop_zero] at h0
      rw [List.length_cons, Finset.sum_eq_sum_Ico_succ_bot (by omega), List.drop_zero,
        List.map_cons, List.sum_cons, ← h0, Finset.sum_Ico_eq_sum_range,
        Finset.sum_Ico_eq_sum_range]
      congr 1
      have e : xs.length + 1 - (0 + 1) = xs.length - 0 := by omega
      rw [e]
      apply Finset.sum_congr rfl
      intro i _
      have e2 : 0 + 1 + i = (0 + i) + 1 := by omega
      rw [e2]
      rfl
    | succ k =>
      have hk := ih k
      rw [List.length_cons, List.drop_succ_cons, ← hk, Finset.sum_Ico_eq_sum_range,
        Finset.sum_Ico_eq_sum_range]
      have e : xs.length + 1 - (k + 1) = xs.length - k := by omega
      rw [e]
      apply Finset.sum_congr rfl
      intro i _
      have e2 : k + 1 + i = (k + i) + 1 := by omega
      rw [e2]
      rfl

end bn256

section FinalReduction

open Curve bn256

/-- C34: the final reduction of `MultiExp` (window width c in {8, 11, 13, 14, 16}, K chunks,
every chPoints channel signalled, accumulators on the curve) combines the chunk accumulators
most-significant chunk first: each step doubles the running result len(bits of the chunk)
times and then adds that chunk's accumulator, and the value delivered represents the sum over
the chunks k of 2^(lowest bit position of chunk k) • A_k, where A_k is the point the accumulator
of chunk k represents. The lowest bit position of chunk k is 256 - min(256, (k+1)*c), the
number of bits of the chunks after k; this covers c = 11, 13, 14, where c does not divide 256
and the last chunk is shorter than c. -/
theorem reduce_weighted_sum {F : Type} [Field F] [DecidableEq F] (b : F) (h2 : (2 : F) ≠ 0)
    (h3 : (3 : F) ≠ 0) (hb : b ≠ 0) (c : Nat)
    (hc : c = 8 ∨ c = 11 ∨ c = 13 ∨ c = 14 ∨ c = 16) (st : msmState F)
    (hacc : ∀ k < nbChunksOf c, (st.accumulators.getD k ⟨0, 0, 0⟩).OnCurve b)
    (hch : ∀ k < nbChunksOf c, st.chPoints.getD k false = true) :
    bitsForTaskOf sizeScalar c = some (expectedBits c) ∧
    ∃ As : Nat → (W b).Point,
      (∀ k < nbChunksOf c, (st.accumulators.getD k ⟨0, 0, 0⟩).Represents b (As k)) ∧
      (∃ res, reduce (expectedBits c) (nbChunksOf c) st = some res ∧
        res.Represents b
          (∑ k ∈ Finset.range (nbChunksOf c), 2 ^ lowestBit (expectedBits c) k • As k)) ∧
      (∀ k < nbChunksOf c, ∀ (res : G2Jac F) (R : (W b).Point), res.Represents b R →
        ∃ res', reduceStep (expectedBits c) st (some res) k = some res' ∧
          res'.Represents b (2 ^ ((expectedBits c).getD k []).length • R + As k)) ∧
      (∀ k < nbChunksOf c,
        lowestBit (expectedBits c) k = 256 - min 256 ((k + 1) * c) ∧
        lowestBit (expectedBits c) k
          = ∑ k' ∈ Finset.Ico (k + 1) (nbChunksOf c), ((expectedBits c).getD k' []).length) := by
  have hex : ∀ k, ∃ A : (W b).Point, k < nbChunksOf c →
      (st.accumulators.getD k ⟨0, 0, 0⟩).Represents b A := by
    intro k
    by_cases hk : k < nbChunksOf c
    · obtain ⟨A, hA⟩ := G2Jac.represents_of_onCurve_g2Jac h2 h3 hb (hacc k hk)
      exact ⟨A, fun _ => hA⟩
    · exact ⟨0, fun h => absurd h hk⟩
  choose As hAs using hex
  have hlow : ∀ k < nbChunksOf c,
      lowestBit (expectedBits c) k = 256 - min 256 ((k + 1) * c) ∧
      lowestBit (expectedBits c) k
        = ∑ k' ∈ Finset.Ico (k + 1) (nbChunksOf c), ((expectedBits c).getD k' []).length := by
    intro k hk
    obtain ⟨e1, e2⟩ := lowestBit_expectedBits c hc k hk
    refine ⟨e1, ?_⟩
    rw [e2, ← expectedBits_length c, sum_Ico_lengths]
  refine ⟨bitsForTaskOf_eq c hc, As, hAs, ?_, ?_, hlow⟩
  · obtain ⟨res, e, hres⟩ := reduce_general h2 (expectedBits c) (nbChunksOf c) st As hAs hch
    refine ⟨res, e, ?_⟩
    have hs : ∑ k ∈ Finset.range (nbChunksOf c), 2 ^ lowestBit (expectedBits c) k • As k
        = ∑ k ∈ Finset.range (nbChunksOf c),
          2 ^ (∑ k' ∈ Finset.Ico (k + 1) (nbChunksOf c),
            ((expectedBits c).getD k' []).length) • As k := by
      apply Finset.sum_congr rfl
      intro k hk
      rw [(hlow k (Finset.mem_range.mp hk)).2]
    rw [hs]
    exact hres
  · intro k hk res R hres
    exact reduceStep_represents h2 (expectedBits c) st k (hAs k hk) (hch k hk) hres

set_option maxRecDepth 100000 in
theorem reduce_weighted_sum_witness :
    ((2 : ZMod 7) ≠ 0 ∧ (3 : ZMod 7) ≠ 0 ∧
      (∀ k < nbChunksOf 11,
        ((⟨[], List.replicate 24 ⟨4, 2, 2⟩, [], List.replicate 24 true⟩ :
          msmState (ZMod 7)).accumulators.getD k ⟨0, 0, 0⟩).OnCurve 3) ∧
      (∀ k < nbChunksOf 11,
        (⟨[], List.replicate 24 ⟨4, 2, 2⟩, [], List.replicate 24 true⟩ :
          msmState (ZMod 7)).chPoints.getD k false = true)) ∧
    ∃ As : Nat → (W (3 : ZMod 7)).Point,
      (∀ k < nbChunksOf 11,
        ((⟨[], List.replicate 24 ⟨4, 2, 2⟩, [], List.replicate 24 true⟩ :
          msmState (ZMod 7)).accumulators.getD k ⟨0, 0, 0⟩).Represents 3 (As k)) ∧
      (∃ res, reduce (expectedBits 11) (nbChunksOf 11)
          (⟨[], List.replicate 24 ⟨4, 2, 2⟩, [], List.replicate 24 true⟩ : msmState (ZMod 7))
            = some res ∧
        res.Represents 3
          (∑ k ∈ Finset.range (nbChunksOf 11), 2 ^ lowestBit (expectedBits 11) k • As k)) :=
  ⟨by decide,
    (reduce_weighted_sum (3 : ZMod 7) (by decide) (by decide) (by decide) 11 (by decide)
      ⟨[], List.replicate 24 ⟨4, 2, 2⟩, [], List.replicate 24 true⟩ (by decide)
      (by decide)).2.imp (fun _ h => ⟨h.1, h.2.1⟩)⟩

end FinalReduction

namespace bn256

open Curve

/-- The calls of the spawn loop in closed form: worker `w` gets `nbChunks / nbCpus + 1` tasks
when `w < nbChunks % nbCpus` and `nbChunks / nbCpus` otherwise. -/
theorem spawnCalls_eq (K W : Nat) :
    spawnCalls K W
      = (List.range W).map (fun w => (w, (if w < K % W then K / W + 1 else K / W), W)) := by
  unfold spawnCalls
  simp only
  have key := foldl_range_induction
    (fun (acc : List (Nat × Nat × Nat) × Nat) i =>
      if acc.2 > 0 then (acc.1 ++ [(i, K / W + 1, W)], acc.2 - 1)
      else (acc.1 ++ [(i, K / W, W)], acc.2))
    (fun m acc => acc.1
        = (List.range m).map (fun w => (w, (if w < K % W then K / W + 1 else K / W), W)) ∧
      acc.2 = K % W - min m (K % W))
    W ([], K % W) (by simp)
    (by
      intro m acc _ ⟨h1, h2⟩
      by_cases hr : acc.2 > 0
      · simp only [hr, if_true]
        have hm : m < K % W := by omega
        refine ⟨?_, ?_⟩
        · rw [h1, List.range_succ, List.map_append, List.map_singleton, if_pos hm]
        · omega
      · simp only [hr, if_false]
        have hm : ¬ m < K % W := by omega
        refine ⟨?_, ?_⟩
        · rw [h1, List.range_succ, List.map_append, List.map_singleton, if_neg hm]
        · omega)
  exact key.1

/-- Stage A of a worker visits the chunks `taskIds cpuID nbTasks n`, in order. -/
theorem accumulateIndices_taskIds {F : Type} (bits : List (List Int)) (scalars : List Element)
    (nbPoints mask cpuID nbTasks n : Nat) (st : msmState F) :
    accumulateIndices bits scalars nbPoints mask cpuID nbTasks n st
      = (taskIds cpuID nbTasks n).foldl
          (fun st task =>
            { st with
              indices := accumulateIndicesTask bits scalars nbPoints mask st.indices task
              chIndices := st.chIndices.set task true })
          st := by
  unfold accumulateIndices taskIds
  rw [List.foldl_map]
  rfl

/-- Stage B of a worker visits the chunks `taskIds cpuID nbTasks n`, in order. -/
theorem accumulatePoints_taskIds {F : Type} [Field F] [DecidableEq F]
    (points : List (G2Affine F)) (mask cpuID nbTasks n : Nat) (st : msmState F) :
    accumulatePoints points mask cpuID nbTasks n st
      = (taskIds cpuID nbTasks n).foldl
          (fun (st : Option (msmState F)) task =>
            match st with
            | none => none
            | some st =>
              if st.chIndices.getD task false then
                some { st with
                  accumulators :=
                    st.accumulators.set task (accumulatePointsTask points mask st.indices task)
                  chPoints := st.chPoints.set task true }
              else none)
          (some st) := by
  unfold accumulatePoints taskIds
  rw [List.foldl_map]
  rfl

/-- Once a stage waits for ever (state `none`), the rest of the spawn loop keeps that state. -/
theorem spawn_none {F : Type} [Field F] [DecidableEq F] (bits : List (List Int))
    (points : List (G2Affine F)) (scalars : List Element) (nbPoints mask q W : Nat)
    (l : List Nat) (rem : Nat) :
    (l.foldl (spawnStep bits points scalars nbPoints mask q W) (none, rem)).1 = none := by
  induction l generalizing rem with
  | nil => rfl
  | cons i l ih =>
    rw [List.foldl_cons]
    exact ih rem

/-- The spawn loop runs the calls `spawnCalls` one after the other: stage A, then stage B of
each call. -/
theorem spawn_eq_calls {F : Type} [Field F] [DecidableEq F] (bits : List (List Int))
    (points : List (G2Affine F)) (scalars : List Element) (nbPoints mask K W : Nat)
    (st : msmState F) :
    ((List.range W).foldl (spawnStep bits points scalars nbPoints mask (K / W) W)
        (some st, K % W)).1
      = (spawnCalls K W).foldl
          (fun (acc : Option (msmState F)) call =>
            match acc with
            | none => none
            | some st =>
              accumulatePoints points mask call.1 call.2.1 call.2.2
                (accumulateIndices bits scalars nbPoints mask call.1 call.2.1 call.2.2 st))
          (some st) := by
  unfold spawnCalls
  simp only
  have hnone : ∀ cs : List (Nat × Nat × Nat),
      cs.foldl (fun (acc : Option (msmState F)) call =>
        match acc with
        | none => none
        | some st =>
          accumulatePoints points mask call.1 call.2.1 call.2.2
            (accumulateIndices bits scalars nbPoints mask call.1 call.2.1 call.2.2 st))
        none = none := by
    intro cs
    induction cs with
    | nil => rfl
    | cons c cs ih => rw [List.foldl_cons]; exact ih
  have key : ∀ (l : List Nat) (x : Option (msmState F)) (cs : List (Nat × Nat × Nat))
      (rem : Nat),
      ∃ new, (l.foldl
          (fun (acc : List (Nat × Nat × Nat) × Nat) i =>
            if acc.2 > 0 then (acc.1 ++ [(i, K / W + 1, W)], acc.2 - 1)
            else (acc.1 ++ [(i, K / W, W)], acc.2)) (cs, rem)).1 = cs ++ new ∧
        (l.foldl (spawnStep bits points scalars nbPoints mask (K / W) W) (x, rem)).1
          = new.foldl (fun (acc : Option (msmState F)) call =>
              match acc with
              | none => none
              | some st =>
                accumulatePoints points mask call.1 call.2.1 call.2.2
                  (accumulateIndices bits scalars nbPoints mask call.1 call.2.1 call.2.2 st))
              x := by
    intro l
    induction l with
    | nil =>
      intro x cs rem
      exact ⟨[], by simp, rfl⟩
    | cons i l ih =>
      intro x cs rem
      rw [List.foldl_cons, List.foldl_cons]
      cases x with
      | none =>
        by_cases hr : rem > 0
        · obtain ⟨new, h1, _⟩ := ih none (cs ++ [(i, K / W + 1, W)]) (rem - 1)
          refine ⟨(i, K / W + 1, W) :: new, ?_, ?_⟩
          · simp only [hr, if_true]
            rw [h1, List.append_assoc]
            rfl
          · rw [hnone]
            exact spawn_none bits points scalars nbPoints mask (K / W) W l rem
        · obtain ⟨new, h1, _⟩ := ih none (cs ++ [(i, K / W, W)]) rem
          refine ⟨(i, K / W, W) :: new, ?_, ?_⟩
          · simp only [hr, if_false]
            rw [h1, List.append_assoc]
            rfl
          · rw [hnone]
            exact spawn_none bits points scalars nbPoints mask (K / W) W l rem
      | some s =>
        by_cases hr : rem > 0
        · obtain ⟨new, h1, h2⟩ := ih
            (accumulatePoints points mask i (K / W + 1) W
              (accumulateIndices bits scalars nbPoints mask i (K / W + 1) W s))
            (cs ++ [(i, K / W + 1, W)]) (rem - 1)
          refine ⟨(i, K / W + 1, W) :: new, ?_, ?_⟩
          · simp only [hr, if_true]
            rw [h1, List.append_assoc]
            rfl
          · rw [List.foldl_cons]
            unfold spawnStep
            simp only [hr, if_true]
            exact h2
        · obtain ⟨new, h1, h2⟩ := ih
            (accumulatePoints points mask i (K / W) W
              (accumulateIndices bits scalars nbPoints mask i (K / W) W s))
            (cs ++ [(i, K / W, W)]) rem
          refine ⟨(i, K / W, W) :: new, ?_, ?_⟩
          · simp only [hr, if_false]
            rw [h1, List.append_assoc]
            rfl
          · rw [List.foldl_cons]
            unfold spawnStep
            simp only [hr, if_false]
            exact h2
  obtain ⟨new, h1, h2⟩ := key (List.range W) (some st) [] (K % W)
  rw [h1, List.nil_append]
  exact h2

end bn256

section WorkerAssignment

open Curve bn256

/-- C35: for every number of chunks K and every number of workers W ≥ 1, the spawn loop of
`MultiExp` calls accumulateIndices and accumulatePoints of worker w with the arguments
(w, nbTasks, W), nbTasks being floor(K/W) + 1 if w < K mod W and floor(K/W) otherwise; both
closures visit the chunk ids w, w+W, w+2W, ... (`task := cpuID + i*n`), nbTasks of them, without
repetition. These id sets are pairwise disjoint, every id is below K, and together they are
exactly [0, K), for stage A and for stage B alike. -/
theorem worker_chunk_assignment {F : Type} [Field F] [DecidableEq F] (K W : Nat)
    (hW : 1 ≤ W) :
    spawnCalls K W
      = (List.range W).map (fun w => (w, (if w < K % W then K / W + 1 else K / W), W)) ∧
    (∀ w, w < W →
      taskIds w (if w < K % W then K / W + 1 else K / W) W
        = (List.range (if w < K % W then K / W + 1 else K / W)).map (fun i => w + i * W) ∧
      (taskIds w (if w < K % W then K / W + 1 else K / W) W).length
        = (if w < K % W then K / W + 1 else K / W) ∧
      (taskIds w (if w < K % W then K / W + 1 else K / W) W).Nodup ∧
      ∀ t ∈ taskIds w (if w < K % W then K / W + 1 else K / W) W, t < K) ∧
    (∀ w w', w < W → w' < W → w ≠ w' →
      ∀ t ∈ taskIds w (if w < K % W then K / W + 1 else K / W) W,
        t ∉ taskIds w' (if w' < K % W then K / W + 1 else K / W) W) ∧
    (∀ t, t < K →
      ∃ w, w < W ∧ t ∈ taskIds w (if w < K % W then K / W + 1 else K / W) W) ∧
    (∀ (bits : List (List Int)) (scalars : List Element) (nbPoints mask cpuID nbTasks n : Nat)
        (st : msmState F),
      accumulateIndices bits scalars nbPoints mask cpuID nbTasks n st
        = (taskIds cpuID nbTasks n).foldl
            (fun st task =>
              { st with
                indices := accumulateIndicesTask bits scalars nbPoints mask st.indices task
                chIndices := st.chIndices.set task true })
            st) ∧
    (∀ (points : List (G2Affine F)) (mask cpuID nbTasks n : Nat) (st : msmState F),
      accumulatePoints points mask cpuID nbTasks n st
        = (taskIds cpuID nbTasks n).foldl
            (fun (st : Option (msmState F)) task =>
              match st with
              | none => none
              | some st =>
                if st.chIndices.getD task false then
                  some { st with
                    accumulators :=
                      st.accumulators.set task
                        (accumulatePointsTask points mask st.indices task)
                    chPoints := st.chPoints.set task true }
                else none)
            (some st)) ∧
    (∀ (bits : List (List Int)) (points : List (G2Affine F)) (scalars : List Element)
        (nbPoints mask : Nat) (st : msmState F),
      ((List.range W).foldl (spawnStep bits points scalars nbPoints mask (K / W) W)
          (some st, K % W)).1
        = (spawnCalls K W).foldl
            (fun (acc : Option (msmState F)) call =>
              match acc with
              | none => none
              | some st =>
                accumulatePoints points mask call.1 call.2.1 call.2.2
                  (accumulateIndices bits scalars nbPoints mask call.1 call.2.1 call.2.2 st))
            (some st)) := by
  have hmem : ∀ w nb t, t ∈ taskIds w nb W ↔ ∃ i, i < nb ∧ t = w + i * W := by
    intro w nb t
    unfold taskIds
    rw [List.mem_map]
    constructor
    · rintro ⟨i, hi, rfl⟩
      exact ⟨i, List.mem_range.mp hi, rfl⟩
    · rintro ⟨i, hi, rfl⟩
      exact ⟨i, List.mem_range.mpr hi, rfl⟩
  refine ⟨spawnCalls_eq K W, ?_, ?_, ?_,
    fun bits scalars nbPoints mask cpuID nbTasks n st =>
      accumulateIndices_taskIds bits scalars nbPoints mask cpuID nbTasks n st,
    fun points mask cpuID nbTasks n st =>
      accumulatePoints_taskIds points mask cpuID nbTasks n st,
    fun bits points scalars nbPoints mask st =>
      spawn_eq_calls bits points scalars nbPoints mask K W st⟩
  · intro w hw
    obtain ⟨hlt, _, _⟩ := worker_tasks K W w hw
    refine ⟨rfl, by simp [taskIds], ?_, ?_⟩
    · unfold taskIds
      apply List.Nodup.map _ (List.nodup_range _)
      intro i j hij
      simp only at hij
      have : i * W = j * W := by omega
      exact Nat.eq_of_mul_eq_mul_right (by omega) this
    · intro t ht
      obtain ⟨i, hi, rfl⟩ := (hmem _ _ _).mp ht
      exact hlt i hi
  · intro w w' hw hw' hne t ht ht'
    obtain ⟨i, _, rfl⟩ := (hmem _ _ _).mp ht
    obtain ⟨j, _, hj⟩ := (hmem _ _ _).mp ht'
    have h1 := (worker_tasks K W w hw).2.1 i
    have h2 := (worker_tasks K W w' hw').2.1 j
    rw [hj, h2] at h1
    exact hne h1.symm
  · intro t ht
    have hw : t % W < W := Nat.mod_lt _ (by omega)
    obtain ⟨i, hi, e⟩ := (worker_tasks K W (t % W) hw).2.2 t ht rfl
    exact ⟨t % W, hw, (hmem _ _ _).mpr ⟨i, hi, e⟩⟩

theorem worker_chunk_assignment_witness :
    (1 ≤ 5) ∧
    spawnCalls 24 5
      = (List.range 5).map (fun w => (w, (if w < 24 % 5 then 24 / 5 + 1 else 24 / 5), 5)) ∧
    (∀ t, t < 24 →
      ∃ w, w < 5 ∧ t ∈ taskIds w (if w < 24 % 5 then 24 / 5 + 1 else 24 / 5) 5) :=
  have h := worker_chunk_assignment (F := ZMod 7) 24 5 (by decide)
  ⟨by decide, h.1, h.2.2.2.1⟩

end WorkerAssignment

section GLVSplit

open Curve

/-- C36: for an on-curve Jacobian point a and an integer s, with (k1, k2) the pair returned by
`SplitScalar(s, glvBasis)` and |k1|, |k2| both below 2^(64*floor(Limbs/2)) (Limbs = 6, and the
scalar field order r is at least 2^192, so that `SetBigInt` keeps both magnitudes):
`mulGLV(a, s)` represents k1•A + k2•phi(A), where A is the point a represents. The table
holds -a (resp. -phi(a)) for a negative k1 (resp. k2), a (resp. phi(a)) otherwise, and the sum
of the two entries; each bit of the scan doubles the result and adds at most one table entry,
the one at index (b2<<1 | b1) - 1. -/
theorem mulGLV_represents_split {F : Type} [Field F] [DecidableEq F] (b : F)
    (h2 : (2 : F) ≠ 0) (h3 : (3 : F) ≠ 0) (hb : b ≠ 0) (w : F) (hw : w ^ 3 = 1) (r : Nat)
    (hr : 2 ^ 192 ≤ r) (SplitScalar : Int → Int × Int) (a : bw761.G1Jac F)
    (ha : a.OnCurve b) (s : Int)
    (hk1 : (SplitScalar s).1.natAbs < 2 ^ (64 * (bw761.frLimbs / 2)))
    (hk2 : (SplitScalar s).2.natAbs < 2 ^ (64 * (bw761.frLimbs / 2))) :
    ∃ A : (W b).Point, a.Represents b A ∧
      (bw761.G1Jac.mulGLV w r SplitScalar a s).Represents b
        ((SplitScalar s).1 • A + (SplitScalar s).2 • phiPoint w hw A) ∧
      (if (SplitScalar s).1 < 0 then a.Neg else a).Represents b
        (if (SplitScalar s).1 < 0 then -A else A) ∧
      (if (SplitScalar s).2 < 0 then (bw761.G1Jac.phi w a).Neg
        else bw761.G1Jac.phi w a).Represents b
        (if (SplitScalar s).2 < 0 then -phiPoint w hw A else phiPoint w hw A) ∧
      ((if (SplitScalar s).1 < 0 then a.Neg else a).AddAssign
        (if (SplitScalar s).2 < 0 then (bw761.G1Jac.phi w a).Neg
          else bw761.G1Jac.phi w a)).Represents b
        ((if (SplitScalar s).1 < 0 then -A else A)
          + (if (SplitScalar s).2 < 0 then -phiPoint w hw A else phiPoint w hw A)) ∧
      (∀ (table : List (bw761.G1Jac F)) (k1 k2 : List Nat) (i j mask : Nat)
          (res : bw761.G1Jac F),
        (bw761.mulGLVStep table k1 k2 i (res, mask) j).1
          = if ((k1.getD i 0 &&& mask) >>> (63 - j)) ||| ((k2.getD i 0 &&& mask) >>> (63 - j))
                ≠ 0 then
              (bw761.G1Jac.Double res).AddAssign (table.getD
                (((((k2.getD i 0 &&& mask) >>> (63 - j)) <<< 1)
                  ||| ((k1.getD i 0 &&& mask) >>> (63 - j))) - 1) bw761.g1Infinity)
            else bw761.G1Jac.Double res) := by
  obtain ⟨A, hA⟩ := bw761.G1Jac.represents_of_onCurve_g1Jac h2 h3 hb ha
  have hphi := bw761.G1Jac.phi_represents w hw hA
  have e : 2 ^ (64 * (bw761.frLimbs / 2)) = 2 ^ 192 := by
    unfold bw761.frLimbs; norm_num
  rw [e] at hk1 hk2
  have h0 : (if (SplitScalar s).1 < 0 then a.Neg else a).Represents b
      (if (SplitScalar s).1 < 0 then -A else A) := by
    split_ifs
    · exact bw761.G1Jac.Neg_represents_g1Jac hA
    · exact hA
  have h1 : (if (SplitScalar s).2 < 0 then (bw761.G1Jac.phi w a).Neg
      else bw761.G1Jac.phi w a).Represents b
      (if (SplitScalar s).2 < 0 then -phiPoint w hw A else phiPoint w hw A) := by
    split_ifs
    · exact bw761.G1Jac.Neg_represents_g1Jac hphi
    · exact hphi
  refine ⟨A, hA, ?_, h0, h1, bw761.G1Jac.AddAssign_represents_g1Jac h2 h0 h1, ?_⟩
  · exact bw761.G1Jac.mulGLV_represents h2 w r SplitScalar hA hphi s
      (lt_of_lt_of_le hk1 hr) (lt_of_lt_of_le hk2 hr) hk1 hk2
  · intro table k1 k2 i j mask res
    rfl

theorem mulGLV_represents_split_witness :
    (((2 : ZMod 13) ≠ 0 ∧ (3 : ZMod 13) ≠ 0 ∧ (9 : ZMod 13) ^ 3 = 1 ∧
      (⟨7, 3, 1⟩ : bw761.G1Jac (ZMod 13)).OnCurve 4) ∧
      ((5 : Int) - 9).natAbs < 2 ^ (64 * (bw761.frLimbs / 2)) ∧
      (-2 : Int).natAbs < 2 ^ (64 * (bw761.frLimbs / 2))) ∧
    ∃ A : (W (4 : ZMod 13)).Point, (⟨7, 3, 1⟩ : bw761.G1Jac (ZMod 13)).Represents 4 A ∧
      (bw761.G1Jac.mulGLV (9 : ZMod 13) (2 ^ 192) (fun s => (s - 9, -2)) ⟨7, 3, 1⟩ 5).Represents
        4 (((fun s : Int => (s - 9, (-2 : Int))) 5).1 • A
          + ((fun s : Int => (s - 9, (-2 : Int))) 5).2 • phiPoint 9 (by decide) A) :=
  ⟨⟨by decide, by norm_num [bw761.frLimbs], by norm_num [bw761.frLimbs]⟩,
    (mulGLV_represents_split (4 : ZMod 13) (by decide) (by decide) (by decide) 9 (by decide)
      (2 ^ 192) (le_refl _) (fun s => (s - 9, -2)) ⟨7, 3, 1⟩ (by decide) 5
      (by norm_num [bw761.frLimbs]) (by norm_num [bw761.frLimbs])).imp
      (fun _ h => ⟨h.1, h.2.1⟩)⟩

end GLVSplit

namespace bls12377

set_option maxRecDepth 100000 in
/-- The metadata values of a byte whose top three bits are 001, 011 or 111: none of them is a
value of the metadata table. -/
theorem unlisted_meta_bits : ∀ v < 256, (v / 32 = 1 ∨ v / 32 = 3 ∨ v / 32 = 7) →
    v &&& 224 ≠ 0 ∧ v &&& 224 ≠ 64 ∧ v &&& 224 ≠ 128 ∧ v &&& 224 ≠ 160 ∧ v &&& 224 ≠ 192 ∧
      v &&& 31 = v % 32 := by
  decide

end bls12377

section UnlistedMetadata

open bls12377

/-- C37: for every buffer of at least 48 bytes whose byte 0 has top three bits 001, 011 or 111
(values absent from the metadata table), `G1Affine.SetBytes` does not reject the buffer on
account of its metadata: `isCompressed` holds, X is read from the first 48 bytes with the three
bits cleared, Y is the root returned by `Sqrt` with no sign adjustment, and the call succeeds
with 48 bytes consumed whenever that point passes the subgroup check; the only errors are a
missing square root and a failed subgroup check. -/
theorem SetBytes_unlisted_metadata {q : Nat} (b : ZMod q) (Sqrt : ZMod q → Option (ZMod q))
    (Lex : ZMod q → Bool) (Sub : G1Affine q → Bool) (p : G1Affine q) (buf : List Nat)
    (hb : ∀ v ∈ buf, v < 256) (hlen : 48 ≤ buf.length)
    (hmeta : buf.getD 0 0 / 32 = 0b001 ∨ buf.getD 0 0 / 32 = 0b011
      ∨ buf.getD 0 0 / 32 = 0b111) :
    isCompressed (buf.getD 0 0) = true ∧
    G1Affine.SetBytes b Sqrt Lex Sub p buf
      = (match Sqrt (fpSetBytes q ((buf.take 48).set 0 (buf.getD 0 0 % 32))
            * fpSetBytes q ((buf.take 48).set 0 (buf.getD 0 0 % 32))
            * fpSetBytes q ((buf.take 48).set 0 (buf.getD 0 0 % 32)) + b) with
        | none =>
          (⟨fpSetBytes q ((buf.take 48).set 0 (buf.getD 0 0 % 32)), p.Y⟩, 0,
            some DecodeError.squareRootDoesNotExist)
        | some Y =>
          if Sub ⟨fpSetBytes q ((buf.take 48).set 0 (buf.getD 0 0 % 32)), Y⟩ = true then
            (⟨fpSetBytes q ((buf.take 48).set 0 (buf.getD 0 0 % 32)), Y⟩, 48, none)
          else
            (⟨fpSetBytes q ((buf.take 48).set 0 (buf.getD 0 0 % 32)), Y⟩, 0,
              some DecodeError.subgroupCheckFailed)) ∧
    (G1Affine.SetBytes b Sqrt Lex Sub p buf).2.2 ≠ some DecodeError.ErrShortBuffer := by
  have h256 := head_byte hb
  obtain ⟨m0, m64, m128, m160, m192, m31⟩ := unlisted_meta_bits _ h256 hmeta
  have hmask : mMask = 224 := rfl
  have hU : mUncompressed = 0 := rfl
  have hUI : mUncompressedInfinity = 64 := rfl
  have hCS : mCompressedSmallest = 128 := rfl
  have hCL : mCompressedLargest = 160 := rfl
  have hCI : mCompressedInfinity = 192 := rfl
  have htake : (buf.take 48).getD 0 0 = buf.getD 0 0 := by
    cases buf with
    | nil => simp at hlen
    | cons x xs => simp [List.take]
  have hS := SetBytes_compressed b Sqrt Lex Sub p buf hlen
    (by rw [hmask, hU]; exact m0) (by rw [hmask, hUI]; exact m64)
    (by rw [hmask, hCI]; exact m192)
  rw [htake, m31, hmask, hCS, hCL] at hS
  simp only [m128, m160, if_false, ite_self] at hS
  refine ⟨?_, hS, ?_⟩
  · rw [isCompressed_true_iff, hmask, hU, hUI]
    exact ⟨m0, m64⟩
  · rw [hS]
    cases Sqrt (fpSetBytes q ((buf.take 48).set 0 (buf.getD 0 0 % 32))
        * fpSetBytes q ((buf.take 48).set 0 (buf.getD 0 0 % 32))
        * fpSetBytes q ((buf.take 48).set 0 (buf.getD 0 0 % 32)) + b) with
    | none => simp
    | some Y => dsimp only; split_ifs <;> simp

theorem SetBytes_unlisted_metadata_witness :
    ((∀ v ∈ (0xE0 :: (List.replicate 46 0 ++ [1])), v < 256) ∧
      48 ≤ (0xE0 :: (List.replicate 46 0 ++ [1])).length ∧
      (0xE0 :: (List.replicate 46 0 ++ [1])).getD 0 0 / 32 = 0b111) ∧
    isCompressed ((0xE0 :: (List.replicate 46 0 ++ [1])).getD 0 0) = true ∧
    G1Affine.SetBytes (3 : ZMod 7) sqrtSeven lexSeven inSubGroupSeven ⟨0, 0⟩
        (0xE0 :: (List.replicate 46 0 ++ [1]))
      = (match sqrtSeven (fpSetBytes 7 (((0xE0 :: (List.replicate 46 0 ++ [1])).take 48).set 0
              ((0xE0 :: (List.replicate 46 0 ++ [1])).getD 0 0 % 32))
            * fpSetBytes 7 (((0xE0 :: (List.replicate 46 0 ++ [1])).take 48).set 0
              ((0xE0 :: (List.replicate 46 0 ++ [1])).getD 0 0 % 32))
            * fpSetBytes 7 (((0xE0 :: (List.replicate 46 0 ++ [1])).take 48).set 0
              ((0xE0 :: (List.replicate 46 0 ++ [1])).getD 0 0 % 32)) + 3) with
        | none =>
          (⟨fpSetBytes 7 (((0xE0 :: (List.replicate 46 0 ++ [1])).take 48).set 0
              ((0xE0 :: (List.replicate 46 0 ++ [1])).getD 0 0 % 32)), 0⟩, 0,
            some DecodeError.squareRootDoesNotExist)
        | some Y =>
          if inSubGroupSeven ⟨fpSetBytes 7 (((0xE0 :: (List.replicate 46 0 ++ [1])).take 48).set
              0 ((0xE0 :: (List.replicate 46 0 ++ [1])).getD 0 0 % 32)), Y⟩ = true then
            (⟨fpSetBytes 7 (((0xE0 :: (List.replicate 46 0 ++ [1])).take 48).set 0
              ((0xE0 :: (List.replicate 46 0 ++ [1])).getD 0 0 % 32)), Y⟩, 48, none)
          else
            (⟨fpSetBytes 7 (((0xE0 :: (List.replicate 46 0 ++ [1])).take 48).set 0
              ((0xE0 :: (List.replicate 46 0 ++ [1])).getD 0 0 % 32)), Y⟩, 0,
              some DecodeError.subgroupCheckFailed)) ∧
    (G1Affine.SetBytes (3 : ZMod 7) sqrtSeven lexSeven inSubGroupSeven ⟨0, 0⟩
        (0xE0 :: (List.replicate 46 0 ++ [1]))).2.2 ≠ some DecodeError.ErrShortBuffer :=
  ⟨by decide, SetBytes_unlisted_metadata (3 : ZMod 7) sqrtSeven lexSeven inSubGroupSeven ⟨0, 0⟩
    (0xE0 :: (List.replicate 46 0 ++ [1])) (by decide) (by decide) (by decide)⟩

end UnlistedMetadata

section NegativeScalar

open Curve

/-- C38: for an on-curve Jacobian point a (curve Y^2 = X^3 + b, b ≠ 0, characteristic other
than 2 and 3) and a negative integer s, `mulWindowed(a, s)` represents |s|•A, where A is the
point a represents; this is the negation of s•A. The sign is ignored because only the
magnitude bytes `s.Bytes()` are scanned: they are those of -s, and the result is the one
computed for -s. -/
theorem mulWindowed_negative_scalar {F : Type} [Field F] [DecidableEq F] (b : F)
    (h2 : (2 : F) ≠ 0) (h3 : (3 : F) ≠ 0) (hb : b ≠ 0) (a : bw761.G1Jac F)
    (ha : a.OnCurve b) (s : Int) (hs : s < 0) :
    ∃ A : (W b).Point, a.Represents b A ∧
      (bw761.G1Jac.mulWindowed a s).Represents b (s.natAbs • A) ∧
      s.natAbs • A = -(s • A) ∧
      bw761.bigIntBytes s = bw761.bigIntBytes (-s) ∧
      bw761.G1Jac.mulWindowed a s = bw761.G1Jac.mulWindowed a (-s) := by
  obtain ⟨A, hA⟩ := bw761.G1Jac.represents_of_onCurve_g1Jac h2 h3 hb ha
  have hbytes : bw761.bigIntBytes s = bw761.bigIntBytes (-s) := by
    unfold bw761.bigIntBytes
    rw [Int.natAbs_neg]
  refine ⟨A, hA, bw761.G1Jac.mulWindowed_represents h2 hA s, ?_, hbytes, ?_⟩
  · have e : s = -((s.natAbs : Nat) : Int) := by omega
    conv_rhs => rw [e]
    rw [neg_smul, neg_neg, natCast_zsmul]
  · unfold bw761.G1Jac.mulWindowed
    rw [hbytes]

theorem mulWindowed_negative_scalar_witness :
    ((2 : ZMod 7) ≠ 0 ∧ (3 : ZMod 7) ≠ 0 ∧ (⟨4, 2, 2⟩ : bw761.G1Jac (ZMod 7)).OnCurve 3 ∧
      (-300 : Int) < 0) ∧
    ∃ A : (W (3 : ZMod 7)).Point, (⟨4, 2, 2⟩ : bw761.G1Jac (ZMod 7)).Represents 3 A ∧
      (bw761.G1Jac.mulWindowed (⟨4, 2, 2⟩ : bw761.G1Jac (ZMod 7)) (-300)).Represents 3
        ((-300 : Int).natAbs • A) ∧
      (-300 : Int).natAbs • A = -((-300 : Int) • A) ∧
      bw761.bigIntBytes (-300) = bw761.bigIntBytes (-(-300)) ∧
      bw761.G1Jac.mulWindowed (⟨4, 2, 2⟩ : bw761.G1Jac (ZMod 7)) (-300)
        = bw761.G1Jac.mulWindowed (⟨4, 2, 2⟩ : bw761.G1Jac (ZMod 7)) (-(-300)) :=
  ⟨by decide, mulWindowed_negative_scalar (3 : ZMod 7) (by decide) (by decide) (by decide)
    ⟨4, 2, 2⟩ (by decide) (-300) (by decide)⟩

end NegativeScalar

section ScheduleIndependence

open fft

/-- C39: for every input slice whose length is the power of two 2^len(twiddles) and every
twiddle table with twiddles[s][0] = 1 at every stage s, the arrays produced by `difFFT` and by
`ditFFT` are the same for every value of `runtime.NumCPU()` and of `maxSplits`: they are the
result of the recursion on the two halves, hence equal to the single-CPU run (`NumCPU() = 1`,
`maxSplits = -1`), and `ditFFT` returns. The butterfly at index 0 with the multiplication by
twiddles[s][0] (parallel branches) equals the butterfly that skips it (sequential
branches). -/
theorem FFT_schedule_independent {F : Type} [Field F] (tw : List (List F))
    (h1 : ∀ s, s < tw.length → (tw.getD s []).getD 0 0 = 1) (a : List F)
    (ha : a.length = 2 ^ tw.length) (stage stage' : Nat) (maxSplits maxSplits' : Int)
    (numCPU numCPU' : Nat) :
    difFFT a tw stage maxSplits numCPU = difFFT a tw stage' maxSplits' numCPU' ∧
    difFFT a tw stage maxSplits numCPU = difFFT a tw 0 (maxSplitsOf 1) 1 ∧
    difFFT a tw stage maxSplits numCPU = difRec tw tw.length 0 a ∧
    ditFFT tw maxSplits a.length a 0 = some (ditRec tw tw.length 0 a) ∧
    ditFFT tw maxSplits a.length a 0 = ditFFT tw maxSplits' a.length a 0 ∧
    ditFFT tw maxSplits a.length a 0 = ditFFT tw (maxSplitsOf 1) a.length a 0 ∧
    (∀ s, s < tw.length → ∀ (lo m : Nat) (c : List F),
      difButterfly tw s lo m c 0 = difButterflyZero lo m c ∧
      (0 < m → ditButterfly tw s m c 0 = ditButterflyZero m c)) := by
  have hd := fun st ms n => difFFT_eq_rec tw tw.length rfl h1 a ha st ms n
  have hfuel : tw.length < a.length := by
    rw [ha]; exact Nat.lt_two_pow tw.length
  have ht := fun ms => ditFFT_eq_rec tw ms h1 tw.length a.length 0 a ha hfuel (by omega)
  refine ⟨?_, ?_, hd _ _ _, ht _, ?_, ?_, ?_⟩
  · rw [hd, hd]
  · rw [hd, hd]
  · rw [ht, ht]
  · rw [ht, ht]
  · intro s hs lo m c
    have e := h1 s hs
    constructor
    · unfold difButterfly difButterflyZero
      simp only [Nat.add_zero, e, mul_one]
    · intro hm
      unfold ditButterfly ditButterflyZero
      simp only [Nat.zero_add, e, mul_one]
      rw [Curve.getD_set_ne _ 0 m _ _ (by omega)]

theorem FFT_schedule_independent_witness :
    ((∀ s, s < ([[1, 5], [1]] : List (List (ZMod 13))).length →
        (([[1, 5], [1]] : List (List (ZMod 13))).getD s []).getD 0 0 = 1) ∧
      ([1, 2, 3, 4] : List (ZMod 13)).length
        = 2 ^ ([[1, 5], [1]] : List (List (ZMod 13))).length) ∧
    difFFT ([1, 2, 3, 4] : List (ZMod 13)) [[1, 5], [1]] 0 2 4
      = difFFT ([1, 2, 3, 4] : List (ZMod 13)) [[1, 5], [1]] 0 (-1) 1 ∧
    ditFFT ([[1, 5], [1]] : List (List (ZMod 13))) 2 ([1, 2, 3, 4] : List (ZMod 13)).length
        [1, 2, 3, 4] 0
      = ditFFT ([[1, 5], [1]] : List (List (ZMod 13))) (-1)
          ([1, 2, 3, 4] : List (ZMod 13)).length [1, 2, 3, 4] 0 :=
  have h := FFT_schedule_independent ([[1, 5], [1]] : List (List (ZMod 13)))
    (by decide) [1, 2, 3, 4] (by decide) 0 0 2 (-1) 4 1
  ⟨by decide, h.1, h.2.2.2.2.1⟩

end ScheduleIndependence

namespace bn256

open Curve

/-- Two tables of the length of `T` that agree on the entries below `m`. -/
theorem computeTStep_agree {F : Type} [Field F] [DecidableEq F] (T T' : List (G2Jac F))
    (j : Nat) (hj1 : 1 ≤ j) (hj : j + 1 < 15) (hlen : T.length = 15) (hlen' : T'.length = 15)
    (h : ∀ i < j, T.getD i ⟨0, 0, 0⟩ = T'.getD i ⟨0, 0, 0⟩) :
    (computeTStep T j).length = 15 ∧ (computeTStep T' j).length = 15 ∧
      ∀ i < j + 2, (computeTStep T j).getD i ⟨0, 0, 0⟩ = (computeTStep T' j).getD i ⟨0, 0, 0⟩ := by
  unfold computeTStep
  simp only
  have e1 : ∀ i < j + 1,
      (T.set j (T.getD (j / 2) ⟨0, 0, 0⟩).DoubleAssign).getD i ⟨0, 0, 0⟩
        = (T'.set j (T'.getD (j / 2) ⟨0, 0, 0⟩).DoubleAssign).getD i ⟨0, 0, 0⟩ := by
    intro i hi
    by_cases hij : i = j
    · subst hij
      rw [getD_set_eq _ _ _ _ (by omega), getD_set_eq _ _ _ _ (by omega),
        h (i / 2) (by omega)]
    · rw [getD_set_ne _ _ _ _ _ (Ne.symm hij), getD_set_ne _ _ _ _ _ (Ne.symm hij)]
      exact h i (by omega)
  have l1 : (T.set j (T.getD (j / 2) ⟨0, 0, 0⟩).DoubleAssign).length = 15 := by
    rw [List.length_set]; exact hlen
  have l1' : (T'.set j (T'.getD (j / 2) ⟨0, 0, 0⟩).DoubleAssign).length = 15 := by
    rw [List.length_set]; exact hlen'
  generalize T.set j (T.getD (j / 2) ⟨0, 0, 0⟩).DoubleAssign = T1 at e1 l1 ⊢
  generalize T'.set j (T'.getD (j / 2) ⟨0, 0, 0⟩).DoubleAssign = T1' at e1 l1' ⊢
  refine ⟨by rw [List.length_set]; exact l1, by rw [List.length_set]; exact l1', ?_⟩
  intro i hi
  by_cases hij : i = j + 1
  · subst hij
    rw [getD_set_eq _ _ _ _ (by omega), getD_set_eq _ _ _ _ (by omega),
      e1 ((j + 1) / 2) (by omega), e1 (j / 2) (by omega)]
  · rw [getD_set_ne _ _ _ _ _ (Ne.symm hij), getD_set_ne _ _ _ _ _ (Ne.symm hij)]
    exact e1 i (by omega)

/-- Lists of points with the same length and the same entries are equal. -/
theorem ext_getD_points {F : Type} {l l' : List (G2Jac F)} (d : G2Jac F)
    (hlen : l.length = l'.length) (h : ∀ j < l.length, l.getD j d = l'.getD j d) : l = l' := by
  apply List.ext_getElem hlen
  intro n h1 h2
  have := h n h1
  rwa [List.getD_eq_getElem _ _ h1, List.getD_eq_getElem _ _ h2] at this

/-- The table `computeT` builds does not depend on what the table held before the call. -/
theorem computeT_independent {F : Type} [Field F] [DecidableEq F] (T T' : List (G2Jac F))
    (hT : T.length = 15) (hT' : T'.length = 15) (t0 : G2Jac F) :
    computeT 4 T t0 = computeT 4 T' t0 := by
  have hf : (List.range ((1 <<< 4) - 1)).filter (fun j => decide (j % 2 = 1))
      = [1, 3, 5, 7, 9, 11, 13] := by rfl
  have h0 : (T.set 0 t0).length = 15 ∧ (T'.set 0 t0).length = 15 ∧
      ∀ i < 1, (T.set 0 t0).getD i ⟨0, 0, 0⟩ = (T'.set 0 t0).getD i ⟨0, 0, 0⟩ := by
    refine ⟨by rw [List.length_set]; exact hT, by rw [List.length_set]; exact hT', ?_⟩
    intro i hi
    have : i = 0 := by omega
    subst this
    rw [getD_set_eq _ _ _ _ (by omega), getD_set_eq _ _ _ _ (by omega)]
  unfold computeT
  simp only [hf, List.foldl_cons, List.foldl_nil]
  generalize T.set 0 t0 = T0 at h0 ⊢
  generalize T'.set 0 t0 = T0' at h0 ⊢
  have s1 := computeTStep_agree _ _ 1 (by norm_num) (by norm_num) h0.1 h0.2.1 h0.2.2
  have s3 := computeTStep_agree _ _ 3 (by norm_num) (by norm_num) s1.1 s1.2.1 s1.2.2
  have s5 := computeTStep_agree _ _ 5 (by norm_num) (by norm_num) s3.1 s3.2.1 s3.2.2
  have s7 := computeTStep_agree _ _ 7 (by norm_num) (by norm_num) s5.1 s5.2.1 s5.2.2
  have s9 := computeTStep_agree _ _ 9 (by norm_num) (by norm_num) s7.1 s7.2.1 s7.2.2
  have s11 := computeTStep_agree _ _ 11 (by norm_num) (by norm_num) s9.1 s9.2.1 s9.2.2
  have s13 := computeTStep_agree _ _ 13 (by norm_num) (by norm_num) s11.1 s11.2.1 s11.2.2
  exact ext_getD_points ⟨0, 0, 0⟩ (s13.1.trans s13.2.1.symm)
    (fun i hi => s13.2.2 i (by rw [s13.1] at hi; omega))

/-- The table at the start of the iteration `j` of the loop of `computeT` holds the multiples
`1•P, ..., j•P` in its entries below `j`. -/
theorem computeT_prefix {F : Type} [Field F] [DecidableEq F] {b : F} (h2 : (2 : F) ≠ 0)
    {P : (W b).Point} (T : List (G2Jac F)) (hT : T.length = 15) {t0 : G2Jac F}
    (ht0 : t0.Represents b P) (j : Nat)
    (hj : j ∈ (List.range ((1 <<< 4) - 1)).filter (fun j => decide (j % 2 = 1))) :
    tableUpTo b P
      (((List.range j).filter (fun j => decide (j % 2 = 1))).foldl computeTStep (T.set 0 t0))
      j := by
  have h0 : tableUpTo b P (T.set 0 t0) 1 := by
    refine ⟨by rw [List.length_set]; exact hT, ?_⟩
    intro i hi
    have : i = 0 := by omega
    subst this
    rw [getD_set_eq _ _ _ _ (by omega)]
    simpa using ht0
  generalize T.set 0 t0 = T0 at h0 ⊢
  have s1 := computeT_step h2 _ 1 rfl (by norm_num) h0
  have s3 := computeT_step h2 _ 3 rfl (by norm_num) s1
  have s5 := computeT_step h2 _ 5 rfl (by norm_num) s3
  have s7 := computeT_step h2 _ 7 rfl (by norm_num) s5
  have s9 := computeT_step h2 _ 9 rfl (by norm_num) s7
  have s11 := computeT_step h2 _ 11 rfl (by norm_num) s9
  have hf : (List.range ((1 <<< 4) - 1)).filter (fun j => decide (j % 2 = 1))
      = [1, 3, 5, 7, 9, 11, 13] := by rfl
  rw [hf] at hj
  simp only [List.mem_cons, List.mem_singleton, List.not_mem_nil, or_false] at hj
  rcases hj with rfl | rfl | rfl | rfl | rfl | rfl | rfl
  · exact h0
  · exact s1
  · exact s3
  · exact s5
  · exact s7
  · exact s9
  · exact s11

end bn256

section TableConstruction

open Curve bn256

/-- C40: for every on-curve point t0 (curve Y^2 = X^3 + b, b ≠ 0, characteristic other than 2
and 3) and every table T of 15 entries, after the closure computeT of `ScalarMul` / `multiExp`
(b = 4) has run, T[i] represents (i+1)•P for every i < 15, where P is the point t0 represents.
Every read refers to an entry already filled: at the start of the iteration j (j = 1, 3, ...,
13) the entries below j hold 1•P, ..., j•P, the reads T[j/2] for entry j and T[(j+1)/2], T[j/2]
for entry j+1 have j/2 < j and (j+1)/2 ≤ j, and the writes T[j], T[j+1] are within the table;
hence the result does not depend on what the table held before the call. -/
theorem computeT_table_filled {F : Type} [Field F] [DecidableEq F] (b : F) (h2 : (2 : F) ≠ 0)
    (h3 : (3 : F) ≠ 0) (hb : b ≠ 0) (t0 : G2Jac F) (ht0 : t0.OnCurve b) (T : List (G2Jac F))
    (hT : T.length = 15) :
    ∃ P : (W b).Point, t0.Represents b P ∧
      (computeT 4 T t0).length = 15 ∧
      (∀ i, i < 15 → ((computeT 4 T t0).getD i ⟨0, 0, 0⟩).Represents b ((i + 1) • P)) ∧
      (∀ j ∈ (List.range ((1 <<< 4) - 1)).filter (fun j => decide (j % 2 = 1)),
        j / 2 < j ∧ (j + 1) / 2 ≤ j ∧ j + 1 < 15 ∧
        (((List.range j).filter (fun j => decide (j % 2 = 1))).foldl computeTStep
          (T.set 0 t0)).length = 15 ∧
        ∀ i, i < j →
          ((((List.range j).filter (fun j => decide (j % 2 = 1))).foldl computeTStep
            (T.set 0 t0)).getD i ⟨0, 0, 0⟩).Represents b ((i + 1) • P)) ∧
      (∀ T' : List (G2Jac F), T'.length = 15 → computeT 4 T' t0 = computeT 4 T t0) := by
  obtain ⟨P, hP⟩ := G2Jac.represents_of_onCurve_g2Jac h2 h3 hb ht0
  have hfull := computeT_represents h2 T hT hP
  refine ⟨P, hP, hfull.1, hfull.2, ?_, fun T' hT' => computeT_independent T' T hT' hT t0⟩
  intro j hj
  have hpre := computeT_prefix h2 T hT hP j hj
  have hf : (List.range ((1 <<< 4) - 1)).filter (fun j => decide (j % 2 = 1))
      = [1, 3, 5, 7, 9, 11, 13] := by rfl
  rw [hf] at hj
  simp only [List.mem_cons, List.mem_singleton, List.not_mem_nil, or_false] at hj
  exact ⟨by omega, by omega, by omega, hpre.1, hpre.2⟩

theorem computeT_table_filled_witness :
    ((2 : ZMod 7) ≠ 0 ∧ (3 : ZMod 7) ≠ 0 ∧ (⟨4, 2, 2⟩ : G2Jac (ZMod 7)).OnCurve 3 ∧
      (List.replicate 15 (⟨5, 6, 1⟩ : G2Jac (ZMod 7))).length = 15) ∧
    ∃ P : (W (3 : ZMod 7)).Point, (⟨4, 2, 2⟩ : G2Jac (ZMod 7)).Represents 3 P ∧
      (∀ i, i < 15 →
        ((computeT 4 (List.replicate 15 (⟨5, 6, 1⟩ : G2Jac (ZMod 7))) ⟨4, 2, 2⟩).getD i
          ⟨0, 0, 0⟩).Represents 3 ((i + 1) • P)) ∧
      (∀ T' : List (G2Jac (ZMod 7)), T'.length = 15 →
        computeT 4 T' ⟨4, 2, 2⟩
          = computeT 4 (List.replicate 15 (⟨5, 6, 1⟩ : G2Jac (ZMod 7))) ⟨4, 2, 2⟩) :=
  ⟨by decide,
    (computeT_table_filled (3 : ZMod 7) (by decide) (by decide) (by decide) ⟨4, 2, 2⟩
      (by decide) (List.replicate 15 ⟨5, 6, 1⟩) (by decide)).imp
      (fun _ h => ⟨h.1, h.2.2.1, h.2.2.2.2⟩)⟩

end TableConstruction

namespace Curve

end Curve

section SubgroupCheckCounterexample

open Curve

end SubgroupCheckCounterexample
